import Mathlib

/-!
# Wire codec and responders of project_dns (`dns_io.c`, `dns_query.c`)

A shallow embedding of the buffer and codec functions of `src/dns_io.c` and of the two
response builders of `src/dns_query.c` with the lookups of `src/dns_database.c`.

Conventions of the embedding:

* `uint8`, `uint16`, `uint32` values are natural numbers; every C conversion to one of
  these types is an explicit `% 256`, `% 65536` or `% 4294967296`.
* The byte region behind `buffer->ptr` is a `List Nat`; the octet at an index is read with
  `peek` (cells are taken modulo 256, an index past the end of the list reads as 0).
  The region may be longer than `capacity`, as it is for `DNS_buffer_from_ptr(buf, ret)`.
* A C string is the list of its octets; `cstr` cuts a list at its first NUL the way
  `strlen`, `strcmp` and `strcpy` do.  The fixed sizes of the `malloc`ed text areas
  (64 octets for a known name, 128 for a record name) are not part of the model.
* A C function `bool f(buffer_t, T *out)` becomes `f : dns_buffer → Option T × dns_buffer`:
  `none` is the `false` return, and the second component is the buffer as the call left it.
  A function `bool f(buffer_t, T v)` becomes `f : dns_buffer → T → Bool × dns_buffer`.
* A loop over a list that grows while it is walked (`cname_pending`, `ns_pending`) takes a
  `fuel` argument and yields `none` when the fuel runs out; the tables of the record store,
  the clock and the upstream servers are arguments of the functions that use them.
-/

namespace DNS

/-! ## Data model (`dns_io.h`) -/

/-- One entry of the known-name list of a buffer (`known_name_t`): the name in
length-prefixed label form and the 16-bit position it starts at. -/
structure known_name_t where
  name : List Nat
  pos : Nat
deriving DecidableEq

/-- The buffer (`struct dns_buffer`): region, capacity, cursor and known names. -/
structure dns_buffer where
  ptr : List Nat
  capacity : Nat
  pos : Nat
  known_names : List known_name_t
deriving DecidableEq

/-- The packet header (`dns_header_t`), one field per C field, in declaration order. -/
structure dns_header_t where
  id : Nat
  rd : Nat
  tc : Nat
  aa : Nat
  opcode : Nat
  qr : Nat
  rcode : Nat
  z : Nat
  ra : Nat
  question_count : Nat
  answer_count : Nat
  authority_count : Nat
  additional_count : Nat
deriving DecidableEq

/-- The octet stored at index `i` of a region. -/
def peek (ptr : List Nat) (i : Nat) : Nat := ptr.getD i 0 % 256

/-- The C string held by a list of octets: everything before the first NUL. -/
def cstr (s : List Nat) : List Nat := s.takeWhile (fun c => c != 0)

/-! ## Buffer primitives -/

/-- `check_capacity`: the sum `buffer->pos + size` is computed in `uint32`. -/
def check_capacity (buffer : dns_buffer) (size : Nat) : Bool :=
  if (buffer.pos + size) % 4294967296 > buffer.capacity then false else true

/-- `DNS_buffer_create`: a zero-filled region of `capacity` octets. -/
def DNS_buffer_create (capacity : Nat) : dns_buffer :=
  { ptr := List.replicate capacity 0, capacity := capacity, pos := 0, known_names := [] }

/-- `DNS_buffer_from_ptr`: a buffer over an existing region. -/
def DNS_buffer_from_ptr (ptr : List Nat) (capacity : Nat) : dns_buffer :=
  { ptr := ptr, capacity := capacity, pos := 0, known_names := [] }

/-- `DNS_buffer_read_u8`. -/
def DNS_buffer_read_u8 (buffer : dns_buffer) : Option Nat × dns_buffer :=
  if check_capacity buffer 1 then
    (some (peek buffer.ptr buffer.pos), { buffer with pos := (buffer.pos + 1) % 4294967296 })
  else (none, buffer)

/-- `DNS_buffer_write_u8`. -/
def DNS_buffer_write_u8 (buffer : dns_buffer) (v : Nat) : Bool × dns_buffer :=
  if check_capacity buffer 1 then
    (true, { buffer with ptr := buffer.ptr.set buffer.pos (v % 256),
                         pos := (buffer.pos + 1) % 4294967296 })
  else (false, buffer)

/-- `DNS_buffer_read_u16`: the two `buffer->pos++` are taken left to right. -/
def DNS_buffer_read_u16 (buffer : dns_buffer) : Option Nat × dns_buffer :=
  if check_capacity buffer 2 then
    let p0 := buffer.pos
    let p1 := (p0 + 1) % 4294967296
    let p2 := (p1 + 1) % 4294967296
    (some (((peek buffer.ptr p0 <<< 8) ||| (peek buffer.ptr p1 <<< 0)) % 65536),
      { buffer with pos := p2 })
  else (none, buffer)

/-- `DNS_buffer_write_u16`. -/
def DNS_buffer_write_u16 (buffer : dns_buffer) (v : Nat) : Bool × dns_buffer :=
  if check_capacity buffer 2 then
    let w := v % 65536
    let p0 := buffer.pos
    let p1 := (p0 + 1) % 4294967296
    let p2 := (p1 + 1) % 4294967296
    (true, { buffer with ptr := (buffer.ptr.set p0 ((w >>> 8) % 256)).set p1 ((w >>> 0) % 256),
                         pos := p2 })
  else (false, buffer)

/-- `DNS_buffer_read_u32`: the four `buffer->pos++` are taken left to right. -/
def DNS_buffer_read_u32 (buffer : dns_buffer) : Option Nat × dns_buffer :=
  if check_capacity buffer 4 then
    let p0 := buffer.pos
    let p1 := (p0 + 1) % 4294967296
    let p2 := (p1 + 1) % 4294967296
    let p3 := (p2 + 1) % 4294967296
    let p4 := (p3 + 1) % 4294967296
    (some (((peek buffer.ptr p0 <<< 24) ||| (peek buffer.ptr p1 <<< 16) |||
            (peek buffer.ptr p2 <<< 8) ||| (peek buffer.ptr p3 <<< 0)) % 4294967296),
      { buffer with pos := p4 })
  else (none, buffer)

/-- `DNS_buffer_write_u32`. -/
def DNS_buffer_write_u32 (buffer : dns_buffer) (v : Nat) : Bool × dns_buffer :=
  if check_capacity buffer 4 then
    let w := v % 4294967296
    let p0 := buffer.pos
    let p1 := (p0 + 1) % 4294967296
    let p2 := (p1 + 1) % 4294967296
    let p3 := (p2 + 1) % 4294967296
    let p4 := (p3 + 1) % 4294967296
    (true, { buffer with
               ptr := (((buffer.ptr.set p0 ((w >>> 24) % 256)).set p1 ((w >>> 16) % 256)).set p2
                        ((w >>> 8) % 256)).set p3 ((w >>> 0) % 256),
               pos := p4 })
  else (false, buffer)

/-! ## Header -/

/-- `htons` / `ntohs` on the little-endian host the code is written for: swap the two
octets of a 16-bit value. -/
def htons (x : Nat) : Nat := ((x % 256) <<< 8) ||| ((x >>> 8) % 256)

/-- The in-memory octets of a `uint16` on the little-endian host. -/
def u16_mem (x : Nat) : List Nat := [x % 256, (x >>> 8) % 256]

/-- The `uint16` held by two in-memory octets on the little-endian host. -/
def u16_of_mem (lo hi : Nat) : Nat := (lo % 256) ||| ((hi % 256) <<< 8)

/-- The 12 octets of a `dns_header_t` object (`sizeof(dns_header_t)` is 12).  Bit-fields
are allocated from the least significant bit of their octet, which is what the comment
"Flag fields in one bit should be in inverted order" in `dns_io.h` relies on: `rd`, `tc`,
`aa`, `opcode`, `qr` fill the third octet and `rcode`, `z`, `ra` the fourth. -/
def header_mem (v : dns_header_t) : List Nat :=
  u16_mem v.id ++
  [ (v.rd % 2) ||| ((v.tc % 2) <<< 1) ||| ((v.aa % 2) <<< 2) ||| ((v.opcode % 16) <<< 3) |||
      ((v.qr % 2) <<< 7),
    (v.rcode % 16) ||| ((v.z % 8) <<< 4) ||| ((v.ra % 2) <<< 7) ] ++
  u16_mem v.question_count ++ u16_mem v.answer_count ++
  u16_mem v.authority_count ++ u16_mem v.additional_count

/-- The `dns_header_t` object held by 12 octets of a region starting at `i`. -/
def header_of_mem (ptr : List Nat) (i : Nat) : dns_header_t :=
  { id := u16_of_mem (peek ptr i) (peek ptr (i + 1)),
    rd := peek ptr (i + 2) % 2,
    tc := (peek ptr (i + 2) >>> 1) % 2,
    aa := (peek ptr (i + 2) >>> 2) % 2,
    opcode := (peek ptr (i + 2) >>> 3) % 16,
    qr := (peek ptr (i + 2) >>> 7) % 2,
    rcode := peek ptr (i + 3) % 16,
    z := (peek ptr (i + 3) >>> 4) % 8,
    ra := (peek ptr (i + 3) >>> 7) % 2,
    question_count := u16_of_mem (peek ptr (i + 4)) (peek ptr (i + 5)),
    answer_count := u16_of_mem (peek ptr (i + 6)) (peek ptr (i + 7)),
    authority_count := u16_of_mem (peek ptr (i + 8)) (peek ptr (i + 9)),
    additional_count := u16_of_mem (peek ptr (i + 10)) (peek ptr (i + 11)) }

/-- `memcpy(&buffer->ptr[at], src, n)`: store the octets of `src` from index `i` on. -/
def memcpy_to : List Nat → Nat → List Nat → List Nat
  | ptr, _, [] => ptr
  | ptr, i, c :: rest => memcpy_to (ptr.set i (c % 256)) (i + 1) rest

/-- `DNS_buffer_read_DNS_header`. -/
def DNS_buffer_read_DNS_header (buffer : dns_buffer) : Option dns_header_t × dns_buffer :=
  if check_capacity buffer 12 then
    let v := header_of_mem buffer.ptr buffer.pos
    (some { v with id := htons v.id,
                   question_count := htons v.question_count,
                   answer_count := htons v.answer_count,
                   authority_count := htons v.authority_count,
                   additional_count := htons v.additional_count },
      { buffer with pos := (buffer.pos + 12) % 4294967296 })
  else (none, buffer)

/-- `DNS_buffer_write_DNS_header`. -/
def DNS_buffer_write_DNS_header (buffer : dns_buffer) (v : dns_header_t) : Bool × dns_buffer :=
  let v1 := { v with id := htons v.id,
                     question_count := htons v.question_count,
                     answer_count := htons v.answer_count,
                     authority_count := htons v.authority_count,
                     additional_count := htons v.additional_count }
  if check_capacity buffer 12 then
    (true, { buffer with ptr := memcpy_to buffer.ptr buffer.pos (header_mem v1),
                         pos := (buffer.pos + 12) % 4294967296 })
  else (false, buffer)

/-! ## Known names -/

/-- `known_names_find_name`: the name of the first entry registered at `position`. -/
def known_names_find_name : List known_name_t → Nat → Option (List Nat)
  | [], _ => none
  | k :: rest, position =>
    if k.pos = position then some k.name else known_names_find_name rest position

/-- `known_names_find_pos`: the position of the first entry whose name `strcmp`s equal to
`name`, and `0xFFFF` when there is none. -/
def known_names_find_pos : List known_name_t → List Nat → Nat
  | [], _ => 0xFFFF
  | k :: rest, name =>
    if cstr name = cstr k.name then k.pos else known_names_find_pos rest name

/-- The `for (int i = 0; i < length_tag2; i++) *named++ = *name++;` copy: the `n` octets
of `mem` from index `i` on. -/
def copy_octets (mem : List Nat) (i : Nat) : Nat → List Nat
  | 0 => []
  | n + 1 => peek mem i :: copy_octets mem (i + 1) n

/-- The `while` loop of `known_names_append`: the text stored for the name that starts at
the head of `mem`.  Labels are copied with their length octet; at a pointer the name
registered at its 14-bit offset (`<< 8`) is `strcpy`ed, if there is one, and the loop
ends.  Every turn consumes at least one octet, so `mem.length + 1` turns always suffice. -/
def known_names_expand (kn : List known_name_t) : Nat → List Nat → List Nat
  | 0, _ => []
  | fuel + 1, mem =>
    let length_tag2 := peek mem 0
    if length_tag2 = 0 then []
    else if length_tag2 >>> 6 = 3 then
      let ptr := (((length_tag2 &&& 0x3F) <<< 8) ||| peek mem 1) % 65536
      match known_names_find_name kn ptr with
      | some found_name => cstr found_name
      | none => []
    else
      length_tag2 :: (copy_octets mem 1 length_tag2 ++
        known_names_expand kn fuel (mem.drop (length_tag2 + 1)))

/-- `known_names_append`: `mem` is the memory from the `name` argument on, `position` is
converted to `uint16`, and the new entry goes to the end of the list.  The C code copies
the text into an area of `known_name_area` octets (`malloc(64)`) without a bound; the model
stores the text whatever its length, so it is the C function only as long as the text and
its NUL fit the area (`area_ok` of the resulting buffer). -/
def known_names_append (buffer : dns_buffer) (mem : List Nat) (position : Nat) : dns_buffer :=
  { buffer with
      known_names := buffer.known_names ++
        [{ name := known_names_expand buffer.known_names (mem.length + 1) mem,
           pos := position % 65536 }] }

/-- The size of the area that `known_names_append` allocates for the text of a name
(`kk->name = malloc(64)`). -/
def known_name_area : Nat := 64

/-- The text that `known_names_append` stores for the name starting at the head of `mem`
when the known names are `kn`, without its terminating NUL. -/
def known_name_text (kn : List known_name_t) (mem : List Nat) : List Nat :=
  known_names_expand kn (mem.length + 1) mem

/-- The call `known_names_append` for the name at the head of `mem` writes past the end of
its area: the text and its NUL take more than `known_name_area` octets. -/
def overruns (kn : List known_name_t) (mem : List Nat) : Prop :=
  known_name_area < (known_name_text kn mem).length + 1

instance (kn : List known_name_t) (mem : List Nat) : Decidable (overruns kn mem) := by
  unfold overruns
  infer_instance

/-- Every text in the known names of the buffer fits its area with its NUL: no call of
`known_names_append` that has built the table has written past its area. -/
def area_ok (b : dns_buffer) : Prop :=
  ∀ e ∈ b.known_names, e.name.length + 1 ≤ known_name_area

instance (b : dns_buffer) : Decidable (area_ok b) := by
  unfold area_ok
  infer_instance

/-! ## Names -/

/-- The inner `while (*name1 != 0)` loop of `DNS_buffer_read_DNS_name`: the dotted text of
a stored known name, every label followed by a dot. -/
def dotted_of_known : Nat → List Nat → List Nat
  | 0, _ => []
  | fuel + 1, name1 =>
    let length_tag2 := peek name1 0
    if length_tag2 = 0 then []
    else copy_octets name1 1 length_tag2 ++ [46] ++
      dotted_of_known fuel (name1.drop (length_tag2 + 1))

/-- The `for` loop of `DNS_buffer_read_DNS_name` that reads the octets of one label. -/
def read_label : Nat → dns_buffer → Option (List Nat) × dns_buffer
  | 0, b => (some [], b)
  | n + 1, b =>
    match DNS_buffer_read_u8 b with
    | (none, b1) => (none, b1)
    | (some c, b1) =>
      match read_label n b1 with
      | (none, b2) => (none, b2)
      | (some cs, b2) => (some (c :: cs), b2)

/-- The `do ... while (length_tag > 0)` loop of `DNS_buffer_read_DNS_name`; `acc` is what
has been stored through `name` so far.  Note the `<< 4` in the pointer branch. -/
def read_name_loop : Nat → dns_buffer → List Nat → Option (List Nat) × dns_buffer
  | 0, b, _ => (none, b)
  | fuel + 1, b, acc =>
    match DNS_buffer_read_u8 b with
    | (none, b1) => (none, b1)
    | (some length_tag, b1) =>
      if length_tag >>> 6 ≠ 3 ∧ length_tag ≠ 0 then
        if check_capacity b1 length_tag then
          let start := (b1.pos + 4294967295) % 4294967296
          let b2 := known_names_append b1 (b1.ptr.drop start) start
          match read_label length_tag b2 with
          | (none, b3) => (none, b3)
          | (some cs, b3) => read_name_loop fuel b3 (acc ++ cs ++ [46])
        else (none, b1)
      else if length_tag >>> 6 = 3 then
        match DNS_buffer_read_u8 b1 with
        | (none, b2) => (none, b2)
        | (some ptr8, b2) =>
          let ptr := (((length_tag &&& 0x3F) <<< 4) ||| ptr8) % 65536
          match known_names_find_name b2.known_names ptr with
          | none => (some acc, b2)
          | some name1 => (some (acc ++ dotted_of_known (name1.length + 1) name1), b2)
      else (some acc, b1)

/-- `DNS_buffer_read_DNS_name`.  Every turn of the loop reads at least one octet below
`capacity`, so `capacity + 1` turns are enough.  The final `*(name - 1) = 0` replaces
the last dot; the result is the C string then found at `name`.  When nothing was stored
(root name, or a pointer to an unknown offset as the first octet) the C code writes in front
of the caller's area and leaves the area as it was; the model returns the empty text. -/
def DNS_buffer_read_DNS_name (buffer : dns_buffer) : Option (List Nat) × dns_buffer :=
  match read_name_loop (buffer.capacity + 1) buffer [] with
  | (none, b) => (none, b)
  | (some acc, b) => (some (cstr acc.dropLast), b)

/-- The tokens `strtok(name, ".")` returns one after the other: the non-empty runs of
octets between dots. -/
def strtok_all (name : List Nat) : List (List Nat) :=
  (List.splitOn 46 name).filter (fun tok => !tok.isEmpty)

/-- The `while (tok)` loop of `DNS_buffer_write_DNS_name`: each token goes to
`converted_name` as a length octet followed by its octets (results of the writes are not
looked at). -/
def convert_name : List (List Nat) → dns_buffer → dns_buffer
  | [], c => c
  | tok :: rest, c =>
    let length_tag := tok.length % 256
    let c1 := (DNS_buffer_write_u8 c length_tag).2
    let c2 := (tok.take length_tag).foldl (fun c0 ch => (DNS_buffer_write_u8 c0 ch).2) c1
    convert_name rest c2

/-- The `for` loop of `DNS_buffer_write_DNS_name` that copies one label from
`converted_name` (second buffer) to the buffer. -/
def write_label : Nat → dns_buffer → dns_buffer → Bool × dns_buffer × dns_buffer
  | 0, b, c => (true, b, c)
  | n + 1, b, c =>
    let c1 := { c with pos := (c.pos + 1) % 4294967296 }
    match DNS_buffer_write_u8 b (peek c.ptr c.pos) with
    | (false, b1) => (false, b1, c1)
    | (true, b1) => write_label n b1 c1

/-- The `do ... while (length_tag > 0)` loop of `DNS_buffer_write_DNS_name`; `c` is
`converted_name`. -/
def write_name_loop : Nat → dns_buffer → dns_buffer → Bool × dns_buffer
  | 0, b, _ => (false, b)
  | fuel + 1, b, c =>
    let find := known_names_find_pos b.known_names (c.ptr.drop c.pos)
    if find ≠ 0xFFFF then
      (true, (DNS_buffer_write_u16 b (find ||| 0xC000)).2)
    else
      match DNS_buffer_read_u8 c with
      | (none, _) => (false, b)
      | (some length_tag, c1) =>
        let b1 :=
          if length_tag ≠ 0 then
            known_names_append b (c1.ptr.drop ((c1.pos + 4294967295) % 4294967296)) b.pos
          else b
        match DNS_buffer_write_u8 b1 length_tag with
        | (false, b2) => (false, b2)
        | (true, b2) =>
          match write_label length_tag b2 c1 with
          | (false, b3, _) => (false, b3)
          | (true, b3, c2) =>
            if length_tag > 0 then write_name_loop fuel b3 c2 else (true, b3)

/-- `DNS_buffer_write_DNS_name`.  `name` is a C string.  Every turn of the loop reads one
octet of `converted_name` below its capacity, so `capacity + 1` turns are enough.  (The C
code tokenises `name` in place; what that leaves in the caller's string is not modelled.) -/
def DNS_buffer_write_DNS_name (buffer : dns_buffer) (name : List Nat) : Bool × dns_buffer :=
  let s := cstr name
  let converted_name :=
    convert_name (strtok_all s) (DNS_buffer_create ((s.length + 2) % 4294967296))
  if !check_capacity buffer converted_name.capacity then (false, buffer)
  else write_name_loop (converted_name.capacity + 1) buffer { converted_name with pos := 0 }

/-! ## Records and packets (`dns_io.h`) -/

/-- A question (`dns_query_t`); the list link `next` is the position in a `List`. -/
structure dns_query_t where
  name : List Nat
  type : Nat
  class_ : Nat
deriving DecidableEq

/-- A resource record (`dns_rr_t`); the list link `next` is the position in a `List`. -/
structure dns_rr_t where
  name : List Nat
  type : Nat
  class_ : Nat
  ttl : Nat
  length : Nat
  data : List Nat
deriving DecidableEq

/-- A packet (`dns_packet_t`): the four linked lists are `List`s. -/
structure dns_packet_t where
  header : dns_header_t
  queries : List dns_query_t
  answers : List dns_rr_t
  authorities : List dns_rr_t
  additionals : List dns_rr_t
deriving DecidableEq

/-- `DNS_packet_append_query`. -/
def DNS_packet_append_query (packet : dns_packet_t) (query : dns_query_t)
    (increase_count : Bool) : dns_packet_t :=
  let p1 := { packet with queries := packet.queries ++ [query] }
  if increase_count then
    { p1 with header := { p1.header with
        question_count := (p1.header.question_count + 1) % 65536 } }
  else p1

/-- `DNS_packet_append_answer`. -/
def DNS_packet_append_answer (packet : dns_packet_t) (rr : dns_rr_t)
    (increase_count : Bool) : dns_packet_t :=
  let p1 := { packet with answers := packet.answers ++ [rr] }
  if increase_count then
    { p1 with header := { p1.header with
        answer_count := (p1.header.answer_count + 1) % 65536 } }
  else p1

/-- `DNS_packet_append_authority`. -/
def DNS_packet_append_authority (packet : dns_packet_t) (rr : dns_rr_t)
    (increase_count : Bool) : dns_packet_t :=
  let p1 := { packet with authorities := packet.authorities ++ [rr] }
  if increase_count then
    { p1 with header := { p1.header with
        authority_count := (p1.header.authority_count + 1) % 65536 } }
  else p1

/-- `DNS_packet_append_additional`. -/
def DNS_packet_append_additional (packet : dns_packet_t) (rr : dns_rr_t)
    (increase_count : Bool) : dns_packet_t :=
  let p1 := { packet with additionals := packet.additionals ++ [rr] }
  if increase_count then
    { p1 with header := { p1.header with
        additional_count := (p1.header.additional_count + 1) % 65536 } }
  else p1

/-! ## C library functions used by the record codec

These are not code of the repository; they are modelled from their C library
documentation, for the little-endian host the code is written for. -/

/-- `htonl` / `ntohl`: reverse the four octets of a 32-bit value. -/
def htonl (x : Nat) : Nat :=
  ((x % 256) <<< 24) ||| (((x >>> 8) % 256) <<< 16) ||| (((x >>> 16) % 256) <<< 8) |||
    ((x >>> 24) % 256)

/-- `isspace` in the C locale. -/
def isspace (c : Nat) : Bool := c = 32 || (9 ≤ c && c ≤ 13)

/-- `isdigit`. -/
def isdigit (c : Nat) : Bool := 48 ≤ c && c ≤ 57

/-- The value of a run of decimal digits. -/
def dec_value (ds : List Nat) : Nat := ds.foldl (fun n d => 10 * n + (d - 48)) 0

/-- The decimal text of a number (`%d` of a non-negative value). -/
def dec_text_aux : Nat → Nat → List Nat → List Nat
  | 0, _, acc => acc
  | fuel + 1, n, acc =>
    if n < 10 then (48 + n) :: acc else dec_text_aux fuel (n / 10) ((48 + n % 10) :: acc)

/-- The decimal text of a number. -/
def dec_text (n : Nat) : List Nat := dec_text_aux (n + 1) n []

/-- `inet_addr`, for the dotted quad of four decimal numbers (each at most 255, no leading
zero, no sign) that this system stores as the text of an A record: the address as an
`in_addr_t`, first octet in the lowest byte.  For every other text the model returns
`INADDR_NONE` (the C library also accepts octal and hexadecimal numbers and the forms with
fewer than four parts). -/
def inet_addr (s : List Nat) : Nat :=
  match (List.splitOn 46 (cstr s)) with
  | [a, b, c, d] =>
    if [a, b, c, d].all (fun t => !t.isEmpty && t.all isdigit && (t.length = 1 || t.head? != some 48)
          && dec_value t ≤ 255) then
      dec_value a ||| (dec_value b <<< 8) ||| (dec_value c <<< 16) ||| (dec_value d <<< 24)
    else 4294967295
  | _ => 4294967295

/-- `inet_ntoa`: the dotted quad of an `in_addr` whose `s_addr` is `x`, lowest byte first. -/
def inet_ntoa (x : Nat) : List Nat :=
  dec_text (x % 256) ++ [46] ++ dec_text ((x >>> 8) % 256) ++ [46] ++
    dec_text ((x >>> 16) % 256) ++ [46] ++ dec_text ((x >>> 24) % 256)

/-- `sscanf(data, "%hd,%s", &pref, name)`: `some (pref, name)` when both conversions are
made (return value 2), `none` otherwise.  `%hd` skips white space, takes an optional sign
and a run of digits, and the value is stored in the 16 bits of `pref`; then a comma must
follow; `%s` skips white space and takes the run of octets up to the next white space. -/
def sscanf_hd_s (data : List Nat) : Option (Nat × List Nat) :=
  let s0 := (cstr data).dropWhile isspace
  let neg := s0.head? = some 45
  let s1 := if s0.head? = some 45 ∨ s0.head? = some 43 then s0.tail else s0
  let ds := s1.takeWhile isdigit
  let s2 := s1.dropWhile isdigit
  if ds.isEmpty then none
  else
    let v := dec_value ds % 65536
    let pref := if neg then (65536 - v) % 65536 else v
    match s2 with
    | 44 :: s3 =>
      let s4 := s3.dropWhile isspace
      let name := s4.takeWhile (fun c => !isspace c)
      if name.isEmpty then none else some (pref, name)
    | _ => none

/-- `sprintf(out, "%hd,%s", preference, data)`: `%hd` prints the 16 bits of `preference`
as a signed `short`. -/
def sprintf_hd_s (preference : Nat) (data : List Nat) : List Nat :=
  let p := preference % 65536
  (if p < 32768 then dec_text p else 45 :: dec_text (65536 - p)) ++ [44] ++ cstr data

/-! ## Record, question and packet codec -/

/-- The RDATA part of `DNS_buffer_read_RR`, after the `check_capacity(buffer, v->length)`.
For type A with a length other than 4 the C code copies `length` octets from the start of
the region into `v->data` without a terminator; the model ends the text there. -/
def read_RR_data (buffer : dns_buffer) (type length : Nat) : Option (List Nat) × dns_buffer :=
  if type = 1 then
    if length ≠ 4 then
      (some (cstr (copy_octets buffer.ptr 0 length)),
        { buffer with pos := (buffer.pos + length) % 4294967296 })
    else
      match DNS_buffer_read_u32 buffer with
      | (none, b1) => (none, b1)
      | (some iip, b1) => (some (inet_ntoa (htonl iip)), b1)
  else if type = 15 then
    match DNS_buffer_read_u16 buffer with
    | (none, b1) => (none, b1)
    | (some preference, b1) =>
      match DNS_buffer_read_DNS_name b1 with
      | (none, b2) => (none, b2)
      | (some data, b2) => (some (sprintf_hd_s preference data), b2)
  else DNS_buffer_read_DNS_name buffer

/-- `DNS_buffer_read_RR`. -/
def DNS_buffer_read_RR (buffer : dns_buffer) : Option dns_rr_t × dns_buffer :=
  match DNS_buffer_read_DNS_name buffer with
  | (none, b1) => (none, b1)
  | (some name, b1) =>
    match DNS_buffer_read_u16 b1 with
    | (none, b2) => (none, b2)
    | (some type, b2) =>
      match DNS_buffer_read_u16 b2 with
      | (none, b3) => (none, b3)
      | (some class_, b3) =>
        match DNS_buffer_read_u32 b3 with
        | (none, b4) => (none, b4)
        | (some ttl, b4) =>
          match DNS_buffer_read_u16 b4 with
          | (none, b5) => (none, b5)
          | (some length, b5) =>
            if !check_capacity b5 length then (none, b5)
            else
              let pos := b5.pos
              match read_RR_data b5 type length with
              | (none, b6) => (none, b6)
              | (some data, b6) =>
                let b7 :=
                  if (b6.pos + 4294967296 - pos) % 4294967296 ≠ length then
                    { b6 with pos := (pos + length) % 4294967296 }
                  else b6
                (some { name := name, type := type, class_ := class_, ttl := ttl,
                        length := length, data := data }, b7)

/-- The RDATA part of `DNS_buffer_write_RR`. -/
def write_RR_data (buffer : dns_buffer) (type : Nat) (data : List Nat) : Bool × dns_buffer :=
  if type % 65536 = 1 then
    DNS_buffer_write_u32 buffer (htonl (inet_addr data))
  else if type % 65536 = 15 then
    match sscanf_hd_s data with
    | none =>
      match DNS_buffer_write_u16 buffer 0 with
      | (false, b1) => (false, b1)
      | (true, b1) => DNS_buffer_write_DNS_name b1 data
    | some (pref, name) =>
      match DNS_buffer_write_u16 buffer pref with
      | (false, b1) => (false, b1)
      | (true, b1) => DNS_buffer_write_DNS_name b1 name
  else DNS_buffer_write_DNS_name buffer data

/-- `DNS_buffer_write_RR`: the length field is skipped, the RDATA is written, and the
length is then stored at the skipped place (the result of that store is not looked at). -/
def DNS_buffer_write_RR (buffer : dns_buffer) (v : dns_rr_t) : Bool × dns_buffer :=
  match DNS_buffer_write_DNS_name buffer v.name with
  | (false, b1) => (false, b1)
  | (true, b1) =>
    match DNS_buffer_write_u16 b1 v.type with
    | (false, b2) => (false, b2)
    | (true, b2) =>
      match DNS_buffer_write_u16 b2 v.class_ with
      | (false, b3) => (false, b3)
      | (true, b3) =>
        match DNS_buffer_write_u32 b3 v.ttl with
        | (false, b4) => (false, b4)
        | (true, b4) =>
          let pos := b4.pos
          let b5 := { b4 with pos := (b4.pos + 2) % 4294967296 }
          match write_RR_data b5 v.type v.data with
          | (false, b6) => (false, b6)
          | (true, b6) =>
            let pos2 := b6.pos
            let len := (pos2 + 4294967296 + 4294967296 - pos - 2) % 65536
            let b7 := (DNS_buffer_write_u16 { b6 with pos := pos } len).2
            (true, { b7 with pos := pos2 })

/-- `DNS_buffer_read_query`. -/
def DNS_buffer_read_query (buffer : dns_buffer) : Option dns_query_t × dns_buffer :=
  match DNS_buffer_read_DNS_name buffer with
  | (none, b1) => (none, b1)
  | (some name, b1) =>
    match DNS_buffer_read_u16 b1 with
    | (none, b2) => (none, b2)
    | (some type, b2) =>
      match DNS_buffer_read_u16 b2 with
      | (none, b3) => (none, b3)
      | (some class_, b3) => (some { name := name, type := type, class_ := class_ }, b3)

/-- `DNS_buffer_write_query`. -/
def DNS_buffer_write_query (buffer : dns_buffer) (v : dns_query_t) : Bool × dns_buffer :=
  match DNS_buffer_write_DNS_name buffer v.name with
  | (false, b1) => (false, b1)
  | (true, b1) =>
    match DNS_buffer_write_u16 b1 v.type with
    | (false, b2) => (false, b2)
    | (true, b2) => DNS_buffer_write_u16 b2 v.class_

/-- The question loop of `DNS_buffer_read_packet`, `n` turns left. -/
def read_queries : Nat → dns_buffer → dns_packet_t → Option dns_packet_t × dns_buffer
  | 0, b, v => (some v, b)
  | n + 1, b, v =>
    match DNS_buffer_read_query b with
    | (none, b1) => (none, b1)
    | (some query, b1) => read_queries n b1 (DNS_packet_append_query v query false)

/-- One of the three record loops of `DNS_buffer_read_packet`, `n` turns left; `append` is
the `DNS_packet_append_*` function of the section. -/
def read_RRs (append : dns_packet_t → dns_rr_t → Bool → dns_packet_t) :
    Nat → dns_buffer → dns_packet_t → Option dns_packet_t × dns_buffer
  | 0, b, v => (some v, b)
  | n + 1, b, v =>
    match DNS_buffer_read_RR b with
    | (none, b1) => (none, b1)
    | (some rr, b1) => read_RRs append n b1 (append v rr false)

/-- `DNS_buffer_read_packet`; `v` is the packet object the caller passes in. -/
def DNS_buffer_read_packet (buffer : dns_buffer) (v : dns_packet_t) :
    Option dns_packet_t × dns_buffer :=
  match DNS_buffer_read_DNS_header buffer with
  | (none, b1) => (none, b1)
  | (some h, b1) =>
    let v1 := { v with header := h }
    match read_queries v1.header.question_count b1 v1 with
    | (none, b2) => (none, b2)
    | (some v2, b2) =>
      match read_RRs DNS_packet_append_answer v2.header.answer_count b2 v2 with
      | (none, b3) => (none, b3)
      | (some v3, b3) =>
        match read_RRs DNS_packet_append_authority v3.header.authority_count b3 v3 with
        | (none, b4) => (none, b4)
        | (some v4, b4) =>
          read_RRs DNS_packet_append_additional v4.header.additional_count b4 v4

/-- The question loop of `DNS_buffer_write_packet`. -/
def write_queries : dns_buffer → List dns_query_t → Bool × dns_buffer
  | b, [] => (true, b)
  | b, k :: rest =>
    match DNS_buffer_write_query b k with
    | (false, b1) => (false, b1)
    | (true, b1) => write_queries b1 rest

/-- One of the three record loops of `DNS_buffer_write_packet`. -/
def write_RRs : dns_buffer → List dns_rr_t → Bool × dns_buffer
  | b, [] => (true, b)
  | b, k :: rest =>
    match DNS_buffer_write_RR b k with
    | (false, b1) => (false, b1)
    | (true, b1) => write_RRs b1 rest

/-- `DNS_buffer_write_packet`. -/
def DNS_buffer_write_packet (buffer : dns_buffer) (v : dns_packet_t) : Bool × dns_buffer :=
  match DNS_buffer_write_DNS_header buffer v.header with
  | (false, b1) => (false, b1)
  | (true, b1) =>
    match write_queries b1 v.queries with
    | (false, b2) => (false, b2)
    | (true, b2) =>
      match write_RRs b2 v.answers with
      | (false, b3) => (false, b3)
      | (true, b3) =>
        match write_RRs b3 v.authorities with
        | (false, b4) => (false, b4)
        | (true, b4) => write_RRs b4 v.additionals

/-- The packet object the callers pass to `DNS_buffer_read_packet`: the four lists are
`NULL`; the header is overwritten by the call. -/
def empty_packet : dns_packet_t :=
  { header := { id := 0, rd := 0, tc := 0, aa := 0, opcode := 0, qr := 0, rcode := 0, z := 0,
                ra := 0, question_count := 0, answer_count := 0, authority_count := 0,
                additional_count := 0 },
    queries := [], answers := [], authorities := [], additionals := [] }

/-! ## Vocabulary of the statements -/

/-- The buffer after `out` has been stored at the cursor and the cursor moved past it:
the octets in front of the cursor and behind the stored ones are untouched. -/
def put (b : dns_buffer) (out : List Nat) : dns_buffer :=
  { b with ptr := b.ptr.take b.pos ++ out ++ b.ptr.drop (b.pos + out.length),
           pos := b.pos + out.length }

/-- The buffer with the cursor moved `n` octets on. -/
def adv (b : dns_buffer) (n : Nat) : dns_buffer := { b with pos := b.pos + n }

/-- A primitive read of width `w` is bounds-checked and atomic at `b`: it fails exactly
when `pos + w > capacity`, a failure leaves the buffer as it was, a success moves the cursor
by `w`. -/
def bounds_checked_read (w : Nat) (f : dns_buffer → Option Nat × dns_buffer)
    (b : dns_buffer) : Prop :=
  ((f b).1 = none ↔ b.pos + w > b.capacity) ∧
  ((f b).1 = none → (f b).2 = b) ∧
  ((f b).1 ≠ none → (f b).2.pos = b.pos + w)

/-- A primitive write of width `w` is bounds-checked and atomic at `b`: it fails exactly
when `pos + w > capacity`, a failure leaves the buffer as it was, a success moves the cursor
by `w`. -/
def bounds_checked_write (w : Nat) (f : dns_buffer → Nat → Bool × dns_buffer)
    (b : dns_buffer) (v : Nat) : Prop :=
  ((f b v).1 = false ↔ b.pos + w > b.capacity) ∧
  ((f b v).1 = false → (f b v).2 = b) ∧
  ((f b v).1 = true → (f b v).2.pos = b.pos + w)

/-- The fields of a header hold values of their C types (`uint16` and bit-fields). -/
def header_in_range (v : dns_header_t) : Prop :=
  v.id < 65536 ∧ v.rd < 2 ∧ v.tc < 2 ∧ v.aa < 2 ∧ v.opcode < 16 ∧ v.qr < 2 ∧ v.rcode < 16 ∧
  v.z < 8 ∧ v.ra < 2 ∧ v.question_count < 65536 ∧ v.answer_count < 65536 ∧
  v.authority_count < 65536 ∧ v.additional_count < 65536

/-- The 12 octets of a header on the wire: id, the two flag octets, the four counts, every
16-bit value most significant octet first. -/
def header_wire (v : dns_header_t) : List Nat :=
  [v.id / 256, v.id % 256,
   v.qr * 128 + v.opcode * 8 + v.aa * 4 + v.tc * 2 + v.rd,
   v.ra * 128 + v.z * 16 + v.rcode,
   v.question_count / 256, v.question_count % 256,
   v.answer_count / 256, v.answer_count % 256,
   v.authority_count / 256, v.authority_count % 256,
   v.additional_count / 256, v.additional_count % 256]

/-- A sample header: a response with id `0x1234`, `rd` and `ra` set, one question and
two answers. -/
def sample_header : dns_header_t :=
  { id := 0x1234, rd := 1, tc := 0, aa := 0, opcode := 0, qr := 1, rcode := 0, z := 0, ra := 1,
    question_count := 1, answer_count := 2, authority_count := 0, additional_count := 0 }

/-! ## Names as label lists -/

/-- The length-prefixed form of a list of labels, without the final zero octet. -/
def wire_labels : List (List Nat) → List Nat
  | [] => []
  | l :: ls => l.length :: (l ++ wire_labels ls)

/-- The dotted text of a list of labels (`www.baidu.com`). -/
def dotted (ls : List (List Nat)) : List Nat := List.intercalate [46] ls

/-- The labels followed by one dot each (`www.baidu.com.`), what `DNS_buffer_read_DNS_name`
stores before it replaces the last dot. -/
def dots : List (List Nat) → List Nat
  | [] => []
  | l :: ls => l ++ 46 :: dots ls

/-- A label of 1 to 63 octets, none of which is NUL or a dot. -/
def label_ok (l : List Nat) : Prop :=
  1 ≤ l.length ∧ l.length ≤ 63 ∧ ∀ c ∈ l, c ≠ 0 ∧ c ≠ 46 ∧ c < 256

/-- The two octets of the big-endian 16-bit value `0xC000 | p`. -/
def pointer_octets (p : Nat) : List Nat :=
  [(p ||| 0xC000) % 65536 / 256, (p ||| 0xC000) % 256]

/-- What the encoder emits for the labels `ls` when the known names are `kn`: labels until
the first suffix the table knows, then the pointer to it; all labels and a zero octet when
the table knows no suffix. -/
def name_output (kn : List known_name_t) : List (List Nat) → List Nat
  | [] => [0]
  | l :: ls =>
    if known_names_find_pos kn (wire_labels (l :: ls)) ≠ 0xFFFF then
      pointer_octets (known_names_find_pos kn (wire_labels (l :: ls)))
    else l.length :: (l ++ name_output kn ls)

/-- The buffer with the entries `es` added at the end of its known names. -/
def register (b : dns_buffer) (es : List known_name_t) : dns_buffer :=
  { b with known_names := b.known_names ++ es }

/-- Every registered name has at least one label: `known_names_append` is only called at a
non-zero length octet. -/
def names_nonempty (kn : List known_name_t) : Prop := ∀ e ∈ kn, cstr e.name ≠ []

/-- The known-name entries the encoder adds for the labels `ls` written from position `pos`
on when the known names are `kn`: one per label emitted in full. -/
def name_entries (kn : List known_name_t) : Nat → List (List Nat) → List known_name_t
  | _, [] => []
  | pos, l :: ls =>
    if known_names_find_pos kn (wire_labels (l :: ls)) ≠ 0xFFFF then []
    else { name := wire_labels (l :: ls), pos := pos % 65536 } ::
      name_entries kn (pos + 1 + l.length) ls

/-- The octets of the region that lie below `capacity`, from the cursor on, are those of
`enc` (as far as `enc` goes). -/
def agrees (b : dns_buffer) (enc : List Nat) : Prop :=
  ∀ i, i < enc.length → b.pos + i < b.capacity → peek b.ptr (b.pos + i) = peek enc i

/-- The buffer `b'` is `b` with the cursor `n` octets further on; region and capacity are
the same (the known names may differ). -/
def moved (b : dns_buffer) (n : Nat) (b' : dns_buffer) : Prop :=
  b'.ptr = b.ptr ∧ b'.capacity = b.capacity ∧ b'.pos = b.pos + n

/-- The buffer with its known-name list replaced by `kn`. -/
def with_known_names (b : dns_buffer) (kn : List known_name_t) : dns_buffer :=
  { b with known_names := kn }

instance (l : List Nat) : Decidable (label_ok l) := by
  unfold label_ok
  infer_instance

/-- The labels of `www.baidu.com`. -/
def www_baidu_com : List (List Nat) := [[119, 119, 119], [98, 97, 105, 100, 117], [99, 111, 109]]

/-- The labels of `mail.baidu.com`. -/
def mail_baidu_com : List (List Nat) :=
  [[109, 97, 105, 108], [98, 97, 105, 100, 117], [99, 111, 109]]

/-! ## Well-formed packets and the octets the encoder emits for them -/

/-- A well-formed name: at most 253 octets of text (255 on the wire), made of one or more
labels of 1..63 octets joined by single dots. -/
def name_ok (name : List Nat) : Prop :=
  name.length ≤ 253 ∧ strtok_all name ≠ [] ∧ (∀ l ∈ strtok_all name, label_ok l) ∧
  name = dotted (strtok_all name)

instance (name : List Nat) : Decidable (name_ok name) := by
  unfold name_ok
  infer_instance

/-- Well-formed RDATA text for a record type: any text for type A (the encoder always writes
four octets), and otherwise a well-formed name where the encoder writes one: the text itself,
or for MX the exchange that `sscanf` extracts (the whole text when `sscanf` fails). -/
def rdata_ok (type : Nat) (data : List Nat) : Prop :=
  if type = 1 then True
  else if type = 15 then
    match sscanf_hd_s data with
    | none => name_ok data
    | some (_, name) => name_ok name
  else name_ok data

instance (type : Nat) (data : List Nat) : Decidable (rdata_ok type data) := by
  unfold rdata_ok
  split
  · infer_instance
  · split
    · split <;> infer_instance
    · infer_instance

/-- A well-formed question: a well-formed name and 16-bit type and class. -/
def query_ok (q : dns_query_t) : Prop :=
  name_ok q.name ∧ q.type < 65536 ∧ q.class_ < 65536

instance (q : dns_query_t) : Decidable (query_ok q) := by
  unfold query_ok
  infer_instance

/-- A well-formed record: a well-formed owner name, fields within their C types, and
well-formed RDATA text. -/
def rr_ok (r : dns_rr_t) : Prop :=
  name_ok r.name ∧ r.type < 65536 ∧ r.class_ < 65536 ∧ r.ttl < 4294967296 ∧
  rdata_ok r.type r.data

instance (r : dns_rr_t) : Decidable (rr_ok r) := by
  unfold rr_ok
  infer_instance

/-- A well-formed packet: header fields within their C types, header counts equal to the
section lengths, well-formed questions and records. -/
def packet_ok (v : dns_packet_t) : Prop :=
  header_in_range v.header ∧
  v.header.question_count = v.queries.length ∧
  v.header.answer_count = v.answers.length ∧
  v.header.authority_count = v.authorities.length ∧
  v.header.additional_count = v.additionals.length ∧
  (∀ q ∈ v.queries, query_ok q) ∧ (∀ r ∈ v.answers, rr_ok r) ∧
  (∀ r ∈ v.authorities, rr_ok r) ∧ (∀ r ∈ v.additionals, rr_ok r)

/-- The two octets of a 16-bit value, most significant first. -/
def be16 (v : Nat) : List Nat := [v % 65536 / 256, v % 256]

/-- The four octets of a 32-bit value, most significant first. -/
def be32 (v : Nat) : List Nat :=
  [v % 4294967296 / 16777216, v / 65536 % 256, v / 256 % 256, v % 256]

/-- The octets the encoder emits for a name written at `pos` when the known names are `kn`,
and the known names afterwards. -/
def enc_name (kn : List known_name_t) (pos : Nat) (name : List Nat) :
    List Nat × List known_name_t :=
  (name_output kn (strtok_all (cstr name)),
   kn ++ name_entries kn pos (strtok_all (cstr name)))

/-- The RDATA octets the encoder emits at `pos`, and the known names afterwards. -/
def enc_rdata (kn : List known_name_t) (pos : Nat) (type : Nat) (data : List Nat) :
    List Nat × List known_name_t :=
  if type % 65536 = 1 then (be32 (htonl (inet_addr data)), kn)
  else if type % 65536 = 15 then
    match sscanf_hd_s data with
    | none => (be16 0 ++ (enc_name kn (pos + 2) data).1, (enc_name kn (pos + 2) data).2)
    | some (pref, name) =>
      (be16 pref ++ (enc_name kn (pos + 2) name).1, (enc_name kn (pos + 2) name).2)
  else enc_name kn pos data

/-- The octets the encoder emits for a record at `pos`, and the known names afterwards:
owner name, type, class, TTL, RDLENGTH, RDATA. -/
def enc_rr (kn : List known_name_t) (pos : Nat) (v : dns_rr_t) :
    List Nat × List known_name_t :=
  ((enc_name kn pos v.name).1 ++ be16 v.type ++ be16 v.class_ ++ be32 v.ttl ++
     be16 (enc_rdata (enc_name kn pos v.name).2
       (pos + (enc_name kn pos v.name).1.length + 10) v.type v.data).1.length ++
     (enc_rdata (enc_name kn pos v.name).2
       (pos + (enc_name kn pos v.name).1.length + 10) v.type v.data).1,
   (enc_rdata (enc_name kn pos v.name).2
     (pos + (enc_name kn pos v.name).1.length + 10) v.type v.data).2)

/-- The octets the encoder emits for a question at `pos`, and the known names afterwards. -/
def enc_query (kn : List known_name_t) (pos : Nat) (v : dns_query_t) :
    List Nat × List known_name_t :=
  ((enc_name kn pos v.name).1 ++ be16 v.type ++ be16 v.class_, (enc_name kn pos v.name).2)

/-- The octets the encoder emits for a list of questions. -/
def enc_queries : List known_name_t → Nat → List dns_query_t → List Nat × List known_name_t
  | kn, _, [] => ([], kn)
  | kn, pos, q :: rest =>
    ((enc_query kn pos q).1 ++
       (enc_queries (enc_query kn pos q).2 (pos + (enc_query kn pos q).1.length) rest).1,
     (enc_queries (enc_query kn pos q).2 (pos + (enc_query kn pos q).1.length) rest).2)

/-- The octets the encoder emits for a list of records. -/
def enc_rrs : List known_name_t → Nat → List dns_rr_t → List Nat × List known_name_t
  | kn, _, [] => ([], kn)
  | kn, pos, r :: rest =>
    ((enc_rr kn pos r).1 ++
       (enc_rrs (enc_rr kn pos r).2 (pos + (enc_rr kn pos r).1.length) rest).1,
     (enc_rrs (enc_rr kn pos r).2 (pos + (enc_rr kn pos r).1.length) rest).2)

/-- The state of a message buffer between two writes: the cursor is within the capacity, the
region holds `capacity` octets, the capacity fits the 16-bit positions of the known-name
table (below its not-found value `0xFFFF`), and every registered name has a label. -/
def buffer_ok (b : dns_buffer) : Prop :=
  b.pos ≤ b.capacity ∧ b.capacity ≤ b.ptr.length ∧ b.capacity ≤ 65535 ∧
  names_nonempty b.known_names

/-- The octets of an encoded name: length-prefixed labels of 1..63 octets, closed by a zero
octet or by the two octets of a pointer. -/
def name_shape (bytes : List Nat) : Prop :=
  ∃ (ls : List (List Nat)) (tail : List Nat), (∀ l ∈ ls, label_ok l) ∧
    bytes = wire_labels ls ++ tail ∧
    (tail = [0] ∨ ∃ hi lo, tail = [hi, lo] ∧ 192 ≤ hi ∧ hi < 256)

/-- The octets of an encoded question: name, type, class. -/
def query_shape (bytes : List Nat) : Prop :=
  ∃ (n : List Nat) (t c : Nat), bytes = n ++ be16 t ++ be16 c ∧ name_shape n ∧
    t < 65536 ∧ c < 65536

/-- The octets of an encoded record: name, type, class, TTL, RDLENGTH equal to the number
of RDATA octets, and RDATA of the form of its type. -/
def rr_shape (bytes : List Nat) : Prop :=
  ∃ (n : List Nat) (t c ttl : Nat) (R : List Nat),
    bytes = n ++ be16 t ++ be16 c ++ be32 ttl ++ be16 R.length ++ R ∧ name_shape n ∧
    t < 65536 ∧ c < 65536 ∧ ttl < 4294967296 ∧ R.length < 65536 ∧
    (t = 1 → R.length = 4) ∧
    (t = 15 → ∃ (p : Nat) (nm : List Nat), R = be16 p ++ nm ∧ name_shape nm) ∧
    (t ≠ 1 → t ≠ 15 → name_shape R)

/-- The octets the encoder emits for a packet written at `pos`: header, questions, then the
answer, authority and additional records. -/
def enc_packet (kn : List known_name_t) (pos : Nat) (v : dns_packet_t) :
    List Nat × List known_name_t :=
  let q := enc_queries kn (pos + 12) v.queries
  let a := enc_rrs q.2 (pos + 12 + q.1.length) v.answers
  let u := enc_rrs a.2 (pos + 12 + q.1.length + a.1.length) v.authorities
  let d := enc_rrs u.2 (pos + 12 + q.1.length + a.1.length + u.1.length) v.additionals
  (header_wire v.header ++ q.1 ++ a.1 ++ u.1 ++ d.1, d.2)

/-- The octets of `n` encoded questions, one after the other. -/
def queries_shape : Nat → List Nat → Prop
  | 0, bytes => bytes = []
  | n + 1, bytes => ∃ x y, bytes = x ++ y ∧ query_shape x ∧ queries_shape n y

/-- The octets of `n` encoded records, one after the other. -/
def rrs_shape : Nat → List Nat → Prop
  | 0, bytes => bytes = []
  | n + 1, bytes => ∃ x y, bytes = x ++ y ∧ rr_shape x ∧ rrs_shape n y

/-- The read `f` takes exactly `n` octets at `b`: when `n` octets remain below the capacity
it succeeds with a value satisfying `Q` and moves the cursor by `n`, and when fewer remain it
fails. -/
def reads {α : Type} (f : dns_buffer → Option α × dns_buffer) (b : dns_buffer) (n : Nat)
    (Q : α → Prop) : Prop :=
  (b.pos + n ≤ b.capacity → ∃ x b', f b = (some x, b') ∧ moved b n b' ∧ Q x) ∧
  (b.capacity < b.pos + n → (f b).1 = none)

/-- The sequencing of the `ENSURE_SUCCESS` macro: run `f`, stop on failure, otherwise
continue with `g` on the value read. -/
def bindr {α β : Type} (f : dns_buffer → Option α × dns_buffer)
    (g : α → dns_buffer → Option β × dns_buffer) (b : dns_buffer) : Option β × dns_buffer :=
  match f b with
  | (none, b1) => (none, b1)
  | (some x, b1) => g x b1

/-- The part of `DNS_buffer_read_RR` that follows the five fixed fields: the capacity check
for the advertised length, the RDATA, and the repositioning of the cursor. -/
def read_RR_rest (name : List Nat) (type class_ ttl length : Nat) (b5 : dns_buffer) :
    Option dns_rr_t × dns_buffer :=
  if !check_capacity b5 length then (none, b5)
  else
    match read_RR_data b5 type length with
    | (none, b6) => (none, b6)
    | (some data, b6) =>
      (some { name := name, type := type, class_ := class_, ttl := ttl,
              length := length, data := data },
        if (b6.pos + 4294967296 - b5.pos) % 4294967296 ≠ length then
          { b6 with pos := (b5.pos + length) % 4294967296 }
        else b6)

/-- A packet whose header advertises no record although it carries one question
(`a`, type A, class IN). -/
def uncounted_packet : dns_packet_t :=
  { empty_packet with queries := [{ name := [97], type := 1, class_ := 1 }] }

/-- A well-formed query packet: one question `www.baidu.com`, type A, class IN. -/
def sample_query_packet : dns_packet_t :=
  { header := { id := 0x1234, rd := 1, tc := 0, aa := 0, opcode := 0, qr := 0, rcode := 0, z := 0,
                ra := 0, question_count := 1, answer_count := 0, authority_count := 0,
                additional_count := 0 },
    queries := [{ name := dotted www_baidu_com, type := 1, class_ := 1 }],
    answers := [], authorities := [], additionals := [] }

/-- Octets of a message holding five names and a pointer, no name longer than 62 octets: at
0 the name `x{15}.a`, whose label `a` starts at offset 16, then `a{60}` at 19, `c{60}` at 81,
`d{60}` at 143 and at 205 the name `z{50}.b`, whose label `b` starts at offset 256; at 259 the
pointer `C1 00` (offset 256). -/
def pointer_message : List Nat :=
  [15] ++ List.replicate 15 120 ++ [1, 97, 0] ++
  [60] ++ List.replicate 60 97 ++ [0] ++
  [60] ++ List.replicate 60 99 ++ [0] ++
  [60] ++ List.replicate 60 100 ++ [0] ++
  [50] ++ List.replicate 50 122 ++ [1, 98, 0] ++
  [193, 0]

/-- The buffer reached by decoding five names one after the other from `b`. -/
def five_names_read (b : dns_buffer) : dns_buffer :=
  (DNS_buffer_read_DNS_name
    (DNS_buffer_read_DNS_name
      (DNS_buffer_read_DNS_name
        (DNS_buffer_read_DNS_name
          (DNS_buffer_read_DNS_name b).2).2).2).2).2

/-- The buffer over `pointer_message` after its five names have been decoded. -/
def pointer_buffer : dns_buffer :=
  five_names_read (DNS_buffer_from_ptr pointer_message 261)

/-- The first 259 octets of `pointer_message` (its five pointer-free names) followed by
`tail`. -/
def names_then (tail : List Nat) : List Nat :=
  pointer_message.take 259 ++ tail

/-- The name decoded from `names_then tail` after the five names before it. -/
def next_name (tail : List Nat) : Option (List Nat) :=
  (DNS_buffer_read_DNS_name
    (five_names_read (DNS_buffer_from_ptr (names_then tail) (259 + tail.length)))).1

/-- Header of `long_packet`. -/
def long_header : dns_header_t :=
  { id := 0x1234, rd := 1, tc := 0, aa := 0, opcode := 0, qr := 1, rcode := 0, z := 0, ra := 0,
    question_count := 1, answer_count := 5, authority_count := 0, additional_count := 0 }

/-- The text `1.2.3.4`. -/
def addr_text : List Nat := [49, 46, 50, 46, 51, 46, 52]

/-- A well-formed response of 290 octets: the question `abc.de`, three A records whose owner
names are single labels of 60 octets, an A record for `xyz.zz` (its label `zz` lands on
offset 256) and an A record for `zz`. -/
def long_packet : dns_packet_t :=
  { header := long_header,
    queries := [{ name := [97, 98, 99, 46, 100, 101], type := 1, class_ := 1 }],
    answers :=
      [{ name := List.replicate 60 97, type := 1, class_ := 1, ttl := 300, length := 4,
         data := addr_text },
       { name := List.replicate 60 98, type := 1, class_ := 1, ttl := 300, length := 4,
         data := addr_text },
       { name := List.replicate 60 99, type := 1, class_ := 1, ttl := 300, length := 4,
         data := addr_text },
       { name := [120, 121, 122, 46, 122, 122], type := 1, class_ := 1, ttl := 300, length := 4,
         data := addr_text },
       { name := [122, 122], type := 1, class_ := 1, ttl := 300, length := 4,
         data := addr_text }],
    authorities := [], additionals := [] }

/-! ## Compression: what the table knows, and the pointer-free encoding -/

/-- The table knows the stored name `s`: `known_names_find_pos` does not return its
not-found value. -/
def known (kn : List known_name_t) (s : List Nat) : Prop :=
  known_names_find_pos kn s ≠ 0xFFFF

/-- The state of the known-name table while a packet is written: no entry sits at the
not-found value `0xFFFF`, and with a name of several labels the table also knows the name
without its first label. -/
def table_ok (kn : List known_name_t) : Prop :=
  (∀ e ∈ kn, e.pos ≠ 0xFFFF) ∧
  (∀ (l : List Nat) (ls : List (List Nat)), ls ≠ [] → label_ok l → (∀ x ∈ ls, label_ok x) →
    known kn (wire_labels (l :: ls)) → known kn (wire_labels ls))

/-- The two names have a common suffix of at least one label. -/
def share_suffix (a c : List Nat) : Prop :=
  ∃ s : List (List Nat), s ≠ [] ∧ s <:+ strtok_all a ∧ s <:+ strtok_all c

/-- Some name of the list shares a suffix of at least one label with a later one. -/
def shares : List (List Nat) → Prop
  | [] => False
  | a :: rest => (∃ c ∈ rest, share_suffix a c) ∨ shares rest

/-- The table knows a suffix of at least one label of the name. -/
def suffix_known (kn : List known_name_t) (name : List Nat) : Prop :=
  ∃ s : List (List Nat), s ≠ [] ∧ s <:+ strtok_all name ∧ known kn (wire_labels s)

/-- A name written in full: every label length-prefixed, then a zero octet, no pointer. -/
def plain_name (name : List Nat) : List Nat := wire_labels (strtok_all name) ++ [0]

/-- RDATA with its name (if it has one) written in full. -/
def plain_rdata (type : Nat) (data : List Nat) : List Nat :=
  if type = 1 then be32 (htonl (inet_addr data))
  else if type = 15 then
    match sscanf_hd_s data with
    | none => be16 0 ++ plain_name data
    | some (pref, name) => be16 pref ++ plain_name name
  else plain_name data

/-- A question with its name written in full. -/
def plain_query (q : dns_query_t) : List Nat :=
  plain_name q.name ++ be16 q.type ++ be16 q.class_

/-- A record with its names written in full. -/
def plain_rr (r : dns_rr_t) : List Nat :=
  plain_name r.name ++ be16 r.type ++ be16 r.class_ ++ be32 r.ttl ++
    be16 (plain_rdata r.type r.data).length ++ plain_rdata r.type r.data

/-- Questions with their names written in full. -/
def plain_queries : List dns_query_t → List Nat
  | [] => []
  | q :: rest => plain_query q ++ plain_queries rest

/-- Records with their names written in full. -/
def plain_rrs : List dns_rr_t → List Nat
  | [] => []
  | r :: rest => plain_rr r ++ plain_rrs rest

/-- The packet encoded with every name written in full. -/
def plain_packet (v : dns_packet_t) : List Nat :=
  header_wire v.header ++ plain_queries v.queries ++ plain_rrs v.answers ++
    plain_rrs v.authorities ++ plain_rrs v.additionals

/-- The names the RDATA of a record holds: none for type A, the exchange for MX, the text
itself for the other types. -/
def rdata_names (type : Nat) (data : List Nat) : List (List Nat) :=
  if type = 1 then []
  else if type = 15 then
    match sscanf_hd_s data with
    | none => [data]
    | some (_, name) => [name]
  else [data]

/-- The names of a list of questions, in the order they are written. -/
def query_names : List dns_query_t → List (List Nat)
  | [] => []
  | q :: rest => q.name :: query_names rest

/-- The names of a list of records, in the order they are written: for each record its owner
name, then the names of its RDATA. -/
def rr_names : List dns_rr_t → List (List Nat)
  | [] => []
  | r :: rest => (r.name :: rdata_names r.type r.data) ++ rr_names rest

/-- The names of a packet (owner names and RDATA names) in the order they are written. -/
def packet_names (v : dns_packet_t) : List (List Nat) :=
  query_names v.queries ++ (rr_names v.answers ++ (rr_names v.authorities ++
    rr_names v.additionals))

/-- Two encoders one after the other: the second starts where the first stopped, with the
known names the first left. -/
def seq_enc (f g : List known_name_t → Nat → List Nat × List known_name_t)
    (kn : List known_name_t) (pos : Nat) : List Nat × List known_name_t :=
  ((f kn pos).1 ++ (g (f kn pos).2 (pos + (f kn pos).1.length)).1,
   (g (f kn pos).2 (pos + (f kn pos).1.length)).2)

/-- The encoder `f`, which writes the names `names`, never emits more than `plain` octets,
and emits fewer when the table knows a suffix of one of the names beforehand or two of the
names share a suffix; afterwards the table knows every suffix of every name written. -/
def saves (f : List known_name_t → Nat → List Nat × List known_name_t)
    (names : List (List Nat)) (plain : Nat) : Prop :=
  ∀ kn pos, table_ok kn → pos + (f kn pos).1.length ≤ 65535 →
    table_ok (f kn pos).2 ∧ (∀ s, known kn s → known (f kn pos).2 s) ∧
    (∀ n ∈ names, ∀ s : List (List Nat), s ≠ [] → s <:+ strtok_all n →
      known (f kn pos).2 (wire_labels s)) ∧
    (f kn pos).1.length ≤ plain ∧
    (((∃ n ∈ names, suffix_known kn n) ∨ shares names) → (f kn pos).1.length < plain)

/-- A well-formed response in which the owner name of the answer is the name of the
question, `www.baidu.com`. -/
def shared_packet : dns_packet_t :=
  { header := { id := 0x1234, rd := 1, tc := 0, aa := 0, opcode := 0, qr := 1, rcode := 0,
                z := 0, ra := 0, question_count := 1, answer_count := 1,
                authority_count := 0, additional_count := 0 },
    queries := [{ name := dotted www_baidu_com, type := 1, class_ := 1 }],
    answers := [{ name := dotted www_baidu_com, type := 1, class_ := 1, ttl := 300,
                  length := 4, data := addr_text }],
    authorities := [], additionals := [] }

/-- A label as the decoder takes it: 1 to 191 octets (a length octet that is neither zero
nor a pointer tag), each octet below 256. -/
def tag_ok (l : List Nat) : Prop :=
  1 ≤ l.length ∧ l.length ≤ 191 ∧ ∀ c ∈ l, c < 256

/-- The record `bupt.edu.cn MX 3,mx.bupt.edu.cn` (class IN, TTL 60). -/
def sample_mx : dns_rr_t :=
  { name := [98, 117, 112, 116, 46, 101, 100, 117, 46, 99, 110], type := 15, class_ := 1,
    ttl := 60, length := 0,
    data := [51, 44, 109, 120, 46, 98, 117, 112, 116, 46, 101, 100, 117, 46, 99, 110] }

/-- The four sections of the packet are empty, as in the packet object the callers pass to
`DNS_buffer_read_packet`. -/
def sections_empty (v : dns_packet_t) : Prop :=
  v.queries = [] ∧ v.answers = [] ∧ v.authorities = [] ∧ v.additionals = []

/-- The 25 octets of a query for `a` (type A, class IN) followed by nothing: header with one
question. -/
def one_question_message : List Nat :=
  [0x12, 0x34, 1, 0, 0, 1, 0, 0, 0, 0, 0, 0, 1, 97, 0, 0, 1, 0, 1]

/-- Five labels of 63 octets `a`: 321 octets on the wire with the final zero octet. -/
def long_labels : List (List Nat) := List.replicate 5 (List.replicate 63 97)

/-! ## The authoritative responder (`dns_common.c`, `dns_database.c`, `dns_query.c`)

The record store is SQLite, which is not part of the sources: a table is given by its rows in
row order, each row as the record that `DNS_database_get_record` builds from it (texts
without white space or quote, `type` and `class` within 16 bits).  The fixed sizes of the
text areas (`sql[256]`, `name[128]`, the 128 octets of a record's name and data) are not
modelled. -/

/-- `DNS_type_to_str`. -/
def DNS_type_to_str (type : Nat) : String :=
  if type = 1 then "A"
  else if type = 2 then "NS"
  else if type = 15 then "MX"
  else if type = 12 then "PTR"
  else if type = 5 then "CNAME"
  else "[UNKNOWN]"

/-- `DNS_class_to_str`. -/
def DNS_class_to_str (class_ : Nat) : String :=
  if class_ = 1 then "IN" else "[UNKNOWN]"

/-- `DNS_RR_copy`: name and data are `strcpy`ed, type, class and TTL are assigned; the C
code leaves `length` unset (no caller reads it), the model puts 0. -/
def DNS_RR_copy (other : dns_rr_t) : dns_rr_t :=
  { name := cstr other.name, type := other.type, class_ := other.class_, ttl := other.ttl,
    length := 0, data := cstr other.data }

/-- `DNS_query_copy`. -/
def DNS_query_copy (other : dns_query_t) : dns_query_t :=
  { name := cstr other.name, type := other.type, class_ := other.class_ }

/-- `DNS_database_get_record` on the rows of the table `table_name`: the rows selected by
`name = '%s' and (type = %d [or type = 5]) and class = %d`, in row order.  The C code prints
the name into the text of the query without escaping it and rebuilds the rows with `sscanf`;
the model is the C function for names that are `sql_name` and rows that are `db_row`. -/
def DNS_database_get_record (table : List dns_rr_t) (name : List Nat) (type class_ : Nat)
    (include_cname : Bool) : List dns_rr_t :=
  table.filter (fun r => decide (r.name = cstr name) &&
    (decide (r.type = type) || (include_cname && decide (r.type = 5))) &&
    decide (r.class_ = class_))

/-- `sscanf(data, "%d,%s", &nc, name) == 2`, giving what is stored in `name`: an optional
sign and a run of digits, a comma, then the run of octets up to the next white space.  The
number itself is not used by the callers. -/
def sscanf_d_s (data : List Nat) : Option (List Nat) :=
  let s0 := (cstr data).dropWhile isspace
  let s1 := if s0.head? = some 45 ∨ s0.head? = some 43 then s0.tail else s0
  let ds := s1.takeWhile isdigit
  let s2 := s1.dropWhile isdigit
  if ds.isEmpty then none
  else
    match s2 with
    | 44 :: s3 =>
      let name := (s3.dropWhile isspace).takeWhile (fun c => !isspace c)
      if name.isEmpty then none else some name
    | _ => none

/-- The `for (dns_rr_t *t = data; ...)` loops of the responders that sort the records of one
lookup: a CNAME record met for a question of another type goes to the end of `cname_pending`,
any other record is appended to the answers; an MX record also goes to `add_pending`. -/
def classify_records (type : Nat) : List dns_rr_t → dns_packet_t → List dns_rr_t →
    List dns_rr_t → dns_packet_t × List dns_rr_t × List dns_rr_t
  | [], response, cname_pending, add_pending => (response, cname_pending, add_pending)
  | t :: rest, response, cname_pending, add_pending =>
    let response1 :=
      if t.type = 5 ∧ type ≠ 5 then response
      else DNS_packet_append_answer response (DNS_RR_copy t) true
    let cname_pending1 :=
      if t.type = 5 ∧ type ≠ 5 then cname_pending ++ [DNS_RR_copy t] else cname_pending
    let add_pending1 := if t.type = 15 then add_pending ++ [DNS_RR_copy t] else add_pending
    classify_records type rest response1 cname_pending1 add_pending1

/-- The loop over `cname_pending` in `DNS_query_create_response`; the list argument is what
is left of the list from `t` on.  Records found for a target are sorted like the first ones,
so the list can grow while it is walked; `fuel` bounds the number of turns. -/
def follow_cnames (table : List dns_rr_t) (type class_ : Nat) :
    Nat → List dns_rr_t → dns_packet_t → List dns_rr_t →
    Option (dns_packet_t × List dns_rr_t)
  | _, [], response, add_pending => some (response, add_pending)
  | 0, _ :: _, _, _ => none
  | fuel + 1, t :: rest, response, add_pending =>
    let data2 := DNS_database_get_record table t.data type class_ true
    let response1 :=
      if data2 ≠ [] then DNS_packet_append_answer response (DNS_RR_copy t) true else response
    match classify_records type data2 response1 rest add_pending with
    | (response2, pending, add_pending2) =>
      follow_cnames table type class_ fuel pending response2 add_pending2

/-- The inner loop of the authority walk: every NS record found is appended to the
authorities and goes to `add_pending`. -/
def append_authorities : List dns_rr_t → dns_packet_t → List dns_rr_t →
    dns_packet_t × List dns_rr_t
  | [], response, add_pending => (response, add_pending)
  | t :: rest, response, add_pending =>
    append_authorities rest (DNS_packet_append_authority response (DNS_RR_copy t) true)
      (add_pending ++ [DNS_RR_copy t])

/-- The loop `for (ptr_t c = name_; *c != 0; c++)`: `boundary` says whether `c` is the start
of the name or follows a dot, `c :: rest` is the text from `c` on. -/
def find_name_servers (table : List dns_rr_t) (class_ : Nat) :
    Bool → List Nat → dns_packet_t → List dns_rr_t → dns_packet_t × List dns_rr_t
  | _, [], response, add_pending => (response, add_pending)
  | boundary, c :: rest, response, add_pending =>
    match (if boundary then
        append_authorities (DNS_database_get_record table (c :: rest) 2 class_ false)
          response add_pending
      else (response, add_pending)) with
    | (response1, add_pending1) =>
      find_name_servers table class_ (decide (c = 46)) rest response1 add_pending1

/-- The name looked up for a record of `add_pending`: the exchange of an MX record when
`sscanf` finds preference and name, the data text otherwise. -/
def glue_name (t : dns_rr_t) : List Nat :=
  if t.type = 15 then
    match sscanf_d_s t.data with
    | some name => name
    | none => cstr t.data
  else cstr t.data

/-- The loop that appends every record of one glue lookup to the additionals. -/
def append_additionals : List dns_rr_t → dns_packet_t → dns_packet_t
  | [], response => response
  | tt :: rest, response =>
    append_additionals rest (DNS_packet_append_additional response (DNS_RR_copy tt) true)

/-- The loop over `add_pending` in `DNS_query_create_response`. -/
def find_addresses (table : List dns_rr_t) (class_ : Nat) :
    List dns_rr_t → dns_packet_t → dns_packet_t
  | [], response => response
  | t :: rest, response =>
    find_addresses table class_ rest
      (append_additionals (DNS_database_get_record table (glue_name t) 1 class_ false) response)

/-- The body of the question loop of `DNS_query_create_response` for a question that passed
the type and class checks. -/
def answer_query (table : List dns_rr_t) (fuel : Nat) (query : dns_query_t)
    (response : dns_packet_t) : Option dns_packet_t :=
  let response1 := DNS_packet_append_query response (DNS_query_copy query) true
  match classify_records query.type
      (DNS_database_get_record table query.name query.type query.class_ true)
      response1 [] [] with
  | (response2, cname_pending, add_pending) =>
    match follow_cnames table query.type query.class_ fuel cname_pending response2
        add_pending with
    | none => none
    | some (response3, add_pending2) =>
      match find_name_servers table query.class_ true (cstr query.name) response3
          add_pending2 with
      | (response4, add_pending3) => some (find_addresses table query.class_ add_pending3 response4)

/-- The question loop of `DNS_query_create_response`; the flag is `have_invaild_mode`. -/
def process_queries (table : List dns_rr_t) (fuel : Nat) :
    List dns_query_t → dns_packet_t → Bool → Option (dns_packet_t × Bool)
  | [], response, invalid => some (response, invalid)
  | query :: rest, response, invalid =>
    if DNS_type_to_str query.type = "[UNKNOWN]" then
      process_queries table fuel rest response true
    else if DNS_class_to_str query.class_ = "[UNKNOWN]" then
      process_queries table fuel rest response true
    else
      match answer_query table fuel query response with
      | none => none
      | some response1 => process_queries table fuel rest response1 invalid

/-- The response both responders start from: the id of the request, `qr = 1`, every other
flag zero, `OP_STANDARD_QUERY`, `R_NO_ERROR`, zero counts and empty sections. -/
def initial_response (request : dns_packet_t) : dns_packet_t :=
  { header := { id := request.header.id, rd := 0, tc := 0, aa := 0, opcode := 0, qr := 1,
                rcode := 0, z := 0, ra := 0, question_count := 0, answer_count := 0,
                authority_count := 0, additional_count := 0 },
    queries := [], answers := [], authorities := [], additionals := [] }

/-- The two `if`s that end both responders: `R_NOT_EXIST` (3) when the three record counts
are zero, then `R_QUERY_TYPE_UNSUPPORTED` (4) when a question was skipped. -/
def finish_response (response : dns_packet_t) (invalid : Bool) : dns_packet_t :=
  let response1 :=
    if response.header.answer_count = 0 ∧ response.header.authority_count = 0 ∧
        response.header.additional_count = 0 then
      { response with header := { response.header with rcode := 3 } }
    else response
  if invalid then { response1 with header := { response1.header with rcode := 4 } }
  else response1

/-- `DNS_query_create_response` against the rows `table` of the table `table_name`.  The
result is `none` when a walk over `cname_pending` takes more than `fuel` turns. -/
def DNS_query_create_response (table : List dns_rr_t) (fuel : Nat) (request : dns_packet_t) :
    Option dns_packet_t :=
  match process_queries table fuel request.queries (initial_response request) false with
  | none => none
  | some (response, invalid) => some (finish_response response invalid)

/-! ## The local resolver (`DNS_query_create_response_local`)

The cache table, the wall clock and the upstream servers are the environment of the
resolver: the cache is a list of rows in row order, the clock is given by its successive
readings, and the outcome of the `k`-th call of `DNS_network_send_query_udp` (the decoded
reply, or nothing when a socket call or the decoding fails) is given by `send`. -/

/-- The value `printf` shows for the low `bits` bits of `v` under a signed conversion
(`%d` for 32, `%hd` for 16). -/
def signed_value (bits : Nat) (v : Nat) : Int :=
  if v % 2 ^ bits < 2 ^ (bits - 1) then (v % 2 ^ bits : Nat) else (v % 2 ^ bits : Nat) - 2 ^ bits

/-- A row of the table `cache`, without its id: the values `DNS_database_put_cache` writes
with `'%s', %d, %hd, %hd, '%s', %ld`. -/
structure cache_row where
  name : List Nat
  ttl : Int
  class_ : Int
  type : Int
  data : List Nat
  timestamp : Int
deriving DecidableEq

/-- The arguments of one call of `DNS_network_send_query_udp`. -/
structure upstream_query where
  address : List Nat
  name : List Nat
  type : Nat
deriving DecidableEq

/-- What the resolver cannot decide: `time k` is the `k`-th reading of the clock, `send k q`
what the `k`-th upstream query returns. -/
structure resolver_env where
  time : Nat → Int
  send : Nat → upstream_query → Option dns_packet_t

/-- The state the resolver works on: the rows of the cache, the number of clock readings
made, and the upstream queries sent so far. -/
structure resolver_state where
  cache : List cache_row
  clock : Nat
  sent : List upstream_query

/-- The record `DNS_database_get_cache` builds from a row: `%d` into the 32-bit `ttl`, `%hd`
into the 16-bit `class` and `type`. -/
def cache_row_record (r : cache_row) : dns_rr_t :=
  { name := r.name, type := (r.type % 65536).toNat, class_ := (r.class_ % 65536).toNat,
    ttl := (r.ttl % 4294967296).toNat, length := 0, data := r.data }

/-- `DNS_database_get_cache`: the rows selected by `name = '%s' and (type = %d or type = 5)
and class = %d and timestamp + ttl > %ld`, the time being the second of the two readings the
function makes.  The name is printed into the text of the query without escaping; the model
is the C function for names that are `sql_name` and rows whose texts are `db_text`. -/
def DNS_database_get_cache (env : resolver_env) (st : resolver_state) (name : List Nat)
    (type class_ : Nat) : List dns_rr_t × resolver_state :=
  (((st.cache.filter (fun r => decide (r.name = cstr name) &&
      (decide (r.type = (type : Int)) || decide (r.type = 5)) &&
      decide (r.class_ = (class_ : Int)) &&
      decide (r.timestamp + r.ttl > env.time (st.clock + 1)))).map cache_row_record),
   { st with clock := st.clock + 2 })

/-- `DNS_database_put_cache`: a row with the fields of `rr` and the time of the second of
the two clock readings goes to the end of the table.  The C code prints name and data into
`sql_insert[128]` without escaping them; the model is the C function for records that are
`storable` at that time. -/
def DNS_database_put_cache (env : resolver_env) (st : resolver_state) (rr : dns_rr_t) :
    resolver_state :=
  { st with
      cache := st.cache ++ [{ name := cstr rr.name, ttl := signed_value 32 rr.ttl,
                              class_ := signed_value 16 rr.class_,
                              type := signed_value 16 rr.type, data := cstr rr.data,
                              timestamp := env.time (st.clock + 1) }],
      clock := st.clock + 2 }

/-- `DNS_network_send_query_udp(address, name, type)` as the resolver sees it. -/
def DNS_network_send_query_udp (env : resolver_env) (st : resolver_state)
    (address name : List Nat) (type : Nat) : Option dns_packet_t × resolver_state :=
  (env.send st.sent.length { address := cstr address, name := cstr name, type := type },
   { st with sent := st.sent ++ [{ address := cstr address, name := cstr name, type := type }] })

/-- The loop over `cname_pending` on a cache hit; the list argument is what is left of the
list from `t` on, `fuel` bounds the number of turns. -/
def follow_cached_cnames (env : resolver_env) (type class_ : Nat) :
    Nat → List dns_rr_t → resolver_state → dns_packet_t → List dns_rr_t →
    Option (dns_packet_t × List dns_rr_t × resolver_state)
  | _, [], st, response, add_pending => some (response, add_pending, st)
  | 0, _ :: _, _, _, _ => none
  | fuel + 1, t :: rest, st, response, add_pending =>
    match DNS_database_get_cache env st t.data type class_ with
    | (data2, st1) =>
      if data2 = [] then follow_cached_cnames env type class_ fuel rest st1 response add_pending
      else
        match classify_records type data2
            (DNS_packet_append_answer response (DNS_RR_copy t) true) rest add_pending with
        | (response2, pending, add_pending2) =>
          follow_cached_cnames env type class_ fuel pending st1 response2 add_pending2

/-- The loop that appends the type-A records of one cached glue lookup. -/
def append_cached_addresses : List dns_rr_t → dns_packet_t → dns_packet_t
  | [], response => response
  | t2 :: rest, response =>
    append_cached_addresses rest
      (if t2.type = 1 then DNS_packet_append_additional response (DNS_RR_copy t2) true
       else response)

/-- The loop over `add_pending` on a cache hit. -/
def find_cached_addresses (env : resolver_env) (class_ : Nat) :
    List dns_rr_t → resolver_state → dns_packet_t → dns_packet_t × resolver_state
  | [], st, response => (response, st)
  | t :: rest, st, response =>
    match DNS_database_get_cache env st (glue_name t) 1 class_ with
    | (data2, st1) =>
      find_cached_addresses env class_ rest st1 (append_cached_addresses data2 response)

/-- The loop over the additionals of an upstream reply for one MX answer: every record
whose name is the exchange is appended to the additionals and cached. -/
def take_exchange (env : resolver_env) (name : List Nat) :
    List dns_rr_t → resolver_state → dns_packet_t → dns_packet_t × resolver_state
  | [], st, response => (response, st)
  | t2 :: rest, st, response =>
    if cstr t2.name = name then
      take_exchange env name rest (DNS_database_put_cache env st t2)
        (DNS_packet_append_additional response (DNS_RR_copy t2) true)
    else take_exchange env name rest st response

/-- The loop over the answers of an upstream reply: every answer is appended and cached. -/
def take_answers (env : resolver_env) (additionals : List dns_rr_t) :
    List dns_rr_t → resolver_state → dns_packet_t → dns_packet_t × resolver_state
  | [], st, response => (response, st)
  | t :: rest, st, response =>
    match (if t.type = 15 then
        take_exchange env (glue_name t) additionals (DNS_database_put_cache env st t)
          (DNS_packet_append_answer response (DNS_RR_copy t) true)
      else (DNS_packet_append_answer response (DNS_RR_copy t) true,
            DNS_database_put_cache env st t)) with
    | (response1, st1) => take_answers env additionals rest st1 response1

/-- The inner loop of the referral step: the type-A additionals named like the target of
the authority record `t`. -/
def servers_of (t : dns_rr_t) : List dns_rr_t → List dns_rr_t
  | [] => []
  | t2 :: rest =>
    if cstr t.data = cstr t2.name ∧ t2.type = 1 then DNS_RR_copy t2 :: servers_of t rest
    else servers_of t rest

/-- The referral step: the records that go to the end of `ns_pending` for one reply. -/
def next_servers (additionals : List dns_rr_t) : List dns_rr_t → List dns_rr_t
  | [] => []
  | t :: rest => servers_of t additionals ++ next_servers additionals rest

/-- The loop over `ns_pending` on a cache miss; the list argument is what is left of the
list from `ns` on, `fuel` bounds the number of turns. -/
def query_servers (env : resolver_env) (name : List Nat) (type : Nat) :
    Nat → List dns_rr_t → resolver_state → dns_packet_t →
    Option (dns_packet_t × resolver_state)
  | _, [], st, response => some (response, st)
  | 0, _ :: _, _, _ => none
  | fuel + 1, ns :: rest, st, response =>
    match DNS_network_send_query_udp env st ns.data name type with
    | (none, st1) => query_servers env name type fuel rest st1 response
    | (some ns_res, st1) =>
      match take_answers env ns_res.additionals ns_res.answers st1 response with
      | (response1, st2) =>
        query_servers env name type fuel
          (rest ++ next_servers ns_res.additionals ns_res.authorities) st2 response1

/-- The first entry of `ns_pending`: the root server `root.local` at `ROOT_DNS_IP`
(`127.0.0.7`), class IN, the type of the question; the TTL is left unset (0 here). -/
def root_server (type : Nat) : dns_rr_t :=
  { name := [114, 111, 111, 116, 46, 108, 111, 99, 97, 108], type := type, class_ := 1,
    ttl := 0, length := 0, data := [49, 50, 55, 46, 48, 46, 48, 46, 55] }

/-- The body of the question loop of `DNS_query_create_response_local` for a question that
passed the type and class checks. -/
def answer_query_local (env : resolver_env) (fuel : Nat) (query : dns_query_t)
    (st : resolver_state) (response : dns_packet_t) :
    Option (dns_packet_t × resolver_state) :=
  let response1 := DNS_packet_append_query response (DNS_query_copy query) true
  match DNS_database_get_cache env st query.name query.type query.class_ with
  | (cache, st1) =>
    if cache ≠ [] then
      match classify_records query.type cache response1 [] [] with
      | (response2, cname_pending, add_pending) =>
        match follow_cached_cnames env query.type query.class_ fuel cname_pending st1
            response2 add_pending with
        | none => none
        | some (response3, add_pending2, st2) =>
          some (find_cached_addresses env query.class_ add_pending2 st2 response3)
    else
      query_servers env query.name query.type fuel [root_server query.type] st1 response1

/-- The question loop of `DNS_query_create_response_local`. -/
def process_queries_local (env : resolver_env) (fuel : Nat) :
    List dns_query_t → resolver_state → dns_packet_t → Bool →
    Option (dns_packet_t × Bool × resolver_state)
  | [], st, response, invalid => some (response, invalid, st)
  | query :: rest, st, response, invalid =>
    if DNS_type_to_str query.type = "[UNKNOWN]" then
      process_queries_local env fuel rest st response true
    else if DNS_class_to_str query.class_ = "[UNKNOWN]" then
      process_queries_local env fuel rest st response true
    else
      match answer_query_local env fuel query st response with
      | none => none
      | some (response1, st1) => process_queries_local env fuel rest st1 response1 invalid

/-- `DNS_query_create_response_local`, with the state of cache, clock and network it leaves.
The result is `none` when a walk over `cname_pending` or `ns_pending` takes more than `fuel`
turns. -/
def DNS_query_create_response_local (env : resolver_env) (fuel : Nat)
    (st : resolver_state) (request : dns_packet_t) :
    Option (dns_packet_t × resolver_state) :=
  match process_queries_local env fuel request.queries st (initial_response request)
      false with
  | none => none
  | some (response, invalid, st1) => some (finish_response response invalid, st1)

/-! ## Vocabulary of the responder statements -/

/-- The four counts of the header are the lengths of the four sections, as far as 16 bits
can tell. -/
def counted (v : dns_packet_t) : Prop :=
  v.header.question_count = v.queries.length % 65536 ∧
  v.header.answer_count = v.answers.length % 65536 ∧
  v.header.authority_count = v.authorities.length % 65536 ∧
  v.header.additional_count = v.additionals.length % 65536

/-- The packet `c` has the id, flags, opcode and rcode of `a`. -/
def same_flags (a c : dns_packet_t) : Prop :=
  c.header.id = a.header.id ∧ c.header.qr = a.header.qr ∧
  c.header.opcode = a.header.opcode ∧ c.header.aa = a.header.aa ∧
  c.header.tc = a.header.tc ∧ c.header.rd = a.header.rd ∧ c.header.ra = a.header.ra ∧
  c.header.z = a.header.z ∧ c.header.rcode = a.header.rcode

/-- The packet `c` comes from `a` by appending records: same id, flags, opcode, rcode and
questions, and counts that still match the sections if they did. -/
def kept (a c : dns_packet_t) : Prop :=
  same_flags a c ∧ c.queries = a.queries ∧ (counted a → counted c)

/-- The question passes the type and class checks of the responders. -/
def supported (q : dns_query_t) : Bool :=
  (q.type = 1 || q.type = 2 || q.type = 5 || q.type = 12 || q.type = 15) && q.class_ = 1

/-- The id and flags of a response to `request`: the id of the request, `QR = 1`, and
`AA = TC = RD = RA = Z = 0`. -/
def response_flags (request r : dns_packet_t) : Prop :=
  r.header.id = request.header.id ∧ r.header.qr = 1 ∧ r.header.aa = 0 ∧ r.header.tc = 0 ∧
  r.header.rd = 0 ∧ r.header.ra = 0 ∧ r.header.z = 0

/-- A bound on the turns of the walk over `cname_pending` that one pending record causes
when its target has rank `k` and the table has `n` rows. -/
def chase_weight (n : Nat) : Nat → Nat
  | 0 => 1
  | k + 1 => 1 + n * chase_weight n k

/-- The CNAME rows of the table do not form a cycle: `rk` ranks the names so that every
CNAME row points to a name of smaller rank. -/
def ranked (table : List dns_rr_t) (rk : List Nat → Nat) : Prop :=
  ∀ r ∈ table, r.type = 5 → rk (cstr r.data) < rk r.name

/-- The sum of the weights of the pending records. -/
def pending_weight (n : Nat) (rk : List Nat → Nat) (pending : List dns_rr_t) : Nat :=
  (pending.map (fun t => chase_weight n (rk (cstr t.data)))).sum

/-- Fuel that is enough for every question of the request when the table is ranked. -/
def enough_fuel (table : List dns_rr_t) (rk : List Nat → Nat) (request : dns_packet_t) : Nat :=
  (request.queries.map (fun q => chase_weight table.length (rk (cstr q.name)))).sum

/-- The upstream servers answer directly: no reply carries an authority record, and no
answer or additional record of a reply is a CNAME. -/
def direct_upstream (env : resolver_env) : Prop :=
  ∀ k q p, env.send k q = some p →
    p.authorities = [] ∧ (∀ t ∈ p.answers, t.type % 65536 ≠ 5) ∧
    (∀ t ∈ p.additionals, t.type % 65536 ≠ 5)

/-- The cache holds no CNAME row. -/
def no_cached_cname (st : resolver_state) : Prop := ∀ r ∈ st.cache, r.type ≠ 5

/-! ## Sample zones and requests -/

/-- The octets of a text. -/
def txt (s : String) : List Nat := s.toList.map Char.toNat

/-- A table row `name, ttl, class, type, data` as a record. -/
def row (name : String) (ttl class_ type : Nat) (data : String) : dns_rr_t :=
  { name := txt name, type := type, class_ := class_, ttl := ttl, length := 0,
    data := txt data }

/-- The rows of the table `s2` that `DNS_database_write_default_data` inserts. -/
def zone_s2 : List dns_rr_t :=
  [row "www.baidu.com" 60 1 5 "www.a.shifen.com",
   row "www.a.shifen.com" 60 1 1 "14.215.177.38",
   row "www.a.shifen.com" 60 1 1 "14.215.177.39",
   row "tieba.baidu.com" 60 1 5 "post.n.shifen.com",
   row "post.n.shifen.com" 60 1 1 "14.215.177.221",
   row "code.org" 60 1 1 "99.84.57.215",
   row "studio.code.org" 60 1 1 "13.227.51.203"]

/-- A request with id `0x1234` and the given questions, as `DNS_buffer_read_packet` yields
it. -/
def request_of (opcode : Nat) (queries : List dns_query_t) : dns_packet_t :=
  { header := { id := 0x1234, rd := 1, tc := 0, aa := 0, opcode := opcode, qr := 0,
                rcode := 0, z := 0, ra := 0, question_count := queries.length,
                answer_count := 0, authority_count := 0, additional_count := 0 },
    queries := queries, answers := [], authorities := [], additionals := [] }

/-- The question `name type IN`. -/
def question (name : String) (type : Nat) : dns_query_t :=
  { name := txt name, type := type, class_ := 1 }

/-- A row `x A 1.2.3.4`; a table may hold it any number of times. -/
def wide_row : dns_rr_t := row "x" 60 1 1 "1.2.3.4"

/-- The request for `x A IN`. -/
def wide_request : dns_packet_t := request_of 0 [question "x" 1]

/-- The response to `wide_request` against `n` rows `wide_row`, before the two closing
`if`s: `n` answers and an answer count of `n` modulo 65536. -/
def wide_response (n : Nat) : dns_packet_t :=
  { header := { id := 0x1234, rd := 0, tc := 0, aa := 0, opcode := 0, qr := 1, rcode := 0,
                z := 0, ra := 0, question_count := 1, answer_count := n % 65536,
                authority_count := 0, additional_count := 0 },
    queries := [question "x" 1], answers := List.replicate n wide_row, authorities := [],
    additionals := [] }

/-- An environment in which every upstream query fails and the clock stands at 100. -/
def silent_env : resolver_env := { time := fun _ => 100, send := fun _ _ => none }

/-- The state of a resolver that has an empty cache and has done nothing yet. -/
def fresh_state : resolver_state := { cache := [], clock := 0, sent := [] }

/-! ## Failure response and the UDP handler (`dns_query.c`, `dns_network.c`) -/

/-- `DNS_query_create_fail_response(rcode)`: the id is the one field the function does not
assign, `id` stands for what the local variable holds; the `int rcode` is stored in the
4-bit field. -/
def DNS_query_create_fail_response (id : Nat) (rcode : Int) : dns_packet_t :=
  { header := { id := id, rd := 0, tc := 0, aa := 0, opcode := 0, qr := 1,
                rcode := (rcode % 16).toNat, z := 0, ra := 0, question_count := 0,
                answer_count := 0, authority_count := 0, additional_count := 0 },
    queries := [], answers := [], authorities := [], additionals := [] }

/-- `BUFFER_SIZE` of `dns_network.c`. -/
def BUFFER_SIZE : Nat := 1024

/-- The array `buf` of the handler after `recvfrom` has stored `datagram` in it: at most
`BUFFER_SIZE` octets of the datagram, the rest zero. -/
def receive_buffer (datagram : List Nat) : List Nat :=
  datagram.take BUFFER_SIZE ++ List.replicate (BUFFER_SIZE - datagram.length) 0

/-- `R_FORMAT_ERR`. -/
def R_FORMAT_ERR : Int := 1

/-- `DNS_network_handle_query_udp` as far as the message is concerned: `datagram` is what
`recvfrom` delivers (`none` for a failed call), the result is the packet handed to
`DNS_buffer_write_packet` together with the octets handed to `sendto`.  The outer `none` is
the responder running out of `fuel`, the inner `none` the branch `ret <= 0`, in which nothing
is sent. -/
def DNS_network_handle_query_udp (table : List dns_rr_t) (fuel id : Nat)
    (datagram : Option (List Nat)) : Option (Option (dns_packet_t × List Nat)) :=
  match datagram with
  | none => some none
  | some bytes =>
    if min bytes.length BUFFER_SIZE > 0 then
      let buffer := DNS_buffer_from_ptr (receive_buffer bytes) (min bytes.length BUFFER_SIZE)
      match (match DNS_buffer_read_packet buffer empty_packet with
             | (some packet, _) => DNS_query_create_response table fuel packet
             | (none, _) => some (DNS_query_create_fail_response id R_FORMAT_ERR)) with
      | none => none
      | some send_packet =>
        let send_buffer := (DNS_buffer_write_packet (DNS_buffer_create BUFFER_SIZE) send_packet).2
        some (some (send_packet, send_buffer.ptr.take send_buffer.pos))
    else some none

/-- A table whose only row is the CNAME `a -> a`. -/
def loop_zone : List dns_rr_t := [row "a" 60 1 5 "a"]

/-- The rows of the table `root` that `DNS_database_write_default_data` inserts. -/
def zone_root : List dns_rr_t :=
  [row "cn" 60 1 2 "ns1.local",
   row "us" 60 1 2 "ns1.local",
   row "baidu.com" 60 1 2 "ns2.local",
   row "code.org" 60 1 2 "ns2.local",
   row "ns1.local" 60 1 1 "127.0.0.3",
   row "ns2.local" 60 1 1 "127.0.0.4",
   row "in-addr.arpa" 60 1 2 "ns4.local",
   row "ns4.local" 60 1 1 "127.0.0.6"]

/-! ## Vocabulary of the section statements -/

/-- The parts of a name that follow each of its dots, in order. -/
def after_dots : List Nat → List (List Nat)
  | [] => []
  | c :: rest => if c = 46 then rest :: after_dots rest else after_dots rest

/-- The name itself, then the part after its first dot, then the part after its second dot,
and so on; a part is a label boundary only when a label starts there, so the empty part after
a final dot (and the empty name) is left out. -/
def label_suffixes (n : List Nat) : List (List Nat) :=
  (n :: after_dots n).filter (fun s => !s.isEmpty)

/-- The results of the NS lookups (same class, CNAME not included) for the name of the
question and for the part after each of its dots, in this order, as copies. -/
def authority_records (table : List dns_rr_t) (q : dns_query_t) : List dns_rr_t :=
  (label_suffixes (cstr q.name)).flatMap
    (fun s => (DNS_database_get_record table s 2 q.class_ false).map DNS_RR_copy)

/-- The results of the A lookups (same class, CNAME not included) for the targets of the
pending records, in order, as copies. -/
def glue_records (table : List dns_rr_t) (class_ : Nat) (add_pending : List dns_rr_t) :
    List dns_rr_t :=
  add_pending.flatMap
    (fun t => (DNS_database_get_record table (glue_name t) 1 class_ false).map DNS_RR_copy)

/-- The packet `c` comes from `a` by appending answers only. -/
def answers_added (a c : dns_packet_t) : Prop :=
  c.authorities = a.authorities ∧ c.additionals = a.additionals ∧
  ∃ l, c.answers = a.answers ++ l

/-- A table whose only row is the CNAME `a -> b`; there is no record for `b`. -/
def dangling_zone : List dns_rr_t := [row "a" 60 1 5 "b"]

/-- A table in which `n` is a CNAME to `m`, `m` has an MX record with the exchange `mx`, and
`mx` has an A record. -/
def mx_chain_zone : List dns_rr_t :=
  [row "n" 60 1 5 "m", row "m" 60 1 15 "3,mx", row "mx" 60 1 1 "1.2.3.4"]

/-- A table in which `n` is a CNAME to `x` and `x` has `k` rows `x A 1.2.3.4`. -/
def wide_chain_zone (k : Nat) : List dns_rr_t := row "n" 60 1 5 "x" :: List.replicate k wide_row

/-- A table in which `n` is a CNAME to `m` and `m` has a record of type 16 (TXT). -/
def txt_chain_zone : List dns_rr_t := [row "n" 60 1 5 "m", row "m" 60 1 16 "t"]

/-! ## Texts that pass through the database unchanged

`DNS_database_get_record`, `DNS_database_get_cache` and `DNS_database_put_cache` print their
arguments into an SQL text with `sprintf` and `'%s'`, and rebuild the rows they get with
`sscanf` and `%s`.  The models above are these functions for the texts described here. -/

/-- A name that `sprintf` can put between the quotes of the `SELECT` text of
`DNS_database_get_record` or `DNS_database_get_cache`: it holds no quote, so that the text is
the query the model evaluates, and it has at most 127 octets (the area of a name is
`malloc(128)`), with which the text fits `sql[256]`. -/
def sql_name (name : List Nat) : Prop :=
  (∀ c ∈ cstr name, c ≠ 39) ∧ (cstr name).length ≤ 127

instance (name : List Nat) : Decidable (sql_name name) := by
  unfold sql_name
  infer_instance

/-- A text that comes back from a row as it went in: it is not empty and holds no NUL, no
quote and no white space (`sscanf` with `%s` reads the column), and it has at most 127
octets. -/
def db_text (s : List Nat) : Prop :=
  s ≠ [] ∧ (∀ c ∈ s, c ≠ 0 ∧ c ≠ 39 ∧ isspace c = false) ∧ s.length ≤ 127

instance (s : List Nat) : Decidable (db_text s) := by
  unfold db_text
  infer_instance

/-- A row of a zone table that `DNS_database_get_record` rebuilds as it is stored: name and
data are such texts, type and class are 16-bit values and the TTL is a 32-bit value. -/
def db_row (r : dns_rr_t) : Prop :=
  db_text r.name ∧ db_text r.data ∧ r.type < 65536 ∧ r.class_ < 65536 ∧ r.ttl < 4294967296

instance (r : dns_rr_t) : Decidable (db_row r) := by
  unfold db_row
  infer_instance

/-- The decimal text of an integer (`%d`, `%hd`, `%ld`). -/
def int_text (v : Int) : List Nat :=
  if v < 0 then 45 :: dec_text (-v).toNat else dec_text v.toNat

/-- The text that `DNS_database_put_cache` prints into `sql_insert` for the record `rr` at
the time `timestamp`: `INSERT INTO cache VALUES (NULL, '%s', %d, %hd, %hd, '%s', %ld);`. -/
def insert_text (rr : dns_rr_t) (timestamp : Int) : List Nat :=
  txt "INSERT INTO cache VALUES (NULL, " ++ [39] ++ cstr rr.name ++ [39] ++ txt ", " ++
    int_text (signed_value 32 rr.ttl) ++ txt ", " ++ int_text (signed_value 16 rr.class_) ++
    txt ", " ++ int_text (signed_value 16 rr.type) ++ txt ", " ++ [39] ++ cstr rr.data ++
    [39] ++ txt ", " ++ int_text timestamp ++ txt ");"

/-- The record `rr` can be put into the cache at the time `timestamp`: name and data come
back from the row as they went in, and the text of the `INSERT` with its NUL fits
`sql_insert[128]`. -/
def storable (rr : dns_rr_t) (timestamp : Int) : Prop :=
  db_text (cstr rr.name) ∧ db_text (cstr rr.data) ∧
  (insert_text rr timestamp).length + 1 ≤ 128

instance (rr : dns_rr_t) (timestamp : Int) : Decidable (storable rr timestamp) := by
  unfold storable
  infer_instance

/-! ## Vocabulary of the resolver statements -/

/-- What `DNS_database_get_cache` returns on the rows `cache` when the clock has been read
`k` times before the call. -/
def cache_lookup (env : resolver_env) (cache : List cache_row) (k : Nat) (name : List Nat)
    (type class_ : Nat) : List dns_rr_t :=
  (DNS_database_get_cache env { cache := cache, clock := k, sent := [] } name type class_).1

/-- The record `t` is a copy of a record that a cache lookup of the given type and class
returns on the rows `cache`. -/
def from_cache (env : resolver_env) (cache : List cache_row) (type class_ : Nat)
    (t : dns_rr_t) : Prop :=
  ∃ name k, ∃ u ∈ cache_lookup env cache k name type class_, t = DNS_RR_copy u

/-- An answer of a cache hit: a copy of a cached record and, when it is a CNAME met for a
question of another type, one whose target has cached records. -/
def cached_answer (env : resolver_env) (cache : List cache_row) (type class_ : Nat)
    (t : dns_rr_t) : Prop :=
  from_cache env cache type class_ t ∧
  (t.type = 5 → type ≠ 5 → ∃ k, cache_lookup env cache k t.data type class_ ≠ [])

/-- A cache row `name, ttl, class, type, data` written at time `timestamp`. -/
def cached (name : String) (ttl class_ type : Int) (data : String) (timestamp : Int) :
    cache_row :=
  { name := txt name, ttl := ttl, class_ := class_, type := type, data := txt data,
    timestamp := timestamp }

/-- A resolver whose cache holds the CNAME of `www.baidu.com` and the two addresses of its
target, written at time 90 with a TTL of 60. -/
def warm_state : resolver_state :=
  { cache := [cached "www.baidu.com" 60 1 5 "www.a.shifen.com" 90,
              cached "www.a.shifen.com" 60 1 1 "14.215.177.38" 90,
              cached "www.a.shifen.com" 60 1 1 "14.215.177.39" 90],
    clock := 0, sent := [] }

/-- The query `DNS_network_send_query_udp(ns->data, name, type)` of the loop over
`ns_pending`. -/
def query_of (name : List Nat) (type : Nat) (ns : dns_rr_t) : upstream_query :=
  { address := cstr ns.data, name := cstr name, type := type }

/-- The replies that arrive when the queries `qs` are sent one after the other, the first
of them being the `k`-th query of the resolver; a query that fails contributes nothing. -/
def received (env : resolver_env) : Nat → List upstream_query → List dns_packet_t
  | _, [] => []
  | k, q :: rest =>
    (match env.send k q with
     | some p => [p]
     | none => []) ++ received env (k + 1) rest

/-- The row `DNS_database_put_cache` writes for `rr` at the time `timestamp`. -/
def stored (rr : dns_rr_t) (timestamp : Int) : cache_row :=
  { name := cstr rr.name, ttl := signed_value 32 rr.ttl, class_ := signed_value 16 rr.class_,
    type := signed_value 16 rr.type, data := cstr rr.data, timestamp := timestamp }

/-- A cache row without its time. -/
def untimed (r : cache_row) : cache_row := { r with timestamp := 0 }

/-- The rows (without their times) that the answers of the reply `p` put into the cache, in
order: every answer, an MX answer being followed by the additionals of the reply that are
named like its exchange. -/
def reply_rows (p : dns_packet_t) : List cache_row :=
  p.answers.flatMap (fun t => stored t 0 ::
    (if t.type = 15 then
      (p.additionals.filter (fun t2 => decide (cstr t2.name = glue_name t))).map
        (fun t2 => stored t2 0)
     else []))

/-- The reply of the root server of the sample network: a referral for `baidu.com` to
`ns2.local` at `127.0.0.4`. -/
def sample_referral : dns_packet_t :=
  { header := { id := 0, rd := 0, tc := 0, aa := 0, opcode := 0, qr := 1, rcode := 0, z := 0,
                ra := 0, question_count := 1, answer_count := 0, authority_count := 1,
                additional_count := 1 },
    queries := [question "www.baidu.com" 1], answers := [],
    authorities := [row "baidu.com" 60 1 2 "ns2.local"],
    additionals := [row "ns2.local" 60 1 1 "127.0.0.4"] }

/-- The reply of the server at `127.0.0.4` of the sample network: the CNAME of
`www.baidu.com` and the two addresses of its target. -/
def sample_reply : dns_packet_t :=
  { header := { id := 0, rd := 0, tc := 0, aa := 0, opcode := 0, qr := 1, rcode := 0, z := 0,
                ra := 0, question_count := 1, answer_count := 3, authority_count := 0,
                additional_count := 0 },
    queries := [question "www.baidu.com" 1],
    answers := [row "www.baidu.com" 60 1 5 "www.a.shifen.com",
                row "www.a.shifen.com" 60 1 1 "14.215.177.38",
                row "www.a.shifen.com" 60 1 1 "14.215.177.39"],
    authorities := [], additionals := [] }

/-- A sample network: the server at `127.0.0.7` refers to `127.0.0.4`, which answers; every
other query fails; the clock stands at 100. -/
def sample_env : resolver_env :=
  { time := fun _ => 100,
    send := fun _ q =>
      if q.address = txt "127.0.0.7" then some sample_referral
      else if q.address = txt "127.0.0.4" then some sample_reply
      else none }

/-- What the loop over `ns_pending` does for the question `q`, from the state `st` to the
state `st2`, `added` being the answers it appends.  The servers queried are the root server
and then `more`, the servers the replies refer to, in the order of the replies; every query
carries the name and type of the question; the answers of the replies are appended as
copies, in order; and the rows `reply_rows` of the replies are put at the end of the cache,
in order. -/
def iterated (env : resolver_env) (q : dns_query_t) (st st2 : resolver_state)
    (added : List dns_rr_t) : Prop :=
  ∃ more : List dns_rr_t,
    st2.sent = st.sent ++ (root_server q.type :: more).map (query_of q.name q.type) ∧
    more = (received env st.sent.length
        ((root_server q.type :: more).map (query_of q.name q.type))).flatMap
      (fun p => next_servers p.additionals p.authorities) ∧
    added = (received env st.sent.length
        ((root_server q.type :: more).map (query_of q.name q.type))).flatMap
      (fun p => p.answers.map DNS_RR_copy) ∧
    ∃ new, st2.cache = st.cache ++ new ∧
      new.map untimed = (received env st.sent.length
        ((root_server q.type :: more).map (query_of q.name q.type))).flatMap reply_rows

/-! ## Cache validity as the specification words it -/

/-- The cache lookup in the words of the specification, on a cache given as a list of
entries `(rr, inserted_at)`: the records of the entries with equal name, equal class, type
equal to the requested type or CNAME (5), and `now < inserted_at + ttl`. -/
def cache_get_spec (entries : List (dns_rr_t × Int)) (now : Int) (name : List Nat)
    (type class_ : Nat) : List dns_rr_t :=
  (entries.filter (fun e => decide (e.1.name = name) && decide (e.1.class_ = class_) &&
    (decide (e.1.type = type) || decide (e.1.type = 5)) &&
    decide (now < e.2 + (e.1.ttl : Int)))).map Prod.fst

/-- A record as the resolver holds it: name and data are C strings, type and class are 16-bit
values, the TTL is a 32-bit value, and `length` is not set. -/
@[reducible]
def held (rr : dns_rr_t) : Prop :=
  cstr rr.name = rr.name ∧ cstr rr.data = rr.data ∧ rr.type < 65536 ∧ rr.class_ < 65536 ∧
  rr.ttl < 4294967296 ∧ rr.length = 0

/-- The dotted quad `a.b.c.d` as a text. -/
def quad (a b c d : Nat) : List Nat :=
  dec_text a ++ [46] ++ dec_text b ++ [46] ++ dec_text c ++ [46] ++ dec_text d

/-- The record `www.a.shifen.com A 14.215.177.38`, class IN, TTL 60. -/
def sample_a : dns_rr_t := row "www.a.shifen.com" 60 1 1 "14.215.177.38"

/-- The packet `c` has the authority section and the authority count of `a`. -/
def same_authorities (a c : dns_packet_t) : Prop :=
  c.authorities = a.authorities ∧ c.header.authority_count = a.header.authority_count

/-- A reply without any record. -/
def empty_reply : dns_packet_t :=
  { header := { id := 0, rd := 0, tc := 0, aa := 0, opcode := 0, qr := 1, rcode := 3, z := 0,
                ra := 0, question_count := 0, answer_count := 0, authority_count := 0,
                additional_count := 0 },
    queries := [], answers := [], authorities := [], additionals := [] }

/-- A network in which the first `n` queries are answered by the referral `sample_referral`
(an NS record whose target has its A record in the additional section) and every later one
by a reply without records. -/
def referring_env (n : Nat) : resolver_env :=
  { time := fun _ => 100,
    send := fun k _ => if k < n then some sample_referral else some empty_reply }

/-- A network in which every query is answered by the referral `sample_referral`. -/
def always_referring : resolver_env :=
  { time := fun _ => 100, send := fun _ _ => some sample_referral }

/-- Every authority record of every reply has a type-A record named like its target in the
additional section of the reply. -/
def referrals_matched (env : resolver_env) : Prop :=
  ∀ k q p, env.send k q = some p →
    ∀ t ∈ p.authorities, ∃ t2 ∈ p.additionals, cstr t.data = cstr t2.name ∧ t2.type = 1

/-- The additional records of one question: the A lookups (class of the question, CNAME not
included) for the exchange of every MX record among `answers`, the answers appended for the
question, and then for the target of every authority record of the question. -/
def glue_of (table : List dns_rr_t) (q : dns_query_t) (answers : List dns_rr_t) :
    List dns_rr_t :=
  glue_records table q.class_
    (answers.filter (fun t => decide (t.type = 15)) ++ authority_records table q)

/-- What a guarded step does to the cursor: `b'` has the capacity of `b`, and its cursor is
within the capacity or where it was. -/
def stays (b b' : dns_buffer) : Prop :=
  b'.capacity = b.capacity ∧ (b'.pos ≤ b.capacity ∨ b'.pos = b.pos)

/-- A buffer of 11 octets: room for the owner name `a`, type, class and TTL of a record and
for nothing else. -/
def tight_buffer : dns_buffer := DNS_buffer_create 11

/-- The record `a A 1.2.3.4`, class IN, TTL 60. -/
def short_a : dns_rr_t := row "a" 60 1 1 "1.2.3.4"

/-- What `DNS_buffer_write_RR` does to the cursor: `b'` has the capacity of `b`, and its
cursor is at most two octets past the capacity or where it was. -/
def stays_near (b b' : dns_buffer) : Prop :=
  b'.capacity = b.capacity ∧ (b'.pos ≤ b.capacity + 2 ∨ b'.pos = b.pos)

/-- The buffer `b'` has the capacity of `b` and its cursor is within the capacity. -/
def within (b b' : dns_buffer) : Prop :=
  b'.capacity = b.capacity ∧ b'.pos ≤ b'.capacity

/-- The 20 octets of a record `a NS b` whose RDLENGTH is 7 although the name `b` takes 3
octets. -/
def slack_record : List Nat :=
  [1, 97, 0, 0, 2, 0, 1, 0, 0, 0, 60, 0, 7, 1, 98, 0, 9, 9, 9, 9]

/-- The same 20 octets with an RDLENGTH of 1. -/
def short_record : List Nat :=
  [1, 97, 0, 0, 2, 0, 1, 0, 0, 0, 60, 0, 1, 1, 98, 0, 9, 9, 9, 9]

/-- The octets of a token that `DNS_buffer_write_DNS_name` stores behind its length octet:
as many as the `uint8` length says. -/
def stored_token (tok : List Nat) : List Nat := tok.take (tok.length % 256)

/-- A buffer of 20 octets into which `www.baidu.com` has been written: the cursor is at 15
and the name and its suffixes are known. -/
def filled_buffer : dns_buffer :=
  (DNS_buffer_write_DNS_name (DNS_buffer_create 20) (dotted www_baidu_com)).2

/-- The cursor of `b'` is the cursor of `b` moved forward, at most to the capacity, which
is the same. -/
def ahead (b b' : dns_buffer) : Prop :=
  b'.capacity = b.capacity ∧ b.pos ≤ b'.pos ∧ b'.pos ≤ b.capacity

/-- What the pointer branch of `DNS_buffer_read_DNS_name` appends for the offset `ptr`:
the dotted text of the entry found for it by one lookup, nothing when there is none. -/
def pointer_text (kn : List known_name_t) (ptr : Nat) : List Nat :=
  match known_names_find_name kn ptr with
  | none => []
  | some name1 => dotted_of_known (name1.length + 1) name1

/-- A received region of five octets, `1 a 1 b 0`, of which the first two are the capacity. -/
def short_region : dns_buffer := DNS_buffer_from_ptr [1, 97, 1, 98, 0] 2

/-- The offset `DNS_buffer_read_DNS_name` looks up for the pointer octets `length_tag`,
`ptr8`: `((length_tag & 0x3F) << 4) | ptr8`, in `uint16`. -/
def computed_offset (length_tag ptr8 : Nat) : Nat :=
  (((length_tag &&& 0x3F) <<< 4) ||| ptr8) % 65536

/-- The 14-bit offset the pointer octets `length_tag`, `ptr8` stand for on the wire, which is
what `known_names_append` computes (`<< 8`). -/
def wire_offset (length_tag ptr8 : Nat) : Nat :=
  (((length_tag &&& 0x3F) <<< 8) ||| ptr8) % 65536

/-- The positions, as `uint16`, under which `DNS_buffer_read_DNS_name` registers the labels
`ls` read from position `p` on. -/
def label_offsets : Nat → List (List Nat) → List Nat
  | _, [] => []
  | p, l :: ls => p % 65536 :: label_offsets (p + 1 + l.length) ls

/-- A region of 23 octets: the name `xxxxxxxxxxxxxxx.a` at offset 0 (its label `a` at offset
16), then at offset 19 the label `c` followed by the pointer octets `C1 00`. -/
def stray_region : List Nat :=
  [15] ++ List.replicate 15 120 ++ [1, 97, 0] ++ [1, 99, 193, 0]

/-- The buffer over `stray_region` after its first name has been decoded. -/
def stray_buffer : dns_buffer :=
  (DNS_buffer_read_DNS_name (DNS_buffer_from_ptr stray_region 23)).2

/-- The record `a MX 40000,x` (class IN, TTL 60): a preference above 32767. -/
def high_mx : dns_rr_t :=
  { name := [97], type := 15, class_ := 1, ttl := 60, length := 0,
    data := [52, 48, 48, 48, 48, 44, 120] }

/-- The record `a MX 5,x y` (class IN, TTL 60): an exchange text with a blank in it. -/
def blank_mx : dns_rr_t :=
  { name := [97], type := 15, class_ := 1, ttl := 60, length := 0,
    data := [53, 44, 120, 32, 121] }

/-- The record `c MX 5,b` (class IN, TTL 60). -/
def late_mx : dns_rr_t :=
  { name := [99], type := 15, class_ := 1, ttl := 60, length := 0, data := [53, 44, 98] }

/-- A buffer of 512 octets into which five names have been written, `xxxxxxxxxxxxxxx.a`
(its label `a` at offset 16), `a{60}`, `c{60}`, `d{60}` and `z{50}.b` (its label `b` at
offset 256), 259 octets in all, and then the record `late_mx`. -/
def late_buffer : dns_buffer :=
  (DNS_buffer_write_RR
    (DNS_buffer_write_DNS_name
      (DNS_buffer_write_DNS_name
        (DNS_buffer_write_DNS_name
          (DNS_buffer_write_DNS_name
            (DNS_buffer_write_DNS_name (DNS_buffer_create 512)
              (List.replicate 15 120 ++ [46, 97])).2
            (List.replicate 60 97)).2
          (List.replicate 60 99)).2
        (List.replicate 60 100)).2
      (List.replicate 50 122 ++ [46, 98])).2
    late_mx).2

/-- The record read from the octets of `late_buffer` by a fresh buffer, after the five names
in front of it. -/
def late_record : Option dns_rr_t :=
  (DNS_buffer_read_RR
    (DNS_buffer_read_DNS_name
      (DNS_buffer_read_DNS_name
        (DNS_buffer_read_DNS_name
          (DNS_buffer_read_DNS_name
            (DNS_buffer_read_DNS_name
              (DNS_buffer_from_ptr late_buffer.ptr late_buffer.pos)).2).2).2).2).2).1

/-- The labels of the name `a{40}.b{40}`: 81 octets of text, 82 on the wire before the zero
octet. -/
def long_pair : List (List Nat) := [List.replicate 40 97, List.replicate 40 98]

/-- The referrals of the upstream servers come to an end: `rk` ranks the addresses of the
servers so that every server a reply refers to has a smaller rank than the server that sent
the reply, and no reply refers to more than `g` servers. -/
def descending (env : resolver_env) (rk : List Nat → Nat) (g : Nat) : Prop :=
  ∀ k u p, env.send k u = some p →
    (next_servers p.additionals p.authorities).length ≤ g ∧
    ∀ ns ∈ next_servers p.additionals p.authorities, rk (cstr ns.data) < rk u.address

/-- Every answer and every additional record of every reply can be put into the cache at
every time the clock shows. -/
def storable_replies (env : resolver_env) : Prop :=
  ∀ k u p, env.send k u = some p →
    ∀ t ∈ p.answers ++ p.additionals, ∀ n, storable t (env.time n)

/-- The ranks of the servers of the sample network: the root server at `127.0.0.7` has rank
1, every other server rank 0. -/
def sample_rank (address : List Nat) : Nat :=
  if address = [49, 50, 55, 46, 48, 46, 48, 46, 55] then 1 else 0

/-! # Theorems -/

theorem lor_shl (a b i : Nat) (hb : b < 2 ^ i) : (a <<< i) ||| b = a * 2 ^ i + b := by
  rw [Nat.shiftLeft_eq, Nat.mul_comm, ← Nat.mul_add_lt_is_or hb a]

theorem peek_lt (l : List Nat) (i : Nat) : peek l i < 256 := by
  unfold peek; omega

theorem peek_set (l : List Nat) (i j x : Nat) :
    peek (l.set i x) j = if i = j ∧ i < l.length then x % 256 else peek l j := by
  unfold peek
  rw [List.getD_eq_getElem?_getD, List.getD_eq_getElem?_getD, List.getElem?_set]
  by_cases h : i = j
  · subst h
    by_cases h2 : i < l.length
    · simp [h2]
    · simp [h2, List.getElem?_eq_none (Nat.le_of_not_lt h2)]
  · simp [h]

theorem check_capacity_eq (b : dns_buffer) (n : Nat) (h : b.pos + n < 4294967296) :
    check_capacity b n = decide (b.pos + n ≤ b.capacity) := by
  unfold check_capacity
  rw [Nat.mod_eq_of_lt h]
  by_cases h2 : b.pos + n ≤ b.capacity
  · simp [h2]
  · simp [h2]; omega

theorem set_eq_splice (l : List Nat) (i x : Nat) (h : i < l.length) :
    l.set i x = l.take i ++ [x] ++ l.drop (i + 1) := by
  rw [List.set_eq_take_append_cons_drop]
  simp [h]

@[simp] theorem put_capacity (b : dns_buffer) (out : List Nat) :
    (put b out).capacity = b.capacity := rfl

@[simp] theorem put_pos (b : dns_buffer) (out : List Nat) :
    (put b out).pos = b.pos + out.length := rfl

@[simp] theorem put_known_names (b : dns_buffer) (out : List Nat) :
    (put b out).known_names = b.known_names := rfl

theorem put_length (b : dns_buffer) (out : List Nat) (h : b.pos + out.length ≤ b.ptr.length) :
    (put b out).ptr.length = b.ptr.length := by
  simp [put]; omega

theorem put_nil (b : dns_buffer) (h : b.pos ≤ b.ptr.length) : put b [] = b := by
  cases b; simp [put]

theorem put_put (b : dns_buffer) (x y : List Nat) (h : b.pos + x.length ≤ b.ptr.length) :
    put (put b x) y = put b (x ++ y) := by
  have h1 : (List.take b.pos b.ptr).length = b.pos := by simp; omega
  have e1 : List.take (b.pos + x.length)
      (List.take b.pos b.ptr ++ x ++ List.drop (b.pos + x.length) b.ptr)
      = List.take b.pos b.ptr ++ x := by
    rw [List.take_append_eq_append_take]
    simp [h1]
  have e2 : List.drop (b.pos + x.length + y.length)
      (List.take b.pos b.ptr ++ x ++ List.drop (b.pos + x.length) b.ptr)
      = List.drop (b.pos + (x.length + y.length)) b.ptr := by
    rw [List.drop_append_eq_append_drop]
    simp [h1]
    have : b.pos + x.length + y.length - (b.pos + x.length) = y.length := by omega
    have e3 : List.drop (b.pos + x.length + y.length) (List.take b.pos b.ptr ++ x) = [] := by
      apply List.drop_eq_nil_of_le; simp [h1]
    rw [e3]
    simp
    congr 1; omega
  simp only [put, List.length_append, e1, e2]
  simp [Nat.add_assoc]

theorem write_u8_eq (b : dns_buffer) (v : Nat) (h1 : b.pos + 1 ≤ b.capacity)
    (h2 : b.capacity ≤ b.ptr.length) (h3 : b.capacity < 4294967296) :
    DNS_buffer_write_u8 b v = (true, put b [v % 256]) := by
  unfold DNS_buffer_write_u8
  rw [check_capacity_eq b 1 (by omega)]
  simp only [h1, decide_True, if_true, put]
  rw [Nat.mod_eq_of_lt (show b.pos + 1 < 4294967296 by omega), set_eq_splice _ _ _ (by omega)]
  rfl

theorem write_u16_eq (b : dns_buffer) (v : Nat) (h1 : b.pos + 2 ≤ b.capacity)
    (h2 : b.capacity ≤ b.ptr.length) (h3 : b.capacity < 4294967296) :
    DNS_buffer_write_u16 b v = (true, put b [v % 65536 / 256, v % 256]) := by
  have e : put b [v % 65536 / 256, v % 256] = put (put b [v % 65536 / 256]) [v % 256] := by
    rw [put_put _ _ _ (by simp; omega)]; rfl
  rw [e]
  unfold DNS_buffer_write_u16
  rw [check_capacity_eq b 2 (by omega)]
  simp only [h1, decide_True, if_true, put]
  rw [Nat.mod_eq_of_lt (show b.pos + 1 < 4294967296 by omega),
    Nat.mod_eq_of_lt (show b.pos + 1 + 1 < 4294967296 by omega),
    set_eq_splice _ _ _ (by rw [List.length_set]; omega), set_eq_splice _ _ _ (by omega)]
  simp only [Nat.shiftRight_eq_div_pow]
  have a1 : v % 65536 / 2 ^ 8 % 256 = v % 65536 / 256 := by omega
  have a2 : v % 65536 / 2 ^ 0 % 256 = v % 256 := by omega
  rw [a1, a2]
  simp

theorem lor_add (a b k : Nat) (ha : 2 ^ k ∣ a) (hb : b < 2 ^ k) : a ||| b = a + b := by
  obtain ⟨c, rfl⟩ := ha
  exact (Nat.mul_add_lt_is_or hb c).symm

theorem write_u32_eq (b : dns_buffer) (v : Nat) (h1 : b.pos + 4 ≤ b.capacity)
    (h2 : b.capacity ≤ b.ptr.length) (h3 : b.capacity < 4294967296) :
    DNS_buffer_write_u32 b v =
      (true, put b [v % 4294967296 / 16777216, v / 65536 % 256, v / 256 % 256, v % 256]) := by
  have l1 : (put b [v % 4294967296 / 16777216]).ptr.length = b.ptr.length :=
    put_length _ _ (by simp; omega)
  have l2 : (put (put b [v % 4294967296 / 16777216]) [v / 65536 % 256]).ptr.length
      = b.ptr.length := by
    rw [put_length _ _ (by simp; omega), l1]
  have e : put b [v % 4294967296 / 16777216, v / 65536 % 256, v / 256 % 256, v % 256]
      = put (put (put (put b [v % 4294967296 / 16777216]) [v / 65536 % 256]) [v / 256 % 256])
          [v % 256] := by
    rw [put_put _ _ _ (by simp; omega), put_put _ _ _ (by simp; omega),
      put_put _ _ _ (by simp; omega)]; rfl
  rw [e]
  unfold DNS_buffer_write_u32
  rw [check_capacity_eq b 4 (by omega)]
  simp only [h1, decide_True, if_true, put]
  rw [Nat.mod_eq_of_lt (show b.pos + 1 < 4294967296 by omega),
    Nat.mod_eq_of_lt (show b.pos + 1 + 1 < 4294967296 by omega),
    Nat.mod_eq_of_lt (show b.pos + 1 + 1 + 1 < 4294967296 by omega),
    Nat.mod_eq_of_lt (show b.pos + 1 + 1 + 1 + 1 < 4294967296 by omega),
    set_eq_splice _ _ _ (by simp only [List.length_set]; omega),
    set_eq_splice _ _ _ (by simp only [List.length_set]; omega),
    set_eq_splice _ _ _ (by simp only [List.length_set]; omega),
    set_eq_splice _ _ _ (by omega)]
  simp only [Nat.shiftRight_eq_div_pow]
  have a1 : v % 4294967296 / 2 ^ 24 % 256 = v % 4294967296 / 16777216 := by omega
  have a2 : v % 4294967296 / 2 ^ 16 % 256 = v / 65536 % 256 := by omega
  have a3 : v % 4294967296 / 2 ^ 8 % 256 = v / 256 % 256 := by omega
  have a4 : v % 4294967296 / 2 ^ 0 % 256 = v % 256 := by omega
  rw [a1, a2, a3, a4]
  simp

theorem read_u8_eq (b : dns_buffer) (h1 : b.pos + 1 ≤ b.capacity)
    (h3 : b.capacity < 4294967296) :
    DNS_buffer_read_u8 b = (some (peek b.ptr b.pos), adv b 1) := by
  unfold DNS_buffer_read_u8
  rw [check_capacity_eq b 1 (by omega)]
  simp only [h1, decide_True, if_true, adv]
  rw [Nat.mod_eq_of_lt (show b.pos + 1 < 4294967296 by omega)]

theorem read_u8_none (b : dns_buffer) (h1 : b.capacity < b.pos + 1)
    (h3 : b.pos + 1 < 4294967296) :
    DNS_buffer_read_u8 b = (none, b) := by
  unfold DNS_buffer_read_u8
  rw [check_capacity_eq b 1 h3]
  simp [Nat.not_le.mpr h1]

theorem read_u16_eq (b : dns_buffer) (h1 : b.pos + 2 ≤ b.capacity)
    (h3 : b.capacity < 4294967296) :
    DNS_buffer_read_u16 b =
      (some (peek b.ptr b.pos * 256 + peek b.ptr (b.pos + 1)), adv b 2) := by
  unfold DNS_buffer_read_u16
  rw [check_capacity_eq b 2 (by omega)]
  simp only [h1, decide_True, if_true, adv]
  rw [Nat.mod_eq_of_lt (show b.pos + 1 < 4294967296 by omega),
    Nat.mod_eq_of_lt (show b.pos + 1 + 1 < 4294967296 by omega)]
  have := peek_lt b.ptr b.pos
  have := peek_lt b.ptr (b.pos + 1)
  rw [Nat.shiftLeft_zero, lor_shl _ _ 8 (by omega)]
  rw [Nat.mod_eq_of_lt (by omega)]
  simp [Nat.add_assoc]

theorem read_u16_none (b : dns_buffer) (h1 : b.capacity < b.pos + 2)
    (h3 : b.pos + 2 < 4294967296) :
    DNS_buffer_read_u16 b = (none, b) := by
  unfold DNS_buffer_read_u16
  rw [check_capacity_eq b 2 h3]
  simp [Nat.not_le.mpr h1]

theorem read_u32_eq (b : dns_buffer) (h1 : b.pos + 4 ≤ b.capacity)
    (h3 : b.capacity < 4294967296) :
    DNS_buffer_read_u32 b =
      (some (peek b.ptr b.pos * 16777216 + peek b.ptr (b.pos + 1) * 65536 +
        peek b.ptr (b.pos + 2) * 256 + peek b.ptr (b.pos + 3)), adv b 4) := by
  unfold DNS_buffer_read_u32
  rw [check_capacity_eq b 4 (by omega)]
  simp only [h1, decide_True, if_true, adv]
  rw [Nat.mod_eq_of_lt (show b.pos + 1 < 4294967296 by omega),
    Nat.mod_eq_of_lt (show b.pos + 1 + 1 < 4294967296 by omega),
    Nat.mod_eq_of_lt (show b.pos + 1 + 1 + 1 < 4294967296 by omega),
    Nat.mod_eq_of_lt (show b.pos + 1 + 1 + 1 + 1 < 4294967296 by omega)]
  have := peek_lt b.ptr b.pos
  have := peek_lt b.ptr (b.pos + 1)
  have := peek_lt b.ptr (b.pos + 1 + 1)
  have := peek_lt b.ptr (b.pos + 1 + 1 + 1)
  simp only [Nat.shiftLeft_eq]
  rw [lor_add (peek b.ptr b.pos * 2 ^ 24) _ 24 (by omega) (by omega),
    lor_add (peek b.ptr b.pos * 2 ^ 24 + _) _ 16 (by omega) (by omega),
    lor_add _ _ 8 (by omega) (by omega), Nat.mod_eq_of_lt (by omega)]
  simp [Nat.add_assoc]

theorem flags_octet : ∀ rd < 2, ∀ tc < 2, ∀ aa < 2, ∀ opcode < 16, ∀ qr < 2,
    (rd % 2) ||| ((tc % 2) <<< 1) ||| ((aa % 2) <<< 2) ||| ((opcode % 16) <<< 3) |||
      ((qr % 2) <<< 7) = qr * 128 + opcode * 8 + aa * 4 + tc * 2 + rd := by
  decide

theorem rcode_octet : ∀ rcode < 16, ∀ z < 8, ∀ ra < 2,
    (rcode % 16) ||| ((z % 8) <<< 4) ||| ((ra % 2) <<< 7) = ra * 128 + z * 16 + rcode := by
  decide

theorem htons_eq (x : Nat) (h : x < 65536) : htons x = x % 256 * 256 + x / 256 := by
  unfold htons
  rw [Nat.shiftRight_eq_div_pow, lor_shl _ _ 8 (by omega)]
  omega

theorem u16_of_mem_eq (lo hi : Nat) (h1 : lo < 256) (h2 : hi < 256) :
    u16_of_mem lo hi = hi * 256 + lo := by
  unfold u16_of_mem
  rw [Nat.lor_comm, lor_shl _ _ 8 (by omega)]
  omega

theorem memcpy_to_eq (src : List Nat) : ∀ (ptr : List Nat) (i : Nat),
    i + src.length ≤ ptr.length →
    memcpy_to ptr i src = ptr.take i ++ src.map (fun c => c % 256) ++ ptr.drop (i + src.length) := by
  induction src with
  | nil => intro ptr i _; simp [memcpy_to]
  | cons c rest ih =>
    intro ptr i h
    simp only [List.length_cons] at h
    unfold memcpy_to
    rw [ih _ _ (by rw [List.length_set]; omega), set_eq_splice _ _ _ (by omega)]
    have h1 : (List.take i ptr).length = i := by simp; omega
    have e1 : List.take (i + 1) (List.take i ptr ++ [c % 256] ++ List.drop (i + 1) ptr)
        = List.take i ptr ++ [c % 256] := by
      rw [List.take_append_eq_append_take]; simp [h1]
    have e2 : List.drop (i + 1 + rest.length)
        (List.take i ptr ++ [c % 256] ++ List.drop (i + 1) ptr)
        = List.drop (i + (rest.length + 1)) ptr := by
      rw [List.drop_append_eq_append_drop]
      have e3 : List.drop (i + 1 + rest.length) (List.take i ptr ++ [c % 256]) = [] := by
        apply List.drop_eq_nil_of_le; simp [h1]
      rw [e3]; simp [h1]
      congr 1; omega
    rw [e1, e2]; simp

theorem drop_put (b : dns_buffer) (out : List Nat) (h : b.pos ≤ b.ptr.length) :
    (put b out).ptr.drop b.pos = out ++ b.ptr.drop (b.pos + out.length) := by
  have h1 : (List.take b.pos b.ptr).length = b.pos := by simp; omega
  simp only [put, List.append_assoc]
  rw [List.drop_append_eq_append_drop]
  simp [h1]

theorem peek_drop (l : List Nat) (i j : Nat) : peek l (i + j) = peek (l.drop i) j := by
  unfold peek
  rw [List.getD_eq_getElem?_getD, List.getD_eq_getElem?_getD, List.getElem?_drop]

theorem peek_append_left (l r : List Nat) (j : Nat) (h : j < l.length) :
    peek (l ++ r) j = peek l j := by
  unfold peek
  rw [List.getD_eq_getElem?_getD, List.getD_eq_getElem?_getD, List.getElem?_append_left h]

theorem peek_put (b : dns_buffer) (out : List Nat) (k : Nat) (hk : k < out.length)
    (h : b.pos ≤ b.ptr.length) : peek (put b out).ptr (b.pos + k) = peek out k := by
  rw [peek_drop, drop_put b out h, peek_append_left _ _ _ hk]

theorem u16_mem_htons (x : Nat) (h : x < 65536) : u16_mem (htons x) = [x / 256, x % 256] := by
  unfold u16_mem
  rw [htons_eq x h, Nat.shiftRight_eq_div_pow]
  have e1 : (x % 256 * 256 + x / 256) % 256 = x / 256 := by omega
  have e2 : (x % 256 * 256 + x / 256) / 2 ^ 8 % 256 = x % 256 := by omega
  rw [e1, e2]

theorem write_header_eq (b : dns_buffer) (v : dns_header_t) (hv : header_in_range v)
    (h1 : b.pos + 12 ≤ b.capacity) (h2 : b.capacity ≤ b.ptr.length)
    (h3 : b.capacity < 4294967296) :
    DNS_buffer_write_DNS_header b v = (true, put b (header_wire v)) := by
  obtain ⟨hid, hrd, htc, haa, hop, hqr, hrc, hz, hra, hq, han, hau, had⟩ := hv
  unfold DNS_buffer_write_DNS_header
  rw [check_capacity_eq b 12 (by omega)]
  simp only [h1, decide_True, if_true]
  rw [Nat.mod_eq_of_lt (show b.pos + 12 < 4294967296 by omega)]
  have hm : header_mem { v with id := htons v.id,
                                question_count := htons v.question_count,
                                answer_count := htons v.answer_count,
                                authority_count := htons v.authority_count,
                                additional_count := htons v.additional_count }
      = header_wire v := by
    unfold header_mem
    simp only [u16_mem_htons _ hid, u16_mem_htons _ hq, u16_mem_htons _ han,
      u16_mem_htons _ hau, u16_mem_htons _ had]
    rw [flags_octet _ hrd _ htc _ haa _ hop _ hqr, rcode_octet _ hrc _ hz _ hra]
    rfl
  rw [hm, memcpy_to_eq _ _ _ (by simp [header_wire]; omega)]
  have hmap : (header_wire v).map (fun c => c % 256) = header_wire v := by
    simp only [header_wire, List.map]
    have e1 : (v.qr * 128 + v.opcode * 8 + v.aa * 4 + v.tc * 2 + v.rd) % 256
        = v.qr * 128 + v.opcode * 8 + v.aa * 4 + v.tc * 2 + v.rd := by omega
    have e2 : (v.ra * 128 + v.z * 16 + v.rcode) % 256 = v.ra * 128 + v.z * 16 + v.rcode := by
      omega
    rw [e1, e2]
    simp only [Nat.mod_mod]
    congr 1
    · omega
    congr 4
    · omega
    congr 2
    · omega
    congr 2
    · omega
    congr 2
    · omega
  rw [hmap]
  simp [put, header_wire]

theorem htons_u16_of_mem (x : Nat) (h : x < 65536) :
    htons (u16_of_mem (x / 256 % 256) (x % 256 % 256)) = x := by
  rw [u16_of_mem_eq _ _ (by omega) (by omega), htons_eq _ (by omega)]
  have a1 : x % 256 % 256 = x % 256 := by omega
  have a2 : x / 256 % 256 = x / 256 := by omega
  rw [a1, a2]
  have a3 : (x % 256 * 256 + x / 256) % 256 = x / 256 := by omega
  have a4 : (x % 256 * 256 + x / 256) / 256 = x % 256 := by omega
  rw [a3, a4]
  omega

theorem read_header_of_peeks (b : dns_buffer) (v : dns_header_t)
    (hv : header_in_range v)
    (hp : ∀ k, k < 12 → peek b.ptr (b.pos + k) = (header_wire v).getD k 0 % 256)
    (h1 : b.pos + 12 ≤ b.capacity) (h3 : b.capacity < 4294967296) :
    DNS_buffer_read_DNS_header b = (some v, adv b 12) := by
  obtain ⟨hid, hrd, htc, haa, hop, hqr, hrc, hz, hra, hq, han, hau, had⟩ := hv
  unfold DNS_buffer_read_DNS_header
  rw [check_capacity_eq b 12 (by omega)]
  simp only [h1, decide_True, if_true]
  rw [Nat.mod_eq_of_lt (show b.pos + 12 < 4294967296 by omega)]
  unfold header_of_mem
  have hp0 := hp 0 (by omega)
  rw [Nat.add_zero] at hp0
  rw [hp0, hp 1 (by omega), hp 2 (by omega), hp 3 (by omega), hp 4 (by omega),
    hp 5 (by omega), hp 6 (by omega), hp 7 (by omega), hp 8 (by omega), hp 9 (by omega),
    hp 10 (by omega), hp 11 (by omega)]
  simp only [header_wire, List.getD_cons_zero, List.getD_cons_succ]
  rw [htons_u16_of_mem _ hid, htons_u16_of_mem _ hq, htons_u16_of_mem _ han,
    htons_u16_of_mem _ hau, htons_u16_of_mem _ had]
  simp only [Nat.shiftRight_eq_div_pow]
  have f1 : (v.qr * 128 + v.opcode * 8 + v.aa * 4 + v.tc * 2 + v.rd) % 256 % 2 = v.rd := by
    omega
  have f2 : (v.qr * 128 + v.opcode * 8 + v.aa * 4 + v.tc * 2 + v.rd) % 256 / 2 ^ 1 % 2
      = v.tc := by omega
  have f3 : (v.qr * 128 + v.opcode * 8 + v.aa * 4 + v.tc * 2 + v.rd) % 256 / 2 ^ 2 % 2
      = v.aa := by omega
  have f4 : (v.qr * 128 + v.opcode * 8 + v.aa * 4 + v.tc * 2 + v.rd) % 256 / 2 ^ 3 % 16
      = v.opcode := by omega
  have f5 : (v.qr * 128 + v.opcode * 8 + v.aa * 4 + v.tc * 2 + v.rd) % 256 / 2 ^ 7 % 2
      = v.qr := by omega
  have g1 : (v.ra * 128 + v.z * 16 + v.rcode) % 256 % 16 = v.rcode := by omega
  have g2 : (v.ra * 128 + v.z * 16 + v.rcode) % 256 / 2 ^ 4 % 8 = v.z := by omega
  have g3 : (v.ra * 128 + v.z * 16 + v.rcode) % 256 / 2 ^ 7 % 2 = v.ra := by omega
  rw [f1, f2, f3, f4, f5, g1, g2, g3]
  rfl

theorem read_header_eq (b : dns_buffer) (v : dns_header_t) (rest : List Nat)
    (hv : header_in_range v) (h : b.ptr.drop b.pos = header_wire v ++ rest)
    (h1 : b.pos + 12 ≤ b.capacity) (h3 : b.capacity < 4294967296) :
    DNS_buffer_read_DNS_header b = (some v, adv b 12) := by
  apply read_header_of_peeks b v hv _ h1 h3
  intro k hk
  rw [peek_drop, h, peek_append_left _ _ _ (by simp [header_wire]; omega)]
  rfl

/-- C10: `DNS_buffer_write_DNS_header` fails, leaving the buffer as it was, when fewer than
12 octets remain; otherwise it stores exactly the 12 octets `header_wire v` at the cursor
(id big-endian, octet 2 = QR*128 + OPCODE*8 + AA*4 + TC*2 + RD, octet 3 = RA*128 + Z*16 +
RCODE, then the four counts big-endian), and `DNS_buffer_read_DNS_header` of those octets
returns the same header. -/
theorem header_wire_layout (b : dns_buffer) (v : dns_header_t) (hv : header_in_range v)
    (hpos : b.pos ≤ b.capacity) (hreg : b.capacity ≤ b.ptr.length)
    (hlim : b.capacity + 12 < 4294967296) :
    (b.capacity < b.pos + 12 → DNS_buffer_write_DNS_header b v = (false, b)) ∧
    (b.pos + 12 ≤ b.capacity →
      DNS_buffer_write_DNS_header b v = (true, put b (header_wire v)) ∧
      DNS_buffer_read_DNS_header { put b (header_wire v) with pos := b.pos }
        = (some v, put b (header_wire v))) := by
  constructor
  · intro h
    unfold DNS_buffer_write_DNS_header
    rw [check_capacity_eq b 12 (by omega)]
    simp [Nat.not_le.mpr h]
  · intro h
    refine ⟨write_header_eq b v hv h hreg (by omega), ?_⟩
    rw [read_header_eq { put b (header_wire v) with pos := b.pos } v
      (b.ptr.drop (b.pos + (header_wire v).length)) hv (drop_put b _ (by omega)) h (by simp; omega)]
    rfl

/-- C9: `DNS_buffer_write_u16` stores `[v / 256, v % 256]` and `DNS_buffer_write_u32` stores
the four octets of `v` most significant first; `DNS_buffer_read_u16` / `DNS_buffer_read_u32`
at the position of the write return `v`. -/
theorem big_endian_integers (b : dns_buffer) (v : Nat) (hreg : b.capacity ≤ b.ptr.length)
    (hlim : b.capacity < 4294967296) :
    (v < 65536 → b.pos + 2 ≤ b.capacity →
      DNS_buffer_write_u16 b v = (true, put b [v / 256, v % 256]) ∧
      DNS_buffer_read_u16 { put b [v / 256, v % 256] with pos := b.pos }
        = (some v, put b [v / 256, v % 256])) ∧
    (v < 4294967296 → b.pos + 4 ≤ b.capacity →
      DNS_buffer_write_u32 b v
        = (true, put b [v / 16777216, v / 65536 % 256, v / 256 % 256, v % 256]) ∧
      DNS_buffer_read_u32
          { put b [v / 16777216, v / 65536 % 256, v / 256 % 256, v % 256] with pos := b.pos }
        = (some v, put b [v / 16777216, v / 65536 % 256, v / 256 % 256, v % 256])) := by
  constructor
  · intro hv h
    have hw := write_u16_eq b v h hreg hlim
    rw [Nat.mod_eq_of_lt hv] at hw
    refine ⟨hw, ?_⟩
    rw [read_u16_eq _ (by simpa using h) (by simpa using hlim)]
    have p0 := peek_put b [v / 256, v % 256] 0 (by simp) (by omega)
    have p1 := peek_put b [v / 256, v % 256] 1 (by simp) (by omega)
    simp only [Nat.add_zero] at p0
    simp only [p0, p1]
    simp only [peek, List.getD_cons_zero, List.getD_cons_succ, adv, put, List.length_cons,
      List.length_nil]
    congr 2
    omega
  · intro hv h
    have hw := write_u32_eq b v h hreg hlim
    rw [Nat.mod_eq_of_lt hv] at hw
    refine ⟨hw, ?_⟩
    rw [read_u32_eq _ (by simpa using h) (by simpa using hlim)]
    have p0 := peek_put b [v / 16777216, v / 65536 % 256, v / 256 % 256, v % 256] 0
      (by simp) (by omega)
    have p1 := peek_put b [v / 16777216, v / 65536 % 256, v / 256 % 256, v % 256] 1
      (by simp) (by omega)
    have p2 := peek_put b [v / 16777216, v / 65536 % 256, v / 256 % 256, v % 256] 2
      (by simp) (by omega)
    have p3 := peek_put b [v / 16777216, v / 65536 % 256, v / 256 % 256, v % 256] 3
      (by simp) (by omega)
    simp only [Nat.add_zero] at p0
    simp only [p0, p1, p2, p3]
    simp only [peek, List.getD_cons_zero, List.getD_cons_succ, adv, put, List.length_cons,
      List.length_nil]
    congr 2
    omega


/-- C8: each of the six primitive reads and writes of width 1, 2, 4 fails exactly when
`pos + w > capacity`, leaves the buffer unchanged when it fails, and moves the cursor by
exactly `w` when it succeeds (for a cursor whose `uint32` sum `pos + w` does not wrap). -/
theorem primitives_bounds_checked (b : dns_buffer) (v : Nat)
    (hpos : b.pos + 4 < 4294967296) :
    bounds_checked_read 1 DNS_buffer_read_u8 b ∧
    bounds_checked_read 2 DNS_buffer_read_u16 b ∧
    bounds_checked_read 4 DNS_buffer_read_u32 b ∧
    bounds_checked_write 1 DNS_buffer_write_u8 b v ∧
    bounds_checked_write 2 DNS_buffer_write_u16 b v ∧
    bounds_checked_write 4 DNS_buffer_write_u32 b v := by
  have h1 := check_capacity_eq b 1 (by omega)
  have h2 := check_capacity_eq b 2 (by omega)
  have h4 := check_capacity_eq b 4 (by omega)
  refine ⟨?_, ?_, ?_, ?_, ?_, ?_⟩
  · unfold bounds_checked_read DNS_buffer_read_u8
    rw [h1]
    by_cases h : b.pos + 1 ≤ b.capacity
    · simp [h]; omega
    · simp [h]; omega
  · unfold bounds_checked_read DNS_buffer_read_u16
    rw [h2]
    by_cases h : b.pos + 2 ≤ b.capacity
    · simp [h]; omega
    · simp [h]; omega
  · unfold bounds_checked_read DNS_buffer_read_u32
    rw [h4]
    by_cases h : b.pos + 4 ≤ b.capacity
    · simp [h]; omega
    · simp [h]; omega
  · unfold bounds_checked_write DNS_buffer_write_u8
    rw [h1]
    by_cases h : b.pos + 1 ≤ b.capacity
    · simp [h]; omega
    · simp [h]; omega
  · unfold bounds_checked_write DNS_buffer_write_u16
    rw [h2]
    by_cases h : b.pos + 2 ≤ b.capacity
    · simp [h]; omega
    · simp [h]; omega
  · unfold bounds_checked_write DNS_buffer_write_u32
    rw [h4]
    by_cases h : b.pos + 4 ≤ b.capacity
    · simp [h]; omega
    · simp [h]; omega

/-- Witness of C8: a buffer of capacity 3 with the cursor at 0 (one- and two-octet accesses
succeed, four-octet accesses fail). -/
theorem primitives_bounds_checked_witness :
    (DNS_buffer_create 3).pos + 4 < 4294967296 ∧
    bounds_checked_read 1 DNS_buffer_read_u8 (DNS_buffer_create 3) ∧
    bounds_checked_read 2 DNS_buffer_read_u16 (DNS_buffer_create 3) ∧
    bounds_checked_read 4 DNS_buffer_read_u32 (DNS_buffer_create 3) ∧
    bounds_checked_write 1 DNS_buffer_write_u8 (DNS_buffer_create 3) 7 ∧
    bounds_checked_write 2 DNS_buffer_write_u16 (DNS_buffer_create 3) 7 ∧
    bounds_checked_write 4 DNS_buffer_write_u32 (DNS_buffer_create 3) 7 :=
  ⟨by decide, primitives_bounds_checked (DNS_buffer_create 3) 7 (by decide)⟩

/-- Witness of C9: the value `0x1234` in a fresh buffer of 8 octets. -/
theorem big_endian_integers_witness :
    (DNS_buffer_create 8).capacity ≤ (DNS_buffer_create 8).ptr.length ∧
    (DNS_buffer_write_u16 (DNS_buffer_create 8) 4660
        = (true, put (DNS_buffer_create 8) [4660 / 256, 4660 % 256]) ∧
      DNS_buffer_read_u16 { put (DNS_buffer_create 8) [4660 / 256, 4660 % 256] with pos := 0 }
        = (some 4660, put (DNS_buffer_create 8) [4660 / 256, 4660 % 256])) :=
  ⟨by decide,
   (big_endian_integers (DNS_buffer_create 8) 4660 (by decide) (by decide)).1
     (by decide) (by decide)⟩

/-- Witness of C10: the sample header in a fresh buffer of 32 octets. -/
theorem header_wire_layout_witness :
    header_in_range sample_header ∧
    DNS_buffer_write_DNS_header (DNS_buffer_create 32) sample_header
      = (true, put (DNS_buffer_create 32) (header_wire sample_header)) ∧
    DNS_buffer_read_DNS_header
        { put (DNS_buffer_create 32) (header_wire sample_header) with pos := 0 }
      = (some sample_header, put (DNS_buffer_create 32) (header_wire sample_header)) :=
  ⟨by unfold header_in_range sample_header; decide,
   (header_wire_layout (DNS_buffer_create 32) sample_header
      (by unfold header_in_range sample_header; decide) (by decide) (by decide)
      (by decide)).2 (by decide)⟩

theorem cstr_of_nonzero (s : List Nat) (h : ∀ c ∈ s, c ≠ 0) : cstr s = s := by
  unfold cstr
  rw [List.takeWhile_eq_self_iff]
  intro c hc
  simpa using h c hc

theorem cstr_append_zero (s rest : List Nat) (h : ∀ c ∈ s, c ≠ 0) :
    cstr (s ++ 0 :: rest) = s := by
  unfold cstr
  induction s with
  | nil => simp
  | cons c s ih =>
    have hc : c ≠ 0 := h c (by simp)
    simp only [List.cons_append, List.takeWhile_cons]
    simp only [bne_iff_ne, ne_eq, hc, not_false_eq_true, if_true]
    rw [ih (fun x hx => h x (by simp [hx]))]

theorem cstr_idem (s : List Nat) : cstr (cstr s) = cstr s := by
  apply cstr_of_nonzero
  intro c hc
  unfold cstr at hc
  have := List.mem_takeWhile_imp hc
  simpa using this

theorem find_pos_cstr (kn : List known_name_t) (name : List Nat) :
    known_names_find_pos kn (cstr name) = known_names_find_pos kn name := by
  induction kn with
  | nil => rfl
  | cons k rest ih => simp only [known_names_find_pos, cstr_idem, ih]

theorem wire_labels_nonzero (ls : List (List Nat)) (h : ∀ l ∈ ls, label_ok l) :
    ∀ c ∈ wire_labels ls, c ≠ 0 := by
  induction ls with
  | nil => intro c hc; simp [wire_labels] at hc
  | cons l ls ih =>
    intro c hc
    obtain ⟨h1, _, h3⟩ := h l (by simp)
    simp only [wire_labels, List.mem_cons, List.mem_append] at hc
    rcases hc with hc | hc | hc
    · omega
    · exact (h3 c hc).1
    · exact ih (fun x hx => h x (by simp [hx])) c hc

theorem wire_labels_lt (ls : List (List Nat)) (h : ∀ l ∈ ls, label_ok l) :
    ∀ c ∈ wire_labels ls, c < 256 := by
  induction ls with
  | nil => intro c hc; simp [wire_labels] at hc
  | cons l ls ih =>
    intro c hc
    obtain ⟨h1, h2, h3⟩ := h l (by simp)
    simp only [wire_labels, List.mem_cons, List.mem_append] at hc
    rcases hc with hc | hc | hc
    · omega
    · exact (h3 c hc).2.2
    · exact ih (fun x hx => h x (by simp [hx])) c hc

theorem peek_append_right (pre l : List Nat) (j : Nat) :
    peek (pre ++ l) (pre.length + j) = peek l j := by
  rw [peek_drop, List.drop_left]

theorem copy_octets_eq (l : List Nat) (hl : ∀ c ∈ l, c < 256) :
    ∀ (pre post : List Nat), copy_octets (pre ++ l ++ post) pre.length l.length = l := by
  induction l with
  | nil => intro pre post; rfl
  | cons c l ih =>
    intro pre post
    simp only [List.length_cons, copy_octets]
    have hc : c < 256 := hl c (by simp)
    have e : pre ++ c :: l ++ post = (pre ++ [c]) ++ l ++ post := by simp
    have hp : peek (pre ++ c :: l ++ post) pre.length = c := by
      have := peek_append_right pre (c :: l ++ post) 0
      simp only [Nat.add_zero, List.cons_append] at this
      simp only [List.append_assoc, List.cons_append]
      rw [this]
      exact Nat.mod_eq_of_lt hc
    rw [hp, e]
    have := ih (fun x hx => hl x (by simp [hx])) (pre ++ [c]) post
    simp only [List.length_append, List.length_singleton] at this
    rw [this]

theorem peek_cons_zero (c : Nat) (l : List Nat) : peek (c :: l) 0 = c % 256 := rfl

theorem known_names_expand_wire (kn : List known_name_t) (ls : List (List Nat)) :
    ∀ (fuel : Nat) (rest : List Nat), (∀ l ∈ ls, label_ok l) → ls.length < fuel →
      known_names_expand kn fuel (wire_labels ls ++ 0 :: rest) = wire_labels ls := by
  induction ls with
  | nil =>
    intro fuel rest _ hf
    obtain ⟨f, rfl⟩ : ∃ f, fuel = f + 1 := ⟨fuel - 1, by simp at hf; omega⟩
    simp [known_names_expand, wire_labels, peek_cons_zero]
  | cons l ls ih =>
    intro fuel rest hok hf
    obtain ⟨f, rfl⟩ : ∃ f, fuel = f + 1 := ⟨fuel - 1, by simp at hf; omega⟩
    obtain ⟨h1, h2, h3⟩ := hok l (by simp)
    have htag : l.length % 256 = l.length := Nat.mod_eq_of_lt (by omega)
    have hne : l.length ≠ 0 := by omega
    have hsh : l.length >>> 6 ≠ 3 := by
      rw [Nat.shiftRight_eq_div_pow]; omega
    simp only [known_names_expand, wire_labels, List.cons_append, peek_cons_zero, htag, hne,
      hsh, if_false]
    have hcopy : copy_octets (l.length :: (l ++ wire_labels ls ++ 0 :: rest)) 1 l.length = l := by
      have := copy_octets_eq l (fun c hc => (h3 c hc).2.2) [l.length] (wire_labels ls ++ 0 :: rest)
      simpa using this
    have hdrop : List.drop (l.length + 1) (l.length :: (l ++ wire_labels ls ++ 0 :: rest))
        = wire_labels ls ++ 0 :: rest := by
      simp
    simp only [List.append_assoc] at hcopy hdrop ⊢
    rw [hcopy, hdrop, ih f rest (fun x hx => hok x (by simp [hx])) (by simp at hf; omega)]

theorem peek_of_drop (l : List Nat) (i x : Nat) (rest : List Nat) (h : l.drop i = x :: rest) :
    peek l i = x % 256 := by
  have := peek_drop l i 0
  rw [Nat.add_zero, h] at this
  rw [this]; rfl

theorem drop_add_of_drop (l : List Nat) (i : Nat) (x y : List Nat) (h : l.drop i = x ++ y) :
    l.drop (i + x.length) = y := by
  rw [← List.drop_drop, h, List.drop_left]

theorem adv_adv (b : dns_buffer) (m n : Nat) : adv (adv b m) n = adv b (m + n) := by
  simp [adv, Nat.add_assoc]

theorem write_label_eq (l : List Nat) (hl : ∀ c ∈ l, c < 256) :
    ∀ (b c : dns_buffer) (rest : List Nat), c.ptr.drop c.pos = l ++ rest →
      c.pos + l.length < 4294967296 → b.pos + l.length ≤ b.capacity →
      b.capacity ≤ b.ptr.length → b.capacity < 4294967296 →
      write_label l.length b c = (true, put b l, adv c l.length) := by
  induction l with
  | nil =>
    intro b c rest _ _ _ hreg _
    simp only [List.length_nil, write_label]
    rw [put_nil b (by simp at *; omega)]
    rfl
  | cons x l ih =>
    intro b c rest hc hcl hb hreg hlim
    simp only [List.length_cons] at hcl hb ⊢
    have hx : x < 256 := hl x (by simp)
    have hp : peek c.ptr c.pos = x := by
      rw [peek_of_drop c.ptr c.pos x (l ++ rest) (by simpa using hc)]
      exact Nat.mod_eq_of_lt hx
    unfold write_label
    simp only [hp]
    rw [write_u8_eq b x (by omega) hreg hlim, Nat.mod_eq_of_lt hx,
      Nat.mod_eq_of_lt (show c.pos + 1 < 4294967296 by omega)]
    have hc1 : ({ c with pos := c.pos + 1 } : dns_buffer).ptr.drop
        ({ c with pos := c.pos + 1 } : dns_buffer).pos = l ++ rest := by
      show c.ptr.drop (c.pos + 1) = l ++ rest
      exact drop_add_of_drop c.ptr c.pos [x] _ (by rw [hc]; simp)
    have := ih (fun y hy => hl y (by simp [hy])) (put b [x]) { c with pos := c.pos + 1 } rest hc1
      (by simp; omega) (by simp; omega)
      (by rw [put_length _ _ (by simp; omega)]; simpa using hreg) (by simpa using hlim)
    simp only [this]
    rw [put_put _ _ _ (by simp; omega)]
    simp only [adv, List.singleton_append, Prod.mk.injEq, true_and, dns_buffer.mk.injEq,
      and_true]
    omega

theorem foldl_write_u8_eq (tok : List Nat) (ht : ∀ c ∈ tok, c < 256) :
    ∀ (c : dns_buffer), c.pos + tok.length ≤ c.capacity → c.capacity ≤ c.ptr.length →
      c.capacity < 4294967296 →
      tok.foldl (fun c0 ch => (DNS_buffer_write_u8 c0 ch).2) c = put c tok := by
  induction tok with
  | nil => intro c _ hreg _; simp only [List.foldl]; rw [put_nil c (by simp at *; omega)]
  | cons x tok ih =>
    intro c hc hreg hlim
    simp only [List.length_cons] at hc
    have hx : x < 256 := ht x (by simp)
    simp only [List.foldl]
    rw [write_u8_eq c x (by omega) hreg hlim, Nat.mod_eq_of_lt hx]
    rw [ih (fun y hy => ht y (by simp [hy])) (put c [x]) (by simp; omega)
      (by rw [put_length _ _ (by simp; omega)]; simpa using hreg) (by simpa using hlim)]
    rw [put_put _ _ _ (by simp; omega)]
    rfl

theorem convert_name_eq (ls : List (List Nat)) (hok : ∀ l ∈ ls, label_ok l) :
    ∀ (c : dns_buffer), c.pos + (wire_labels ls).length ≤ c.capacity →
      c.capacity ≤ c.ptr.length → c.capacity < 4294967296 →
      convert_name ls c = put c (wire_labels ls) := by
  induction ls with
  | nil => intro c _ hreg _; simp only [convert_name, wire_labels]; rw [put_nil c (by simp at *; omega)]
  | cons l ls ih =>
    intro c hc hreg hlim
    obtain ⟨h1, h2, h3⟩ := hok l (by simp)
    simp only [wire_labels, List.length_cons, List.length_append] at hc
    simp only [convert_name]
    rw [Nat.mod_eq_of_lt (show l.length < 256 by omega), List.take_length,
      write_u8_eq c l.length (by omega) hreg hlim,
      Nat.mod_eq_of_lt (show l.length < 256 by omega)]
    have hreg1 : (put c [l.length]).capacity ≤ (put c [l.length]).ptr.length := by
      rw [put_length _ _ (by simp; omega)]; simpa using hreg
    rw [foldl_write_u8_eq l (fun x hx => (h3 x hx).2.2) (put c [l.length]) (by simp; omega)
      hreg1 (by simpa using hlim)]
    rw [put_put _ _ _ (by simp; omega)]
    have hreg2 : (put c ([l.length] ++ l)).capacity ≤ (put c ([l.length] ++ l)).ptr.length := by
      rw [put_length _ _ (by simp; omega)]; simpa using hreg
    rw [ih (fun x hx => hok x (by simp [hx])) (put c ([l.length] ++ l)) (by simp; omega)
      hreg2 (by simpa using hlim)]
    rw [put_put _ _ _ (by simp; omega)]
    simp [wire_labels]

theorem find_pos_append (kn extra : List known_name_t) (name : List Nat)
    (h : ∀ e ∈ extra, cstr name ≠ cstr e.name) :
    known_names_find_pos (kn ++ extra) name = known_names_find_pos kn name := by
  induction kn with
  | nil =>
    simp only [List.nil_append]
    induction extra with
    | nil => rfl
    | cons e extra ih =>
      simp only [known_names_find_pos, h e (by simp), if_false]
      exact ih (fun x hx => h x (by simp [hx]))
  | cons k kn ih =>
    show (if cstr name = cstr k.name then k.pos
      else known_names_find_pos (kn ++ extra) name) = _
    rw [ih]
    rfl

theorem find_pos_nonempty (kn : List known_name_t) (h : names_nonempty kn) :
    known_names_find_pos kn [] = 0xFFFF := by
  induction kn with
  | nil => rfl
  | cons k kn ih =>
    have hk : cstr [] ≠ cstr k.name := fun e => h k (by simp) e.symm
    simp only [known_names_find_pos, hk, if_false]
    exact ih (fun x hx => h x (by simp [hx]))

theorem length_le_wire (ls : List (List Nat)) : ls.length ≤ (wire_labels ls).length := by
  induction ls with
  | nil => simp
  | cons l ls ih => simp only [wire_labels, List.length_cons, List.length_append]; omega

@[simp] theorem register_pos (b : dns_buffer) (es : List known_name_t) :
    (register b es).pos = b.pos := rfl

@[simp] theorem register_ptr (b : dns_buffer) (es : List known_name_t) :
    (register b es).ptr = b.ptr := rfl

@[simp] theorem register_capacity (b : dns_buffer) (es : List known_name_t) :
    (register b es).capacity = b.capacity := rfl

@[simp] theorem register_known_names (b : dns_buffer) (es : List known_name_t) :
    (register b es).known_names = b.known_names ++ es := rfl

theorem register_nil (b : dns_buffer) : register b [] = b := by
  cases b; simp [register]

theorem register_register (b : dns_buffer) (e1 e2 : List known_name_t) :
    register (register b e1) e2 = register b (e1 ++ e2) := by
  simp [register]

theorem put_register (b : dns_buffer) (es : List known_name_t) (out : List Nat) :
    put (register b es) out = register (put b out) es := rfl

theorem pointer_octets_length (p : Nat) : (pointer_octets p).length = 2 := rfl

theorem write_name_loop_eq (kn0 : List known_name_t) (hne : names_nonempty kn0)
    (ls : List (List Nat)) :
    ∀ (fuel : Nat) (b c : dns_buffer) (rest : List Nat) (extra : List known_name_t),
      (∀ l ∈ ls, label_ok l) → ls.length < fuel →
      c.ptr.drop c.pos = wire_labels ls ++ 0 :: rest →
      c.pos + (wire_labels ls).length + 1 ≤ c.capacity → c.capacity < 4294967296 →
      b.pos + (wire_labels ls).length + 1 ≤ b.capacity → b.capacity ≤ b.ptr.length →
      b.capacity < 4294967296 →
      b.known_names = kn0 ++ extra →
      (∀ e ∈ extra, (wire_labels ls).length < (cstr e.name).length) →
      write_name_loop fuel b c
        = (true, register (put b (name_output kn0 ls)) (name_entries kn0 b.pos ls)) := by
  induction ls with
  | nil =>
    intro fuel b c rest extra _ hf hc hccap hclim hb hreg hlim hkn hextra
    obtain ⟨f, rfl⟩ : ∃ f, fuel = f + 1 := ⟨fuel - 1, by simp at hf; omega⟩
    simp only [wire_labels, List.length_nil, List.nil_append, Nat.add_zero] at hc hccap hb hextra
    have hfind : known_names_find_pos b.known_names (c.ptr.drop c.pos) = 0xFFFF := by
      rw [← find_pos_cstr, hc, hkn]
      have e0 : cstr (0 :: rest) = [] := by simp [cstr]
      rw [e0, find_pos_append _ _ _ (fun e he => by
        intro h
        have := hextra e he
        rw [← h] at this
        simp [cstr] at this)]
      exact find_pos_nonempty kn0 hne
    unfold write_name_loop
    simp only [hfind, ne_eq, not_true_eq_false, if_false]
    rw [read_u8_eq c (by omega) hclim, peek_of_drop c.ptr c.pos 0 rest hc]
    simp only [Nat.zero_mod, if_false, ne_eq, not_true_eq_false]
    rw [write_u8_eq b 0 (by omega) hreg hlim]
    simp only [write_label, Nat.lt_irrefl, if_false, name_output, name_entries, Nat.zero_mod]
    rw [register_nil]
  | cons l ls ih =>
    intro fuel b c rest extra hok hf hc hccap hclim hb hreg hlim hkn hextra
    obtain ⟨f, rfl⟩ : ∃ f, fuel = f + 1 := ⟨fuel - 1, by simp at hf; omega⟩
    obtain ⟨h1, h2, h3⟩ := hok l (by simp)
    have hok' : ∀ x ∈ ls, label_ok x := fun x hx => hok x (by simp [hx])
    have hwl : (wire_labels (l :: ls)).length = 1 + l.length + (wire_labels ls).length := by
      simp only [wire_labels, List.length_cons, List.length_append]; omega
    rw [hwl] at hccap hb
    have hcs : cstr (c.ptr.drop c.pos) = wire_labels (l :: ls) := by
      rw [hc]; exact cstr_append_zero _ _ (wire_labels_nonzero _ hok)
    have hfind : known_names_find_pos b.known_names (c.ptr.drop c.pos)
        = known_names_find_pos kn0 (wire_labels (l :: ls)) := by
      rw [← find_pos_cstr, hcs, hkn]
      apply find_pos_append
      intro e he h
      have := hextra e he
      rw [← h, cstr_of_nonzero _ (wire_labels_nonzero _ hok)] at this
      omega
    unfold write_name_loop
    simp only [hfind]
    by_cases hk : known_names_find_pos kn0 (wire_labels (l :: ls)) = 0xFFFF
    · simp only [hk, ne_eq, not_true_eq_false, if_false]
      have hc' : c.ptr.drop c.pos = l.length :: (l ++ wire_labels ls ++ 0 :: rest) := by
        rw [hc]; simp [wire_labels]
      rw [read_u8_eq c (by omega) hclim, peek_of_drop c.ptr c.pos l.length _ hc',
        Nat.mod_eq_of_lt (show l.length < 256 by omega)]
      have hl0 : l.length ≠ 0 := by omega
      simp only [hl0, ne_eq, not_false_eq_true, if_true]
      have hstart : ((adv c 1).pos + 4294967295) % 4294967296 = c.pos := by
        simp only [adv]; omega
      have hexp : known_names_append b ((adv c 1).ptr.drop
          (((adv c 1).pos + 4294967295) % 4294967296)) b.pos
          = register b [{ name := wire_labels (l :: ls), pos := b.pos % 65536 }] := by
        rw [hstart]
        show known_names_append b (c.ptr.drop c.pos) b.pos = _
        unfold known_names_append register
        rw [hc, known_names_expand_wire _ _ _ _ hok (by
          have := length_le_wire (l :: ls)
          simp only [List.length_append, List.length_cons] at this ⊢
          omega)]
      rw [hexp]
      rw [write_u8_eq _ l.length (by simp; omega) (by simpa using hreg) (by simpa using hlim),
        Nat.mod_eq_of_lt (show l.length < 256 by omega)]
      dsimp only
      have hc1 : (adv c 1).ptr.drop (adv c 1).pos = l ++ (wire_labels ls ++ 0 :: rest) := by
        show c.ptr.drop (c.pos + 1) = _
        exact drop_add_of_drop c.ptr c.pos [l.length] _ (by rw [hc']; simp)
      have hregp : ∀ out : List Nat, b.pos + out.length ≤ b.ptr.length →
          (put (register b [{ name := wire_labels (l :: ls), pos := b.pos % 65536 }])
            out).ptr.length = b.ptr.length := by
        intro out ho
        rw [put_length _ _ (by simpa using ho)]; rfl
      rw [write_label_eq l (fun x hx => (h3 x hx).2.2) _ (adv c 1) _ hc1
        (by simp [adv]; omega) (by simp; omega)
        (by rw [hregp _ (by simp; omega)]; simpa using hreg) (by simpa using hlim)]
      dsimp only
      have hpos : 0 < l.length := by omega
      simp only [hpos, gt_iff_lt, if_true]
      rw [put_put _ _ _ (by simp; omega)]
      have hc2 : (adv (adv c 1) l.length).ptr.drop (adv (adv c 1) l.length).pos
          = wire_labels ls ++ 0 :: rest := by
        show c.ptr.drop (c.pos + 1 + l.length) = _
        exact drop_add_of_drop c.ptr (c.pos + 1) l _ hc1
      rw [ih f _ (adv (adv c 1) l.length) rest
        (extra ++ [{ name := wire_labels (l :: ls), pos := b.pos % 65536 }]) hok'
        (by simp at hf; omega) hc2 (by simp [adv]; omega) (by simpa [adv] using hclim)
        (by simp; omega) (by rw [hregp _ (by simp; omega)]; simpa using hreg)
        (by simpa using hlim) (by simp [hkn]) (by
          intro e he
          simp only [List.mem_append, List.mem_singleton] at he
          rcases he with he | he
          · have := hextra e he; omega
          · subst he
            simp only
            rw [cstr_of_nonzero _ (wire_labels_nonzero _ hok)]
            omega)]
      have e1 : put (put (register b
            [{ name := wire_labels (l :: ls), pos := b.pos % 65536 }]) ([l.length] ++ l))
            (name_output kn0 ls)
          = register (put b (([l.length] ++ l) ++ name_output kn0 ls))
            [{ name := wire_labels (l :: ls), pos := b.pos % 65536 }] := by
        have := put_put b ([l.length] ++ l) (name_output kn0 ls) (by simp; omega)
        rw [← this]
        rfl
      rw [e1, register_register]
      simp only [name_output, name_entries, hk, ne_eq, not_true_eq_false, if_false, put_pos,
        register_pos, List.length_append, List.length_singleton, List.singleton_append,
        List.cons_append, List.nil_append, List.length_cons]
      rw [show b.pos + (l.length + 1) = b.pos + 1 + l.length by omega]
    · simp only [hk, ne_eq, not_false_eq_true, if_true, name_output, name_entries]
      rw [write_u16_eq b _ (by omega) hreg hlim, register_nil]
      rfl

theorem dotted_singleton (l : List Nat) : dotted [l] = l := by
  simp [dotted, List.intercalate]

theorem dotted_cons_cons (l l' : List Nat) (ls : List (List Nat)) :
    dotted (l :: l' :: ls) = l ++ 46 :: dotted (l' :: ls) := by
  simp [dotted, List.intercalate]

theorem dotted_length (ls : List (List Nat)) (h : ls ≠ []) :
    (dotted ls).length + 1 = (wire_labels ls).length := by
  induction ls with
  | nil => exact absurd rfl h
  | cons l ls ih =>
    cases ls with
    | nil => simp [dotted_singleton, wire_labels]
    | cons l' ls =>
      have := ih (by simp)
      rw [dotted_cons_cons]
      simp only [wire_labels, List.length_cons, List.length_append] at this ⊢
      omega

theorem dotted_nonzero (ls : List (List Nat)) (hok : ∀ l ∈ ls, label_ok l) :
    ∀ c ∈ dotted ls, c ≠ 0 := by
  induction ls with
  | nil => intro c hc; simp [dotted, List.intercalate] at hc
  | cons l ls ih =>
    cases ls with
    | nil =>
      intro c hc
      rw [dotted_singleton] at hc
      exact ((hok l (by simp)).2.2 c hc).1
    | cons l' ls =>
      intro c hc
      rw [dotted_cons_cons] at hc
      simp only [List.mem_append, List.mem_cons] at hc
      rcases hc with hc | hc | hc
      · exact ((hok l (by simp)).2.2 c hc).1
      · omega
      · exact ih (fun x hx => hok x (by simp [hx])) c hc

theorem strtok_all_dotted (ls : List (List Nat)) (hok : ∀ l ∈ ls, label_ok l) :
    strtok_all (dotted ls) = ls := by
  unfold strtok_all
  by_cases h : ls = []
  · subst h; simp [dotted, List.intercalate, List.splitOn_nil]
  · have hs : (dotted ls).splitOn 46 = ls := by
      unfold dotted
      exact List.splitOn_intercalate ls 46 (fun l hl hm => ((hok l hl).2.2 46 hm).2.1 rfl) h
    rw [hs, List.filter_eq_self]
    intro l hl
    have := (hok l hl).1
    cases l with
    | nil => simp at this
    | cons _ _ => rfl

theorem dots_eq (ls : List (List Nat)) (h : ls ≠ []) : dots ls = dotted ls ++ [46] := by
  induction ls with
  | nil => exact absurd rfl h
  | cons l ls ih =>
    cases ls with
    | nil => simp [dots, dotted_singleton]
    | cons l' ls =>
      rw [dotted_cons_cons]
      simp only [dots] at ih ⊢
      rw [ih (by simp)]
      simp

theorem replicate_drop_last (n : Nat) : (List.replicate (n + 1) 0).drop n = [0] := by
  rw [List.drop_replicate]
  simp

theorem write_name_eq (b : dns_buffer) (ls : List (List Nat)) (hls : ls ≠ [])
    (hok : ∀ l ∈ ls, label_ok l) (hne : names_nonempty b.known_names)
    (hcap : b.pos + (dotted ls).length + 2 ≤ b.capacity) (hreg : b.capacity ≤ b.ptr.length)
    (hlim : b.capacity < 4294967296) :
    DNS_buffer_write_DNS_name b (dotted ls)
      = (true, register (put b (name_output b.known_names ls))
          (name_entries b.known_names b.pos ls)) := by
  have hlen := dotted_length ls hls
  have hn : ((dotted ls).length + 2) % 4294967296 = (wire_labels ls).length + 1 := by
    rw [Nat.mod_eq_of_lt (by omega)]; omega
  have hconv : convert_name ls (DNS_buffer_create ((wire_labels ls).length + 1))
      = put (DNS_buffer_create ((wire_labels ls).length + 1)) (wire_labels ls) :=
    convert_name_eq ls hok _ (by simp [DNS_buffer_create]) (by simp [DNS_buffer_create])
      (by simp [DNS_buffer_create]; omega)
  unfold DNS_buffer_write_DNS_name
  simp only [cstr_of_nonzero _ (dotted_nonzero ls hok), strtok_all_dotted ls hok, hn, hconv,
    put_capacity]
  have hcc : check_capacity b (DNS_buffer_create ((wire_labels ls).length + 1)).capacity
      = true := by
    rw [check_capacity_eq _ _ (by simp [DNS_buffer_create]; omega)]
    simp [DNS_buffer_create]; omega
  simp only [hcc, Bool.not_true, Bool.false_eq_true, if_false]
  have hdrop : ({ put (DNS_buffer_create ((wire_labels ls).length + 1)) (wire_labels ls)
      with pos := 0 } : dns_buffer).ptr.drop 0 = wire_labels ls ++ 0 :: [] := by
    simp only [put, DNS_buffer_create, List.take_zero, List.nil_append, Nat.zero_add,
      List.drop_zero, replicate_drop_last]
  rw [write_name_loop_eq b.known_names hne ls _ b _ [] [] hok
    (by have := length_le_wire ls; simp [DNS_buffer_create]; omega) hdrop
    (by simp [DNS_buffer_create]) (by simp [DNS_buffer_create]; omega) (by omega) hreg hlim
    (by simp) (by simp)]

theorem agrees_left (b : dns_buffer) (x y : List Nat) (h : agrees b (x ++ y)) : agrees b x := by
  intro i hi hc
  rw [h i (by simp; omega) hc, peek_append_left _ _ _ hi]

theorem agrees_right (b b' : dns_buffer) (x y : List Nat) (h : agrees b (x ++ y))
    (hm : moved b x.length b') : agrees b' y := by
  obtain ⟨h1, h2, h3⟩ := hm
  intro i hi hc
  rw [h1, h3, Nat.add_assoc, h (x.length + i) (by simp; omega) (by omega),
    peek_append_right]

theorem agrees_of_moved (b b' : dns_buffer) (x : List Nat) (h : agrees b x)
    (hm : moved b 0 b') : agrees b' x := by
  have := agrees_right b b' [] x (by simpa using h) (by simpa using hm)
  exact this

theorem moved_trans (b b1 b2 : dns_buffer) (m n : Nat) (h1 : moved b m b1)
    (h2 : moved b1 n b2) : moved b (m + n) b2 := by
  obtain ⟨a1, a2, a3⟩ := h1
  obtain ⟨c1, c2, c3⟩ := h2
  exact ⟨by rw [c1, a1], by rw [c2, a2], by rw [c3, a3]; omega⟩

theorem moved_adv (b : dns_buffer) (n : Nat) : moved b n (adv b n) := ⟨rfl, rfl, rfl⟩

theorem read_label_eq (l : List Nat) (hl : ∀ c ∈ l, c < 256) :
    ∀ (b : dns_buffer) (post : List Nat), agrees b (l ++ post) →
      b.pos + l.length ≤ b.capacity → b.capacity < 4294967296 →
      read_label l.length b = (some l, adv b l.length) := by
  induction l with
  | nil => intro b post _ _ _; simp [read_label, adv]
  | cons x l ih =>
    intro b post hag hcap hlim
    simp only [List.length_cons] at hcap ⊢
    have hx : x < 256 := hl x (by simp)
    have hp : peek b.ptr b.pos = x := by
      have := hag 0 (by simp) (by omega)
      rw [Nat.add_zero] at this
      rw [this]
      exact Nat.mod_eq_of_lt hx
    unfold read_label
    rw [read_u8_eq b (by omega) hlim, hp]
    dsimp only
    rw [ih (fun y hy => hl y (by simp [hy])) (adv b 1) post
      (agrees_right b (adv b 1) [x] (l ++ post) (by simpa using hag) (moved_adv b 1))
      (by simp [adv]; omega) (by simpa [adv] using hlim)]
    simp only [adv, Prod.mk.injEq, dns_buffer.mk.injEq, true_and, and_true]
    omega

@[simp] theorem known_names_append_pos (b : dns_buffer) (mem : List Nat) (p : Nat) :
    (known_names_append b mem p).pos = b.pos := rfl

@[simp] theorem known_names_append_ptr (b : dns_buffer) (mem : List Nat) (p : Nat) :
    (known_names_append b mem p).ptr = b.ptr := rfl

@[simp] theorem known_names_append_capacity (b : dns_buffer) (mem : List Nat) (p : Nat) :
    (known_names_append b mem p).capacity = b.capacity := rfl

theorem read_name_loop_labels (ls : List (List Nat)) (tail : List Nat)
    (htail : tail = [0] ∨ ∃ hi lo, tail = [hi, lo] ∧ 192 ≤ hi ∧ hi < 256) :
    ∀ (fuel : Nat) (b : dns_buffer) (acc post : List Nat),
      (∀ l ∈ ls, tag_ok l) → agrees b (wire_labels ls ++ tail ++ post) →
      b.pos ≤ b.capacity → b.capacity + 256 ≤ 4294967296 →
      (b.pos + (wire_labels ls).length + tail.length ≤ b.capacity → ls.length < fuel →
        ∃ x b', read_name_loop fuel b acc = (some x, b') ∧
          moved b ((wire_labels ls).length + tail.length) b' ∧
          (tail = [0] → x = acc ++ dots ls)) ∧
      (b.capacity < b.pos + (wire_labels ls).length + tail.length →
        (read_name_loop fuel b acc).1 = none) := by
  induction ls with
  | nil =>
    intro fuel b acc post _ hag hpos hlim
    simp only [wire_labels, List.nil_append, List.length_nil, Nat.add_zero]
    rcases htail with rfl | ⟨hi, lo, rfl, hhi, hhi2⟩
    · constructor
      · intro hcap hf
        obtain ⟨f, rfl⟩ : ∃ f, fuel = f + 1 := ⟨fuel - 1, by omega⟩
        simp only [List.length_singleton] at hcap
        have hp : peek b.ptr b.pos = 0 := by
          have := hag 0 (by simp [wire_labels]) (by omega)
          rw [Nat.add_zero] at this
          rw [this]; rfl
        unfold read_name_loop
        rw [read_u8_eq b (by omega) (by omega), hp]
        refine ⟨acc, adv b 1, by simp, moved_adv b 1, fun _ => by simp [dots]⟩
      · intro hcap
        simp only [List.length_singleton] at hcap
        cases fuel with
        | zero => rfl
        | succ f =>
          unfold read_name_loop
          rw [read_u8_none b (by omega) (by omega)]
    · have hsh : hi >>> 6 = 3 := by rw [Nat.shiftRight_eq_div_pow]; omega
      have hne : hi ≠ 0 := by omega
      constructor
      · intro hcap hf
        obtain ⟨f, rfl⟩ : ∃ f, fuel = f + 1 := ⟨fuel - 1, by omega⟩
        simp only [List.length_cons, List.length_nil] at hcap
        have hp : peek b.ptr b.pos = hi := by
          have := hag 0 (by simp [wire_labels]) (by omega)
          rw [Nat.add_zero] at this
          rw [this]; exact Nat.mod_eq_of_lt hhi2
        unfold read_name_loop
        rw [read_u8_eq b (by omega) (by omega), hp]
        simp only [hsh, ne_eq, not_true_eq_false, false_and, if_false, if_true]
        rw [read_u8_eq (adv b 1) (by simp [adv]; omega) (by simp [adv]; omega)]
        dsimp only
        cases hfn : known_names_find_name (adv (adv b 1) 1).known_names
            (((hi &&& 63) <<< 4 ||| peek (adv b 1).ptr (adv b 1).pos) % 65536) with
        | none =>
          exact ⟨acc, adv (adv b 1) 1, rfl,
            by simpa [adv_adv] using moved_adv b 2, fun h => by simp at h⟩
        | some name1 =>
          exact ⟨_, adv (adv b 1) 1, rfl,
            by simpa [adv_adv] using moved_adv b 2, fun h => by simp at h⟩
      · intro hcap
        simp only [List.length_cons, List.length_nil] at hcap
        cases fuel with
        | zero => rfl
        | succ f =>
          unfold read_name_loop
          by_cases h1 : b.pos + 1 ≤ b.capacity
          · have hp : peek b.ptr b.pos = hi := by
              have := hag 0 (by simp [wire_labels]) (by omega)
              rw [Nat.add_zero] at this
              rw [this]; exact Nat.mod_eq_of_lt hhi2
            rw [read_u8_eq b (by omega) (by omega), hp]
            simp only [hsh, ne_eq, not_true_eq_false, false_and, if_false, if_true]
            rw [read_u8_none (adv b 1) (by simp [adv]; omega) (by simp [adv]; omega)]
          · rw [read_u8_none b (by omega) (by omega)]
  | cons l ls ih =>
    intro fuel b acc post hok hag hpos hlim
    obtain ⟨h1, h2, h3⟩ := hok l (by simp)
    have hok' : ∀ x ∈ ls, tag_ok x := fun x hx => hok x (by simp [hx])
    have hwl : (wire_labels (l :: ls)).length = 1 + l.length + (wire_labels ls).length := by
      simp only [wire_labels, List.length_cons, List.length_append]; omega
    rw [hwl]
    have hsh : ¬ (l.length >>> 6 = 3) := by rw [Nat.shiftRight_eq_div_pow]; omega
    have hne : l.length ≠ 0 := by omega
    have henc : wire_labels (l :: ls) ++ tail ++ post
        = [l.length] ++ (l ++ (wire_labels ls ++ tail ++ post)) := by
      simp [wire_labels]
    rw [henc] at hag
    obtain ⟨b2, hb2, hstep⟩ : ∃ b2 : dns_buffer, moved b 1 b2 ∧
        ∀ fuel : Nat, b.pos + 1 + l.length ≤ b.capacity →
          read_name_loop (fuel + 1) b acc
            = read_name_loop fuel (adv b2 l.length) (acc ++ l ++ [46]) := by
      refine ⟨known_names_append (adv b 1)
        ((adv b 1).ptr.drop (((adv b 1).pos + 4294967295) % 4294967296))
        (((adv b 1).pos + 4294967295) % 4294967296), ⟨rfl, rfl, rfl⟩, ?_⟩
      intro fuel hc
      have hp : peek b.ptr b.pos = l.length := by
        have := hag 0 (by simp) (by omega)
        rw [Nat.add_zero] at this
        rw [this]; show l.length % 256 = l.length; exact Nat.mod_eq_of_lt (by omega)
      conv => lhs; unfold read_name_loop
      rw [read_u8_eq b (by omega) (by omega), hp]
      simp only [hsh, hne, ne_eq, not_false_eq_true, and_self, if_true]
      rw [check_capacity_eq _ _ (by simp [adv]; omega)]
      have hcc : (adv b 1).pos + l.length ≤ (adv b 1).capacity := by simp [adv]; omega
      simp only [hcc, decide_True, if_true]
      rw [read_label_eq l (fun x hx => h3 x hx) (known_names_append (adv b 1)
        ((adv b 1).ptr.drop (((adv b 1).pos + 4294967295) % 4294967296))
        (((adv b 1).pos + 4294967295) % 4294967296)) (wire_labels ls ++ tail ++ post)
        (agrees_right b _ [l.length] _ hag ⟨rfl, rfl, rfl⟩)
        (by simp [adv]; omega) (by simp [adv]; omega)]
    have hm2 : moved b (1 + l.length) (adv b2 l.length) :=
      moved_trans b b2 _ 1 l.length hb2 (moved_adv b2 l.length)
    have hag' : agrees (adv b2 l.length) (wire_labels ls ++ tail ++ post) :=
      agrees_right b (adv b2 l.length) ([l.length] ++ l)
        (wire_labels ls ++ tail ++ post) (by simpa using hag) (by simpa [Nat.add_comm] using hm2)
    obtain ⟨m1, m2, m3⟩ := hm2
    constructor
    · intro hcap hf
      obtain ⟨f, rfl⟩ : ∃ f, fuel = f + 1 := ⟨fuel - 1, by simp at hf; omega⟩
      rw [hstep f (by omega)]
      obtain ⟨x, b', hr, hm, hx⟩ := (ih f _ (acc ++ l ++ [46]) post hok' hag'
        (by rw [m2, m3]; omega) (by rw [m2]; exact hlim)).1
        (by rw [m2, m3]; omega) (by simp at hf; omega)
      refine ⟨x, b', hr, ?_, ?_⟩
      · obtain ⟨n1, n2, n3⟩ := hm
        exact ⟨by rw [n1, m1], by rw [n2, m2], by rw [n3, m3]; omega⟩
      · intro ht
        rw [hx ht]
        simp [dots]
    · intro hcap
      cases fuel with
      | zero => rfl
      | succ f =>
        by_cases hc1 : b.pos + 1 + l.length ≤ b.capacity
        · rw [hstep f hc1]
          exact (ih f _ (acc ++ l ++ [46]) post hok' hag'
            (by rw [m2, m3]; omega) (by rw [m2]; exact hlim)).2 (by rw [m2, m3]; omega)
        · unfold read_name_loop
          by_cases hc0 : b.pos + 1 ≤ b.capacity
          · have hp : peek b.ptr b.pos = l.length := by
              have := hag 0 (by simp) (by omega)
              rw [Nat.add_zero] at this
              rw [this]; show l.length % 256 = l.length; exact Nat.mod_eq_of_lt (by omega)
            rw [read_u8_eq b (by omega) (by omega), hp]
            simp only [hsh, hne, ne_eq, not_false_eq_true, and_self, if_true]
            rw [check_capacity_eq _ _ (by simp [adv]; omega)]
            have hcc : ¬ ((adv b 1).pos + l.length ≤ (adv b 1).capacity) := by
              simp [adv]; omega
            simp [hcc]
          · rw [read_u8_none b (by omega) (by omega)]

theorem tag_ok_of_label_ok (l : List Nat) (h : label_ok l) : tag_ok l :=
  ⟨h.1, by have := h.2.1; omega, fun c hc => (h.2.2 c hc).2.2⟩

theorem read_name_loop_shape (ls : List (List Nat)) (tail : List Nat)
    (htail : tail = [0] ∨ ∃ hi lo, tail = [hi, lo] ∧ 192 ≤ hi ∧ hi < 256) :
    ∀ (fuel : Nat) (b : dns_buffer) (acc post : List Nat),
      (∀ l ∈ ls, label_ok l) → agrees b (wire_labels ls ++ tail ++ post) →
      b.pos ≤ b.capacity → b.capacity + 256 ≤ 4294967296 →
      (b.pos + (wire_labels ls).length + tail.length ≤ b.capacity → ls.length < fuel →
        ∃ x b', read_name_loop fuel b acc = (some x, b') ∧
          moved b ((wire_labels ls).length + tail.length) b' ∧
          (tail = [0] → x = acc ++ dots ls)) ∧
      (b.capacity < b.pos + (wire_labels ls).length + tail.length →
        (read_name_loop fuel b acc).1 = none) :=
  fun fuel b acc post hok =>
    read_name_loop_labels ls tail htail fuel b acc post
      (fun l hl => tag_ok_of_label_ok l (hok l hl))

theorem name_output_none (kn : List known_name_t) (ls : List (List Nat))
    (h : ∀ i < ls.length, known_names_find_pos kn (wire_labels (ls.drop i)) = 0xFFFF) :
    name_output kn ls = wire_labels ls ++ [0] := by
  induction ls with
  | nil => rfl
  | cons l ls ih =>
    have h0 := h 0 (by simp)
    simp only [List.drop_zero] at h0
    unfold name_output
    rw [if_neg (fun hh => hh h0),
      ih (fun i hi => by simpa using h (i + 1) (by simpa using hi))]
    simp [wire_labels]

theorem name_output_first (kn : List known_name_t) (ls : List (List Nat)) :
    ∀ i, i < ls.length →
      (∀ j < i, known_names_find_pos kn (wire_labels (ls.drop j)) = 0xFFFF) →
      known_names_find_pos kn (wire_labels (ls.drop i)) ≠ 0xFFFF →
      name_output kn ls = wire_labels (ls.take i) ++
        pointer_octets (known_names_find_pos kn (wire_labels (ls.drop i))) := by
  induction ls with
  | nil => intro i hi; simp at hi
  | cons l ls ih =>
    intro i hi hbefore hat
    cases i with
    | zero =>
      simp only [List.drop_zero] at hat
      unfold name_output
      rw [if_pos hat]
      simp [wire_labels]
    | succ i =>
      have h0 := hbefore 0 (by omega)
      simp only [List.drop_zero] at h0
      unfold name_output
      rw [if_neg (fun hh => hh h0),
        ih i (by simpa using hi) (fun j hj => by simpa using hbefore (j + 1) (by omega))
          (by simpa using hat)]
      simp [wire_labels]

theorem find_pos_nil (name : List Nat) : known_names_find_pos [] name = 0xFFFF := rfl

theorem write_u8_capacity (b : dns_buffer) (v : Nat) :
    (DNS_buffer_write_u8 b v).2.capacity = b.capacity := by
  unfold DNS_buffer_write_u8
  split <;> rfl

theorem foldl_write_u8_capacity (tok : List Nat) :
    ∀ c : dns_buffer,
      (tok.foldl (fun c0 ch => (DNS_buffer_write_u8 c0 ch).2) c).capacity = c.capacity := by
  induction tok with
  | nil => intro c; rfl
  | cons x tok ih => intro c; simp only [List.foldl]; rw [ih, write_u8_capacity]

theorem convert_name_capacity (ls : List (List Nat)) :
    ∀ c : dns_buffer, (convert_name ls c).capacity = c.capacity := by
  induction ls with
  | nil => intro c; rfl
  | cons l ls ih =>
    intro c
    simp only [convert_name]
    rw [ih, foldl_write_u8_capacity, write_u8_capacity]

theorem write_name_fail (b : dns_buffer) (name : List Nat)
    (hcap : b.capacity < b.pos + (cstr name).length + 2)
    (hlim : b.pos + (cstr name).length + 2 < 4294967296) :
    DNS_buffer_write_DNS_name b name = (false, b) := by
  unfold DNS_buffer_write_DNS_name
  simp only [convert_name_capacity]
  have hn : ((cstr name).length + 2) % 4294967296 = (cstr name).length + 2 :=
    Nat.mod_eq_of_lt (by omega)
  have hcc : check_capacity b (DNS_buffer_create (((cstr name).length + 2) % 4294967296)).capacity
      = false := by
    rw [hn, check_capacity_eq _ _ (by simp [DNS_buffer_create]; omega)]
    simp [DNS_buffer_create]; omega
  simp [hcc]

theorem name_ok_cstr (name : List Nat) (hn : name_ok name) : cstr name = name := by
  obtain ⟨_, _, hok, hd⟩ := hn
  rw [hd]
  exact cstr_of_nonzero _ (dotted_nonzero _ hok)

theorem with_known_names_register (b : dns_buffer) (es : List known_name_t) :
    register b es = with_known_names b (b.known_names ++ es) := rfl

theorem write_name_cases (b : dns_buffer) (name : List Nat) (hn : name_ok name)
    (hne : names_nonempty b.known_names) (hreg : b.capacity ≤ b.ptr.length)
    (hlim : b.capacity ≤ 65535) (hpos : b.pos ≤ b.capacity + 2) :
    (b.pos + name.length + 2 ≤ b.capacity →
      DNS_buffer_write_DNS_name b name
        = (true, with_known_names (put b (enc_name b.known_names b.pos name).1)
            (enc_name b.known_names b.pos name).2)) ∧
    (b.capacity < b.pos + name.length + 2 →
      DNS_buffer_write_DNS_name b name = (false, b)) := by
  have hc := name_ok_cstr name hn
  obtain ⟨hlen, hls, hok, hd⟩ := hn
  constructor
  · intro hcap
    have := write_name_eq b (strtok_all name) hls hok hne (by rw [← hd]; exact hcap) hreg
      (by omega)
    rw [← hd] at this
    rw [this]
    simp only [enc_name, hc]
    rfl
  · intro hcap
    exact write_name_fail b name (by rw [hc]; exact hcap) (by rw [hc]; omega)

theorem write_u16_cases (b : dns_buffer) (v : Nat) (hreg : b.capacity ≤ b.ptr.length)
    (hlim : b.capacity ≤ 65535) (hpos : b.pos ≤ b.capacity + 2) :
    (b.pos + 2 ≤ b.capacity → DNS_buffer_write_u16 b v = (true, put b (be16 v))) ∧
    (b.capacity < b.pos + 2 → DNS_buffer_write_u16 b v = (false, b)) := by
  constructor
  · intro h
    exact write_u16_eq b v h hreg (by omega)
  · intro h
    unfold DNS_buffer_write_u16
    rw [check_capacity_eq b 2 (by omega)]
    simp [Nat.not_le.mpr h]

theorem write_u32_cases (b : dns_buffer) (v : Nat) (hreg : b.capacity ≤ b.ptr.length)
    (hlim : b.capacity ≤ 65535) (hpos : b.pos ≤ b.capacity + 2) :
    (b.pos + 4 ≤ b.capacity → DNS_buffer_write_u32 b v = (true, put b (be32 v))) ∧
    (b.capacity < b.pos + 4 → DNS_buffer_write_u32 b v = (false, b)) := by
  constructor
  · intro h
    exact write_u32_eq b v h hreg (by omega)
  · intro h
    unfold DNS_buffer_write_u32
    rw [check_capacity_eq b 4 (by omega)]
    simp [Nat.not_le.mpr h]

@[simp] theorem with_known_names_pos (b : dns_buffer) (kn : List known_name_t) :
    (with_known_names b kn).pos = b.pos := rfl

@[simp] theorem with_known_names_ptr (b : dns_buffer) (kn : List known_name_t) :
    (with_known_names b kn).ptr = b.ptr := rfl

@[simp] theorem with_known_names_capacity (b : dns_buffer) (kn : List known_name_t) :
    (with_known_names b kn).capacity = b.capacity := rfl

@[simp] theorem with_known_names_known_names (b : dns_buffer) (kn : List known_name_t) :
    (with_known_names b kn).known_names = kn := rfl

theorem with_known_names_twice (b : dns_buffer) (k1 k2 : List known_name_t) :
    with_known_names (with_known_names b k1) k2 = with_known_names b k2 := rfl

theorem with_known_names_self (b : dns_buffer) : with_known_names b b.known_names = b := by
  cases b; rfl

theorem put_with_known_names (b : dns_buffer) (kn : List known_name_t) (out : List Nat) :
    put (with_known_names b kn) out = with_known_names (put b out) kn := rfl

/-- Writing `y` after `x` was written and the table replaced. -/
theorem put_after (b : dns_buffer) (kn : List known_name_t) (x y : List Nat)
    (h : b.pos + x.length ≤ b.ptr.length) :
    put (with_known_names (put b x) kn) y = with_known_names (put b (x ++ y)) kn := by
  rw [put_with_known_names, put_put b x y h]

theorem pointer_octets_len (p : Nat) : (pointer_octets p).length = 2 := rfl

theorem name_output_length_le (kn : List known_name_t) (ls : List (List Nat))
    (hok : ∀ l ∈ ls, label_ok l) :
    (name_output kn ls).length ≤ (wire_labels ls).length + 1 := by
  induction ls with
  | nil => simp [name_output, wire_labels]
  | cons l ls ih =>
    have h1 := (hok l (by simp)).1
    unfold name_output
    split
    · simp only [pointer_octets_len, wire_labels, List.length_cons, List.length_append]
      omega
    · have := ih (fun x hx => hok x (by simp [hx]))
      simp only [wire_labels, List.length_cons, List.length_append]
      omega

theorem enc_name_length_le (kn : List known_name_t) (pos : Nat) (name : List Nat)
    (hn : name_ok name) : (enc_name kn pos name).1.length ≤ name.length + 2 := by
  have hc := name_ok_cstr name hn
  obtain ⟨hlen, hls, hok, hd⟩ := hn
  have h1 := name_output_length_le kn (strtok_all name) hok
  have h2 := dotted_length (strtok_all name) hls
  rw [← hd] at h2
  simp only [enc_name, hc]
  omega

theorem name_entries_nonempty (kn : List known_name_t) (ls : List (List Nat))
    (hok : ∀ l ∈ ls, label_ok l) :
    ∀ pos, names_nonempty (name_entries kn pos ls) := by
  induction ls with
  | nil => intro pos e he; simp [name_entries] at he
  | cons l ls ih =>
    intro pos e he
    unfold name_entries at he
    split at he
    · simp at he
    · simp only [List.mem_cons] at he
      rcases he with rfl | he
      · simp only
        rw [cstr_of_nonzero _ (wire_labels_nonzero _ hok)]
        simp [wire_labels]
      · exact ih (fun x hx => hok x (by simp [hx])) _ e he

theorem enc_name_nonempty (kn : List known_name_t) (pos : Nat) (name : List Nat)
    (hn : name_ok name) (hkn : names_nonempty kn) : names_nonempty (enc_name kn pos name).2 := by
  have hc := name_ok_cstr name hn
  obtain ⟨hlen, hls, hok, hd⟩ := hn
  intro e he
  simp only [enc_name, hc, List.mem_append] at he
  rcases he with he | he
  · exact hkn e he
  · exact name_entries_nonempty kn _ hok pos e he

/-- A write of a name that follows the octets `x` written from `b` on. -/
theorem write_name_after (b : dns_buffer) (x : List Nat) (kn : List known_name_t)
    (name : List Nat) (w : dns_buffer) (hn : name_ok name) (hkn : names_nonempty kn)
    (hreg : b.capacity ≤ b.ptr.length) (hlim : b.capacity ≤ 65535)
    (hx : b.pos + x.length ≤ b.capacity + 2) (hxr : b.pos + x.length ≤ b.ptr.length)
    (h : DNS_buffer_write_DNS_name (with_known_names (put b x) kn) name = (true, w)) :
    w = with_known_names (put b (x ++ (enc_name kn (b.pos + x.length) name).1))
          (enc_name kn (b.pos + x.length) name).2 ∧
    b.pos + x.length + name.length + 2 ≤ b.capacity := by
  have hc := write_name_cases (with_known_names (put b x) kn) name hn hkn
    (by simp only [with_known_names_capacity, with_known_names_ptr, put_capacity]
        rw [put_length _ _ hxr]; exact hreg)
    (by simpa using hlim) (by simpa using hx)
  by_cases hcap : b.pos + x.length + name.length + 2 ≤ b.capacity
  · rw [hc.1 (by simpa using hcap)] at h
    simp only [Prod.mk.injEq, true_and] at h
    rw [← h]
    simp only [with_known_names_known_names, with_known_names_pos, put_pos]
    rw [put_after _ _ _ _ hxr]
    exact ⟨rfl, hcap⟩
  · rw [hc.2 (by simp; omega)] at h
    simp at h

/-- A write of a 16-bit value that follows the octets `x` written from `b` on. -/
theorem write_u16_after (b : dns_buffer) (x : List Nat) (kn : List known_name_t)
    (v : Nat) (w : dns_buffer)
    (hreg : b.capacity ≤ b.ptr.length) (hlim : b.capacity ≤ 65535)
    (hx : b.pos + x.length ≤ b.capacity + 2) (hxr : b.pos + x.length ≤ b.ptr.length)
    (h : DNS_buffer_write_u16 (with_known_names (put b x) kn) v = (true, w)) :
    w = with_known_names (put b (x ++ be16 v)) kn ∧ b.pos + x.length + 2 ≤ b.capacity := by
  have hc := write_u16_cases (with_known_names (put b x) kn) v
    (by simp only [with_known_names_capacity, with_known_names_ptr, put_capacity]
        rw [put_length _ _ hxr]; exact hreg)
    (by simpa using hlim) (by simpa using hx)
  by_cases hcap : b.pos + x.length + 2 ≤ b.capacity
  · rw [hc.1 (by simpa using hcap)] at h
    simp only [Prod.mk.injEq, true_and] at h
    rw [← h, put_after _ _ _ _ hxr]
    exact ⟨rfl, hcap⟩
  · rw [hc.2 (by simp; omega)] at h
    simp at h

/-- A write of a 32-bit value that follows the octets `x` written from `b` on. -/
theorem write_u32_after (b : dns_buffer) (x : List Nat) (kn : List known_name_t)
    (v : Nat) (w : dns_buffer)
    (hreg : b.capacity ≤ b.ptr.length) (hlim : b.capacity ≤ 65535)
    (hx : b.pos + x.length ≤ b.capacity + 2) (hxr : b.pos + x.length ≤ b.ptr.length)
    (h : DNS_buffer_write_u32 (with_known_names (put b x) kn) v = (true, w)) :
    w = with_known_names (put b (x ++ be32 v)) kn ∧ b.pos + x.length + 4 ≤ b.capacity := by
  have hc := write_u32_cases (with_known_names (put b x) kn) v
    (by simp only [with_known_names_capacity, with_known_names_ptr, put_capacity]
        rw [put_length _ _ hxr]; exact hreg)
    (by simpa using hlim) (by simpa using hx)
  by_cases hcap : b.pos + x.length + 4 ≤ b.capacity
  · rw [hc.1 (by simpa using hcap)] at h
    simp only [Prod.mk.injEq, true_and] at h
    rw [← h, put_after _ _ _ _ hxr]
    exact ⟨rfl, hcap⟩
  · rw [hc.2 (by simp; omega)] at h
    simp at h

theorem start_state (b : dns_buffer) (h : b.pos ≤ b.ptr.length) :
    b = with_known_names (put b []) b.known_names := by
  rw [put_nil b h, with_known_names_self]

theorem write_query_true (b : dns_buffer) (q : dns_query_t) (w : dns_buffer)
    (hq : query_ok q) (hb : buffer_ok b) (h : DNS_buffer_write_query b q = (true, w)) :
    w = with_known_names (put b (enc_query b.known_names b.pos q).1)
          (enc_query b.known_names b.pos q).2 ∧
    b.pos + (enc_query b.known_names b.pos q).1.length ≤ b.capacity := by
  obtain ⟨hpos, hreg, hlim, hne⟩ := hb
  obtain ⟨hn, _, _⟩ := hq
  unfold DNS_buffer_write_query at h
  rw [start_state b (by omega)] at h
  cases h1 : DNS_buffer_write_DNS_name (with_known_names (put b []) b.known_names) q.name with
  | mk r1 b1 =>
    rw [h1] at h
    cases r1 with
    | false => simp at h
    | true =>
      obtain ⟨e1, c1⟩ := write_name_after b [] b.known_names q.name b1 hn hne hreg hlim
        (by simp; omega) (by simp; omega) h1
      simp only [List.nil_append, List.length_nil, Nat.add_zero] at e1 c1
      have hl1 := enc_name_length_le b.known_names b.pos q.name hn
      subst e1
      dsimp only at h
      cases h2 : DNS_buffer_write_u16 (with_known_names
          (put b (enc_name b.known_names b.pos q.name).1)
          (enc_name b.known_names b.pos q.name).2) q.type with
      | mk r2 b2 =>
        rw [h2] at h
        cases r2 with
        | false => simp at h
        | true =>
          obtain ⟨e2, c2⟩ := write_u16_after b _ _ q.type b2 hreg hlim (by omega) (by omega) h2
          subst e2
          dsimp only at h
          obtain ⟨e3, c3⟩ := write_u16_after b _ _ q.class_ w hreg hlim
            (by simp [be16]; omega) (by simp [be16]; omega) h
          simp only [List.length_append, be16, List.length_cons, List.length_nil] at c3
          refine ⟨by rw [e3]; simp [enc_query, be16], ?_⟩
          simp only [enc_query, List.length_append, be16, List.length_cons, List.length_nil]
          omega

theorem write_RR_data_true (s : dns_buffer) (type : Nat) (data : List Nat) (w : dns_buffer)
    (ht : type < 65536) (hd : rdata_ok type data) (hne : names_nonempty s.known_names)
    (hreg : s.capacity ≤ s.ptr.length) (hlim : s.capacity ≤ 65535)
    (hpos : s.pos ≤ s.capacity + 2)
    (h : write_RR_data s type data = (true, w)) :
    w = with_known_names (put s (enc_rdata s.known_names s.pos type data).1)
          (enc_rdata s.known_names s.pos type data).2 ∧
    s.pos + (enc_rdata s.known_names s.pos type data).1.length ≤ s.capacity := by
  have htm : type % 65536 = type := Nat.mod_eq_of_lt ht
  unfold write_RR_data at h
  unfold enc_rdata
  unfold rdata_ok at hd
  rw [htm] at h ⊢
  by_cases hin : s.pos ≤ s.capacity
  · by_cases h1 : type = 1
    · simp only [h1, if_true] at h ⊢
      rw [start_state s (by omega)] at h
      obtain ⟨e, c⟩ := write_u32_after s [] _ _ w hreg hlim (by simp; omega) (by simp; omega) h
      simp only [List.nil_append, List.length_nil, Nat.add_zero] at e c
      exact ⟨by rw [e], by simp [be32]; omega⟩
    · simp only [h1, if_false] at h hd ⊢
      by_cases h15 : type = 15
      · simp only [h15, if_true] at h hd ⊢
        cases hsc : sscanf_hd_s data with
        | none =>
          rw [hsc] at h hd
          dsimp only at h hd ⊢
          rw [start_state s (by omega)] at h
          cases h2 : DNS_buffer_write_u16 (with_known_names (put s []) s.known_names) 0 with
          | mk r2 b2 =>
            rw [h2] at h
            cases r2 with
            | false => simp at h
            | true =>
              obtain ⟨e2, c2⟩ := write_u16_after s [] _ 0 b2 hreg hlim (by simp; omega)
                (by simp; omega) h2
              subst e2
              dsimp only at h
              obtain ⟨e3, c3⟩ := write_name_after s _ _ data w hd hne hreg hlim
                (by simp [be16]; omega) (by simp [be16]; omega) h
              have hl := enc_name_length_le s.known_names (s.pos + 2) data hd
              simp only [List.nil_append, be16, List.length_cons, List.length_nil] at e3 c3
              refine ⟨by rw [e3]; simp [be16], ?_⟩
              simp only [List.length_append, be16, List.length_cons, List.length_nil]
              omega
        | some pn =>
          obtain ⟨pref, name⟩ := pn
          rw [hsc] at h hd
          dsimp only at h hd ⊢
          rw [start_state s (by omega)] at h
          cases h2 : DNS_buffer_write_u16 (with_known_names (put s []) s.known_names) pref with
          | mk r2 b2 =>
            rw [h2] at h
            cases r2 with
            | false => simp at h
            | true =>
              obtain ⟨e2, c2⟩ := write_u16_after s [] _ pref b2 hreg hlim (by simp; omega)
                (by simp; omega) h2
              subst e2
              dsimp only at h
              obtain ⟨e3, c3⟩ := write_name_after s _ _ name w hd hne hreg hlim
                (by simp [be16]; omega) (by simp [be16]; omega) h
              have hl := enc_name_length_le s.known_names (s.pos + 2) name hd
              simp only [List.nil_append, be16, List.length_cons, List.length_nil] at e3 c3
              refine ⟨by rw [e3]; simp [be16], ?_⟩
              simp only [List.length_append, be16, List.length_cons, List.length_nil]
              omega
      · simp only [h15, if_false] at h hd ⊢
        rw [start_state s (by omega)] at h
        obtain ⟨e, c⟩ := write_name_after s [] _ data w hd hne hreg hlim (by simp; omega)
          (by simp; omega) h
        have hl := enc_name_length_le s.known_names s.pos data hd
        simp only [List.nil_append, List.length_nil, Nat.add_zero] at e c
        exact ⟨e, by omega⟩
  · exfalso
    by_cases h1 : type = 1
    · simp only [h1, if_true] at h
      rw [(write_u32_cases s _ hreg hlim hpos).2 (by omega)] at h
      simp at h
    · simp only [h1, if_false] at h hd
      by_cases h15 : type = 15
      · simp only [h15, if_true] at h hd
        cases hsc : sscanf_hd_s data with
        | none =>
          rw [hsc] at h
          dsimp only at h
          rw [(write_u16_cases s _ hreg hlim hpos).2 (by omega)] at h
          simp at h
        | some pn =>
          obtain ⟨pref, name⟩ := pn
          rw [hsc] at h
          dsimp only at h
          rw [(write_u16_cases s _ hreg hlim hpos).2 (by omega)] at h
          simp at h
      · simp only [h15, if_false] at h hd
        rw [(write_name_cases s data hd hne hreg hlim hpos).2 (by omega)] at h
        simp at h

@[simp] theorem adv_pos (s : dns_buffer) (n : Nat) : (adv s n).pos = s.pos + n := rfl

@[simp] theorem adv_ptr (s : dns_buffer) (n : Nat) : (adv s n).ptr = s.ptr := rfl

@[simp] theorem adv_capacity (s : dns_buffer) (n : Nat) : (adv s n).capacity = s.capacity := rfl

@[simp] theorem adv_known_names (s : dns_buffer) (n : Nat) :
    (adv s n).known_names = s.known_names := rfl

theorem adv_eq_put (s : dns_buffer) (n : Nat) (h : s.pos + n ≤ s.ptr.length) :
    adv s n = put s ((s.ptr.drop s.pos).take n) := by
  have hl : ((s.ptr.drop s.pos).take n).length = n := by
    simp; omega
  unfold adv put
  rw [hl]
  congr 1
  rw [List.append_assoc, ← List.drop_drop, List.take_append_drop, List.take_append_drop]

/-- The length field of a record: skipped, then stored once the RDATA `R` is written. -/
theorem patch_length (s : dns_buffer) (R : List Nat) (kn : List known_name_t) (len : Nat)
    (hcap : s.pos + 2 + R.length ≤ s.capacity) (hreg : s.capacity ≤ s.ptr.length)
    (hlim : s.capacity ≤ 65535) :
    ({ (DNS_buffer_write_u16 { with_known_names (put (adv s 2) R) kn with pos := s.pos } len).2
        with pos := (with_known_names (put (adv s 2) R) kn).pos } : dns_buffer)
      = with_known_names (put s (be16 len ++ R)) kn := by
  have hl : (put (adv s 2) R).ptr.length = s.ptr.length := by
    rw [put_length _ _ (by simp; omega)]; rfl
  rw [write_u16_eq _ len (by simp; omega) (by simp [hl]; omega) (by simp; omega)]
  have h1 : (List.take s.pos s.ptr).length = s.pos := by simp; omega
  simp only [put, adv, with_known_names, List.length_cons, List.length_nil, be16,
    List.length_append]
  have e1 : List.take s.pos (List.take (s.pos + 2) s.ptr ++ R ++
      List.drop (s.pos + 2 + R.length) s.ptr) = List.take s.pos s.ptr := by
    rw [List.append_assoc, List.take_append_of_le_length (by simp; omega), List.take_take]
    congr 1
    omega
  have e2 : List.drop (s.pos + (0 + 1 + 1)) (List.take (s.pos + 2) s.ptr ++ R ++
      List.drop (s.pos + 2 + R.length) s.ptr) = R ++ List.drop (s.pos + 2 + R.length) s.ptr := by
    rw [List.append_assoc, List.drop_append_eq_append_drop]
    have : (List.take (s.pos + 2) s.ptr).length = s.pos + 2 := by simp; omega
    rw [this, List.drop_eq_nil_of_le (by omega)]
    simp
  rw [e1, e2]
  have e3 : s.pos + (0 + 1 + 1 + R.length) = s.pos + 2 + R.length := by omega
  rw [e3]
  simp only [List.append_assoc]

theorem write_RR_true (b : dns_buffer) (r : dns_rr_t) (w : dns_buffer)
    (hr : rr_ok r) (hb : buffer_ok b) (h : DNS_buffer_write_RR b r = (true, w)) :
    w = with_known_names (put b (enc_rr b.known_names b.pos r).1)
          (enc_rr b.known_names b.pos r).2 ∧
    b.pos + (enc_rr b.known_names b.pos r).1.length ≤ b.capacity := by
  obtain ⟨hpos, hreg, hlim, hne⟩ := hb
  obtain ⟨hn, ht, _, _, hd⟩ := hr
  unfold DNS_buffer_write_RR at h
  rw [start_state b (by omega)] at h
  cases h1 : DNS_buffer_write_DNS_name (with_known_names (put b []) b.known_names) r.name with
  | mk r1 b1 =>
    rw [h1] at h
    cases r1 with
    | false => simp at h
    | true =>
      obtain ⟨e1, c1⟩ := write_name_after b [] b.known_names r.name b1 hn hne hreg hlim
        (by simp; omega) (by simp; omega) h1
      simp only [List.nil_append, List.length_nil, Nat.add_zero] at e1 c1
      have hl1 := enc_name_length_le b.known_names b.pos r.name hn
      have hne1 := enc_name_nonempty b.known_names b.pos r.name hn hne
      subst e1
      dsimp only at h
      cases h2 : DNS_buffer_write_u16 (with_known_names
          (put b (enc_name b.known_names b.pos r.name).1)
          (enc_name b.known_names b.pos r.name).2) r.type with
      | mk r2 b2 =>
        rw [h2] at h
        cases r2 with
        | false => simp at h
        | true =>
          obtain ⟨e2, c2⟩ := write_u16_after b _ _ r.type b2 hreg hlim (by omega) (by omega) h2
          subst e2
          dsimp only at h
          cases h3 : DNS_buffer_write_u16 (with_known_names
              (put b ((enc_name b.known_names b.pos r.name).1 ++ be16 r.type))
              (enc_name b.known_names b.pos r.name).2) r.class_ with
          | mk r3 b3 =>
            rw [h3] at h
            cases r3 with
            | false => simp at h
            | true =>
              obtain ⟨e3, c3⟩ := write_u16_after b _ _ r.class_ b3 hreg hlim
                (by simp [be16]; omega) (by simp [be16]; omega) h3
              simp only [List.length_append, be16, List.length_cons, List.length_nil] at c3
              subst e3
              dsimp only at h
              cases h4 : DNS_buffer_write_u32 (with_known_names
                  (put b ((enc_name b.known_names b.pos r.name).1 ++ be16 r.type ++ be16 r.class_))
                  (enc_name b.known_names b.pos r.name).2) r.ttl with
              | mk r4 b4 =>
                rw [h4] at h
                cases r4 with
                | false => simp at h
                | true =>
                  obtain ⟨e4, c4⟩ := write_u32_after b _ _ r.ttl b4 hreg hlim
                    (by simp [be16]; omega) (by simp [be16]; omega) h4
                  simp only [List.length_append, be16, List.length_cons, List.length_nil] at c4
                  have hp4 : b4.pos = b.pos + (enc_name b.known_names b.pos r.name).1.length + 8 := by
                    rw [e4]; simp [be16, be32]; omega
                  have hc4 : b4.capacity = b.capacity := by rw [e4]; rfl
                  have hl4 : b4.ptr.length = b.ptr.length := by
                    rw [e4]
                    simp only [with_known_names_ptr]
                    rw [put_length _ _ (by simp [be16, be32]; omega)]
                  have hk4 : b4.known_names = (enc_name b.known_names b.pos r.name).2 := by
                    rw [e4]; rfl
                  dsimp only at h
                  have hmod : (b4.pos + 2) % 4294967296 = b4.pos + 2 :=
                    Nat.mod_eq_of_lt (by omega)
                  rw [hmod] at h
                  cases h5 : write_RR_data { b4 with pos := b4.pos + 2 } r.type r.data with
                  | mk r5 b6 =>
                    rw [h5] at h
                    cases r5 with
                    | false => simp at h
                    | true =>
                      obtain ⟨e6, c6⟩ := write_RR_data_true (adv b4 2) r.type r.data b6 ht hd
                        (by simpa [hk4] using hne1) (by simp [hc4, hl4]; omega)
                        (by simp [hc4]; omega) (by simp [hc4]; omega) h5
                      simp only [adv_pos, adv_capacity, adv_known_names, hk4, hp4, hc4] at e6 c6
                      dsimp only at h
                      simp only [Prod.mk.injEq, true_and] at h
                      have hpatch := patch_length b4
                        (enc_rdata (enc_name b.known_names b.pos r.name).2
                          (b.pos + (enc_name b.known_names b.pos r.name).1.length + 8 + 2)
                          r.type r.data).1
                        (enc_rdata (enc_name b.known_names b.pos r.name).2
                          (b.pos + (enc_name b.known_names b.pos r.name).1.length + 8 + 2)
                          r.type r.data).2
                        ((b6.pos + 4294967296 + 4294967296 - b4.pos - 2) % 65536)
                        (by rw [hc4, hp4]; omega) (by rw [hc4, hl4]; exact hreg)
                        (by rw [hc4]; exact hlim)
                      rw [← e6] at hpatch
                      have hw : w = _ := h.symm.trans hpatch
                      have hp6 : b6.pos = b4.pos + 2 + (enc_rdata (enc_name b.known_names b.pos r.name).2
                          (b.pos + (enc_name b.known_names b.pos r.name).1.length + 8 + 2)
                          r.type r.data).1.length := by
                        rw [e6]; rfl
                      have hlen : be16 ((b6.pos + 4294967296 + 4294967296 - b4.pos - 2) % 65536)
                          = be16 (enc_rdata (enc_name b.known_names b.pos r.name).2
                          (b.pos + (enc_name b.known_names b.pos r.name).1.length + 8 + 2)
                          r.type r.data).1.length := by
                        rw [hp6]
                        simp only [be16]
                        congr 1
                        · omega
                        · congr 1
                          omega
                      rw [hlen, e4, put_after _ _ _ _ (by simp [be16, be32]; omega),
                        with_known_names_twice] at hw
                      have h10 : b.pos + (enc_name b.known_names b.pos r.name).1.length + 8 + 2
                          = b.pos + (enc_name b.known_names b.pos r.name).1.length + 10 := by omega
                      rw [h10] at hw c6
                      refine ⟨by rw [hw]; simp [enc_rr], ?_⟩
                      simp only [enc_rr, List.length_append, be16, be32, List.length_cons,
                        List.length_nil]
                      omega


theorem pointer_octets_shape (p : Nat) :
    ∃ hi lo, pointer_octets p = [hi, lo] ∧ 192 ≤ hi ∧ hi < 256 := by
  refine ⟨_, _, rfl, ?_, ?_⟩
  · have h14 : (p ||| 0xC000).testBit 14 = true := by
      rw [Nat.testBit_or, show Nat.testBit 0xC000 14 = true by decide, Bool.or_true]
    have h15 : (p ||| 0xC000).testBit 15 = true := by
      rw [Nat.testBit_or, show Nat.testBit 0xC000 15 = true by decide, Bool.or_true]
    rw [Nat.testBit_to_div_mod] at h14 h15
    simp only [decide_eq_true_eq] at h14 h15
    omega
  · omega

theorem name_output_shape (kn : List known_name_t) (ls : List (List Nat))
    (hok : ∀ l ∈ ls, label_ok l) : name_shape (name_output kn ls) := by
  induction ls with
  | nil => exact ⟨[], [0], by simp, rfl, Or.inl rfl⟩
  | cons l ls ih =>
    unfold name_output
    split
    · obtain ⟨hi, lo, h1, h2, h3⟩ := pointer_octets_shape
        (known_names_find_pos kn (wire_labels (l :: ls)))
      exact ⟨[], _, by simp, by simp [wire_labels], Or.inr ⟨hi, lo, h1, h2, h3⟩⟩
    · obtain ⟨ls', tail, h1, h2, h3⟩ := ih (fun x hx => hok x (by simp [hx]))
      refine ⟨l :: ls', tail, ?_, ?_, h3⟩
      · intro x hx
        simp only [List.mem_cons] at hx
        rcases hx with rfl | hx
        · exact hok x (by simp)
        · exact h1 x hx
      · rw [h2]; simp [wire_labels]

theorem enc_name_shape (kn : List known_name_t) (pos : Nat) (name : List Nat)
    (hn : name_ok name) : name_shape (enc_name kn pos name).1 := by
  have hc := name_ok_cstr name hn
  obtain ⟨hlen, hls, hok, hd⟩ := hn
  simp only [enc_name, hc]
  exact name_output_shape kn _ hok

theorem enc_query_shape (kn : List known_name_t) (pos : Nat) (q : dns_query_t)
    (hq : query_ok q) : query_shape (enc_query kn pos q).1 := by
  obtain ⟨hn, ht, hc⟩ := hq
  exact ⟨_, q.type, q.class_, rfl, enc_name_shape kn pos q.name hn, ht, hc⟩

theorem enc_rdata_length (kn : List known_name_t) (pos type : Nat) (data : List Nat)
    (ht : type < 65536) (hd : rdata_ok type data) :
    (enc_rdata kn pos type data).1.length ≤ 257 := by
  unfold enc_rdata
  unfold rdata_ok at hd
  rw [Nat.mod_eq_of_lt ht]
  by_cases h1 : type = 1
  · simp [h1, be32]
  · simp only [h1, if_false] at hd ⊢
    by_cases h15 : type = 15
    · simp only [h15, if_true] at hd ⊢
      cases hsc : sscanf_hd_s data with
      | none =>
        rw [hsc] at hd
        have := enc_name_length_le kn (pos + 2) data hd
        have := hd.1
        simp only [List.length_append, be16, List.length_cons, List.length_nil]
        omega
      | some pn =>
        obtain ⟨pref, name⟩ := pn
        rw [hsc] at hd
        have := enc_name_length_le kn (pos + 2) name hd
        have := hd.1
        simp only [List.length_append, be16, List.length_cons, List.length_nil]
        omega
    · simp only [h15, if_false] at hd ⊢
      have := enc_name_length_le kn pos data hd
      have := hd.1
      omega

theorem enc_rdata_nonempty (kn : List known_name_t) (pos type : Nat) (data : List Nat)
    (ht : type < 65536) (hd : rdata_ok type data) (hkn : names_nonempty kn) :
    names_nonempty (enc_rdata kn pos type data).2 := by
  unfold enc_rdata
  unfold rdata_ok at hd
  rw [Nat.mod_eq_of_lt ht]
  by_cases h1 : type = 1
  · simpa [h1] using hkn
  · simp only [h1, if_false] at hd ⊢
    by_cases h15 : type = 15
    · simp only [h15, if_true] at hd ⊢
      cases hsc : sscanf_hd_s data with
      | none =>
        rw [hsc] at hd
        exact enc_name_nonempty kn (pos + 2) data hd hkn
      | some pn =>
        obtain ⟨pref, name⟩ := pn
        rw [hsc] at hd
        exact enc_name_nonempty kn (pos + 2) name hd hkn
    · simp only [h15, if_false] at hd ⊢
      exact enc_name_nonempty kn pos data hd hkn

theorem enc_rr_nonempty (kn : List known_name_t) (pos : Nat) (r : dns_rr_t)
    (hr : rr_ok r) (hkn : names_nonempty kn) : names_nonempty (enc_rr kn pos r).2 := by
  obtain ⟨hn, ht, _, _, hd⟩ := hr
  exact enc_rdata_nonempty _ _ _ _ ht hd (enc_name_nonempty kn pos r.name hn hkn)

theorem enc_query_nonempty (kn : List known_name_t) (pos : Nat) (q : dns_query_t)
    (hq : query_ok q) (hkn : names_nonempty kn) : names_nonempty (enc_query kn pos q).2 :=
  enc_name_nonempty kn pos q.name hq.1 hkn

theorem enc_rr_shape (kn : List known_name_t) (pos : Nat) (r : dns_rr_t)
    (hr : rr_ok r) : rr_shape (enc_rr kn pos r).1 := by
  obtain ⟨hn, ht, hc, httl, hd⟩ := hr
  have hlen := enc_rdata_length (enc_name kn pos r.name).2
    (pos + (enc_name kn pos r.name).1.length + 10) r.type r.data ht hd
  refine ⟨_, r.type, r.class_, r.ttl, _, rfl, enc_name_shape kn pos r.name hn, ht, hc, httl,
    by omega, ?_, ?_, ?_⟩
  · intro h1
    unfold enc_rdata
    simp [Nat.mod_eq_of_lt ht, h1, be32]
  · intro h15
    unfold enc_rdata
    unfold rdata_ok at hd
    simp only [Nat.mod_eq_of_lt ht, h15, if_true] at hd ⊢
    simp only [show ¬ ((15 : Nat) = 1) by omega, if_false] at hd ⊢
    cases hsc : sscanf_hd_s r.data with
    | none =>
      rw [hsc] at hd
      exact ⟨0, _, rfl, enc_name_shape _ _ _ hd⟩
    | some pn =>
      obtain ⟨pref, name⟩ := pn
      rw [hsc] at hd
      exact ⟨pref, _, rfl, enc_name_shape _ _ _ hd⟩
  · intro h1 h15
    unfold enc_rdata
    unfold rdata_ok at hd
    simp only [Nat.mod_eq_of_lt ht, h1, h15, if_false] at hd ⊢
    exact enc_name_shape _ _ _ hd

theorem enc_queries_shape (qs : List dns_query_t) (hq : ∀ q ∈ qs, query_ok q) :
    ∀ (kn : List known_name_t) (pos : Nat), queries_shape qs.length (enc_queries kn pos qs).1 := by
  induction qs with
  | nil => intro kn pos; rfl
  | cons q qs ih =>
    intro kn pos
    exact ⟨_, _, rfl, enc_query_shape kn pos q (hq q (by simp)),
      ih (fun x hx => hq x (by simp [hx])) _ _⟩

theorem enc_rrs_shape (rs : List dns_rr_t) (hr : ∀ r ∈ rs, rr_ok r) :
    ∀ (kn : List known_name_t) (pos : Nat), rrs_shape rs.length (enc_rrs kn pos rs).1 := by
  induction rs with
  | nil => intro kn pos; rfl
  | cons r rs ih =>
    intro kn pos
    exact ⟨_, _, rfl, enc_rr_shape kn pos r (hr r (by simp)),
      ih (fun x hx => hr x (by simp [hx])) _ _⟩

theorem buffer_ok_put (b : dns_buffer) (out : List Nat) (kn : List known_name_t)
    (hb : buffer_ok b) (hcap : b.pos + out.length ≤ b.capacity) (hkn : names_nonempty kn) :
    buffer_ok (with_known_names (put b out) kn) := by
  obtain ⟨hpos, hreg, hlim, _⟩ := hb
  refine ⟨by simpa using hcap, ?_, by simpa using hlim, hkn⟩
  simp only [with_known_names_capacity, with_known_names_ptr, put_capacity]
  rw [put_length _ _ (by omega)]
  exact hreg

theorem enc_queries_nonempty (qs : List dns_query_t) (hq : ∀ q ∈ qs, query_ok q) :
    ∀ (kn : List known_name_t) (pos : Nat), names_nonempty kn →
      names_nonempty (enc_queries kn pos qs).2 := by
  induction qs with
  | nil => intro kn pos h; exact h
  | cons q qs ih =>
    intro kn pos h
    exact ih (fun x hx => hq x (by simp [hx])) _ _
      (enc_query_nonempty kn pos q (hq q (by simp)) h)

theorem enc_rrs_nonempty (rs : List dns_rr_t) (hr : ∀ r ∈ rs, rr_ok r) :
    ∀ (kn : List known_name_t) (pos : Nat), names_nonempty kn →
      names_nonempty (enc_rrs kn pos rs).2 := by
  induction rs with
  | nil => intro kn pos h; exact h
  | cons r rs ih =>
    intro kn pos h
    exact ih (fun x hx => hr x (by simp [hx])) _ _
      (enc_rr_nonempty kn pos r (hr r (by simp)) h)

theorem write_queries_true (qs : List dns_query_t) (hq : ∀ q ∈ qs, query_ok q) :
    ∀ (b w : dns_buffer), buffer_ok b → write_queries b qs = (true, w) →
      w = with_known_names (put b (enc_queries b.known_names b.pos qs).1)
            (enc_queries b.known_names b.pos qs).2 ∧
      b.pos + (enc_queries b.known_names b.pos qs).1.length ≤ b.capacity := by
  induction qs with
  | nil =>
    intro b w hb h
    simp only [write_queries, Prod.mk.injEq, true_and] at h
    subst h
    exact ⟨start_state b (by have := hb.1; have := hb.2.1; omega), by simpa [enc_queries] using hb.1⟩
  | cons q qs ih =>
    intro b w hb h
    unfold write_queries at h
    cases h1 : DNS_buffer_write_query b q with
    | mk r1 b1 =>
      rw [h1] at h
      cases r1 with
      | false => simp at h
      | true =>
        obtain ⟨e1, c1⟩ := write_query_true b q b1 (hq q (by simp)) hb h1
        dsimp only at h
        have hb1 : buffer_ok b1 := by
          rw [e1]
          exact buffer_ok_put b _ _ hb c1 (enc_query_nonempty _ _ _ (hq q (by simp)) hb.2.2.2)
        obtain ⟨e2, c2⟩ := ih (fun x hx => hq x (by simp [hx])) b1 w hb1 h
        have hk1 : b1.known_names = (enc_query b.known_names b.pos q).2 := by rw [e1]; rfl
        have hp1 : b1.pos = b.pos + (enc_query b.known_names b.pos q).1.length := by
          rw [e1]; rfl
        have hcap1 : b1.capacity = b.capacity := by rw [e1]; rfl
        rw [hk1, hp1] at e2 c2
        rw [hcap1] at c2
        rw [e1, put_after _ _ _ _ (by have := hb.2.1; omega), with_known_names_twice] at e2
        refine ⟨by rw [e2]; rfl, ?_⟩
        simp only [enc_queries, List.length_append]
        omega

theorem write_RRs_true (rs : List dns_rr_t) (hr : ∀ r ∈ rs, rr_ok r) :
    ∀ (b w : dns_buffer), buffer_ok b → write_RRs b rs = (true, w) →
      w = with_known_names (put b (enc_rrs b.known_names b.pos rs).1)
            (enc_rrs b.known_names b.pos rs).2 ∧
      b.pos + (enc_rrs b.known_names b.pos rs).1.length ≤ b.capacity := by
  induction rs with
  | nil =>
    intro b w hb h
    simp only [write_RRs, Prod.mk.injEq, true_and] at h
    subst h
    exact ⟨start_state b (by have := hb.1; have := hb.2.1; omega), by simpa [enc_rrs] using hb.1⟩
  | cons r rs ih =>
    intro b w hb h
    unfold write_RRs at h
    cases h1 : DNS_buffer_write_RR b r with
    | mk r1 b1 =>
      rw [h1] at h
      cases r1 with
      | false => simp at h
      | true =>
        obtain ⟨e1, c1⟩ := write_RR_true b r b1 (hr r (by simp)) hb h1
        dsimp only at h
        have hb1 : buffer_ok b1 := by
          rw [e1]
          exact buffer_ok_put b _ _ hb c1 (enc_rr_nonempty _ _ _ (hr r (by simp)) hb.2.2.2)
        obtain ⟨e2, c2⟩ := ih (fun x hx => hr x (by simp [hx])) b1 w hb1 h
        have hk1 : b1.known_names = (enc_rr b.known_names b.pos r).2 := by rw [e1]; rfl
        have hp1 : b1.pos = b.pos + (enc_rr b.known_names b.pos r).1.length := by
          rw [e1]; rfl
        have hcap1 : b1.capacity = b.capacity := by rw [e1]; rfl
        rw [hk1, hp1] at e2 c2
        rw [hcap1] at c2
        rw [e1, put_after _ _ _ _ (by have := hb.2.1; omega), with_known_names_twice] at e2
        refine ⟨by rw [e2]; rfl, ?_⟩
        simp only [enc_rrs, List.length_append]
        omega

theorem header_wire_length (h : dns_header_t) : (header_wire h).length = 12 := rfl

theorem write_packet_sections (b : dns_buffer) (v : dns_packet_t) (w : dns_buffer)
    (hh : header_in_range v.header) (hq : ∀ q ∈ v.queries, query_ok q)
    (han : ∀ r ∈ v.answers, rr_ok r) (hau : ∀ r ∈ v.authorities, rr_ok r)
    (had : ∀ r ∈ v.additionals, rr_ok r) (hb : buffer_ok b)
    (h : DNS_buffer_write_packet b v = (true, w)) :
    w = with_known_names (put b (enc_packet b.known_names b.pos v).1)
          (enc_packet b.known_names b.pos v).2 ∧
    b.pos + (enc_packet b.known_names b.pos v).1.length ≤ b.capacity := by
  have hb' := hb
  obtain ⟨hpos, hreg, hlim, hne⟩ := hb'
  unfold DNS_buffer_write_packet at h
  by_cases hc0 : b.pos + 12 ≤ b.capacity
  · rw [write_header_eq b v.header hh hc0 hreg (by omega)] at h
    dsimp only at h
    have e0 : put b (header_wire v.header)
        = with_known_names (put b (header_wire v.header)) b.known_names :=
      (with_known_names_self _).symm
    have hb0 : buffer_ok (put b (header_wire v.header)) := by
      rw [e0]; exact buffer_ok_put b _ _ hb (by rw [header_wire_length]; exact hc0) hne
    cases h1 : write_queries (put b (header_wire v.header)) v.queries with
    | mk r1 b1 =>
      rw [h1] at h
      cases r1 with
      | false => simp at h
      | true =>
        obtain ⟨e1, c1⟩ := write_queries_true v.queries hq _ b1 hb0 h1
        simp only [put_known_names, put_pos, put_capacity, header_wire_length] at e1 c1
        rw [put_put _ _ _ (by rw [header_wire_length]; omega)] at e1
        dsimp only at h
        have hb1 : buffer_ok b1 := by
          rw [e1]
          exact buffer_ok_put b _ _ hb (by simp [header_wire_length]; omega)
            (enc_queries_nonempty _ hq _ _ hne)
        cases h2 : write_RRs b1 v.answers with
        | mk r2 b2 =>
          rw [h2] at h
          cases r2 with
          | false => simp at h
          | true =>
            obtain ⟨e2, c2⟩ := write_RRs_true v.answers han b1 b2 hb1 h2
            have hk1 : b1.known_names = (enc_queries b.known_names (b.pos + 12) v.queries).2 := by
              rw [e1]; rfl
            have hp1 : b1.pos = b.pos + 12
                + (enc_queries b.known_names (b.pos + 12) v.queries).1.length := by
              rw [e1]; simp [header_wire_length]; omega
            have hcap1 : b1.capacity = b.capacity := by rw [e1]; rfl
            rw [hk1, hp1] at e2 c2
            rw [hcap1] at c2
            rw [e1, put_after _ _ _ _ (by simp [header_wire_length]; omega),
              with_known_names_twice] at e2
            dsimp only at h
            have hb2 : buffer_ok b2 := by
              rw [e2]
              exact buffer_ok_put b _ _ hb (by simp [header_wire_length]; omega)
                (enc_rrs_nonempty _ han _ _ (enc_queries_nonempty _ hq _ _ hne))
            cases h3 : write_RRs b2 v.authorities with
            | mk r3 b3 =>
              rw [h3] at h
              cases r3 with
              | false => simp at h
              | true =>
                obtain ⟨e3, c3⟩ := write_RRs_true v.authorities hau b2 b3 hb2 h3
                have hk2 : b2.known_names = (enc_rrs
                    (enc_queries b.known_names (b.pos + 12) v.queries).2
                    (b.pos + 12 + (enc_queries b.known_names (b.pos + 12) v.queries).1.length)
                    v.answers).2 := by
                  rw [e2]; rfl
                have hp2 : b2.pos = b.pos + 12
                    + (enc_queries b.known_names (b.pos + 12) v.queries).1.length
                    + (enc_rrs (enc_queries b.known_names (b.pos + 12) v.queries).2
                        (b.pos + 12 + (enc_queries b.known_names (b.pos + 12) v.queries).1.length)
                        v.answers).1.length := by
                  rw [e2]; simp [header_wire_length]; omega
                have hcap2 : b2.capacity = b.capacity := by rw [e2]; rfl
                rw [hk2, hp2] at e3 c3
                rw [hcap2] at c3
                rw [e2, put_after _ _ _ _ (by simp [header_wire_length]; omega),
                  with_known_names_twice] at e3
                dsimp only at h
                have hb3 : buffer_ok b3 := by
                  rw [e3]
                  exact buffer_ok_put b _ _ hb (by simp [header_wire_length]; omega)
                    (enc_rrs_nonempty _ hau _ _
                      (enc_rrs_nonempty _ han _ _ (enc_queries_nonempty _ hq _ _ hne)))
                obtain ⟨e4, c4⟩ := write_RRs_true v.additionals had b3 w hb3 h
                have hk3 : b3.known_names = (enc_rrs (enc_rrs
                    (enc_queries b.known_names (b.pos + 12) v.queries).2
                    (b.pos + 12 + (enc_queries b.known_names (b.pos + 12) v.queries).1.length)
                    v.answers).2
                    (b.pos + 12 + (enc_queries b.known_names (b.pos + 12) v.queries).1.length
                      + (enc_rrs (enc_queries b.known_names (b.pos + 12) v.queries).2
                        (b.pos + 12 + (enc_queries b.known_names (b.pos + 12) v.queries).1.length)
                        v.answers).1.length)
                    v.authorities).2 := by
                  rw [e3]; rfl
                have hp3 : b3.pos = b.pos + 12
                    + (enc_queries b.known_names (b.pos + 12) v.queries).1.length
                    + (enc_rrs (enc_queries b.known_names (b.pos + 12) v.queries).2
                        (b.pos + 12 + (enc_queries b.known_names (b.pos + 12) v.queries).1.length)
                        v.answers).1.length
                    + (enc_rrs (enc_rrs
                        (enc_queries b.known_names (b.pos + 12) v.queries).2
                        (b.pos + 12 + (enc_queries b.known_names (b.pos + 12) v.queries).1.length)
                        v.answers).2
                        (b.pos + 12 + (enc_queries b.known_names (b.pos + 12) v.queries).1.length
                          + (enc_rrs (enc_queries b.known_names (b.pos + 12) v.queries).2
                            (b.pos + 12
                              + (enc_queries b.known_names (b.pos + 12) v.queries).1.length)
                            v.answers).1.length)
                        v.authorities).1.length := by
                  rw [e3]; simp [header_wire_length]; omega
                have hcap3 : b3.capacity = b.capacity := by rw [e3]; rfl
                rw [hk3, hp3] at e4 c4
                rw [hcap3] at c4
                rw [e3, put_after _ _ _ _ (by simp [header_wire_length]; omega),
                  with_known_names_twice] at e4
                refine ⟨by rw [e4]; rfl, ?_⟩
                simp only [enc_packet, List.length_append, header_wire_length]
                omega
  · exfalso
    unfold DNS_buffer_write_DNS_header at h
    rw [check_capacity_eq b 12 (by omega)] at h
    simp [hc0] at h

theorem write_packet_true (b : dns_buffer) (v : dns_packet_t) (w : dns_buffer)
    (hv : packet_ok v) (hb : buffer_ok b) (h : DNS_buffer_write_packet b v = (true, w)) :
    w = with_known_names (put b (enc_packet b.known_names b.pos v).1)
          (enc_packet b.known_names b.pos v).2 ∧
    b.pos + (enc_packet b.known_names b.pos v).1.length ≤ b.capacity :=
  write_packet_sections b v w hv.1 hv.2.2.2.2.2.1 hv.2.2.2.2.2.2.1 hv.2.2.2.2.2.2.2.1
    hv.2.2.2.2.2.2.2.2 hb h

theorem reads_bind {α β : Type} (f : dns_buffer → Option α × dns_buffer)
    (g : α → dns_buffer → Option β × dns_buffer) (b : dns_buffer) (n m : Nat)
    (Q : α → Prop) (Q' : β → Prop) (hf : reads f b n Q)
    (hg : ∀ x b1, Q x → moved b n b1 → b.pos + n ≤ b.capacity → reads (g x) b1 m Q') :
    reads (bindr f g) b (n + m) Q' := by
  constructor
  · intro hcap
    obtain ⟨x, b1, e1, m1, q1⟩ := hf.1 (by omega)
    obtain ⟨y, b2, e2, m2, q2⟩ := (hg x b1 q1 m1 (by omega)).1 (by
      rw [m1.2.1, m1.2.2]; omega)
    refine ⟨y, b2, ?_, moved_trans b b1 b2 n m m1 m2, q2⟩
    unfold bindr
    rw [e1]
    exact e2
  · intro hcap
    unfold bindr
    by_cases h1 : b.pos + n ≤ b.capacity
    · obtain ⟨x, b1, e1, m1, q1⟩ := hf.1 h1
      rw [e1]
      exact (hg x b1 q1 m1 h1).2 (by rw [m1.2.1, m1.2.2]; omega)
    · have := hf.2 (by omega)
      cases hfb : f b with
      | mk r b1 =>
        rw [hfb] at this
        simp only at this
        subst this
        rfl

theorem reads_ret {α : Type} (x : α) (b : dns_buffer) (Q : α → Prop) (hq : Q x)
    (hpos : b.pos ≤ b.capacity) : reads (fun b0 => (some x, b0)) b 0 Q := by
  constructor
  · intro _
    exact ⟨x, b, rfl, ⟨rfl, rfl, rfl⟩, hq⟩
  · intro h
    omega

theorem reads_u16 (b : dns_buffer) (v : Nat) (post : List Nat)
    (hag : agrees b (be16 v ++ post)) (hv : v < 65536) (hlim : b.capacity ≤ 65535)
    (hpos : b.pos ≤ b.capacity) :
    reads DNS_buffer_read_u16 b 2 (fun x => x = v) := by
  constructor
  · intro hcap
    have p0 := hag 0 (by simp [be16]) (by omega)
    have p1 := hag 1 (by simp [be16]) (by omega)
    rw [Nat.add_zero] at p0
    refine ⟨v, adv b 2, ?_, moved_adv b 2, rfl⟩
    rw [read_u16_eq b hcap (by omega), p0, p1]
    simp only [be16, List.cons_append, peek, List.getD_cons_zero, List.getD_cons_succ,
      Prod.mk.injEq, and_true, Option.some.injEq]
    omega
  · intro hcap
    rw [read_u16_none b hcap (by omega)]

theorem reads_u32 (b : dns_buffer) (v : Nat) (post : List Nat)
    (hag : agrees b (be32 v ++ post)) (hv : v < 4294967296) (hlim : b.capacity ≤ 65535)
    (hpos : b.pos ≤ b.capacity) :
    reads DNS_buffer_read_u32 b 4 (fun x => x = v) := by
  constructor
  · intro hcap
    have p0 := hag 0 (by simp [be32]) (by omega)
    have p1 := hag 1 (by simp [be32]) (by omega)
    have p2 := hag 2 (by simp [be32]) (by omega)
    have p3 := hag 3 (by simp [be32]) (by omega)
    rw [Nat.add_zero] at p0
    refine ⟨v, adv b 4, ?_, moved_adv b 4, rfl⟩
    rw [read_u32_eq b hcap (by omega), p0, p1, p2, p3]
    simp only [be32, List.cons_append, peek, List.getD_cons_zero, List.getD_cons_succ,
      Prod.mk.injEq, and_true, Option.some.injEq]
    omega
  · intro hcap
    unfold DNS_buffer_read_u32
    rw [check_capacity_eq b 4 (by omega)]
    simp [Nat.not_le.mpr hcap]

theorem reads_name (b : dns_buffer) (bytes post : List Nat) (hs : name_shape bytes)
    (hag : agrees b (bytes ++ post)) (hlim : b.capacity ≤ 65535) (hpos : b.pos ≤ b.capacity) :
    reads DNS_buffer_read_DNS_name b bytes.length (fun _ => True) := by
  obtain ⟨ls, tail, hok, rfl, htail⟩ := hs
  have hshape := read_name_loop_shape ls tail htail (b.capacity + 1) b [] post hok hag hpos
    (by omega)
  simp only [List.length_append]
  constructor
  · intro hcap
    obtain ⟨x, b', hr, hm, _⟩ := hshape.1 (by omega) (by
      have := length_le_wire ls; omega)
    refine ⟨cstr x.dropLast, b', ?_, hm, trivial⟩
    unfold DNS_buffer_read_DNS_name
    rw [hr]
  · intro hcap
    have := hshape.2 (by omega)
    unfold DNS_buffer_read_DNS_name
    cases hr : read_name_loop (b.capacity + 1) b [] with
    | mk r b1 =>
      rw [hr] at this
      simp only at this
      subst this
      rfl

theorem reads_u16_any (b : dns_buffer) (hlim : b.capacity ≤ 65535)
    (hpos : b.pos ≤ b.capacity) :
    reads DNS_buffer_read_u16 b 2 (fun _ => True) := by
  constructor
  · intro hcap
    exact ⟨_, adv b 2, read_u16_eq b hcap (by omega), moved_adv b 2, trivial⟩
  · intro hcap
    rw [read_u16_none b hcap (by omega)]

theorem reads_u32_any (b : dns_buffer) (hlim : b.capacity ≤ 65535)
    (hpos : b.pos ≤ b.capacity) :
    reads DNS_buffer_read_u32 b 4 (fun _ => True) := by
  constructor
  · intro hcap
    exact ⟨_, adv b 4, read_u32_eq b hcap (by omega), moved_adv b 4, trivial⟩
  · intro hcap
    unfold DNS_buffer_read_u32
    rw [check_capacity_eq b 4 (by omega)]
    simp [Nat.not_le.mpr hcap]

theorem moved_pos_le (b b1 : dns_buffer) (n : Nat) (hm : moved b n b1)
    (h : b.pos + n ≤ b.capacity) : b1.pos ≤ b1.capacity := by
  rw [hm.2.1, hm.2.2]; exact h

theorem moved_lim (b b1 : dns_buffer) (n : Nat) (hm : moved b n b1)
    (h : b.capacity ≤ 65535) : b1.capacity ≤ 65535 := by
  rw [hm.2.1]; exact h

theorem reads_query (b : dns_buffer) (bytes post : List Nat) (hs : query_shape bytes)
    (hag : agrees b (bytes ++ post)) (hlim : b.capacity ≤ 65535) (hpos : b.pos ≤ b.capacity) :
    reads DNS_buffer_read_query b bytes.length (fun _ => True) := by
  obtain ⟨n, t, c, rfl, hn, ht, hc⟩ := hs
  have e : DNS_buffer_read_query = bindr DNS_buffer_read_DNS_name (fun name =>
      bindr DNS_buffer_read_u16 (fun type => bindr DNS_buffer_read_u16 (fun class_ =>
        fun b0 => (some { name := name, type := type, class_ := class_ }, b0)))) := by
    funext b0
    unfold DNS_buffer_read_query bindr
    rcases DNS_buffer_read_DNS_name b0 with ⟨_ | name, b1⟩
    · rfl
    · dsimp only
      rcases DNS_buffer_read_u16 b1 with ⟨_ | type, b2⟩
      · rfl
      · dsimp only
        rcases DNS_buffer_read_u16 b2 with ⟨_ | class_, b3⟩ <;> rfl
  have hl : (n ++ be16 t ++ be16 c).length = n.length + (2 + (2 + 0)) := by
    simp [be16]
  rw [e, hl]
  have hag1 : agrees b (n ++ (be16 t ++ (be16 c ++ post))) := by
    simpa [List.append_assoc] using hag
  apply reads_bind _ _ b _ _ (fun _ => True) _
    (reads_name b n _ hn hag1 hlim hpos)
  intro name b1 _ m1 c1
  have hag2 := agrees_right b b1 n _ hag1 m1
  apply reads_bind _ _ b1 _ _ (fun x => x = t) _
    (reads_u16 b1 t _ hag2 ht (moved_lim b b1 _ m1 hlim) (moved_pos_le b b1 _ m1 c1))
  intro type b2 _ m2 c2
  have hag3 := agrees_right b1 b2 (be16 t) _ hag2 m2
  apply reads_bind _ _ b2 _ _ (fun x => x = c) _
    (reads_u16 b2 c _ hag3 hc (moved_lim b1 b2 _ m2 (moved_lim b b1 _ m1 hlim))
      (moved_pos_le b1 b2 _ m2 c2))
  intro class_ b3 _ m3 c3
  exact reads_ret _ b3 _ trivial (moved_pos_le b2 b3 _ m3 c3)

theorem read_RR_eq_bindr : DNS_buffer_read_RR = bindr DNS_buffer_read_DNS_name (fun name =>
    bindr DNS_buffer_read_u16 (fun type => bindr DNS_buffer_read_u16 (fun class_ =>
      bindr DNS_buffer_read_u32 (fun ttl => bindr DNS_buffer_read_u16 (fun length =>
        read_RR_rest name type class_ ttl length))))) := by
  funext b0
  unfold DNS_buffer_read_RR bindr
  rcases DNS_buffer_read_DNS_name b0 with ⟨_ | name, b1⟩
  · rfl
  · dsimp only
    rcases DNS_buffer_read_u16 b1 with ⟨_ | type, b2⟩
    · rfl
    · dsimp only
      rcases DNS_buffer_read_u16 b2 with ⟨_ | class_, b3⟩
      · rfl
      · dsimp only
        rcases DNS_buffer_read_u32 b3 with ⟨_ | ttl, b4⟩
        · rfl
        · dsimp only
          rcases DNS_buffer_read_u16 b4 with ⟨_ | length, b5⟩
          · rfl
          · dsimp only
            unfold read_RR_rest
            rcases check_capacity b5 length with _ | _
            · rfl
            · simp only [Bool.not_true, Bool.false_eq_true, if_false]

theorem reads_RR_data (b : dns_buffer) (t : Nat) (R post : List Nat)
    (hA : t = 1 → R.length = 4)
    (hMX : t = 15 → ∃ (p : Nat) (nm : List Nat), R = be16 p ++ nm ∧ name_shape nm)
    (hother : t ≠ 1 → t ≠ 15 → name_shape R)
    (hag : agrees b (R ++ post)) (hlim : b.capacity ≤ 65535) (hpos : b.pos ≤ b.capacity) :
    reads (fun b0 => read_RR_data b0 t R.length) b R.length (fun _ => True) := by
  by_cases h1 : t = 1
  · have h4 := hA h1
    have e : (fun b0 => read_RR_data b0 t R.length)
        = bindr DNS_buffer_read_u32 (fun iip => fun b1 => (some (inet_ntoa (htonl iip)), b1)) := by
      funext b0
      unfold read_RR_data bindr
      simp only [h1, h4, if_true, ne_eq, not_true_eq_false, if_false]
      rcases DNS_buffer_read_u32 b0 with ⟨_ | iip, b1⟩ <;> rfl
    rw [e, h4, show (4 : Nat) = 4 + 0 from rfl]
    apply reads_bind _ _ b _ _ (fun _ => True) _ (reads_u32_any b hlim hpos)
    intro iip b1 _ m1 c1
    exact reads_ret _ b1 _ trivial (moved_pos_le b b1 _ m1 c1)
  · by_cases h15 : t = 15
    · obtain ⟨p, nm, rfl, hnm⟩ := hMX h15
      have e : (fun b0 => read_RR_data b0 t (be16 p ++ nm).length)
          = bindr DNS_buffer_read_u16 (fun preference => bindr DNS_buffer_read_DNS_name
              (fun data => fun b2 => (some (sprintf_hd_s preference data), b2))) := by
        funext b0
        unfold read_RR_data bindr
        simp only [h15, show ¬ ((15 : Nat) = 1) by omega, if_true, if_false]
        rcases DNS_buffer_read_u16 b0 with ⟨_ | preference, b1⟩
        · rfl
        · dsimp only
          rcases DNS_buffer_read_DNS_name b1 with ⟨_ | data, b2⟩ <;> rfl
      have hl : (be16 p ++ nm).length = 2 + (nm.length + 0) := by simp [be16]; omega
      rw [e, hl]
      have hag1 : agrees b (be16 p ++ (nm ++ post)) := by
        simpa [List.append_assoc] using hag
      apply reads_bind _ _ b _ _ (fun _ => True) _ (reads_u16_any b hlim hpos)
      intro preference b1 _ m1 c1
      have hag2 := agrees_right b b1 (be16 p) _ hag1 m1
      apply reads_bind _ _ b1 _ _ (fun _ => True) _
        (reads_name b1 nm _ hnm hag2 (moved_lim b b1 _ m1 hlim) (moved_pos_le b b1 _ m1 c1))
      intro data b2 _ m2 c2
      exact reads_ret _ b2 _ trivial (moved_pos_le b1 b2 _ m2 c2)
    · have e : (fun b0 => read_RR_data b0 t R.length) = DNS_buffer_read_DNS_name := by
        funext b0
        unfold read_RR_data
        simp only [h1, h15, if_false]
      rw [e]
      exact reads_name b R post (hother h1 h15) hag hlim hpos

theorem reads_RR_rest (b : dns_buffer) (name : List Nat) (t c ttl : Nat) (R post : List Nat)
    (hR : R.length < 65536)
    (hA : t = 1 → R.length = 4)
    (hMX : t = 15 → ∃ (p : Nat) (nm : List Nat), R = be16 p ++ nm ∧ name_shape nm)
    (hother : t ≠ 1 → t ≠ 15 → name_shape R)
    (hag : agrees b (R ++ post)) (hlim : b.capacity ≤ 65535) (hpos : b.pos ≤ b.capacity) :
    reads (read_RR_rest name t c ttl R.length) b R.length (fun _ => True) := by
  have hd := reads_RR_data b t R post hA hMX hother hag hlim hpos
  constructor
  · intro hcap
    obtain ⟨data, b6, e6, m6, _⟩ := hd.1 hcap
    dsimp only at e6
    unfold read_RR_rest
    rw [check_capacity_eq b _ (by omega)]
    simp only [hcap, decide_True, Bool.not_true, Bool.false_eq_true, if_false, e6]
    have hp : (b6.pos + 4294967296 - b.pos) % 4294967296 = R.length := by
      rw [m6.2.2]; omega
    simp only [hp, ne_eq, not_true_eq_false, if_false]
    exact ⟨_, b6, rfl, m6, trivial⟩
  · intro hcap
    unfold read_RR_rest
    rw [check_capacity_eq b _ (by omega)]
    simp [Nat.not_le.mpr hcap]

theorem reads_RR (b : dns_buffer) (bytes post : List Nat) (hs : rr_shape bytes)
    (hag : agrees b (bytes ++ post)) (hlim : b.capacity ≤ 65535) (hpos : b.pos ≤ b.capacity) :
    reads DNS_buffer_read_RR b bytes.length (fun _ => True) := by
  obtain ⟨n, t, c, ttl, R, rfl, hn, ht, hc, httl, hR, hA, hMX, hother⟩ := hs
  have hl : (n ++ be16 t ++ be16 c ++ be32 ttl ++ be16 R.length ++ R).length
      = n.length + (2 + (2 + (4 + (2 + R.length)))) := by
    simp [be16, be32]; omega
  rw [read_RR_eq_bindr, hl]
  have hag1 : agrees b (n ++ (be16 t ++ (be16 c ++ (be32 ttl ++ (be16 R.length ++ (R ++ post)))))) := by
    simpa [List.append_assoc] using hag
  apply reads_bind _ _ b _ _ (fun _ => True) _ (reads_name b n _ hn hag1 hlim hpos)
  intro name b1 _ m1 c1
  have hag2 := agrees_right b b1 n _ hag1 m1
  have l1 := moved_lim b b1 _ m1 hlim
  have p1 := moved_pos_le b b1 _ m1 c1
  apply reads_bind _ _ b1 _ _ (fun x => x = t) _ (reads_u16 b1 t _ hag2 ht l1 p1)
  intro type b2 ht2 m2 c2
  subst ht2
  have hag3 := agrees_right b1 b2 (be16 type) _ hag2 m2
  have l2 := moved_lim b1 b2 _ m2 l1
  have p2 := moved_pos_le b1 b2 _ m2 c2
  apply reads_bind _ _ b2 _ _ (fun x => x = c) _ (reads_u16 b2 c _ hag3 hc l2 p2)
  intro class_ b3 _ m3 c3
  have hag4 := agrees_right b2 b3 (be16 c) _ hag3 m3
  have l3 := moved_lim b2 b3 _ m3 l2
  have p3 := moved_pos_le b2 b3 _ m3 c3
  apply reads_bind _ _ b3 _ _ (fun x => x = ttl) _ (reads_u32 b3 ttl _ hag4 httl l3 p3)
  intro ttl' b4 _ m4 c4
  have hag5 := agrees_right b3 b4 (be32 ttl) _ hag4 m4
  have l4 := moved_lim b3 b4 _ m4 l3
  have p4 := moved_pos_le b3 b4 _ m4 c4
  apply reads_bind _ _ b4 _ _ (fun x => x = R.length) _ (reads_u16 b4 R.length _ hag5 hR l4 p4)
  intro length b5 hlen m5 c5
  subst hlen
  have hag6 := agrees_right b4 b5 (be16 R.length) _ hag5 m5
  have l5 := moved_lim b4 b5 _ m5 l4
  have p5 := moved_pos_le b4 b5 _ m5 c5
  exact reads_RR_rest b5 name type class_ ttl' R post hR hA hMX hother hag6 l5 p5

theorem reads_header (b : dns_buffer) (h : dns_header_t) (post : List Nat)
    (hh : header_in_range h) (hag : agrees b (header_wire h ++ post))
    (hlim : b.capacity ≤ 65535) (hpos : b.pos ≤ b.capacity) :
    reads DNS_buffer_read_DNS_header b 12 (fun x => x = h) := by
  constructor
  · intro hcap
    refine ⟨h, adv b 12, ?_, moved_adv b 12, rfl⟩
    apply read_header_of_peeks b h hh _ hcap (by omega)
    intro k hk
    rw [hag k (by simp [header_wire]; omega) (by omega),
      peek_append_left _ _ _ (by simp [header_wire]; omega)]
    rfl
  · intro hcap
    unfold DNS_buffer_read_DNS_header
    rw [check_capacity_eq b 12 (by omega)]
    simp [Nat.not_le.mpr hcap]

theorem reads_queries : ∀ (n : Nat) (bytes : List Nat), queries_shape n bytes →
    ∀ (b : dns_buffer) (v : dns_packet_t) (post : List Nat), agrees b (bytes ++ post) →
      b.capacity ≤ 65535 → b.pos ≤ b.capacity →
      reads (fun b0 => read_queries n b0 v) b bytes.length (fun v' => v'.header = v.header) := by
  intro n
  induction n with
  | zero =>
    intro bytes hs b v post _ _ hpos
    have hb : bytes = [] := hs
    subst hb
    exact reads_ret v b _ rfl hpos
  | succ n ih =>
    intro bytes hs b v post hag hlim hpos
    obtain ⟨x, y, rfl, hx, hy⟩ := hs
    have e : (fun b0 => read_queries (n + 1) b0 v)
        = bindr DNS_buffer_read_query
            (fun query => fun b1 => read_queries n b1 (DNS_packet_append_query v query false)) := by
      funext b0
      unfold bindr
      conv => lhs; unfold read_queries
      rcases DNS_buffer_read_query b0 with ⟨_ | q, b1⟩ <;> rfl
    rw [e, List.length_append]
    have hag1 : agrees b (x ++ (y ++ post)) := by simpa [List.append_assoc] using hag
    apply reads_bind _ _ b _ _ (fun _ => True) _ (reads_query b x _ hx hag1 hlim hpos)
    intro query b1 _ m1 c1
    have := ih y hy b1 (DNS_packet_append_query v query false) post
      (agrees_right b b1 x _ hag1 m1) (moved_lim b b1 _ m1 hlim) (moved_pos_le b b1 _ m1 c1)
    exact this

theorem reads_RRs (append : dns_packet_t → dns_rr_t → Bool → dns_packet_t)
    (happ : ∀ v rr, (append v rr false).header = v.header) :
    ∀ (n : Nat) (bytes : List Nat), rrs_shape n bytes →
    ∀ (b : dns_buffer) (v : dns_packet_t) (post : List Nat), agrees b (bytes ++ post) →
      b.capacity ≤ 65535 → b.pos ≤ b.capacity →
      reads (fun b0 => read_RRs append n b0 v) b bytes.length
        (fun v' => v'.header = v.header) := by
  intro n
  induction n with
  | zero =>
    intro bytes hs b v post _ _ hpos
    have hb : bytes = [] := hs
    subst hb
    exact reads_ret v b _ rfl hpos
  | succ n ih =>
    intro bytes hs b v post hag hlim hpos
    obtain ⟨x, y, rfl, hx, hy⟩ := hs
    have e : (fun b0 => read_RRs append (n + 1) b0 v)
        = bindr DNS_buffer_read_RR
            (fun rr => fun b1 => read_RRs append n b1 (append v rr false)) := by
      funext b0
      unfold bindr
      conv => lhs; unfold read_RRs
      rcases DNS_buffer_read_RR b0 with ⟨_ | q, b1⟩ <;> rfl
    rw [e, List.length_append]
    have hag1 : agrees b (x ++ (y ++ post)) := by simpa [List.append_assoc] using hag
    apply reads_bind _ _ b _ _ (fun _ => True) _ (reads_RR b x _ hx hag1 hlim hpos)
    intro rr b1 _ m1 c1
    have := ih y hy b1 (append v rr false) post
      (agrees_right b b1 x _ hag1 m1) (moved_lim b b1 _ m1 hlim) (moved_pos_le b b1 _ m1 c1)
    rw [happ] at this
    exact this

theorem append_query_header (v : dns_packet_t) (q : dns_query_t) :
    (DNS_packet_append_query v q false).header = v.header := rfl

theorem append_answer_header (v : dns_packet_t) (rr : dns_rr_t) :
    (DNS_packet_append_answer v rr false).header = v.header := rfl

theorem append_authority_header (v : dns_packet_t) (rr : dns_rr_t) :
    (DNS_packet_append_authority v rr false).header = v.header := rfl

theorem append_additional_header (v : dns_packet_t) (rr : dns_rr_t) :
    (DNS_packet_append_additional v rr false).header = v.header := rfl

theorem reads_mono {α : Type} (f : dns_buffer → Option α × dns_buffer) (b : dns_buffer)
    (n : Nat) (Q Q' : α → Prop) (h : reads f b n Q) (hq : ∀ x, Q x → Q' x) :
    reads f b n Q' := by
  refine ⟨fun hc => ?_, h.2⟩
  obtain ⟨x, b', e, m, q⟩ := h.1 hc
  exact ⟨x, b', e, m, hq x q⟩

theorem reads_packet (b : dns_buffer) (v0 : dns_packet_t) (h : dns_header_t)
    (Q A U D post : List Nat) (hh : header_in_range h)
    (hQ : queries_shape h.question_count Q) (hA : rrs_shape h.answer_count A)
    (hU : rrs_shape h.authority_count U) (hD : rrs_shape h.additional_count D)
    (hag : agrees b (header_wire h ++ Q ++ A ++ U ++ D ++ post))
    (hlim : b.capacity ≤ 65535) (hpos : b.pos ≤ b.capacity) :
    reads (fun b0 => DNS_buffer_read_packet b0 v0) b
      (12 + (Q.length + (A.length + (U.length + D.length)))) (fun v => v.header = h) := by
  have e : (fun b0 => DNS_buffer_read_packet b0 v0)
      = bindr DNS_buffer_read_DNS_header (fun h1 =>
          bindr (fun b1 => read_queries h1.question_count b1 { v0 with header := h1 })
            (fun v2 => bindr
              (fun b2 => read_RRs DNS_packet_append_answer v2.header.answer_count b2 v2)
              (fun v3 => bindr
                (fun b3 => read_RRs DNS_packet_append_authority v3.header.authority_count b3 v3)
                (fun v4 => fun b4 =>
                  read_RRs DNS_packet_append_additional v4.header.additional_count b4 v4)))) := by
    funext b0
    unfold DNS_buffer_read_packet bindr
    rcases DNS_buffer_read_DNS_header b0 with ⟨_ | h1, b1⟩
    · rfl
    · dsimp only
      rcases read_queries h1.question_count b1 { v0 with header := h1 } with ⟨_ | v2, b2⟩
      · rfl
      · dsimp only
        rcases read_RRs DNS_packet_append_answer v2.header.answer_count b2 v2 with ⟨_ | v3, b3⟩
        · rfl
        · dsimp only
          rcases read_RRs DNS_packet_append_authority v3.header.authority_count b3 v3
            with ⟨_ | v4, b4⟩ <;> rfl
  rw [e]
  have hag1 : agrees b (header_wire h ++ (Q ++ (A ++ (U ++ (D ++ post))))) := by
    simpa [List.append_assoc] using hag
  apply reads_bind _ _ b _ _ (fun x => x = h) _ (reads_header b h _ hh hag1 hlim hpos)
  intro h1 b1 hh1 m1 c1
  subst hh1
  have hag2 := agrees_right b b1 (header_wire h1) _ hag1 (by simpa [header_wire] using m1)
  have l1 := moved_lim b b1 _ m1 hlim
  have p1 := moved_pos_le b b1 _ m1 c1
  apply reads_bind _ _ b1 _ _ (fun v => v.header = h1) _
    (reads_queries _ Q hQ b1 { v0 with header := h1 } _ hag2 l1 p1)
  intro v2 b2 hv2 m2 c2
  have hag3 := agrees_right b1 b2 Q _ hag2 m2
  have l2 := moved_lim b1 b2 _ m2 l1
  have p2 := moved_pos_le b1 b2 _ m2 c2
  have r3 := reads_mono _ _ _ _ (fun v => v.header = h1)
    (reads_RRs DNS_packet_append_answer append_answer_header v2.header.answer_count A
      (by rw [hv2]; exact hA) b2 v2 _ hag3 l2 p2)
    (fun x hx => hx.trans hv2)
  apply reads_bind _ _ b2 _ _ (fun v => v.header = h1) _ r3
  intro v3 b3 hv3 m3 c3
  have hag4 := agrees_right b2 b3 A _ hag3 m3
  have l3 := moved_lim b2 b3 _ m3 l2
  have p3 := moved_pos_le b2 b3 _ m3 c3
  have r4 := reads_mono _ _ _ _ (fun v => v.header = h1)
    (reads_RRs DNS_packet_append_authority append_authority_header v3.header.authority_count U
      (by rw [hv3]; exact hU) b3 v3 _ hag4 l3 p3)
    (fun x hx => hx.trans hv3)
  apply reads_bind _ _ b3 _ _ (fun v => v.header = h1) _ r4
  intro v4 b4 hv4 m4 c4
  have hag5 := agrees_right b3 b4 U _ hag4 m4
  have l4 := moved_lim b3 b4 _ m4 l3
  have p4 := moved_pos_le b3 b4 _ m4 c4
  have r5 := reads_mono _ _ _ _ (fun v => v.header = h1)
    (reads_RRs DNS_packet_append_additional append_additional_header v4.header.additional_count D
      (by rw [hv4]; exact hD) b4 v4 _ hag5 l4 p4)
    (fun x hx => hx.trans hv4)
  exact r5


theorem peek_take (l : List Nat) (k i : Nat) (h : i < k) : peek (l.take k) i = peek l i := by
  unfold peek
  rw [List.getD_eq_getElem?_getD, List.getD_eq_getElem?_getD, List.getElem?_take_of_lt h]

/-- C2 (amended): truncation safety for well-formed packets. When `DNS_buffer_write_packet`
encodes a packet whose header counts equal its section lengths (and whose names and RDATA are
well formed) from position 0 into `w.pos` octets, then for every `k < w.pos` the decoder
`DNS_buffer_read_packet` on a buffer of capacity `k` holding the first `k` octets fails,
whatever packet value it starts from; and on the whole encoding it does not fail. -/
theorem truncation_safety (b : dns_buffer) (v : dns_packet_t) (w : dns_buffer)
    (hv : packet_ok v) (hb : buffer_ok b) (h0 : b.pos = 0)
    (hw : DNS_buffer_write_packet b v = (true, w)) :
    (∀ (k : Nat) (rptr : List Nat) (v0 : dns_packet_t), k < w.pos →
      rptr.take k = w.ptr.take k →
      (DNS_buffer_read_packet (DNS_buffer_from_ptr rptr k) v0).1 = none) ∧
    (∀ v0 : dns_packet_t,
      (DNS_buffer_read_packet (DNS_buffer_from_ptr w.ptr w.pos) v0).1 ≠ none) := by
  obtain ⟨e, c⟩ := write_packet_true b v w hv hb hw
  obtain ⟨hh, hcq, hca, hcu, hcd, hq, han, hau, had⟩ := hv
  obtain ⟨hpos, hreg, hlim, hne⟩ := hb
  rw [h0] at e c
  have hQ := enc_queries_shape v.queries hq b.known_names (0 + 12)
  have hA := enc_rrs_shape v.answers han (enc_queries b.known_names (0 + 12) v.queries).2
    (0 + 12 + (enc_queries b.known_names (0 + 12) v.queries).1.length)
  have hU := enc_rrs_shape v.authorities hau
    (enc_rrs (enc_queries b.known_names (0 + 12) v.queries).2
      (0 + 12 + (enc_queries b.known_names (0 + 12) v.queries).1.length) v.answers).2
    (0 + 12 + (enc_queries b.known_names (0 + 12) v.queries).1.length
      + (enc_rrs (enc_queries b.known_names (0 + 12) v.queries).2
          (0 + 12 + (enc_queries b.known_names (0 + 12) v.queries).1.length) v.answers).1.length)
  have hD := enc_rrs_shape v.additionals had
    (enc_rrs (enc_rrs (enc_queries b.known_names (0 + 12) v.queries).2
      (0 + 12 + (enc_queries b.known_names (0 + 12) v.queries).1.length) v.answers).2
      (0 + 12 + (enc_queries b.known_names (0 + 12) v.queries).1.length
        + (enc_rrs (enc_queries b.known_names (0 + 12) v.queries).2
          (0 + 12 + (enc_queries b.known_names (0 + 12) v.queries).1.length) v.answers).1.length)
      v.authorities).2
    (0 + 12 + (enc_queries b.known_names (0 + 12) v.queries).1.length
      + (enc_rrs (enc_queries b.known_names (0 + 12) v.queries).2
          (0 + 12 + (enc_queries b.known_names (0 + 12) v.queries).1.length) v.answers).1.length
      + (enc_rrs (enc_rrs (enc_queries b.known_names (0 + 12) v.queries).2
          (0 + 12 + (enc_queries b.known_names (0 + 12) v.queries).1.length) v.answers).2
          (0 + 12 + (enc_queries b.known_names (0 + 12) v.queries).1.length
            + (enc_rrs (enc_queries b.known_names (0 + 12) v.queries).2
              (0 + 12 + (enc_queries b.known_names (0 + 12) v.queries).1.length)
              v.answers).1.length)
          v.authorities).1.length)
  rw [← hcq] at hQ
  rw [← hca] at hA
  rw [← hcu] at hU
  rw [← hcd] at hD
  have hwpos : w.pos = (enc_packet b.known_names 0 v).1.length := by
    rw [e]; simp [h0]
  have hwptr : w.ptr = (enc_packet b.known_names 0 v).1
      ++ b.ptr.drop (enc_packet b.known_names 0 v).1.length := by
    rw [e]; simp [put, h0]
  have henc := hwpos
  simp only [enc_packet, List.length_append, header_wire_length] at henc
  constructor
  · intro k rptr v0 hk hr
    have hag : agrees (DNS_buffer_from_ptr rptr k) ((enc_packet b.known_names 0 v).1 ++ []) := by
      intro i hi hik
      simp only [DNS_buffer_from_ptr, Nat.zero_add, List.append_nil] at hi hik ⊢
      rw [← peek_take rptr k i hik, hr, peek_take _ k i hik, hwptr,
        peek_append_left _ _ _ hi]
    have hr := reads_packet (DNS_buffer_from_ptr rptr k) v0 v.header _ _ _ _ [] hh hQ hA hU hD
      hag (by simp [DNS_buffer_from_ptr]; omega) (by simp [DNS_buffer_from_ptr])
    exact hr.2 (by
      simp only [DNS_buffer_from_ptr]
      omega)
  · intro v0
    have hag : agrees (DNS_buffer_from_ptr w.ptr w.pos)
        ((enc_packet b.known_names 0 v).1 ++ []) := by
      intro i hi _
      simp only [DNS_buffer_from_ptr, Nat.zero_add, List.append_nil] at hi ⊢
      rw [hwptr, peek_append_left _ _ _ hi]
    have hr := reads_packet (DNS_buffer_from_ptr w.ptr w.pos) v0 v.header _ _ _ _ [] hh
      hQ hA hU hD hag (by simp [DNS_buffer_from_ptr]; omega) (by simp [DNS_buffer_from_ptr])
    obtain ⟨x, b', ex, _, _⟩ := hr.1 (by
      simp only [DNS_buffer_from_ptr]
      omega)
    dsimp only at ex
    rw [ex]
    simp

/-- C2 as stated fails: the writer walks the section lists and never looks at the header
counts, so a packet whose header advertises no question while its list holds one is encoded
into 19 octets, and the reader, which is driven by the counts, succeeds on the first 12. -/
theorem truncation_needs_counts :
    (DNS_buffer_write_packet (DNS_buffer_create 64) uncounted_packet).1 = true ∧
    (DNS_buffer_write_packet (DNS_buffer_create 64) uncounted_packet).2.pos = 19 ∧
    (DNS_buffer_read_packet (DNS_buffer_from_ptr
      ((DNS_buffer_write_packet (DNS_buffer_create 64) uncounted_packet).2.ptr.take 12) 12)
      empty_packet).1 ≠ none := by
  decide

/-- The truncation theorem at the one-question packet for `www.baidu.com`. -/
theorem truncation_safety_witness :
    packet_ok sample_query_packet ∧ buffer_ok (DNS_buffer_create 64) ∧
    (∀ (k : Nat) (rptr : List Nat) (v0 : dns_packet_t),
      k < (DNS_buffer_write_packet (DNS_buffer_create 64) sample_query_packet).2.pos →
      rptr.take k
        = (DNS_buffer_write_packet (DNS_buffer_create 64) sample_query_packet).2.ptr.take k →
      (DNS_buffer_read_packet (DNS_buffer_from_ptr rptr k) v0).1 = none) ∧
    (∀ v0 : dns_packet_t,
      (DNS_buffer_read_packet (DNS_buffer_from_ptr
        (DNS_buffer_write_packet (DNS_buffer_create 64) sample_query_packet).2.ptr
        (DNS_buffer_write_packet (DNS_buffer_create 64) sample_query_packet).2.pos) v0).1
        ≠ none) :=
  ⟨by unfold packet_ok header_in_range; decide, by unfold buffer_ok names_nonempty; decide,
   truncation_safety (DNS_buffer_create 64) sample_query_packet _
     (by unfold packet_ok header_in_range; decide) (by unfold buffer_ok names_nonempty; decide)
     rfl (by decide)⟩

set_option maxRecDepth 100000 in
/-- C3 (defect): on the tag octet `C1` followed by `00` the claim's offset is
`(0xC1 AND 0x3F) * 256 + 0 = 256`, where the label `b` of an earlier name is registered;
`DNS_buffer_read_DNS_name` computes `((tag AND 0x3F) << 4) | 0 = 16` instead and returns the
name `a` registered at offset 16. Every text in the known names fits its 64-octet area. -/
theorem pointer_offset_defect :
    pointer_buffer.pos = 259 ∧
    peek pointer_buffer.ptr 259 = 193 ∧ peek pointer_buffer.ptr 260 = 0 ∧
    known_names_find_name pointer_buffer.known_names ((193 &&& 0x3F) * 256 + 0) = some [1, 98] ∧
    known_names_find_name pointer_buffer.known_names 16 = some [1, 97] ∧
    (DNS_buffer_read_DNS_name pointer_buffer).1 = some [97] ∧
    area_ok (DNS_buffer_read_DNS_name pointer_buffer).2 := by
  decide

set_option maxRecDepth 100000 in
/-- C5 (defect): after five pointer-free names of at most 62 octets, the name `c` followed
by a pointer to offset 256 (the start of the inner label `b` of the fifth name) decodes to
`c.a`, while the pointer-free label sequence `c`, `b` decodes to `c.b`. In both runs every
text in the known names fits its 64-octet area. -/
theorem inner_pointer_defect :
    next_name [1, 99, 193, 0] = some [99, 46, 97] ∧
    next_name [1, 99, 1, 98, 0] = some [99, 46, 98] ∧
    area_ok (DNS_buffer_read_DNS_name
      (five_names_read (DNS_buffer_from_ptr (names_then [1, 99, 193, 0]) 263))).2 ∧
    area_ok (DNS_buffer_read_DNS_name
      (five_names_read (DNS_buffer_from_ptr (names_then [1, 99, 1, 98, 0]) 264))).2 := by
  decide

set_option maxRecDepth 100000 in
/-- C1 (defect): the well-formed packet `long_packet` is written into 290 octets, its last
owner name `zz` as the pointer `C1 00` to offset 256; read back from position 0, that name
comes out as `de` (registered at offset 16), so the decoded packet is not `long_packet`. -/
theorem long_packet_round_trip_fails :
    packet_ok long_packet ∧
    (DNS_buffer_write_packet (DNS_buffer_create 512) long_packet).1 = true ∧
    (DNS_buffer_write_packet (DNS_buffer_create 512) long_packet).2.pos = 290 ∧
    ((DNS_buffer_read_packet
        (DNS_buffer_from_ptr (DNS_buffer_write_packet (DNS_buffer_create 512) long_packet).2.ptr
          290) empty_packet).1.map (fun v => v.answers.map (fun rr => rr.name)))
      = some [List.replicate 60 97, List.replicate 60 98, List.replicate 60 99,
              [120, 121, 122, 46, 122, 122], [100, 101]] ∧
    (DNS_buffer_read_packet
        (DNS_buffer_from_ptr (DNS_buffer_write_packet (DNS_buffer_create 512) long_packet).2.ptr
          290) empty_packet).1 ≠ some long_packet := by
  refine ⟨?_, ?_⟩
  · unfold packet_ok header_in_range; decide
  · decide

theorem known_iff (kn : List known_name_t) (h : ∀ e ∈ kn, e.pos ≠ 0xFFFF) (s : List Nat) :
    known kn s ↔ ∃ e ∈ kn, cstr s = cstr e.name := by
  unfold known
  induction kn with
  | nil => simp [known_names_find_pos]
  | cons k rest ih =>
    have ih := ih (fun e he => h e (by simp [he]))
    unfold known_names_find_pos
    by_cases hk : cstr s = cstr k.name
    · simp only [hk, if_true]
      constructor
      · intro _; exact ⟨k, by simp, rfl⟩
      · intro _; exact h k (by simp)
    · simp only [hk, if_false, ih, List.mem_cons]
      constructor
      · rintro ⟨e, he, hm⟩; exact ⟨e, Or.inr he, hm⟩
      · rintro ⟨e, he | he, hm⟩
        · subst he; exact absurd hm hk
        · exact ⟨e, he, hm⟩

theorem wire_labels_inj : ∀ (a c : List (List Nat)), wire_labels a = wire_labels c → a = c := by
  intro a
  induction a with
  | nil =>
    intro c h
    cases c with
    | nil => rfl
    | cons x xs => simp [wire_labels] at h
  | cons l ls ih =>
    intro c h
    cases c with
    | nil => simp [wire_labels] at h
    | cons x xs =>
      simp only [wire_labels, List.cons.injEq] at h
      obtain ⟨h1, h2⟩ := h
      obtain ⟨h3, h4⟩ := List.append_inj h2 h1
      rw [h3, ih xs h4]

theorem suffix_closed (kn : List known_name_t) (hk : table_ok kn) :
    ∀ ls : List (List Nat), (∀ l ∈ ls, label_ok l) → known kn (wire_labels ls) →
      ∀ t : List (List Nat), t ≠ [] → t <:+ ls → known kn (wire_labels t) := by
  intro ls
  induction ls with
  | nil =>
    intro _ _ t ht hs
    exact absurd (List.suffix_nil.mp hs) ht
  | cons l ls ih =>
    intro hok hkn t ht hs
    rcases List.suffix_cons_iff.mp hs with e | hs
    · rw [e]; exact hkn
    · have hne : ls ≠ [] := by
        rintro rfl
        exact ht (List.suffix_nil.mp hs)
      exact ih (fun x hx => hok x (by simp [hx]))
        (hk.2 l ls hne (hok l (by simp)) (fun x hx => hok x (by simp [hx])) hkn) t ht hs

theorem name_entries_mem (kn : List known_name_t) :
    ∀ (ls : List (List Nat)) (pos : Nat) (e : known_name_t), e ∈ name_entries kn pos ls →
      ∃ t : List (List Nat), t ≠ [] ∧ t <:+ ls ∧ e.name = wire_labels t ∧
        ∃ off, off < (name_output kn ls).length ∧ e.pos = (pos + off) % 65536 := by
  intro ls
  induction ls with
  | nil => intro pos e he; simp [name_entries] at he
  | cons l ls ih =>
    intro pos e he
    unfold name_entries at he
    unfold name_output
    split at he
    · simp at he
    · rename_i hn
      rw [if_neg hn]
      rcases List.mem_cons.mp he with he | he
      · refine ⟨l :: ls, by simp, List.suffix_refl _, by rw [he], 0, by simp, by rw [he]; rfl⟩
      · obtain ⟨t, ht, hs, hname, off, hoff, hpos⟩ := ih _ e he
        refine ⟨t, ht, List.suffix_cons_iff.mpr (Or.inr hs), hname, 1 + l.length + off, ?_, ?_⟩
        · simp only [List.length_cons, List.length_append]; omega
        · rw [hpos]; congr 1; omega

theorem name_entries_pos (kn : List known_name_t) (ls : List (List Nat)) (pos : Nat)
    (hb : pos + (name_output kn ls).length ≤ 65535) :
    ∀ e ∈ name_entries kn pos ls, e.pos ≠ 0xFFFF := by
  intro e he
  obtain ⟨_, _, _, _, off, hoff, hpos⟩ := name_entries_mem kn ls pos e he
  rw [hpos]
  omega

theorem positions_append (kn es : List known_name_t) (h1 : ∀ e ∈ kn, e.pos ≠ 0xFFFF)
    (h2 : ∀ e ∈ es, e.pos ≠ 0xFFFF) : ∀ e ∈ kn ++ es, e.pos ≠ 0xFFFF := by
  intro e he
  rcases List.mem_append.mp he with he | he
  · exact h1 e he
  · exact h2 e he

theorem known_append (kn es : List known_name_t) (h1 : ∀ e ∈ kn, e.pos ≠ 0xFFFF)
    (h2 : ∀ e ∈ es, e.pos ≠ 0xFFFF) (s : List Nat) (h : known kn s) : known (kn ++ es) s := by
  rw [known_iff _ (positions_append kn es h1 h2)]
  obtain ⟨e, he, hm⟩ := (known_iff kn h1 s).mp h
  exact ⟨e, List.mem_append_left _ he, hm⟩

theorem sublist_entries (kn : List known_name_t) (l : List Nat) (ls : List (List Nat))
    (pos : Nat) : ∀ e ∈ name_entries kn (pos + 1 + l.length) ls,
      known kn (wire_labels (l :: ls)) ∨ e ∈ name_entries kn pos (l :: ls) := by
  intro e he
  by_cases hk : known kn (wire_labels (l :: ls))
  · exact Or.inl hk
  · right
    unfold name_entries
    unfold known at hk
    rw [if_neg hk]
    exact List.mem_cons_of_mem _ he

/-- After a name is written the table knows every suffix of it. -/
theorem suffixes_known (kn : List known_name_t) (hk : table_ok kn) :
    ∀ (ls : List (List Nat)) (pos : Nat), (∀ l ∈ ls, label_ok l) →
      pos + (name_output kn ls).length ≤ 65535 →
      ∀ t : List (List Nat), t ≠ [] → t <:+ ls →
        known (kn ++ name_entries kn pos ls) (wire_labels t) := by
  intro ls
  induction ls with
  | nil =>
    intro _ _ _ t ht hs
    exact absurd (List.suffix_nil.mp hs) ht
  | cons l ls ih =>
    intro pos hok hb t ht hs
    have hpos := name_entries_pos kn (l :: ls) pos hb
    by_cases hkn : known kn (wire_labels (l :: ls))
    · exact known_append kn _ hk.1 hpos _ (suffix_closed kn hk (l :: ls) hok hkn t ht hs)
    · have hkn0 := hkn
      unfold known at hkn0
      have hout : name_output kn (l :: ls) = l.length :: (l ++ name_output kn ls) := by
        conv => lhs; unfold name_output
        rw [if_neg hkn0]
      have hent : name_entries kn pos (l :: ls)
          = { name := wire_labels (l :: ls), pos := pos % 65536 } ::
            name_entries kn (pos + 1 + l.length) ls := by
        conv => lhs; unfold name_entries
        rw [if_neg hkn0]
      rcases List.suffix_cons_iff.mp hs with e | hs
      · rw [known_iff _ (positions_append kn _ hk.1 hpos), e]
        exact ⟨_, List.mem_append_right _ (by rw [hent]; exact List.mem_cons_self _ _), rfl⟩
      · have hb2 : pos + 1 + l.length + (name_output kn ls).length ≤ 65535 := by
          rw [hout] at hb
          simp only [List.length_cons, List.length_append] at hb
          omega
        have h := ih (pos + 1 + l.length) (fun x hx => hok x (by simp [hx])) hb2 t ht hs
        have hpos2 := name_entries_pos kn ls (pos + 1 + l.length) hb2
        rw [known_iff _ (positions_append kn _ hk.1 hpos2)] at h
        rw [known_iff _ (positions_append kn _ hk.1 hpos)]
        obtain ⟨e, he, hm⟩ := h
        refine ⟨e, ?_, hm⟩
        rcases List.mem_append.mp he with he | he
        · exact List.mem_append_left _ he
        · rw [hent]
          exact List.mem_append_right _ (List.mem_cons_of_mem _ he)

theorem table_ok_entries (kn : List known_name_t) (hk : table_ok kn)
    (ls : List (List Nat)) (pos : Nat) (hok : ∀ l ∈ ls, label_ok l)
    (hb : pos + (name_output kn ls).length ≤ 65535) :
    table_ok (kn ++ name_entries kn pos ls) := by
  have hpos := name_entries_pos kn ls pos hb
  refine ⟨positions_append kn _ hk.1 hpos, ?_⟩
  intro x xs hne hx hxs hkn
  rw [known_iff _ (positions_append kn _ hk.1 hpos)] at hkn
  obtain ⟨e, he, hm⟩ := hkn
  rcases List.mem_append.mp he with he | he
  · exact known_append kn _ hk.1 hpos _
      (hk.2 x xs hne hx hxs ((known_iff kn hk.1 _).mpr ⟨e, he, hm⟩))
  · obtain ⟨t, ht, hs, hname, _⟩ := name_entries_mem kn ls pos e he
    have hokx : ∀ l ∈ x :: xs, label_ok l := by
      intro l hl
      rcases List.mem_cons.mp hl with hl | hl
      · rw [hl]; exact hx
      · exact hxs l hl
    have hokt : ∀ l ∈ t, label_ok l := fun l hl => hok l (hs.subset hl)
    rw [hname, cstr_of_nonzero _ (wire_labels_nonzero _ hokx),
      cstr_of_nonzero _ (wire_labels_nonzero _ hokt)] at hm
    have e1 := wire_labels_inj _ _ hm
    have hs2 : xs <:+ ls := by
      rw [← e1] at hs
      exact (List.suffix_cons x xs).trans hs
    exact suffixes_known kn hk ls pos hok hb xs hne hs2

theorem name_output_lt (kn : List known_name_t) :
    ∀ ls : List (List Nat), (∀ l ∈ ls, label_ok l) →
      (∃ t : List (List Nat), t ≠ [] ∧ t <:+ ls ∧ known kn (wire_labels t)) →
      (name_output kn ls).length < (wire_labels ls).length + 1 := by
  intro ls
  induction ls with
  | nil =>
    rintro _ ⟨t, ht, hs, _⟩
    exact absurd (List.suffix_nil.mp hs) ht
  | cons l ls ih =>
    rintro hok ⟨t, ht, hs, hkn⟩
    have h1 := (hok l (by simp)).1
    unfold name_output
    split
    · simp only [pointer_octets, wire_labels, List.length_cons, List.length_append,
        List.length_nil]
      omega
    · rename_i hn
      rcases List.suffix_cons_iff.mp hs with e | hs
      · rw [e] at hkn
        exact absurd hkn hn
      · have := ih (fun x hx => hok x (by simp [hx])) ⟨t, ht, hs, hkn⟩
        simp only [wire_labels, List.length_cons, List.length_append]
        omega

theorem saves_congr (f g : List known_name_t → Nat → List Nat × List known_name_t)
    (names : List (List Nat)) (plain : Nat) (h : ∀ kn pos, f kn pos = g kn pos)
    (hg : saves g names plain) : saves f names plain := by
  intro kn pos hk hb
  rw [h] at hb ⊢
  exact hg kn pos hk hb

theorem saves_raw (f : List known_name_t → Nat → List Nat × List known_name_t) (k : Nat)
    (h : ∀ kn pos, (f kn pos).2 = kn ∧ (f kn pos).1.length = k) : saves f [] k := by
  intro kn pos hk _
  obtain ⟨h1, h2⟩ := h kn pos
  rw [h1, h2]
  refine ⟨hk, fun s hs => hs, ?_, le_refl _, ?_⟩
  · intro n hn; simp at hn
  · rintro (⟨n, hn, _⟩ | hs)
    · simp at hn
    · exact absurd hs (by simp [shares])

theorem shares_append : ∀ (a c : List (List Nat)), shares (a ++ c) →
    shares a ∨ shares c ∨ ∃ x ∈ a, ∃ y ∈ c, share_suffix x y := by
  intro a
  induction a with
  | nil => intro c h; exact Or.inr (Or.inl h)
  | cons x a ih =>
    intro c h
    simp only [List.cons_append, shares] at h
    rcases h with ⟨y, hy, hs⟩ | h
    · rcases List.mem_append.mp hy with hy | hy
      · exact Or.inl (Or.inl ⟨y, hy, hs⟩)
      · exact Or.inr (Or.inr ⟨x, by simp, y, hy, hs⟩)
    · rcases ih c h with h | h | ⟨x1, hx1, y, hy, hs⟩
      · exact Or.inl (Or.inr h)
      · exact Or.inr (Or.inl h)
      · exact Or.inr (Or.inr ⟨x1, by simp [hx1], y, hy, hs⟩)

theorem saves_seq (f g : List known_name_t → Nat → List Nat × List known_name_t)
    (n1 n2 : List (List Nat)) (p1 p2 : Nat) (hf : saves f n1 p1) (hg : saves g n2 p2) :
    saves (seq_enc f g) (n1 ++ n2) (p1 + p2) := by
  intro kn pos hk hb
  simp only [seq_enc, List.length_append] at hb ⊢
  obtain ⟨f1, f2, f3, f4, f5⟩ := hf kn pos hk (by omega)
  obtain ⟨g1, g2, g3, g4, g5⟩ := hg (f kn pos).2 (pos + (f kn pos).1.length) f1 (by omega)
  refine ⟨g1, fun s hs => g2 s (f2 s hs), ?_, by omega, ?_⟩
  · intro n hn s hs1 hs2
    rcases List.mem_append.mp hn with hn | hn
    · exact g2 _ (f3 n hn s hs1 hs2)
    · exact g3 n hn s hs1 hs2
  · rintro (⟨n, hn, s, hs1, hs2, hs3⟩ | hs)
    · rcases List.mem_append.mp hn with hn | hn
      · have := f5 (Or.inl ⟨n, hn, s, hs1, hs2, hs3⟩)
        omega
      · have := g5 (Or.inl ⟨n, hn, s, hs1, hs2, f2 _ hs3⟩)
        omega
    · rcases shares_append n1 n2 hs with h | h | ⟨x, hx, y, hy, s, hs1, hs2, hs3⟩
      · have := f5 (Or.inr h)
        omega
      · have := g5 (Or.inr h)
        omega
      · have := g5 (Or.inl ⟨y, hy, s, hs1, hs3, f3 x hx s hs1 hs2⟩)
        omega

theorem saves_name (name : List Nat) (hn : name_ok name) :
    saves (fun kn pos => enc_name kn pos name) [name] (plain_name name).length := by
  have hc := name_ok_cstr name hn
  obtain ⟨_, _, hok, _⟩ := hn
  intro kn pos hk hb
  simp only [enc_name, hc, plain_name, List.length_append, List.length_singleton] at hb ⊢
  have hpos := name_entries_pos kn (strtok_all name) pos hb
  refine ⟨table_ok_entries kn hk _ pos hok hb, fun s hs => known_append kn _ hk.1 hpos s hs,
    ?_, name_output_length_le kn _ hok, ?_⟩
  · intro n hn s hs1 hs2
    rw [List.mem_singleton.mp hn] at hs2
    exact suffixes_known kn hk _ pos hok hb s hs1 hs2
  · rintro (⟨n, hn, s, hs1, hs2, hs3⟩ | hs)
    · rw [List.mem_singleton.mp hn] at hs2
      exact name_output_lt kn _ hok ⟨s, hs1, hs2, hs3⟩
    · simp [shares] at hs

theorem saves_of (f g : List known_name_t → Nat → List Nat × List known_name_t)
    (names names2 : List (List Nat)) (plain plain2 : Nat) (h : ∀ kn pos, f kn pos = g kn pos)
    (hn : names = names2) (hp : plain = plain2) (hg : saves g names2 plain2) :
    saves f names plain := by
  rw [hn, hp]
  exact saves_congr f g _ _ h hg

theorem saves_query (q : dns_query_t) (hq : query_ok q) :
    saves (fun kn pos => enc_query kn pos q) [q.name] (plain_query q).length := by
  have h := saves_seq _ (fun kn _ => (be16 q.type ++ be16 q.class_, kn)) _ _ _ 4
    (saves_name q.name hq.1) (saves_raw _ 4 (fun kn pos => ⟨rfl, rfl⟩))
  refine saves_of _ _ _ _ _ _ ?_ ?_ ?_ h
  · intro kn pos
    simp only [enc_query, seq_enc, List.append_assoc]
  · rfl
  · simp only [plain_query, be16, List.length_append, List.length_cons, List.length_nil]

theorem saves_rdata (type : Nat) (data : List Nat) (ht : type < 65536)
    (hd : rdata_ok type data) :
    saves (fun kn pos => enc_rdata kn pos type data) (rdata_names type data)
      (plain_rdata type data).length := by
  unfold rdata_ok at hd
  have e1 : type % 65536 = type := Nat.mod_eq_of_lt ht
  by_cases h1 : type = 1
  · refine saves_of _ (fun kn _ => (be32 (htonl (inet_addr data)), kn)) _ _ _ _ ?_ ?_ ?_
      (saves_raw _ 4 (fun kn pos => ⟨rfl, rfl⟩))
    · intro kn pos
      simp only [enc_rdata, e1, h1, if_true]
    · simp only [rdata_names, h1, if_true]
    · simp only [plain_rdata, h1, if_true, be32, List.length_cons, List.length_nil]
  · by_cases h15 : type = 15
    · simp only [h15, if_true, show (15 : Nat) ≠ 1 by decide, if_false] at hd
      cases hs : sscanf_hd_s data with
      | none =>
        rw [hs] at hd
        simp only at hd
        have h := saves_seq (fun kn _ => (be16 0, kn)) (fun kn pos => enc_name kn pos data)
          _ _ 2 _ (saves_raw _ 2 (fun kn pos => ⟨rfl, rfl⟩)) (saves_name data hd)
        refine saves_of _ _ _ _ _ _ ?_ ?_ ?_ h
        · intro kn pos
          simp only [enc_rdata, e1, h15, show (15 : Nat) ≠ 1 by decide, if_true, if_false, hs,
            seq_enc]
          rfl
        · simp only [rdata_names, h15, show (15 : Nat) ≠ 1 by decide, if_true, if_false, hs]
          rfl
        · simp only [plain_rdata, h15, show (15 : Nat) ≠ 1 by decide, if_true, if_false, hs,
            be16, List.length_append, List.length_cons, List.length_nil]
      | some pn =>
        obtain ⟨pref, name⟩ := pn
        rw [hs] at hd
        simp only at hd
        have h := saves_seq (fun kn _ => (be16 pref, kn)) (fun kn pos => enc_name kn pos name)
          _ _ 2 _ (saves_raw _ 2 (fun kn pos => ⟨rfl, rfl⟩)) (saves_name name hd)
        refine saves_of _ _ _ _ _ _ ?_ ?_ ?_ h
        · intro kn pos
          simp only [enc_rdata, e1, h15, show (15 : Nat) ≠ 1 by decide, if_true, if_false, hs,
            seq_enc]
          rfl
        · simp only [rdata_names, h15, show (15 : Nat) ≠ 1 by decide, if_true, if_false, hs]
          rfl
        · simp only [plain_rdata, h15, show (15 : Nat) ≠ 1 by decide, if_true, if_false, hs,
            be16, List.length_append, List.length_cons, List.length_nil]
    · simp only [h1, h15, if_false] at hd
      refine saves_of _ _ _ _ _ _ ?_ ?_ ?_ (saves_name data hd)
      · intro kn pos
        simp only [enc_rdata, e1, h1, h15, if_false]
      · simp only [rdata_names, h1, h15, if_false]
      · simp only [plain_rdata, h1, h15, if_false]

theorem saves_rr (r : dns_rr_t) (hr : rr_ok r) :
    saves (fun kn pos => enc_rr kn pos r) (r.name :: rdata_names r.type r.data)
      (plain_rr r).length := by
  obtain ⟨hn, ht, _, _, hd⟩ := hr
  have h := saves_seq _ _ _ _ _ _ (saves_name r.name hn)
    (saves_seq (fun kn pos => (be16 r.type ++ be16 r.class_ ++ be32 r.ttl ++
        be16 (enc_rdata kn (pos + 10) r.type r.data).1.length, kn)) _ _ _ 10 _
      (saves_raw _ 10 (fun kn pos => ⟨rfl, rfl⟩)) (saves_rdata r.type r.data ht hd))
  refine saves_of _ _ _ _ _ _ ?_ ?_ ?_ h
  · intro kn pos
    have e : ∀ x : Nat,
        (be16 r.type ++ (be16 r.class_ ++ (be32 r.ttl ++ be16 x))).length = 10 := fun _ => rfl
    simp only [enc_rr, seq_enc, List.append_assoc, e, Nat.add_assoc]
  · rfl
  · simp only [plain_rr, plain_rdata, be16, be32, List.length_append, List.length_cons,
      List.length_nil]
    omega

theorem saves_queries : ∀ qs : List dns_query_t, (∀ q ∈ qs, query_ok q) →
    saves (fun kn pos => enc_queries kn pos qs) (query_names qs) (plain_queries qs).length := by
  intro qs
  induction qs with
  | nil =>
    intro _
    exact saves_raw _ 0 (fun kn pos => ⟨rfl, rfl⟩)
  | cons q rest ih =>
    intro hq
    have h := saves_seq _ _ _ _ _ _ (saves_query q (hq q (by simp)))
      (ih (fun x hx => hq x (by simp [hx])))
    refine saves_of _ _ _ _ _ _ ?_ ?_ ?_ h
    · intro kn pos; rfl
    · rfl
    · simp only [plain_queries, List.length_append]

theorem saves_rrs : ∀ rs : List dns_rr_t, (∀ r ∈ rs, rr_ok r) →
    saves (fun kn pos => enc_rrs kn pos rs) (rr_names rs) (plain_rrs rs).length := by
  intro rs
  induction rs with
  | nil =>
    intro _
    exact saves_raw _ 0 (fun kn pos => ⟨rfl, rfl⟩)
  | cons r rest ih =>
    intro hr
    have h := saves_seq _ _ _ _ _ _ (saves_rr r (hr r (by simp)))
      (ih (fun x hx => hr x (by simp [hx])))
    refine saves_of _ _ _ _ _ _ ?_ ?_ ?_ h
    · intro kn pos; rfl
    · rfl
    · simp only [plain_rrs, List.length_append]

theorem saves_packet (v : dns_packet_t) (hv : packet_ok v) :
    saves (fun kn pos => enc_packet kn pos v) (packet_names v) (plain_packet v).length := by
  obtain ⟨_, _, _, _, _, hq, ha, hu, hd⟩ := hv
  have h := saves_seq (fun kn _ => (header_wire v.header, kn)) _ _ _ 12 _
    (saves_raw _ 12 (fun kn pos => ⟨rfl, rfl⟩))
    (saves_seq _ _ _ _ _ _ (saves_queries v.queries hq)
      (saves_seq _ _ _ _ _ _ (saves_rrs v.answers ha)
        (saves_seq _ _ _ _ _ _ (saves_rrs v.authorities hu) (saves_rrs v.additionals hd))))
  refine saves_of _ _ _ _ _ _ ?_ ?_ ?_ h
  · intro kn pos
    simp only [enc_packet, seq_enc, List.append_assoc, header_wire_length, Nat.add_assoc,
      List.length_append]
  · rfl
  · simp only [plain_packet, List.length_append, header_wire_length]
    omega

theorem shares_of_index : ∀ (names : List (List Nat)) (i j : Nat) (a c : List Nat),
    i < j → names[i]? = some a → names[j]? = some c → share_suffix a c → shares names := by
  intro names
  induction names with
  | nil => intro i j a c _ ha; simp at ha
  | cons x rest ih =>
    intro i j a c hij ha hc hs
    cases j with
    | zero => omega
    | succ j =>
      simp only [List.getElem?_cons_succ] at hc
      cases i with
      | zero =>
        simp only [List.getElem?_cons_zero, Option.some.injEq] at ha
        rw [ha]
        exact Or.inl ⟨c, List.getElem?_mem hc, hs⟩
      | succ i =>
        simp only [List.getElem?_cons_succ] at ha
        exact Or.inr (ih i j a c (by omega) ha hc hs)

theorem table_ok_nil : table_ok [] := by
  refine ⟨fun e he => by simp at he, ?_⟩
  intro l ls _ _ _ h
  exact absurd (find_pos_nil _) h

/-- C6: compression saves space. When `DNS_buffer_write_packet` encodes a well-formed packet
into a buffer that knows no name yet, and two of the packet's names (owner names or RDATA
names, at places `i < j` in writing order) share a suffix of at least one label, the number
of octets written is strictly less than the length of the same packet encoded with every
name written in full. -/
theorem compression_saves_space (b : dns_buffer) (v : dns_packet_t) (w : dns_buffer)
    (i j : Nat) (a c : List Nat)
    (hv : packet_ok v) (hb : buffer_ok b) (hkn : b.known_names = [])
    (hw : DNS_buffer_write_packet b v = (true, w))
    (hij : i < j) (ha : (packet_names v)[i]? = some a) (hc : (packet_names v)[j]? = some c)
    (hs : share_suffix a c) :
    ∃ n, w.pos = b.pos + n ∧ n < (plain_packet v).length := by
  obtain ⟨e, hcap⟩ := write_packet_true b v w hv hb hw
  refine ⟨(enc_packet b.known_names b.pos v).1.length, by rw [e]; simp, ?_⟩
  have hk : table_ok b.known_names := by rw [hkn]; exact table_ok_nil
  have hlim : b.pos + (enc_packet b.known_names b.pos v).1.length ≤ 65535 :=
    hcap.trans hb.2.2.1
  exact (saves_packet v hv b.known_names b.pos hk hlim).2.2.2.2
    (Or.inr (shares_of_index _ i j a c hij ha hc hs))


/-- The saving theorem at `shared_packet`, whose two names are both `www.baidu.com`. -/
theorem compression_saves_space_witness :
    packet_ok shared_packet ∧ buffer_ok (DNS_buffer_create 64) ∧
    share_suffix (dotted www_baidu_com) (dotted www_baidu_com) ∧
    ∃ n, (DNS_buffer_write_packet (DNS_buffer_create 64) shared_packet).2.pos
        = (DNS_buffer_create 64).pos + n ∧ n < (plain_packet shared_packet).length :=
  ⟨by unfold packet_ok header_in_range; decide, by unfold buffer_ok names_nonempty; decide,
   ⟨www_baidu_com, by decide, ⟨[], by decide⟩, ⟨[], by decide⟩⟩,
   compression_saves_space (DNS_buffer_create 64) shared_packet _ 0 1
     (dotted www_baidu_com) (dotted www_baidu_com)
     (by unfold packet_ok header_in_range; decide) (by unfold buffer_ok names_nonempty; decide)
     rfl rfl (by decide) rfl rfl ⟨www_baidu_com, by decide, ⟨[], by decide⟩, ⟨[], by decide⟩⟩⟩

theorem enc_rdata_kind (kn : List known_name_t) (pos type : Nat) (data : List Nat)
    (ht : type < 65536) (hd : rdata_ok type data) :
    (type = 1 → (enc_rdata kn pos type data).1.length = 4) ∧
    (type = 15 → ∃ (p : Nat) (nm : List Nat),
      (enc_rdata kn pos type data).1 = be16 p ++ nm ∧ name_shape nm) ∧
    (type ≠ 1 → type ≠ 15 → name_shape (enc_rdata kn pos type data).1) := by
  refine ⟨?_, ?_, ?_⟩
  · intro h1
    unfold enc_rdata
    simp [Nat.mod_eq_of_lt ht, h1, be32]
  · intro h15
    unfold enc_rdata
    unfold rdata_ok at hd
    simp only [Nat.mod_eq_of_lt ht, h15, if_true] at hd ⊢
    simp only [show ¬ ((15 : Nat) = 1) by omega, if_false] at hd ⊢
    cases hsc : sscanf_hd_s data with
    | none =>
      rw [hsc] at hd
      exact ⟨0, _, rfl, enc_name_shape _ _ _ hd⟩
    | some pn =>
      obtain ⟨pref, name⟩ := pn
      rw [hsc] at hd
      exact ⟨pref, _, rfl, enc_name_shape _ _ _ hd⟩
  · intro h1 h15
    unfold enc_rdata
    unfold rdata_ok at hd
    simp only [Nat.mod_eq_of_lt ht, h1, h15, if_false] at hd ⊢
    exact enc_name_shape _ _ _ hd

theorem take_drop_put (b : dns_buffer) (out : List Nat) (h : b.pos ≤ b.ptr.length) :
    ((put b out).ptr.drop b.pos).take out.length = out := by
  rw [drop_put b out h, List.take_left]

/-- C11: RDLENGTH is exact on encode. When `DNS_buffer_write_RR` succeeds on a well-formed
record, the octets written from the start position are the owner name `N`, type, class and
TTL, then the two octets of the big-endian length of `R`, then the RDATA `R` itself: the
16-bit field in front of the RDATA equals the number of RDATA octets (4 for type A; a 16-bit
preference and a name, possibly compressed, for MX; a name, possibly compressed, for the
other types), and the final position is the RDATA start plus that length. -/
theorem rdlength_exact (b : dns_buffer) (r : dns_rr_t) (w : dns_buffer)
    (hr : rr_ok r) (hb : buffer_ok b) (h : DNS_buffer_write_RR b r = (true, w)) :
    ∃ (N R : List Nat),
      (w.ptr.drop b.pos).take (N.length + 10 + R.length)
        = N ++ be16 r.type ++ be16 r.class_ ++ be32 r.ttl ++ be16 R.length ++ R ∧
      name_shape N ∧
      peek w.ptr (b.pos + N.length + 8) * 256 + peek w.ptr (b.pos + N.length + 9)
        = R.length ∧
      w.pos = (b.pos + N.length + 10) + R.length ∧
      (r.type = 1 → R.length = 4) ∧
      (r.type = 15 → ∃ (p : Nat) (nm : List Nat), R = be16 p ++ nm ∧ name_shape nm) ∧
      (r.type ≠ 1 → r.type ≠ 15 → name_shape R) := by
  obtain ⟨e, hcap⟩ := write_RR_true b r w hr hb h
  obtain ⟨hpos, hreg, hlim, _⟩ := hb
  obtain ⟨hn, ht, _, _, hd⟩ := hr
  have hlen := enc_rdata_length (enc_name b.known_names b.pos r.name).2
    (b.pos + (enc_name b.known_names b.pos r.name).1.length + 10) r.type r.data ht hd
  have hk := enc_rdata_kind (enc_name b.known_names b.pos r.name).2
    (b.pos + (enc_name b.known_names b.pos r.name).1.length + 10) r.type r.data ht hd
  have hE : (enc_rr b.known_names b.pos r).1.length
      = (enc_name b.known_names b.pos r.name).1.length + 10
        + (enc_rdata (enc_name b.known_names b.pos r.name).2
            (b.pos + (enc_name b.known_names b.pos r.name).1.length + 10)
            r.type r.data).1.length := by
    simp only [enc_rr, be16, be32, List.length_append, List.length_cons, List.length_nil]
  have hptr : w.ptr = (put b (enc_rr b.known_names b.pos r).1).ptr := by rw [e]; rfl
  refine ⟨(enc_name b.known_names b.pos r.name).1,
    (enc_rdata (enc_name b.known_names b.pos r.name).2
      (b.pos + (enc_name b.known_names b.pos r.name).1.length + 10) r.type r.data).1,
    ?_, enc_name_shape _ _ _ hn, ?_, ?_, hk.1, hk.2.1, hk.2.2⟩
  · rw [hptr, ← hE]
    exact take_drop_put b _ (by omega)
  · rw [hptr, Nat.add_assoc, Nat.add_assoc,
      peek_put b _ _ (by rw [hE]; omega) (by omega),
      peek_put b _ _ (by rw [hE]; omega) (by omega)]
    have e8 : peek (enc_rr b.known_names b.pos r).1
        ((enc_name b.known_names b.pos r.name).1.length + 8)
        = (enc_rdata (enc_name b.known_names b.pos r.name).2
            (b.pos + (enc_name b.known_names b.pos r.name).1.length + 10)
            r.type r.data).1.length % 65536 / 256 % 256 := by
      simp only [enc_rr, List.append_assoc]
      rw [peek_append_right]
      rfl
    have e9 : peek (enc_rr b.known_names b.pos r).1
        ((enc_name b.known_names b.pos r.name).1.length + 9)
        = (enc_rdata (enc_name b.known_names b.pos r.name).2
            (b.pos + (enc_name b.known_names b.pos r.name).1.length + 10)
            r.type r.data).1.length % 256 % 256 := by
      simp only [enc_rr, List.append_assoc]
      rw [peek_append_right]
      rfl
    rw [e8, e9]
    omega
  · rw [e]
    simp only [with_known_names_pos, put_pos, hE]
    omega

/-- The RDLENGTH theorem at an MX record written into a fresh buffer. -/
theorem rdlength_exact_witness :
    rr_ok sample_mx ∧ buffer_ok (DNS_buffer_create 64) ∧
    ∃ (N R : List Nat),
      ((DNS_buffer_write_RR (DNS_buffer_create 64) sample_mx).2.ptr.drop
          (DNS_buffer_create 64).pos).take (N.length + 10 + R.length)
        = N ++ be16 sample_mx.type ++ be16 sample_mx.class_ ++ be32 sample_mx.ttl
            ++ be16 R.length ++ R ∧
      name_shape N ∧
      peek (DNS_buffer_write_RR (DNS_buffer_create 64) sample_mx).2.ptr
          ((DNS_buffer_create 64).pos + N.length + 8) * 256
        + peek (DNS_buffer_write_RR (DNS_buffer_create 64) sample_mx).2.ptr
          ((DNS_buffer_create 64).pos + N.length + 9) = R.length ∧
      (DNS_buffer_write_RR (DNS_buffer_create 64) sample_mx).2.pos
        = ((DNS_buffer_create 64).pos + N.length + 10) + R.length ∧
      (sample_mx.type = 1 → R.length = 4) ∧
      (sample_mx.type = 15 → ∃ (p : Nat) (nm : List Nat), R = be16 p ++ nm ∧ name_shape nm) ∧
      (sample_mx.type ≠ 1 → sample_mx.type ≠ 15 → name_shape R) :=
  ⟨by decide, by unfold buffer_ok names_nonempty; decide,
   rdlength_exact (DNS_buffer_create 64) sample_mx _ (by decide)
     (by unfold buffer_ok names_nonempty; decide) rfl⟩

theorem read_queries_counts : ∀ (n : Nat) (b : dns_buffer) (v v2 : dns_packet_t)
    (b2 : dns_buffer), read_queries n b v = (some v2, b2) →
    v2.header = v.header ∧ v2.queries.length = v.queries.length + n ∧
    v2.answers = v.answers ∧ v2.authorities = v.authorities ∧
    v2.additionals = v.additionals := by
  intro n
  induction n with
  | zero =>
    intro b v v2 b2 h
    simp only [read_queries, Prod.mk.injEq, Option.some.injEq] at h
    rw [← h.1]
    simp
  | succ n ih =>
    intro b v v2 b2 h
    unfold read_queries at h
    rcases hq : DNS_buffer_read_query b with ⟨_ | q, b1⟩
    · rw [hq] at h; simp at h
    · rw [hq] at h
      obtain ⟨h1, h2, h3, h4, h5⟩ := ih b1 _ v2 b2 h
      refine ⟨h1, ?_, h3, h4, h5⟩
      rw [h2]
      simp [DNS_packet_append_query]
      omega

theorem read_answers_counts : ∀ (n : Nat) (b : dns_buffer) (v v2 : dns_packet_t)
    (b2 : dns_buffer), read_RRs DNS_packet_append_answer n b v = (some v2, b2) →
    v2.header = v.header ∧ v2.queries = v.queries ∧
    v2.answers.length = v.answers.length + n ∧ v2.authorities = v.authorities ∧
    v2.additionals = v.additionals := by
  intro n
  induction n with
  | zero =>
    intro b v v2 b2 h
    simp only [read_RRs, Prod.mk.injEq, Option.some.injEq] at h
    rw [← h.1]
    simp
  | succ n ih =>
    intro b v v2 b2 h
    unfold read_RRs at h
    rcases hq : DNS_buffer_read_RR b with ⟨_ | q, b1⟩
    · rw [hq] at h; simp at h
    · rw [hq] at h
      obtain ⟨h1, h2, h3, h4, h5⟩ := ih b1 _ v2 b2 h
      refine ⟨h1, h2, ?_, h4, h5⟩
      rw [h3]
      simp [DNS_packet_append_answer]
      omega

theorem read_authorities_counts : ∀ (n : Nat) (b : dns_buffer) (v v2 : dns_packet_t)
    (b2 : dns_buffer), read_RRs DNS_packet_append_authority n b v = (some v2, b2) →
    v2.header = v.header ∧ v2.queries = v.queries ∧
    v2.answers = v.answers ∧ v2.authorities.length = v.authorities.length + n ∧
    v2.additionals = v.additionals := by
  intro n
  induction n with
  | zero =>
    intro b v v2 b2 h
    simp only [read_RRs, Prod.mk.injEq, Option.some.injEq] at h
    rw [← h.1]
    simp
  | succ n ih =>
    intro b v v2 b2 h
    unfold read_RRs at h
    rcases hq : DNS_buffer_read_RR b with ⟨_ | q, b1⟩
    · rw [hq] at h; simp at h
    · rw [hq] at h
      obtain ⟨h1, h2, h3, h4, h5⟩ := ih b1 _ v2 b2 h
      refine ⟨h1, h2, h3, ?_, h5⟩
      rw [h4]
      simp [DNS_packet_append_authority]
      omega

theorem read_additionals_counts : ∀ (n : Nat) (b : dns_buffer) (v v2 : dns_packet_t)
    (b2 : dns_buffer), read_RRs DNS_packet_append_additional n b v = (some v2, b2) →
    v2.header = v.header ∧ v2.queries = v.queries ∧
    v2.answers = v.answers ∧ v2.authorities = v.authorities ∧
    v2.additionals.length = v.additionals.length + n := by
  intro n
  induction n with
  | zero =>
    intro b v v2 b2 h
    simp only [read_RRs, Prod.mk.injEq, Option.some.injEq] at h
    rw [← h.1]
    simp
  | succ n ih =>
    intro b v v2 b2 h
    unfold read_RRs at h
    rcases hq : DNS_buffer_read_RR b with ⟨_ | q, b1⟩
    · rw [hq] at h; simp at h
    · rw [hq] at h
      obtain ⟨h1, h2, h3, h4, h5⟩ := ih b1 _ v2 b2 h
      refine ⟨h1, h2, h3, h4, ?_⟩
      rw [h5]
      simp [DNS_packet_append_additional]
      omega

/-- C12: decode reads exactly the advertised counts. When `DNS_buffer_read_packet` succeeds,
starting from a packet object whose four sections are empty, the header of the result is the
one `DNS_buffer_read_DNS_header` reads from the wire at the start position, and the numbers
of decoded questions, answers, authorities and additionals are the four counts of that
header. -/
theorem decode_reads_counts (b : dns_buffer) (v0 v : dns_packet_t) (b2 : dns_buffer)
    (h0 : sections_empty v0) (h : DNS_buffer_read_packet b v0 = (some v, b2)) :
    (DNS_buffer_read_DNS_header b).1 = some v.header ∧
    v.queries.length = v.header.question_count ∧
    v.answers.length = v.header.answer_count ∧
    v.authorities.length = v.header.authority_count ∧
    v.additionals.length = v.header.additional_count := by
  obtain ⟨q0, a0, u0, d0⟩ := h0
  unfold DNS_buffer_read_packet at h
  rcases hh : DNS_buffer_read_DNS_header b with ⟨_ | hd, b1⟩
  · rw [hh] at h; simp at h
  · rw [hh] at h
    dsimp only at h
    rcases h1 : read_queries hd.question_count b1 { v0 with header := hd } with ⟨_ | v1, c1⟩
    · rw [h1] at h; simp at h
    · rw [h1] at h
      dsimp only at h
      obtain ⟨e1, e2, e3, e4, e5⟩ := read_queries_counts _ _ _ _ _ h1
      rcases h2 : read_RRs DNS_packet_append_answer v1.header.answer_count c1 v1
        with ⟨_ | v2, c2⟩
      · rw [h2] at h; simp at h
      · rw [h2] at h
        dsimp only at h
        obtain ⟨f1, f2, f3, f4, f5⟩ := read_answers_counts _ _ _ _ _ h2
        rcases h3 : read_RRs DNS_packet_append_authority v2.header.authority_count c2 v2
          with ⟨_ | v3, c3⟩
        · rw [h3] at h; simp at h
        · rw [h3] at h
          dsimp only at h
          obtain ⟨g1, g2, g3, g4, g5⟩ := read_authorities_counts _ _ _ _ _ h3
          obtain ⟨k1, k2, k3, k4, k5⟩ := read_additionals_counts _ _ _ _ _ h
          dsimp only at e1 e2 e3 e4 e5
          have hv : v.header = hd := by rw [k1, g1, f1, e1]
          rw [hv]
          refine ⟨rfl, ?_, ?_, ?_, ?_⟩
          · rw [k2, g2, f2, e2, q0]; simp
          · rw [k3, g3, f3, e3, a0, e1]; simp
          · rw [k4, g4, f4, e4, u0, f1, e1]; simp
          · rw [k5, g5, f5, e5, d0, g1, f1, e1]; simp

/-- The count theorem at a 19-octet query message with one question. -/
theorem decode_reads_counts_witness :
    sections_empty empty_packet ∧
    ∃ (v : dns_packet_t) (b2 : dns_buffer),
      DNS_buffer_read_packet (DNS_buffer_from_ptr one_question_message 19) empty_packet
        = (some v, b2) ∧ v.queries.length = 1 ∧
      (DNS_buffer_read_DNS_header (DNS_buffer_from_ptr one_question_message 19)).1
        = some v.header ∧
      v.queries.length = v.header.question_count ∧
      v.answers.length = v.header.answer_count ∧
      v.authorities.length = v.header.authority_count ∧
      v.additionals.length = v.header.additional_count :=
  ⟨by unfold sections_empty; decide, _, _, rfl, by decide,
   decode_reads_counts (DNS_buffer_from_ptr one_question_message 19) empty_packet _ _
     (by unfold sections_empty; decide) rfl⟩

theorem enc_packet_parts (kn : List known_name_t) (pos : Nat) (v : dns_packet_t)
    (hq : ∀ q ∈ v.queries, query_ok q) (han : ∀ r ∈ v.answers, rr_ok r)
    (hau : ∀ r ∈ v.authorities, rr_ok r) (had : ∀ r ∈ v.additionals, rr_ok r) :
    ∃ (Q A U D : List Nat),
      (enc_packet kn pos v).1 = header_wire v.header ++ Q ++ A ++ U ++ D ∧
      queries_shape v.queries.length Q ∧ rrs_shape v.answers.length A ∧
      rrs_shape v.authorities.length U ∧ rrs_shape v.additionals.length D :=
  ⟨_, _, _, _, rfl, enc_queries_shape v.queries hq _ _, enc_rrs_shape v.answers han _ _,
    enc_rrs_shape v.authorities hau _ _, enc_rrs_shape v.additionals had _ _⟩

/-- C13 (amended): encode emits the sections as they are. When `DNS_buffer_write_packet`
succeeds on a packet with well-formed questions and records, the octets written from the
start position are the 12 header octets followed by exactly as many questions as the
question list holds and as many records as the answer, authority and additional lists hold,
whatever the four counts of the header say. -/
theorem encode_emits_sections (b : dns_buffer) (v : dns_packet_t) (w : dns_buffer)
    (hh : header_in_range v.header) (hq : ∀ q ∈ v.queries, query_ok q)
    (han : ∀ r ∈ v.answers, rr_ok r) (hau : ∀ r ∈ v.authorities, rr_ok r)
    (had : ∀ r ∈ v.additionals, rr_ok r) (hb : buffer_ok b)
    (h : DNS_buffer_write_packet b v = (true, w)) :
    ∃ (Q A U D : List Nat),
      (w.ptr.drop b.pos).take (12 + Q.length + A.length + U.length + D.length)
        = header_wire v.header ++ Q ++ A ++ U ++ D ∧
      w.pos = b.pos + (12 + Q.length + A.length + U.length + D.length) ∧
      queries_shape v.queries.length Q ∧ rrs_shape v.answers.length A ∧
      rrs_shape v.authorities.length U ∧ rrs_shape v.additionals.length D := by
  obtain ⟨e, hcap⟩ := write_packet_sections b v w hh hq han hau had hb h
  obtain ⟨hpos, hreg, hlim, _⟩ := hb
  have hptr : w.ptr = (put b (enc_packet b.known_names b.pos v).1).ptr := by rw [e]; rfl
  have hE : ∀ (Q A U D : List Nat),
      12 + Q.length + A.length + U.length + D.length
        = (header_wire v.header ++ Q ++ A ++ U ++ D).length := by
    intro Q A U D
    simp only [List.length_append, header_wire_length]
  obtain ⟨Q, A, U, D, hparts, sQ, sA, sU, sD⟩ :=
    enc_packet_parts b.known_names b.pos v hq han hau had
  refine ⟨Q, A, U, D, ?_, ?_, sQ, sA, sU, sD⟩
  · rw [hptr, hE, ← hparts]
    exact take_drop_put b (enc_packet b.known_names b.pos v).1 (by omega)
  · rw [e, hE, ← hparts]
    rfl

/-- C13 as stated fails: the header of `uncounted_packet` advertises no question, the
octets 4 and 5 of the written message say so, and yet the 7 octets of one question (`a`,
type A, class IN) are written after the header. -/
theorem encode_ignores_counts :
    uncounted_packet.header.question_count = 0 ∧
    (DNS_buffer_write_packet (DNS_buffer_create 64) uncounted_packet).1 = true ∧
    (DNS_buffer_write_packet (DNS_buffer_create 64) uncounted_packet).2.pos = 19 ∧
    ((DNS_buffer_write_packet (DNS_buffer_create 64) uncounted_packet).2.ptr.take 19).drop 4
      = [0, 0, 0, 0, 0, 0, 0, 0, 1, 97, 0, 0, 1, 0, 1] ∧
    (DNS_buffer_read_query (DNS_buffer_from_ptr [1, 97, 0, 0, 1, 0, 1] 7)).1
      = some { name := [97], type := 1, class_ := 1 } := by
  decide

/-- The section theorem at `uncounted_packet`, whose header counts are all zero. -/
theorem encode_emits_sections_witness :
    ∃ (Q A U D : List Nat),
      ((DNS_buffer_write_packet (DNS_buffer_create 64) uncounted_packet).2.ptr.drop
          (DNS_buffer_create 64).pos).take (12 + Q.length + A.length + U.length + D.length)
        = header_wire uncounted_packet.header ++ Q ++ A ++ U ++ D ∧
      (DNS_buffer_write_packet (DNS_buffer_create 64) uncounted_packet).2.pos
        = (DNS_buffer_create 64).pos + (12 + Q.length + A.length + U.length + D.length) ∧
      queries_shape uncounted_packet.queries.length Q ∧
      rrs_shape uncounted_packet.answers.length A ∧
      rrs_shape uncounted_packet.authorities.length U ∧
      rrs_shape uncounted_packet.additionals.length D :=
  encode_emits_sections (DNS_buffer_create 64) uncounted_packet _
    (by unfold header_in_range; decide) (by decide) (by decide) (by decide) (by decide)
    (by unfold buffer_ok names_nonempty; decide) rfl

theorem same_flags_refl (a : dns_packet_t) : same_flags a a :=
  ⟨rfl, rfl, rfl, rfl, rfl, rfl, rfl, rfl, rfl⟩

theorem same_flags_trans (a b c : dns_packet_t) (h1 : same_flags a b) (h2 : same_flags b c) :
    same_flags a c := by
  obtain ⟨a1, a2, a3, a4, a5, a6, a7, a8, a9⟩ := h1
  obtain ⟨c1, c2, c3, c4, c5, c6, c7, c8, c9⟩ := h2
  exact ⟨c1.trans a1, c2.trans a2, c3.trans a3, c4.trans a4, c5.trans a5, c6.trans a6,
    c7.trans a7, c8.trans a8, c9.trans a9⟩

theorem kept_refl (a : dns_packet_t) : kept a a := ⟨same_flags_refl a, rfl, fun h => h⟩

theorem kept_trans (a b c : dns_packet_t) (h1 : kept a b) (h2 : kept b c) : kept a c :=
  ⟨same_flags_trans a b c h1.1 h2.1, h2.2.1.trans h1.2.1, fun h => h2.2.2 (h1.2.2 h)⟩

theorem succ_mod_count (c n : Nat) (h : c = n % 65536) : (c + 1) % 65536 = (n + 1) % 65536 := by
  omega

theorem kept_append_answer (a : dns_packet_t) (rr : dns_rr_t) :
    kept a (DNS_packet_append_answer a rr true) := by
  refine ⟨⟨rfl, rfl, rfl, rfl, rfl, rfl, rfl, rfl, rfl⟩, rfl, ?_⟩
  rintro ⟨h1, h2, h3, h4⟩
  refine ⟨h1, ?_, h3, h4⟩
  simp only [DNS_packet_append_answer, if_true, List.length_append, List.length_singleton]
  exact succ_mod_count _ _ h2

theorem kept_append_authority (a : dns_packet_t) (rr : dns_rr_t) :
    kept a (DNS_packet_append_authority a rr true) := by
  refine ⟨⟨rfl, rfl, rfl, rfl, rfl, rfl, rfl, rfl, rfl⟩, rfl, ?_⟩
  rintro ⟨h1, h2, h3, h4⟩
  refine ⟨h1, h2, ?_, h4⟩
  simp only [DNS_packet_append_authority, if_true, List.length_append, List.length_singleton]
  exact succ_mod_count _ _ h3

theorem kept_append_additional (a : dns_packet_t) (rr : dns_rr_t) :
    kept a (DNS_packet_append_additional a rr true) := by
  refine ⟨⟨rfl, rfl, rfl, rfl, rfl, rfl, rfl, rfl, rfl⟩, rfl, ?_⟩
  rintro ⟨h1, h2, h3, h4⟩
  refine ⟨h1, h2, h3, ?_⟩
  simp only [DNS_packet_append_additional, if_true, List.length_append, List.length_singleton]
  exact succ_mod_count _ _ h4

theorem kept_classify (type : Nat) : ∀ (data : List dns_rr_t) (r : dns_packet_t)
    (cp ap : List dns_rr_t), kept r (classify_records type data r cp ap).1 := by
  intro data
  induction data with
  | nil => intro r cp ap; exact kept_refl r
  | cons t rest ih =>
    intro r cp ap
    unfold classify_records
    refine kept_trans r _ _ ?_ (ih _ _ _)
    by_cases h : t.type = 5 ∧ type ≠ 5
    · rw [if_pos h]; exact kept_refl r
    · rw [if_neg h]; exact kept_append_answer r _

theorem kept_follow (table : List dns_rr_t) (type class_ : Nat) :
    ∀ (fuel : Nat) (pending : List dns_rr_t) (r : dns_packet_t) (ap : List dns_rr_t)
      (r2 : dns_packet_t) (ap2 : List dns_rr_t),
      follow_cnames table type class_ fuel pending r ap = some (r2, ap2) → kept r r2 := by
  intro fuel
  induction fuel with
  | zero =>
    intro pending r ap r2 ap2 h
    cases pending with
    | nil =>
      simp only [follow_cnames, Option.some.injEq, Prod.mk.injEq] at h
      rw [← h.1]; exact kept_refl r
    | cons t rest => simp [follow_cnames] at h
  | succ fuel ih =>
    intro pending r ap r2 ap2 h
    cases pending with
    | nil =>
      simp only [follow_cnames, Option.some.injEq, Prod.mk.injEq] at h
      rw [← h.1]; exact kept_refl r
    | cons t rest =>
      unfold follow_cnames at h
      dsimp only at h
      have hc := kept_classify type (DNS_database_get_record table t.data type class_ true)
        (if DNS_database_get_record table t.data type class_ true ≠ [] then
          DNS_packet_append_answer r (DNS_RR_copy t) true else r) rest ap
      rcases hcl : classify_records type (DNS_database_get_record table t.data type class_ true)
        (if DNS_database_get_record table t.data type class_ true ≠ [] then
          DNS_packet_append_answer r (DNS_RR_copy t) true else r) rest ap with ⟨r1, p1, a1⟩
      rw [hcl] at h hc
      dsimp only at h hc
      refine kept_trans r _ r2 (kept_trans r _ r1 ?_ hc) (ih _ _ _ _ _ h)
      by_cases hd : DNS_database_get_record table t.data type class_ true ≠ []
      · rw [if_pos hd]; exact kept_append_answer r _
      · rw [if_neg hd]; exact kept_refl r

theorem kept_append_authorities : ∀ (data : List dns_rr_t) (r : dns_packet_t)
    (ap : List dns_rr_t), kept r (append_authorities data r ap).1 := by
  intro data
  induction data with
  | nil => intro r ap; exact kept_refl r
  | cons t rest ih =>
    intro r ap
    unfold append_authorities
    exact kept_trans r _ _ (kept_append_authority r _) (ih _ _)

theorem kept_find_name_servers (table : List dns_rr_t) (class_ : Nat) :
    ∀ (name : List Nat) (boundary : Bool) (r : dns_packet_t) (ap : List dns_rr_t),
      kept r (find_name_servers table class_ boundary name r ap).1 := by
  intro name
  induction name with
  | nil => intro boundary r ap; exact kept_refl r
  | cons c rest ih =>
    intro boundary r ap
    unfold find_name_servers
    cases boundary with
    | false =>
      simp only [Bool.false_eq_true, if_false]
      exact ih _ _ _
    | true =>
      simp only [if_true]
      exact kept_trans r _ _ (kept_append_authorities _ r ap) (ih _ _ _)

theorem kept_append_additionals : ∀ (data : List dns_rr_t) (r : dns_packet_t),
    kept r (append_additionals data r) := by
  intro data
  induction data with
  | nil => intro r; exact kept_refl r
  | cons t rest ih =>
    intro r
    unfold append_additionals
    exact kept_trans r _ _ (kept_append_additional r _) (ih _)

theorem kept_find_addresses (table : List dns_rr_t) (class_ : Nat) :
    ∀ (ap : List dns_rr_t) (r : dns_packet_t), kept r (find_addresses table class_ ap r) := by
  intro ap
  induction ap with
  | nil => intro r; exact kept_refl r
  | cons t rest ih =>
    intro r
    unfold find_addresses
    exact kept_trans r _ _ (kept_append_additionals _ r) (ih _)

theorem type_unknown_iff (t : Nat) :
    DNS_type_to_str t = "[UNKNOWN]" ↔ ¬ (t = 1 ∨ t = 2 ∨ t = 5 ∨ t = 12 ∨ t = 15) := by
  unfold DNS_type_to_str
  by_cases h1 : t = 1
  · simp [h1]
  by_cases h2 : t = 2
  · simp [h2]
  by_cases h15 : t = 15
  · simp [h15]
  by_cases h12 : t = 12
  · simp [h12]
  by_cases h5 : t = 5
  · simp [h5]
  simp [h1, h2, h15, h12, h5]

theorem class_unknown_iff (c : Nat) : DNS_class_to_str c = "[UNKNOWN]" ↔ c ≠ 1 := by
  unfold DNS_class_to_str
  by_cases h1 : c = 1
  · simp [h1]
  · simp [h1]

theorem supported_iff (q : dns_query_t) :
    supported q = true ↔
      DNS_type_to_str q.type ≠ "[UNKNOWN]" ∧ DNS_class_to_str q.class_ ≠ "[UNKNOWN]" := by
  rw [Ne, Ne, type_unknown_iff, class_unknown_iff]
  simp only [supported, Bool.and_eq_true, Bool.or_eq_true, decide_eq_true_eq, not_not]
  tauto

theorem answer_query_kept (table : List dns_rr_t) (fuel : Nat) (q : dns_query_t)
    (r r2 : dns_packet_t) (h : answer_query table fuel q r = some r2) :
    same_flags r r2 ∧ r2.queries = r.queries ++ [DNS_query_copy q] ∧
    (counted r → counted r2) := by
  unfold answer_query at h
  dsimp only at h
  have hc := kept_classify q.type
    (DNS_database_get_record table q.name q.type q.class_ true)
    (DNS_packet_append_query r (DNS_query_copy q) true) [] []
  rcases hcl : classify_records q.type
    (DNS_database_get_record table q.name q.type q.class_ true)
    (DNS_packet_append_query r (DNS_query_copy q) true) [] [] with ⟨r1, p1, a1⟩
  rw [hcl] at h hc
  dsimp only at h hc
  rcases hf : follow_cnames table q.type q.class_ fuel p1 r1 a1 with _ | ⟨r3, a3⟩
  · rw [hf] at h; simp at h
  · rw [hf] at h
    dsimp only at h
    have hk3 := kept_follow table q.type q.class_ fuel p1 r1 a1 r3 a3 hf
    have hk4 := kept_find_name_servers table q.class_ (cstr q.name) true r3 a3
    rcases hn : find_name_servers table q.class_ true (cstr q.name) r3 a3 with ⟨r4, a4⟩
    rw [hn] at h hk4
    dsimp only at h hk4
    have hk5 := kept_find_addresses table q.class_ a4 r4
    simp only [Option.some.injEq] at h
    rw [h] at hk5
    have hk := kept_trans _ _ _ (kept_trans _ _ _ (kept_trans _ _ _ hc hk3) hk4) hk5
    obtain ⟨k1, k2, k3⟩ := hk
    have hcount : counted r → counted (DNS_packet_append_query r (DNS_query_copy q) true) := by
      rintro ⟨h1, h2, h3, h4⟩
      refine ⟨?_, h2, h3, h4⟩
      simp only [DNS_packet_append_query, if_true, List.length_append, List.length_singleton]
      exact succ_mod_count _ _ h1
    refine ⟨same_flags_trans r _ r2 ⟨rfl, rfl, rfl, rfl, rfl, rfl, rfl, rfl, rfl⟩ k1,
      by rw [k2]; rfl, fun hr => k3 (hcount hr)⟩

theorem process_queries_spec (table : List dns_rr_t) (fuel : Nat) :
    ∀ (qs : List dns_query_t) (r : dns_packet_t) (inv : Bool) (r2 : dns_packet_t)
      (inv2 : Bool), process_queries table fuel qs r inv = some (r2, inv2) →
      same_flags r r2 ∧ r2.queries = r.queries ++ (qs.filter supported).map DNS_query_copy ∧
      (counted r → counted r2) ∧ inv2 = (inv || qs.any (fun q => !supported q)) ∧
      process_queries table fuel (qs.filter supported) r false = some (r2, false) := by
  intro qs
  induction qs with
  | nil =>
    intro r inv r2 inv2 h
    simp only [process_queries, Option.some.injEq, Prod.mk.injEq] at h
    obtain ⟨rfl, rfl⟩ := h
    exact ⟨same_flags_refl r, by simp, fun h => h, by simp, rfl⟩
  | cons q rest ih =>
    intro r inv r2 inv2 h
    by_cases hs : supported q = true
    · have hs2 := (supported_iff q).mp hs
      unfold process_queries at h
      rw [if_neg hs2.1, if_neg hs2.2] at h
      rcases ha : answer_query table fuel q r with _ | r1
      · rw [ha] at h; simp at h
      · rw [ha] at h
        dsimp only at h
        obtain ⟨a1, a2, a3⟩ := answer_query_kept table fuel q r r1 ha
        obtain ⟨b1, b2, b3, b4, b5⟩ := ih r1 inv r2 inv2 h
        refine ⟨same_flags_trans r r1 r2 a1 b1, ?_, fun hr => b3 (a3 hr), ?_, ?_⟩
        · rw [b2, a2]; simp [List.filter_cons, hs]
        · rw [b4]; simp [hs]
        · simp only [List.filter_cons, hs, if_true]
          unfold process_queries
          rw [if_neg hs2.1, if_neg hs2.2, ha]
          exact b5
    · have hs3 : supported q = false := by simpa using hs
      have hu : DNS_type_to_str q.type = "[UNKNOWN]" ∨
          DNS_class_to_str q.class_ = "[UNKNOWN]" := by
        by_contra hcon
        push_neg at hcon
        exact hs ((supported_iff q).mpr hcon)
      have h2 : process_queries table fuel rest r true = some (r2, inv2) := by
        unfold process_queries at h
        rcases hu with hu | hu
        · rw [if_pos hu] at h; exact h
        · by_cases ht : DNS_type_to_str q.type = "[UNKNOWN]"
          · rw [if_pos ht] at h; exact h
          · rw [if_neg ht, if_pos hu] at h; exact h
      obtain ⟨b1, b2, b3, b4, b5⟩ := ih r true r2 inv2 h2
      refine ⟨b1, ?_, b3, ?_, ?_⟩
      · rw [b2]; simp [List.filter_cons, hs3]
      · rw [b4]; simp [hs3]
      · simp only [List.filter_cons, hs3, Bool.false_eq_true, if_false]
        exact b5

theorem kept_follow_cached (env : resolver_env) (type class_ : Nat) :
    ∀ (fuel : Nat) (pending : List dns_rr_t) (st : resolver_state) (r : dns_packet_t)
      (ap : List dns_rr_t) (r2 : dns_packet_t) (ap2 : List dns_rr_t) (st2 : resolver_state),
      follow_cached_cnames env type class_ fuel pending st r ap = some (r2, ap2, st2) →
      kept r r2 := by
  intro fuel
  induction fuel with
  | zero =>
    intro pending st r ap r2 ap2 st2 h
    cases pending with
    | nil =>
      simp only [follow_cached_cnames, Option.some.injEq, Prod.mk.injEq] at h
      rw [← h.1]; exact kept_refl r
    | cons t rest => simp [follow_cached_cnames] at h
  | succ fuel ih =>
    intro pending st r ap r2 ap2 st2 h
    cases pending with
    | nil =>
      simp only [follow_cached_cnames, Option.some.injEq, Prod.mk.injEq] at h
      rw [← h.1]; exact kept_refl r
    | cons t rest =>
      unfold follow_cached_cnames at h
      rcases hg : DNS_database_get_cache env st t.data type class_ with ⟨data2, st1⟩
      rw [hg] at h
      dsimp only at h
      by_cases hd : data2 = []
      · rw [if_pos hd] at h
        exact ih _ _ _ _ _ _ _ h
      · rw [if_neg hd] at h
        have hc := kept_classify type data2
          (DNS_packet_append_answer r (DNS_RR_copy t) true) rest ap
        rcases hcl : classify_records type data2
          (DNS_packet_append_answer r (DNS_RR_copy t) true) rest ap with ⟨r1, p1, a1⟩
        rw [hcl] at h hc
        dsimp only at h hc
        exact kept_trans r _ r2 (kept_trans r _ r1 (kept_append_answer r _) hc)
          (ih _ _ _ _ _ _ _ h)

theorem kept_append_cached_addresses : ∀ (data : List dns_rr_t) (r : dns_packet_t),
    kept r (append_cached_addresses data r) := by
  intro data
  induction data with
  | nil => intro r; exact kept_refl r
  | cons t rest ih =>
    intro r
    unfold append_cached_addresses
    refine kept_trans r _ _ ?_ (ih _)
    by_cases h : t.type = 1
    · rw [if_pos h]; exact kept_append_additional r _
    · rw [if_neg h]; exact kept_refl r

theorem kept_find_cached_addresses (env : resolver_env) (class_ : Nat) :
    ∀ (ap : List dns_rr_t) (st : resolver_state) (r : dns_packet_t),
      kept r (find_cached_addresses env class_ ap st r).1 := by
  intro ap
  induction ap with
  | nil => intro st r; exact kept_refl r
  | cons t rest ih =>
    intro st r
    unfold find_cached_addresses
    exact kept_trans r _ _ (kept_append_cached_addresses _ r) (ih _ _)

theorem kept_take_exchange (env : resolver_env) (name : List Nat) :
    ∀ (adds : List dns_rr_t) (st : resolver_state) (r : dns_packet_t),
      kept r (take_exchange env name adds st r).1 := by
  intro adds
  induction adds with
  | nil => intro st r; exact kept_refl r
  | cons t rest ih =>
    intro st r
    unfold take_exchange
    by_cases h : cstr t.name = name
    · rw [if_pos h]
      exact kept_trans r _ _ (kept_append_additional r _) (ih _ _)
    · rw [if_neg h]
      exact ih _ _

theorem kept_take_answers (env : resolver_env) (adds : List dns_rr_t) :
    ∀ (answers : List dns_rr_t) (st : resolver_state) (r : dns_packet_t),
      kept r (take_answers env adds answers st r).1 := by
  intro answers
  induction answers with
  | nil => intro st r; exact kept_refl r
  | cons t rest ih =>
    intro st r
    unfold take_answers
    by_cases h : t.type = 15
    · simp only [h, if_true]
      exact kept_trans r _ _
        (kept_trans r _ _ (kept_append_answer r _) (kept_take_exchange env _ adds _ _))
        (ih _ _)
    · simp only [h, if_false]
      exact kept_trans r _ _ (kept_append_answer r _) (ih _ _)

theorem kept_query_servers (env : resolver_env) (name : List Nat) (type : Nat) :
    ∀ (fuel : Nat) (pending : List dns_rr_t) (st : resolver_state) (r : dns_packet_t)
      (r2 : dns_packet_t) (st2 : resolver_state),
      query_servers env name type fuel pending st r = some (r2, st2) → kept r r2 := by
  intro fuel
  induction fuel with
  | zero =>
    intro pending st r r2 st2 h
    cases pending with
    | nil =>
      simp only [query_servers, Option.some.injEq, Prod.mk.injEq] at h
      rw [← h.1]; exact kept_refl r
    | cons t rest => simp [query_servers] at h
  | succ fuel ih =>
    intro pending st r r2 st2 h
    cases pending with
    | nil =>
      simp only [query_servers, Option.some.injEq, Prod.mk.injEq] at h
      rw [← h.1]; exact kept_refl r
    | cons ns rest =>
      unfold query_servers at h
      rcases hs : DNS_network_send_query_udp env st ns.data name type with ⟨_ | p, st1⟩
      · rw [hs] at h
        exact ih _ _ _ _ _ h
      · rw [hs] at h
        dsimp only at h
        have hk := kept_take_answers env p.additionals p.answers st1 r
        rcases ht : take_answers env p.additionals p.answers st1 r with ⟨r1, st3⟩
        rw [ht] at h hk
        dsimp only at h hk
        exact kept_trans r r1 r2 hk (ih _ _ _ _ _ h)

theorem answer_query_local_kept (env : resolver_env) (fuel : Nat) (q : dns_query_t)
    (st : resolver_state) (r r2 : dns_packet_t) (st2 : resolver_state)
    (h : answer_query_local env fuel q st r = some (r2, st2)) :
    same_flags r r2 ∧ r2.queries = r.queries ++ [DNS_query_copy q] ∧
    (counted r → counted r2) := by
  have hcount : counted r → counted (DNS_packet_append_query r (DNS_query_copy q) true) := by
    rintro ⟨h1, h2, h3, h4⟩
    refine ⟨?_, h2, h3, h4⟩
    simp only [DNS_packet_append_query, if_true, List.length_append, List.length_singleton]
    exact succ_mod_count _ _ h1
  have hfin : kept (DNS_packet_append_query r (DNS_query_copy q) true) r2 →
      same_flags r r2 ∧ r2.queries = r.queries ++ [DNS_query_copy q] ∧
      (counted r → counted r2) := by
    rintro ⟨k1, k2, k3⟩
    exact ⟨same_flags_trans r _ r2 ⟨rfl, rfl, rfl, rfl, rfl, rfl, rfl, rfl, rfl⟩ k1,
      by rw [k2]; rfl, fun hr => k3 (hcount hr)⟩
  apply hfin
  unfold answer_query_local at h
  dsimp only at h
  rcases hg : DNS_database_get_cache env st q.name q.type q.class_ with ⟨cache, st1⟩
  rw [hg] at h
  dsimp only at h
  by_cases hc : cache ≠ []
  · rw [if_pos hc] at h
    have hk := kept_classify q.type cache
      (DNS_packet_append_query r (DNS_query_copy q) true) [] []
    rcases hcl : classify_records q.type cache
      (DNS_packet_append_query r (DNS_query_copy q) true) [] [] with ⟨r1, p1, a1⟩
    rw [hcl] at h hk
    dsimp only at h hk
    rcases hf : follow_cached_cnames env q.type q.class_ fuel p1 st1 r1 a1
      with _ | ⟨r3, a3, st3⟩
    · rw [hf] at h; simp at h
    · rw [hf] at h
      dsimp only at h
      have hk3 := kept_follow_cached env q.type q.class_ fuel p1 st1 r1 a1 r3 a3 st3 hf
      have hk4 := kept_find_cached_addresses env q.class_ a3 st3 r3
      simp only [Option.some.injEq] at h
      rw [h] at hk4
      exact kept_trans _ _ _ (kept_trans _ _ _ hk hk3) hk4
  · rw [if_neg hc] at h
    exact kept_query_servers env q.name q.type fuel _ st1 _ r2 st2 h

theorem process_queries_local_spec (env : resolver_env) (fuel : Nat) :
    ∀ (qs : List dns_query_t) (st : resolver_state) (r : dns_packet_t) (inv : Bool)
      (r2 : dns_packet_t) (inv2 : Bool) (st2 : resolver_state),
      process_queries_local env fuel qs st r inv = some (r2, inv2, st2) →
      same_flags r r2 ∧ r2.queries = r.queries ++ (qs.filter supported).map DNS_query_copy ∧
      (counted r → counted r2) ∧ inv2 = (inv || qs.any (fun q => !supported q)) := by
  intro qs
  induction qs with
  | nil =>
    intro st r inv r2 inv2 st2 h
    simp only [process_queries_local, Option.some.injEq, Prod.mk.injEq] at h
    obtain ⟨rfl, rfl, _⟩ := h
    exact ⟨same_flags_refl r, by simp, fun h => h, by simp⟩
  | cons q rest ih =>
    intro st r inv r2 inv2 st2 h
    by_cases hs : supported q = true
    · have hs2 := (supported_iff q).mp hs
      unfold process_queries_local at h
      rw [if_neg hs2.1, if_neg hs2.2] at h
      rcases ha : answer_query_local env fuel q st r with _ | ⟨r1, st1⟩
      · rw [ha] at h; simp at h
      · rw [ha] at h
        dsimp only at h
        obtain ⟨a1, a2, a3⟩ := answer_query_local_kept env fuel q st r r1 st1 ha
        obtain ⟨b1, b2, b3, b4⟩ := ih st1 r1 inv r2 inv2 st2 h
        refine ⟨same_flags_trans r r1 r2 a1 b1, ?_, fun hr => b3 (a3 hr), ?_⟩
        · rw [b2, a2]; simp [List.filter_cons, hs]
        · rw [b4]; simp [hs]
    · have hs3 : supported q = false := by simpa using hs
      have hu : DNS_type_to_str q.type = "[UNKNOWN]" ∨
          DNS_class_to_str q.class_ = "[UNKNOWN]" := by
        by_contra hcon
        push_neg at hcon
        exact hs ((supported_iff q).mpr hcon)
      have h2 : process_queries_local env fuel rest st r true = some (r2, inv2, st2) := by
        unfold process_queries_local at h
        rcases hu with hu | hu
        · rw [if_pos hu] at h; exact h
        · by_cases ht : DNS_type_to_str q.type = "[UNKNOWN]"
          · rw [if_pos ht] at h; exact h
          · rw [if_neg ht, if_pos hu] at h; exact h
      obtain ⟨b1, b2, b3, b4⟩ := ih st r true r2 inv2 st2 h2
      refine ⟨b1, ?_, b3, ?_⟩
      · rw [b2]; simp [List.filter_cons, hs3]
      · rw [b4]; simp [hs3]

theorem chase_weight_pos (n k : Nat) : 1 ≤ chase_weight n k := by
  cases k with
  | zero => simp [chase_weight]
  | succ k => simp [chase_weight]

theorem chase_weight_step (n : Nat) : ∀ k : Nat, chase_weight n k ≤ chase_weight n (k + 1) := by
  intro k
  induction k with
  | zero => simp [chase_weight]
  | succ k ih =>
    have := Nat.mul_le_mul_left n ih
    simp only [chase_weight] at this ⊢
    omega

theorem chase_weight_mono (n : Nat) (k m : Nat) (h : k ≤ m) :
    chase_weight n k ≤ chase_weight n m := by
  induction m with
  | zero =>
    have : k = 0 := by omega
    rw [this]
  | succ m ih =>
    by_cases hk : k = m + 1
    · rw [hk]
    · exact (ih (by omega)).trans (chase_weight_step n m)

theorem classify_pending (type : Nat) : ∀ (data : List dns_rr_t) (r : dns_packet_t)
    (cp ap : List dns_rr_t),
    (classify_records type data r cp ap).2.1
      = cp ++ (data.filter (fun t => decide (t.type = 5 ∧ type ≠ 5))).map DNS_RR_copy := by
  intro data
  induction data with
  | nil => intro r cp ap; simp [classify_records]
  | cons t rest ih =>
    intro r cp ap
    unfold classify_records
    rw [ih]
    by_cases h : t.type = 5 ∧ type ≠ 5
    · simp [List.filter_cons, h]
    · simp [List.filter_cons, h]

theorem pending_weight_append (n : Nat) (rk : List Nat → Nat) (a c : List dns_rr_t) :
    pending_weight n rk (a ++ c) = pending_weight n rk a + pending_weight n rk c := by
  simp [pending_weight]

theorem pending_weight_le (n : Nat) (rk : List Nat → Nat) (w : Nat) :
    ∀ (l : List dns_rr_t), (∀ t ∈ l, chase_weight n (rk (cstr t.data)) ≤ w) →
      pending_weight n rk l ≤ l.length * w := by
  intro l
  induction l with
  | nil => intro _; simp [pending_weight]
  | cons t rest ih =>
    intro h
    have h1 := h t (by simp)
    have h2 := ih (fun x hx => h x (by simp [hx]))
    simp only [pending_weight, List.map_cons, List.sum_cons, List.length_cons] at h2 ⊢
    rw [Nat.add_mul]
    omega

/-- The new pending records that the lookup of `key` brings weigh less than `key` itself. -/
theorem new_pending_weight (table : List dns_rr_t) (rk : List Nat → Nat)
    (hr : ranked table rk) (key : List Nat) (type qtype class_ : Nat) (ic : Bool) :
    pending_weight table.length rk
      (((DNS_database_get_record table key type class_ ic).filter
        (fun t => decide (t.type = 5 ∧ qtype ≠ 5))).map DNS_RR_copy) + 1
      ≤ chase_weight table.length (rk (cstr key)) := by
  have hsub : ∀ t ∈ ((DNS_database_get_record table key type class_ ic).filter
      (fun t => decide (t.type = 5 ∧ qtype ≠ 5))).map DNS_RR_copy,
      ∃ r ∈ table, r.type = 5 ∧ r.name = cstr key ∧ cstr t.data = cstr r.data := by
    intro t ht
    obtain ⟨r, hrm, rfl⟩ := List.mem_map.mp ht
    obtain ⟨hr1, hr2⟩ := List.mem_filter.mp hrm
    unfold DNS_database_get_record at hr1
    obtain ⟨hr3, hr4⟩ := List.mem_filter.mp hr1
    simp only [Bool.and_eq_true, decide_eq_true_eq] at hr4 hr2
    exact ⟨r, hr3, hr2.1, hr4.1.1, by simp [DNS_RR_copy, cstr_idem]⟩
  have hlen : (((DNS_database_get_record table key type class_ ic).filter
      (fun t => decide (t.type = 5 ∧ qtype ≠ 5))).map DNS_RR_copy).length ≤ table.length := by
    rw [List.length_map]
    exact (List.length_filter_le _ _).trans (List.length_filter_le _ _)
  cases hk : rk (cstr key) with
  | zero =>
    have hnil : ((DNS_database_get_record table key type class_ ic).filter
        (fun t => decide (t.type = 5 ∧ qtype ≠ 5))).map DNS_RR_copy = [] := by
      apply List.eq_nil_iff_forall_not_mem.mpr
      intro t ht
      obtain ⟨r, h1, h2, h3, _⟩ := hsub t ht
      have := hr r h1 h2
      rw [h3, hk] at this
      omega
    rw [hnil]
    simp [pending_weight, chase_weight]
  | succ k =>
    have hw := pending_weight_le table.length rk (chase_weight table.length k) _ (by
      intro t ht
      obtain ⟨r, h1, h2, h3, h4⟩ := hsub t ht
      have := hr r h1 h2
      rw [h3, hk] at this
      rw [h4]
      exact chase_weight_mono _ _ _ (by omega))
    have := Nat.mul_le_mul_right (chase_weight table.length k) hlen
    simp only [chase_weight]
    omega

theorem follow_returns (table : List dns_rr_t) (rk : List Nat → Nat) (hr : ranked table rk)
    (type class_ : Nat) :
    ∀ (fuel : Nat) (pending : List dns_rr_t) (r : dns_packet_t) (ap : List dns_rr_t),
      pending_weight table.length rk pending ≤ fuel →
      ∃ r2 ap2, follow_cnames table type class_ fuel pending r ap = some (r2, ap2) := by
  intro fuel
  induction fuel with
  | zero =>
    intro pending r ap h
    cases pending with
    | nil => exact ⟨r, ap, rfl⟩
    | cons t rest =>
      have := chase_weight_pos table.length (rk (cstr t.data))
      simp only [pending_weight, List.map_cons, List.sum_cons] at h
      omega
  | succ fuel ih =>
    intro pending r ap h
    cases pending with
    | nil => exact ⟨r, ap, rfl⟩
    | cons t rest =>
      unfold follow_cnames
      dsimp only
      have hp := classify_pending type (DNS_database_get_record table t.data type class_ true)
        (if DNS_database_get_record table t.data type class_ true ≠ [] then
          DNS_packet_append_answer r (DNS_RR_copy t) true else r) rest ap
      rcases hcl : classify_records type (DNS_database_get_record table t.data type class_ true)
        (if DNS_database_get_record table t.data type class_ true ≠ [] then
          DNS_packet_append_answer r (DNS_RR_copy t) true else r) rest ap with ⟨r1, p1, a1⟩
      rw [hcl] at hp
      dsimp only at hp ⊢
      apply ih
      rw [hp, pending_weight_append]
      have hn := new_pending_weight table rk hr t.data type type class_ true
      have hc : pending_weight table.length rk (t :: rest)
          = chase_weight table.length (rk (cstr t.data)) + pending_weight table.length rk rest := by
        simp [pending_weight]
      rw [hc] at h
      omega

theorem answer_query_returns (table : List dns_rr_t) (rk : List Nat → Nat)
    (hr : ranked table rk) (fuel : Nat) (q : dns_query_t) (r : dns_packet_t)
    (hf : chase_weight table.length (rk (cstr q.name)) ≤ fuel) :
    ∃ r2, answer_query table fuel q r = some r2 := by
  unfold answer_query
  dsimp only
  have hp := classify_pending q.type (DNS_database_get_record table q.name q.type q.class_ true)
    (DNS_packet_append_query r (DNS_query_copy q) true) [] []
  rcases hcl : classify_records q.type
    (DNS_database_get_record table q.name q.type q.class_ true)
    (DNS_packet_append_query r (DNS_query_copy q) true) [] [] with ⟨r1, p1, a1⟩
  rw [hcl] at hp
  dsimp only at hp ⊢
  have hn := new_pending_weight table rk hr q.name q.type q.type q.class_ true
  rw [List.nil_append] at hp
  rw [← hp] at hn
  obtain ⟨r3, a3, hf3⟩ := follow_returns table rk hr q.type q.class_ fuel p1 r1 a1 (by omega)
  rw [hf3]
  dsimp only
  rcases find_name_servers table q.class_ true (cstr q.name) r3 a3 with ⟨r4, a4⟩
  exact ⟨_, rfl⟩

theorem process_queries_returns (table : List dns_rr_t) (rk : List Nat → Nat)
    (hr : ranked table rk) (fuel : Nat) :
    ∀ (qs : List dns_query_t) (r : dns_packet_t) (inv : Bool),
      (∀ q ∈ qs, chase_weight table.length (rk (cstr q.name)) ≤ fuel) →
      ∃ r2 inv2, process_queries table fuel qs r inv = some (r2, inv2) := by
  intro qs
  induction qs with
  | nil => intro r inv _; exact ⟨r, inv, rfl⟩
  | cons q rest ih =>
    intro r inv hf
    have hrest : ∀ x ∈ rest, chase_weight table.length (rk (cstr x.name)) ≤ fuel :=
      fun x hx => hf x (by simp [hx])
    unfold process_queries
    by_cases ht : DNS_type_to_str q.type = "[UNKNOWN]"
    · rw [if_pos ht]; exact ih r true hrest
    · rw [if_neg ht]
      by_cases hc : DNS_class_to_str q.class_ = "[UNKNOWN]"
      · rw [if_pos hc]; exact ih r true hrest
      · rw [if_neg hc]
        obtain ⟨r1, h1⟩ := answer_query_returns table rk hr fuel q r (hf q (by simp))
        rw [h1]
        exact ih r1 inv hrest

theorem le_sum_of_mem (l : List Nat) (x : Nat) (h : x ∈ l) : x ≤ l.sum := by
  induction l with
  | nil => simp at h
  | cons y rest ih =>
    rcases List.mem_cons.mp h with h | h
    · rw [h]; simp
    · have := ih h
      simp only [List.sum_cons]
      omega

/-- With a table whose CNAME rows form no cycle the responder returns a response. -/
theorem response_returns (table : List dns_rr_t) (rk : List Nat → Nat) (hr : ranked table rk)
    (request : dns_packet_t) :
    ∃ r, DNS_query_create_response table (enough_fuel table rk request) request = some r := by
  unfold DNS_query_create_response
  obtain ⟨r2, inv2, h⟩ := process_queries_returns table rk hr (enough_fuel table rk request)
    request.queries (initial_response request) false (by
      intro q hq
      unfold enough_fuel
      exact le_sum_of_mem _ _ (List.mem_map.mpr ⟨q, hq, rfl⟩))
  rw [h]
  exact ⟨_, rfl⟩

theorem signed_value_ne_five (v : Nat) (h : v % 65536 ≠ 5) : signed_value 16 v ≠ 5 := by
  unfold signed_value
  have e1 : (2 : Nat) ^ 16 = 65536 := by norm_num
  have e2 : (2 : Nat) ^ (16 - 1) = 32768 := by norm_num
  have e3 : (2 : Int) ^ 16 = 65536 := by norm_num
  rw [e1, e2, e3]
  have := Nat.mod_lt v (show 65536 > 0 by omega)
  split <;> omega

theorem put_cache_no_cname (env : resolver_env) (st : resolver_state) (rr : dns_rr_t)
    (h : no_cached_cname st) (ht : rr.type % 65536 ≠ 5) :
    no_cached_cname (DNS_database_put_cache env st rr) := by
  intro r hr
  simp only [DNS_database_put_cache, List.mem_append, List.mem_singleton] at hr
  rcases hr with hr | hr
  · exact h r hr
  · rw [hr]
    exact signed_value_ne_five _ ht

theorem get_cache_state (env : resolver_env) (st : resolver_state) (name : List Nat)
    (type class_ : Nat) :
    (DNS_database_get_cache env st name type class_).2.cache = st.cache := rfl

theorem get_cache_types (env : resolver_env) (st : resolver_state) (name : List Nat)
    (type class_ : Nat) (h : no_cached_cname st) (ht : type < 65536) :
    ∀ t ∈ (DNS_database_get_cache env st name type class_).1, t.type = type := by
  intro t ht2
  simp only [DNS_database_get_cache, List.mem_map, List.mem_filter, Bool.and_eq_true,
    Bool.or_eq_true, decide_eq_true_eq] at ht2
  obtain ⟨r, ⟨hr, ⟨⟨_, hty⟩, _⟩, _⟩, rfl⟩ := ht2
  rcases hty with hty | hty
  · simp only [cache_row_record, hty]
    omega
  · exact absurd hty (h r hr)

theorem classify_no_pending (type : Nat) (data : List dns_rr_t) (r : dns_packet_t)
    (ap : List dns_rr_t) (h : ∀ t ∈ data, t.type = type) :
    (classify_records type data r [] ap).2.1 = [] := by
  rw [classify_pending, List.nil_append, List.map_eq_nil_iff, List.filter_eq_nil_iff]
  intro t ht
  rw [h t ht]
  simp

theorem find_cached_addresses_cache (env : resolver_env) (class_ : Nat) :
    ∀ (ap : List dns_rr_t) (st : resolver_state) (r : dns_packet_t),
      (find_cached_addresses env class_ ap st r).2.cache = st.cache := by
  intro ap
  induction ap with
  | nil => intro st r; rfl
  | cons t rest ih =>
    intro st r
    unfold find_cached_addresses
    exact ih _ _

theorem take_exchange_no_cname (env : resolver_env) (name : List Nat) :
    ∀ (adds : List dns_rr_t) (st : resolver_state) (r : dns_packet_t),
      (∀ t ∈ adds, t.type % 65536 ≠ 5) → no_cached_cname st →
      no_cached_cname (take_exchange env name adds st r).2 := by
  intro adds
  induction adds with
  | nil => intro st r _ h; exact h
  | cons t rest ih =>
    intro st r ha h
    unfold take_exchange
    have hrest : ∀ x ∈ rest, x.type % 65536 ≠ 5 := fun x hx => ha x (by simp [hx])
    by_cases hn : cstr t.name = name
    · rw [if_pos hn]
      exact ih _ _ hrest (put_cache_no_cname env st t h (ha t (by simp)))
    · rw [if_neg hn]
      exact ih _ _ hrest h

theorem take_answers_no_cname (env : resolver_env) (adds : List dns_rr_t)
    (ha : ∀ t ∈ adds, t.type % 65536 ≠ 5) :
    ∀ (answers : List dns_rr_t) (st : resolver_state) (r : dns_packet_t),
      (∀ t ∈ answers, t.type % 65536 ≠ 5) → no_cached_cname st →
      no_cached_cname (take_answers env adds answers st r).2 := by
  intro answers
  induction answers with
  | nil => intro st r _ h; exact h
  | cons t rest ih =>
    intro st r hans h
    unfold take_answers
    have hrest : ∀ x ∈ rest, x.type % 65536 ≠ 5 := fun x hx => hans x (by simp [hx])
    have hput := put_cache_no_cname env st t h (hans t (by simp))
    by_cases h15 : t.type = 15
    · simp only [h15, if_true]
      exact ih _ _ hrest (take_exchange_no_cname env _ adds _ _ ha hput)
    · simp only [h15, if_false]
      exact ih _ _ hrest hput

theorem answer_query_local_returns (env : resolver_env) (henv : direct_upstream env)
    (fuel : Nat) (q : dns_query_t) (hq : supported q = true) (st : resolver_state)
    (hst : no_cached_cname st) (r : dns_packet_t) :
    ∃ r2 st2, answer_query_local env (fuel + 1) q st r = some (r2, st2) ∧
      no_cached_cname st2 := by
  have hty : q.type < 65536 := by
    simp only [supported, Bool.and_eq_true, Bool.or_eq_true, decide_eq_true_eq] at hq
    omega
  unfold answer_query_local
  dsimp only
  have hg1 := get_cache_state env st q.name q.type q.class_
  have hg2 := get_cache_types env st q.name q.type q.class_ hst hty
  rcases hg : DNS_database_get_cache env st q.name q.type q.class_ with ⟨cache, st1⟩
  rw [hg] at hg1 hg2
  dsimp only at hg1 hg2 ⊢
  have hst1 : no_cached_cname st1 := by
    intro x hx
    rw [hg1] at hx
    exact hst x hx
  by_cases hc : cache ≠ []
  · rw [if_pos hc]
    have hp := classify_no_pending q.type cache
      (DNS_packet_append_query r (DNS_query_copy q) true) [] hg2
    rcases hcl : classify_records q.type cache
      (DNS_packet_append_query r (DNS_query_copy q) true) [] [] with ⟨r1, p1, a1⟩
    rw [hcl] at hp
    dsimp only at hp ⊢
    rw [hp]
    simp only [follow_cached_cnames]
    refine ⟨_, _, rfl, ?_⟩
    intro x hx
    rw [find_cached_addresses_cache] at hx
    exact hst1 x hx
  · rw [if_neg hc]
    unfold query_servers
    rcases hs : DNS_network_send_query_udp env st1 (root_server q.type).data q.name q.type
      with ⟨_ | p, st3⟩
    · dsimp only
      have hst3 : st3.cache = st1.cache := by
        have := congrArg (fun x => x.2.cache) hs
        simpa [DNS_network_send_query_udp] using this.symm
      cases fuel with
      | zero =>
        refine ⟨_, _, rfl, ?_⟩
        intro x hx; rw [hst3] at hx; exact hst1 x hx
      | succ f =>
        refine ⟨_, _, rfl, ?_⟩
        intro x hx; rw [hst3] at hx; exact hst1 x hx
    · dsimp only
      have hsend : env.send st1.sent.length
          { address := cstr (root_server q.type).data, name := cstr q.name, type := q.type }
          = some p := by
        have := congrArg (fun x => x.1) hs
        simpa [DNS_network_send_query_udp] using this
      have hst3 : st3.cache = st1.cache := by
        have := congrArg (fun x => x.2.cache) hs
        simpa [DNS_network_send_query_udp] using this.symm
      obtain ⟨e1, e2, e3⟩ := henv _ _ _ hsend
      have hk := take_answers_no_cname env p.additionals e3 p.answers st3
        (DNS_packet_append_query r (DNS_query_copy q) true) e2 (by
          intro x hx; rw [hst3] at hx; exact hst1 x hx)
      rcases hta : take_answers env p.additionals p.answers st3
        (DNS_packet_append_query r (DNS_query_copy q) true) with ⟨r5, st5⟩
      rw [hta] at hk
      dsimp only at hk ⊢
      rw [e1]
      simp only [next_servers, List.append_nil]
      cases fuel with
      | zero => exact ⟨_, _, rfl, hk⟩
      | succ f => exact ⟨_, _, rfl, hk⟩

theorem process_queries_local_returns (env : resolver_env) (henv : direct_upstream env)
    (fuel : Nat) :
    ∀ (qs : List dns_query_t) (st : resolver_state) (r : dns_packet_t) (inv : Bool),
      no_cached_cname st →
      ∃ r2 inv2 st2, process_queries_local env (fuel + 1) qs st r inv = some (r2, inv2, st2) := by
  intro qs
  induction qs with
  | nil => intro st r inv _; exact ⟨r, inv, st, rfl⟩
  | cons q rest ih =>
    intro st r inv hst
    by_cases hs : supported q = true
    · have hs2 := (supported_iff q).mp hs
      unfold process_queries_local
      rw [if_neg hs2.1, if_neg hs2.2]
      obtain ⟨r1, st1, h1, hst1⟩ := answer_query_local_returns env henv fuel q hs st hst r
      rw [h1]
      exact ih st1 r1 inv hst1
    · have hu : DNS_type_to_str q.type = "[UNKNOWN]" ∨
          DNS_class_to_str q.class_ = "[UNKNOWN]" := by
        by_contra hcon
        push_neg at hcon
        exact hs ((supported_iff q).mpr hcon)
      unfold process_queries_local
      by_cases ht : DNS_type_to_str q.type = "[UNKNOWN]"
      · rw [if_pos ht]; exact ih st r true hst
      · rw [if_neg ht, if_pos (hu.resolve_left ht)]; exact ih st r true hst

/-- With upstream servers that answer directly and a cache without CNAME rows the resolver
returns a response as soon as the fuel allows one turn of each walk. -/
theorem response_local_returns (env : resolver_env) (henv : direct_upstream env)
    (fuel : Nat) (st : resolver_state) (hst : no_cached_cname st) (request : dns_packet_t) :
    ∃ r st2, DNS_query_create_response_local env (fuel + 1) st request = some (r, st2) := by
  unfold DNS_query_create_response_local
  obtain ⟨r2, inv2, st2, h⟩ := process_queries_local_returns env henv fuel request.queries st
    (initial_response request) false hst
  rw [h]
  exact ⟨_, _, rfl⟩

theorem finish_flags (r : dns_packet_t) (inv : Bool) :
    (finish_response r inv).header.id = r.header.id ∧
    (finish_response r inv).header.qr = r.header.qr ∧
    (finish_response r inv).header.opcode = r.header.opcode ∧
    (finish_response r inv).header.aa = r.header.aa ∧
    (finish_response r inv).header.tc = r.header.tc ∧
    (finish_response r inv).header.rd = r.header.rd ∧
    (finish_response r inv).header.ra = r.header.ra ∧
    (finish_response r inv).header.z = r.header.z ∧
    (finish_response r inv).queries = r.queries ∧
    (finish_response r inv).answers = r.answers ∧
    (finish_response r inv).authorities = r.authorities ∧
    (finish_response r inv).additionals = r.additionals ∧
    (counted r → counted (finish_response r inv)) := by
  unfold finish_response counted
  cases inv <;> by_cases h : r.header.answer_count = 0 ∧ r.header.authority_count = 0 ∧
      r.header.additional_count = 0 <;> simp [h]

theorem counted_initial (request : dns_packet_t) : counted (initial_response request) := by
  simp [counted, initial_response]

theorem response_flags_of (request r2 : dns_packet_t) (inv : Bool)
    (h : same_flags (initial_response request) r2) :
    response_flags request (finish_response r2 inv) := by
  obtain ⟨f1, f2, f3, f4, f5, f6, f7, f8, f9, _⟩ := finish_flags r2 inv
  obtain ⟨s1, s2, s3, s4, s5, s6, s7, s8, s9⟩ := h
  exact ⟨by rw [f1, s1]; rfl, by rw [f2, s2]; rfl, by rw [f4, s4]; rfl, by rw [f5, s5]; rfl,
    by rw [f6, s6]; rfl, by rw [f7, s7]; rfl, by rw [f8, s8]; rfl⟩

/-- C16: id and flags of a response. Every response that `DNS_query_create_response` or
`DNS_query_create_response_local` returns for a request has the id of the request, `QR = 1`
and `AA = TC = RD = RA = Z = 0`. A response is returned whenever the walks over the pending
lists end: by the authoritative responder for every table whose CNAME rows form no cycle, by
the resolver for upstream servers that answer directly and a cache without CNAME rows. -/
theorem response_id_and_flags (request : dns_packet_t) :
    (∀ table fuel r, DNS_query_create_response table fuel request = some r →
      response_flags request r) ∧
    (∀ env fuel st r st2,
      DNS_query_create_response_local env fuel st request = some (r, st2) →
      response_flags request r) ∧
    (∀ table rk, ranked table rk →
      ∃ r, DNS_query_create_response table (enough_fuel table rk request) request = some r) ∧
    (∀ env st fuel, direct_upstream env → no_cached_cname st →
      ∃ r st2, DNS_query_create_response_local env (fuel + 1) st request = some (r, st2)) := by
  refine ⟨?_, ?_, fun table rk hr => response_returns table rk hr request,
    fun env st fuel henv hst => response_local_returns env henv fuel st hst request⟩
  · intro table fuel r h
    unfold DNS_query_create_response at h
    rcases hp : process_queries table fuel request.queries (initial_response request) false
      with _ | ⟨r2, inv2⟩
    · rw [hp] at h; simp at h
    · rw [hp] at h
      simp only [Option.some.injEq] at h
      rw [← h]
      exact response_flags_of request r2 inv2 (process_queries_spec table fuel _ _ _ _ _ hp).1
  · intro env fuel st r st2 h
    unfold DNS_query_create_response_local at h
    rcases hp : process_queries_local env fuel request.queries st (initial_response request)
      false with _ | ⟨r2, inv2, st3⟩
    · rw [hp] at h; simp at h
    · rw [hp] at h
      simp only [Option.some.injEq, Prod.mk.injEq] at h
      rw [← h.1]
      exact response_flags_of request r2 inv2
        (process_queries_local_spec env fuel _ _ _ _ _ _ _ hp).1

/-- The id-and-flags theorem at the request for `www.baidu.com A`, answered from the table
`s2` and by a resolver whose upstream servers are silent. -/
theorem response_id_and_flags_witness :
    (∃ r, DNS_query_create_response zone_s2 4 (request_of 0 [question "www.baidu.com" 1])
        = some r ∧ response_flags (request_of 0 [question "www.baidu.com" 1]) r) ∧
    (∃ r st2, DNS_query_create_response_local silent_env 1 fresh_state
        (request_of 0 [question "www.baidu.com" 1]) = some (r, st2) ∧
      response_flags (request_of 0 [question "www.baidu.com" 1]) r) :=
  ⟨⟨_, rfl, (response_id_and_flags (request_of 0 [question "www.baidu.com" 1])).1
      zone_s2 4 _ rfl⟩,
   ⟨_, _, rfl, (response_id_and_flags (request_of 0 [question "www.baidu.com" 1])).2.1
      silent_env 1 fresh_state _ _ rfl⟩⟩

/-- C17 (amended): the opcode of a response is `OP_STANDARD_QUERY`. Every response that
`DNS_query_create_response` returns has `header.opcode = 0`, whatever the opcode of the
request. -/
theorem opcode_is_standard (table : List dns_rr_t) (fuel : Nat) (request r : dns_packet_t)
    (h : DNS_query_create_response table fuel request = some r) : r.header.opcode = 0 := by
  unfold DNS_query_create_response at h
  rcases hp : process_queries table fuel request.queries (initial_response request) false
    with _ | ⟨r2, inv2⟩
  · rw [hp] at h; simp at h
  · rw [hp] at h
    simp only [Option.some.injEq] at h
    rw [← h, (finish_flags r2 inv2).2.2.1, (process_queries_spec table fuel _ _ _ _ _ hp).1.2.2.1]
    rfl

/-- C17 as stated fails: a request with opcode 2 (`OP_SERVER_STATUS`) for `code.org A` gets
a response with opcode 0. -/
theorem opcode_not_copied :
    (request_of 2 [question "code.org" 1]).header.opcode = 2 ∧
    (DNS_query_create_response zone_s2 4 (request_of 2 [question "code.org" 1])).map
      (fun r => (r.header.opcode, r.header.rcode, r.header.answer_count)) = some (0, 0, 1) := by
  decide

/-- The opcode theorem at a request with opcode 2. -/
theorem opcode_is_standard_witness :
    ∃ r, DNS_query_create_response zone_s2 4 (request_of 2 [question "code.org" 1]) = some r ∧
      r.header.opcode = 0 :=
  ⟨_, rfl, opcode_is_standard zone_s2 4 (request_of 2 [question "code.org" 1]) _ rfl⟩

theorem finish_invalid (r : dns_packet_t) :
    finish_response r true
      = { finish_response r false with
          header := { (finish_response r false).header with rcode := 4 } } := by
  unfold finish_response
  simp

/-- C18: NOTIMP on unsupported questions. When a request holds a question whose type is not
one of A, NS, CNAME, PTR, MX or whose class is not IN, the response that
`DNS_query_create_response` returns has RCODE 4; its question section holds the copies of the
supported questions only; and it is, RCODE apart, the response to the request without its
unsupported questions: those cause no lookup and no record, the others are processed as
usual. -/
theorem notimp_on_unsupported (table : List dns_rr_t) (fuel : Nat)
    (request r : dns_packet_t) (q : dns_query_t) (hq : q ∈ request.queries)
    (hu : supported q = false)
    (h : DNS_query_create_response table fuel request = some r) :
    r.header.rcode = 4 ∧
    r.queries = (request.queries.filter supported).map DNS_query_copy ∧
    ∃ r0, DNS_query_create_response table fuel
        { request with queries := request.queries.filter supported } = some r0 ∧
      r = { r0 with header := { r0.header with rcode := 4 } } := by
  unfold DNS_query_create_response at h
  rcases hp : process_queries table fuel request.queries (initial_response request) false
    with _ | ⟨r2, inv2⟩
  · rw [hp] at h; simp at h
  · rw [hp] at h
    simp only [Option.some.injEq] at h
    obtain ⟨_, p2, _, p4, p5⟩ := process_queries_spec table fuel _ _ _ _ _ hp
    have hinv : inv2 = true := by
      rw [p4]
      simp only [Bool.false_or, List.any_eq_true]
      exact ⟨q, hq, by simp [hu]⟩
    rw [hinv] at h
    refine ⟨by rw [← h]; simp [finish_response], ?_, finish_response r2 false, ?_, ?_⟩
    · rw [← h, (finish_flags r2 true).2.2.2.2.2.2.2.2.1, p2]
      simp [initial_response]
    · unfold DNS_query_create_response
      have hi : initial_response { request with queries := request.queries.filter supported }
          = initial_response request := rfl
      rw [hi]
      dsimp only
      rw [p5]
    · rw [← h]
      exact finish_invalid r2

/-- The NOTIMP theorem at a request with the questions `www.baidu.com` of type 99 and
`code.org A`, against the table `s2`. -/
theorem notimp_on_unsupported_witness :
    ∃ r, DNS_query_create_response zone_s2 4
        (request_of 0 [question "www.baidu.com" 99, question "code.org" 1]) = some r ∧
      r.header.rcode = 4 ∧ r.queries = [question "code.org" 1] ∧ r.answers.length = 1 :=
  ⟨_, rfl,
   (notimp_on_unsupported zone_s2 4
     (request_of 0 [question "www.baidu.com" 99, question "code.org" 1]) _
     (question "www.baidu.com" 99) (by decide) (by decide) rfl).1,
   by decide, by decide⟩

/-- C20 (amended): count integrity modulo 65536. In every response that
`DNS_query_create_response` returns, each of the four header counts is the length of its
section modulo 65536 (the counts are 16-bit), hence equal to the length of the section
whenever that section holds fewer than 65536 entries. -/
theorem count_integrity (table : List dns_rr_t) (fuel : Nat) (request r : dns_packet_t)
    (h : DNS_query_create_response table fuel request = some r) :
    counted r ∧
    (r.queries.length < 65536 → r.header.question_count = r.queries.length) ∧
    (r.answers.length < 65536 → r.header.answer_count = r.answers.length) ∧
    (r.authorities.length < 65536 → r.header.authority_count = r.authorities.length) ∧
    (r.additionals.length < 65536 → r.header.additional_count = r.additionals.length) := by
  unfold DNS_query_create_response at h
  rcases hp : process_queries table fuel request.queries (initial_response request) false
    with _ | ⟨r2, inv2⟩
  · rw [hp] at h; simp at h
  · rw [hp] at h
    simp only [Option.some.injEq] at h
    obtain ⟨_, _, p3, _, _⟩ := process_queries_spec table fuel _ _ _ _ _ hp
    have hc : counted r := by
      rw [← h]
      exact (finish_flags r2 inv2).2.2.2.2.2.2.2.2.2.2.2.2 (p3 (counted_initial request))
    obtain ⟨c1, c2, c3, c4⟩ := hc
    exact ⟨⟨c1, c2, c3, c4⟩, fun hl => by rw [c1, Nat.mod_eq_of_lt hl],
      fun hl => by rw [c2, Nat.mod_eq_of_lt hl], fun hl => by rw [c3, Nat.mod_eq_of_lt hl],
      fun hl => by rw [c4, Nat.mod_eq_of_lt hl]⟩

/-- The count theorem at the request for `www.baidu.com A` against the table `s2`. -/
theorem count_integrity_witness :
    ∃ r, DNS_query_create_response zone_s2 4 (request_of 0 [question "www.baidu.com" 1])
        = some r ∧ counted r ∧ r.answers.length = 3 :=
  ⟨_, rfl,
   (count_integrity zone_s2 4 (request_of 0 [question "www.baidu.com" 1]) _ rfl).1,
   by decide⟩

/-- The closing test of `DNS_query_create_response` reads the three 16-bit counts. For a
request all of whose questions have a supported type and class IN, the response returned has
RCODE 3 exactly when its three record counts are zero, that is when the lengths of the
answer, authority and additional sections are multiples of 65536, and RCODE 0 otherwise; with
fewer than 65536 records in each section, RCODE 3 exactly when the three sections are
empty. -/
theorem rcode_of_counts (table : List dns_rr_t) (fuel : Nat)
    (request r : dns_packet_t) (hs : ∀ q ∈ request.queries, supported q = true)
    (h : DNS_query_create_response table fuel request = some r) :
    (r.header.rcode = 3 ↔ r.answers.length % 65536 = 0 ∧ r.authorities.length % 65536 = 0 ∧
      r.additionals.length % 65536 = 0) ∧
    (r.header.rcode = 3 ∨ r.header.rcode = 0) ∧
    (r.answers.length < 65536 → r.authorities.length < 65536 →
      r.additionals.length < 65536 →
      (r.header.rcode = 3 ↔ r.answers = [] ∧ r.authorities = [] ∧ r.additionals = [])) := by
  unfold DNS_query_create_response at h
  rcases hp : process_queries table fuel request.queries (initial_response request) false
    with _ | ⟨r2, inv2⟩
  · rw [hp] at h; simp at h
  · rw [hp] at h
    simp only [Option.some.injEq] at h
    obtain ⟨p1, _, p3, p4, _⟩ := process_queries_spec table fuel _ _ _ _ _ hp
    have hinv : inv2 = false := by
      rw [p4]
      simp only [Bool.false_or, List.any_eq_false]
      intro q hq
      simp [hs q hq]
    obtain ⟨_, c2, c3, c4⟩ := p3 (counted_initial request)
    have hr0 : r2.header.rcode = 0 := p1.2.2.2.2.2.2.2.2
    have hf := finish_flags r2 false
    have ha : r.answers = r2.answers := by rw [← h, hinv]; exact hf.2.2.2.2.2.2.2.2.2.1
    have hu : r.authorities = r2.authorities := by
      rw [← h, hinv]; exact hf.2.2.2.2.2.2.2.2.2.2.1
    have hd : r.additionals = r2.additionals := by
      rw [← h, hinv]; exact hf.2.2.2.2.2.2.2.2.2.2.2.1
    have hrc : r.header.rcode = if r2.header.answer_count = 0 ∧
        r2.header.authority_count = 0 ∧ r2.header.additional_count = 0 then 3 else 0 := by
      rw [← h, hinv]
      unfold finish_response
      by_cases hz : r2.header.answer_count = 0 ∧ r2.header.authority_count = 0 ∧
          r2.header.additional_count = 0
      · simp [hz]
      · simp [hz, hr0]
    rw [ha, hu, hd, hrc, ← c2, ← c3, ← c4]
    have hmain : ((if r2.header.answer_count = 0 ∧ r2.header.authority_count = 0 ∧
        r2.header.additional_count = 0 then 3 else 0) = 3 ↔
        r2.header.answer_count = 0 ∧ r2.header.authority_count = 0 ∧
        r2.header.additional_count = 0) := by
      by_cases hz : r2.header.answer_count = 0 ∧ r2.header.authority_count = 0 ∧
          r2.header.additional_count = 0
      · simp [hz]
      · simp [hz]
    refine ⟨hmain, ?_, ?_⟩
    · by_cases hz : r2.header.answer_count = 0 ∧ r2.header.authority_count = 0 ∧
          r2.header.additional_count = 0
      · left; simp [hz]
      · right; simp [hz]
    · intro l1 l2 l3
      rw [hmain, c2, c3, c4, Nat.mod_eq_of_lt l1, Nat.mod_eq_of_lt l2, Nat.mod_eq_of_lt l3]
      simp [List.length_eq_zero]

theorem classify_wide : ∀ (n : Nat) (r : dns_packet_t), r.header.answer_count < 65536 →
    classify_records 1 (List.replicate n wide_row) r [] []
      = ({ r with answers := r.answers ++ List.replicate n wide_row,
                  header := { r.header with
                    answer_count := (r.header.answer_count + n) % 65536 } }, [], []) := by
  intro n
  induction n with
  | zero =>
    intro r hr
    simp only [List.replicate_zero, classify_records, List.append_nil, Nat.add_zero,
      Nat.mod_eq_of_lt hr]
  | succ n ih =>
    intro r hr
    have hcopy : DNS_RR_copy wide_row = wide_row := by decide
    have h5 : ¬ (wide_row.type = 5 ∧ (1 : Nat) ≠ 5) := by decide
    have h15 : ¬ (wide_row.type = 15) := by decide
    rw [List.replicate_succ]
    unfold classify_records
    simp only [h5, h15, if_false, hcopy]
    rw [ih _ (by simp only [DNS_packet_append_answer, if_true]; omega)]
    simp only [DNS_packet_append_answer, if_true, List.append_assoc, List.singleton_append,
      Nat.mod_add_mod, Nat.add_assoc, Nat.add_comm 1 n]

theorem wide_lookup (n : Nat) :
    DNS_database_get_record (List.replicate n wide_row) (txt "x") 1 1 true
      = List.replicate n wide_row := by
  unfold DNS_database_get_record
  exact List.filter_replicate_of_pos (by decide)

theorem wide_lookup_ns (n : Nat) :
    DNS_database_get_record (List.replicate n wide_row) (txt "x") 2 1 false = [] := by
  unfold DNS_database_get_record
  exact List.filter_replicate_of_neg (by decide)

theorem wide_answer (n fuel : Nat) :
    answer_query (List.replicate n wide_row) fuel (question "x" 1)
      (initial_response wide_request) = some (wide_response n) := by
  have hq : (question "x" 1).name = txt "x" := rfl
  have hc : cstr (txt "x") = txt "x" := by decide
  unfold answer_query
  simp only [show (question "x" 1).type = 1 from rfl, show (question "x" 1).class_ = 1 from rfl,
    hq, wide_lookup]
  rw [classify_wide n _ (by decide)]
  simp only [follow_cnames, hc]
  have hw : txt "x" = [120] := by decide
  rw [hw]
  simp only [find_name_servers]
  rw [← hw, wide_lookup_ns]
  simp only [if_true, append_authorities, find_addresses]
  have hqc : DNS_query_copy (question "x" 1) = question "x" 1 := by decide
  simp only [wide_response, DNS_packet_append_query, if_true, hqc, initial_response,
    wide_request, request_of, List.nil_append, Nat.zero_add]

theorem wide_zone_response (n fuel : Nat) :
    DNS_query_create_response (List.replicate n wide_row) fuel wide_request
      = some (finish_response (wide_response n) false) := by
  have ht : DNS_type_to_str (question "x" 1).type ≠ "[UNKNOWN]" := by decide
  have hc : DNS_class_to_str (question "x" 1).class_ ≠ "[UNKNOWN]" := by decide
  unfold DNS_query_create_response
  have hq : wide_request.queries = [question "x" 1] := rfl
  rw [hq]
  unfold process_queries
  rw [if_neg ht, if_neg hc, wide_answer]
  simp only [process_queries]

theorem finish_wide (n : Nat) (h : n % 65536 = 0) :
    (finish_response (wide_response n) false).header.rcode = 3 ∧
    (finish_response (wide_response n) false).header.answer_count = 0 ∧
    (finish_response (wide_response n) false).answers.length = n := by
  refine ⟨?_, ?_, ?_⟩
  · simp [finish_response, wide_response, h]
  · simp [finish_response, wide_response, h]
  · rw [(finish_flags (wide_response n) false).2.2.2.2.2.2.2.2.2.1]
    simp only [wide_response, List.length_replicate]

/-- Against a table with 65536 rows `x A 1.2.3.4` the request for `x A IN` gets a response
with 65536 answers whose 16-bit answer count has wrapped to 0, so that its RCODE is 3
although the answer section is not empty. -/
theorem nxdomain_with_answers :
    ∃ r, DNS_query_create_response (List.replicate 65536 wide_row) 0 wide_request = some r ∧
      r.header.rcode = 3 ∧ r.answers.length = 65536 ∧ r.answers ≠ [] := by
  obtain ⟨h1, _, h3⟩ := finish_wide 65536 (by decide)
  refine ⟨_, wide_zone_response 65536 0, h1, h3, ?_⟩
  intro h
  rw [h] at h3
  exact absurd h3 (by decide)

/-- C20 as stated fails: against a table with 65536 rows `x A 1.2.3.4` the request for
`x A IN` gets a response whose answer section holds 65536 records while its
`answer_count` is 0. -/
theorem answer_count_wraps :
    ∃ r, DNS_query_create_response (List.replicate 65536 wide_row) 0 wide_request = some r ∧
      r.header.answer_count = 0 ∧ r.answers.length = 65536 ∧
      r.header.answer_count ≠ r.answers.length := by
  obtain ⟨_, h2, h3⟩ := finish_wide 65536 (by decide)
  exact ⟨_, wide_zone_response 65536 0, h2, h3, by rw [h2, h3]; decide⟩

/-- C25: format-error reply. When `DNS_buffer_read_packet` fails on a received datagram, the
packet that `DNS_network_handle_query_udp` sends is `DNS_query_create_fail_response` of
`R_FORMAT_ERR` (1); and for every `rcode` in 0..15 that function yields `QR = 1`, RCODE
`rcode`, four zero counts and four empty sections. -/
theorem format_error_reply :
    (∀ (table : List dns_rr_t) (fuel id : Nat) (bytes : List Nat),
      0 < min bytes.length BUFFER_SIZE →
      (DNS_buffer_read_packet
        (DNS_buffer_from_ptr (receive_buffer bytes) (min bytes.length BUFFER_SIZE))
        empty_packet).1 = none →
      ∃ octets, DNS_network_handle_query_udp table fuel id (some bytes)
        = some (some (DNS_query_create_fail_response id 1, octets))) ∧
    (∀ (id : Nat) (rcode : Int), 0 ≤ rcode → rcode < 16 →
      (DNS_query_create_fail_response id rcode).header.qr = 1 ∧
      ((DNS_query_create_fail_response id rcode).header.rcode : Int) = rcode ∧
      (DNS_query_create_fail_response id rcode).header.question_count = 0 ∧
      (DNS_query_create_fail_response id rcode).header.answer_count = 0 ∧
      (DNS_query_create_fail_response id rcode).header.authority_count = 0 ∧
      (DNS_query_create_fail_response id rcode).header.additional_count = 0 ∧
      (DNS_query_create_fail_response id rcode).queries = [] ∧
      (DNS_query_create_fail_response id rcode).answers = [] ∧
      (DNS_query_create_fail_response id rcode).authorities = [] ∧
      (DNS_query_create_fail_response id rcode).additionals = []) := by
  constructor
  · intro table fuel id bytes hpos hfail
    unfold DNS_network_handle_query_udp
    simp only [hpos, if_true, gt_iff_lt]
    rcases hr : DNS_buffer_read_packet
      (DNS_buffer_from_ptr (receive_buffer bytes) (min bytes.length BUFFER_SIZE)) empty_packet
      with ⟨_ | p, b1⟩
    · exact ⟨_, rfl⟩
    · rw [hr] at hfail
      simp at hfail
  · intro id rcode h0 h16
    refine ⟨rfl, ?_, rfl, rfl, rfl, rfl, rfl, rfl, rfl, rfl⟩
    simp only [DNS_query_create_fail_response]
    rw [Int.emod_eq_of_lt h0 h16]
    exact Int.toNat_of_nonneg h0

set_option maxRecDepth 100000 in
/-- The format-error theorem at a datagram of five octets, too short for a header: the reply
is the 12-octet header with `QR = 1` and RCODE 1. -/
theorem format_error_reply_witness :
    DNS_network_handle_query_udp zone_s2 4 0x1234 (some [1, 2, 3, 4, 5])
      = some (some (DNS_query_create_fail_response 0x1234 1,
          [0x12, 0x34, 128, 1, 0, 0, 0, 0, 0, 0, 0, 0])) ∧
    ∃ octets, DNS_network_handle_query_udp zone_s2 4 0x1234 (some [1, 2, 3, 4, 5])
        = some (some (DNS_query_create_fail_response 0x1234 1, octets)) :=
  ⟨by decide, format_error_reply.1 zone_s2 4 0x1234 [1, 2, 3, 4, 5] (by decide) (by decide)⟩

theorem loop_classify (r : dns_packet_t) (cp ap : List dns_rr_t) :
    classify_records 1 [row "a" 60 1 5 "a"] r cp ap = (r, cp ++ [row "a" 60 1 5 "a"], ap) := by
  have hc : DNS_RR_copy (row "a" 60 1 5 "a") = row "a" 60 1 5 "a" := by decide
  have h5 : (row "a" 60 1 5 "a").type = 5 ∧ (1 : Nat) ≠ 5 := by decide
  have h15 : ¬ (row "a" 60 1 5 "a").type = 15 := by decide
  unfold classify_records
  rw [if_pos h5, if_pos h5, if_neg h15, hc]
  rfl

theorem loop_walk : ∀ (fuel : Nat) (r : dns_packet_t) (ap : List dns_rr_t),
    follow_cnames loop_zone 1 1 fuel [row "a" 60 1 5 "a"] r ap = none := by
  intro fuel
  induction fuel with
  | zero => intro r ap; rfl
  | succ fuel ih =>
    intro r ap
    have hl : DNS_database_get_record loop_zone (row "a" 60 1 5 "a").data 1 1 true
        = [row "a" 60 1 5 "a"] := by decide
    unfold follow_cnames
    dsimp only
    rw [hl, loop_classify]
    exact ih _ _

/-- C24 (defect): against the table whose only row is the CNAME `a -> a`, the request for
`a A IN` is never answered: the walk over `cname_pending` puts a copy of the row back on the
list at every turn, so no amount of fuel yields a response. -/
theorem cname_cycle_never_answered :
    ∀ fuel : Nat, DNS_query_create_response loop_zone fuel (request_of 0 [question "a" 1])
      = none := by
  intro fuel
  have ht : DNS_type_to_str (question "a" 1).type ≠ "[UNKNOWN]" := by decide
  have hc : DNS_class_to_str (question "a" 1).class_ ≠ "[UNKNOWN]" := by decide
  have hq : (request_of 0 [question "a" 1]).queries = [question "a" 1] := rfl
  have hl : DNS_database_get_record loop_zone (question "a" 1).name 1 1 true
      = [row "a" 60 1 5 "a"] := by decide
  unfold DNS_query_create_response
  rw [hq]
  unfold process_queries
  rw [if_neg ht, if_neg hc]
  unfold answer_query
  dsimp only
  rw [show (question "a" 1).type = 1 from rfl, show (question "a" 1).class_ = 1 from rfl, hl,
    loop_classify]
  dsimp only
  rw [List.nil_append, loop_walk]

theorem classify_sections (type : Nat) : ∀ (data : List dns_rr_t) (r : dns_packet_t)
    (cp ap : List dns_rr_t),
    (classify_records type data r cp ap).1.answers
      = r.answers ++ (data.filter (fun t => !decide (t.type = 5 ∧ type ≠ 5))).map DNS_RR_copy ∧
    (classify_records type data r cp ap).1.authorities = r.authorities ∧
    (classify_records type data r cp ap).1.additionals = r.additionals ∧
    (classify_records type data r cp ap).2.2
      = ap ++ (data.filter (fun t => decide (t.type = 15))).map DNS_RR_copy := by
  intro data
  induction data with
  | nil => intro r cp ap; simp [classify_records]
  | cons t rest ih =>
    intro r cp ap
    unfold classify_records
    obtain ⟨h1, h2, h3, h4⟩ := ih
      (if t.type = 5 ∧ type ≠ 5 then r else DNS_packet_append_answer r (DNS_RR_copy t) true)
      (if t.type = 5 ∧ type ≠ 5 then cp ++ [DNS_RR_copy t] else cp)
      (if t.type = 15 then ap ++ [DNS_RR_copy t] else ap)
    dsimp only
    rw [h1, h2, h3, h4]
    refine ⟨?_, ?_, ?_, ?_⟩
    · by_cases h : t.type = 5 ∧ type ≠ 5
      · simp [List.filter_cons, h]
      · have h2 : ¬ t.type = 5 ∨ type = 5 := by tauto
        simp [List.filter_cons, h, h2, DNS_packet_append_answer]
    · by_cases h : t.type = 5 ∧ type ≠ 5
      · simp [h]
      · simp [h, DNS_packet_append_answer]
    · by_cases h : t.type = 5 ∧ type ≠ 5
      · simp [h]
      · simp [h, DNS_packet_append_answer]
    · by_cases h : t.type = 15
      · simp [List.filter_cons, h]
      · simp [List.filter_cons, h]

theorem answers_added_refl (a : dns_packet_t) : answers_added a a := ⟨rfl, rfl, [], by simp⟩

theorem answers_added_trans (a b c : dns_packet_t) (h1 : answers_added a b)
    (h2 : answers_added b c) : answers_added a c := by
  obtain ⟨a1, a2, l1, a3⟩ := h1
  obtain ⟨b1, b2, l2, b3⟩ := h2
  exact ⟨b1.trans a1, b2.trans a2, l1 ++ l2, by rw [b3, a3, List.append_assoc]⟩

theorem answers_added_append (a : dns_packet_t) (rr : dns_rr_t) :
    answers_added a (DNS_packet_append_answer a rr true) :=
  ⟨rfl, rfl, [rr], rfl⟩

theorem answers_added_classify (type : Nat) (data : List dns_rr_t) (r : dns_packet_t)
    (cp ap : List dns_rr_t) : answers_added r (classify_records type data r cp ap).1 := by
  obtain ⟨h1, h2, h3, _⟩ := classify_sections type data r cp ap
  exact ⟨h2, h3, _, h1⟩

/-- What a finished walk over `cname_pending` has done: answers only were added, and every
record that was pending and whose target has a record has been appended to the answers. -/
theorem follow_answers (table : List dns_rr_t) (type class_ : Nat) :
    ∀ (fuel : Nat) (pending : List dns_rr_t) (r : dns_packet_t) (ap : List dns_rr_t)
      (r2 : dns_packet_t) (ap2 : List dns_rr_t),
      follow_cnames table type class_ fuel pending r ap = some (r2, ap2) →
      answers_added r r2 ∧
      ∀ t ∈ pending, DNS_database_get_record table t.data type class_ true ≠ [] →
        DNS_RR_copy t ∈ r2.answers := by
  intro fuel
  induction fuel with
  | zero =>
    intro pending r ap r2 ap2 h
    cases pending with
    | nil =>
      simp only [follow_cnames, Option.some.injEq, Prod.mk.injEq] at h
      rw [← h.1]
      exact ⟨answers_added_refl r, fun t ht => by simp at ht⟩
    | cons t rest => simp [follow_cnames] at h
  | succ fuel ih =>
    intro pending r ap r2 ap2 h
    cases pending with
    | nil =>
      simp only [follow_cnames, Option.some.injEq, Prod.mk.injEq] at h
      rw [← h.1]
      exact ⟨answers_added_refl r, fun t ht => by simp at ht⟩
    | cons t rest =>
      unfold follow_cnames at h
      dsimp only at h
      have hc := answers_added_classify type
        (DNS_database_get_record table t.data type class_ true)
        (if DNS_database_get_record table t.data type class_ true ≠ [] then
          DNS_packet_append_answer r (DNS_RR_copy t) true else r) rest ap
      have hp := classify_pending type (DNS_database_get_record table t.data type class_ true)
        (if DNS_database_get_record table t.data type class_ true ≠ [] then
          DNS_packet_append_answer r (DNS_RR_copy t) true else r) rest ap
      rcases hcl : classify_records type (DNS_database_get_record table t.data type class_ true)
        (if DNS_database_get_record table t.data type class_ true ≠ [] then
          DNS_packet_append_answer r (DNS_RR_copy t) true else r) rest ap with ⟨r1, p1, a1⟩
      rw [hcl] at h hc hp
      dsimp only at h hc hp
      obtain ⟨i1, i2⟩ := ih _ _ _ _ _ h
      have h01 : answers_added r r1 := by
        refine answers_added_trans r _ r1 ?_ hc
        by_cases hd : DNS_database_get_record table t.data type class_ true ≠ []
        · rw [if_pos hd]; exact answers_added_append r _
        · rw [if_neg hd]; exact answers_added_refl r
      refine ⟨answers_added_trans r r1 r2 h01 i1, ?_⟩
      intro x hx hne
      rcases List.mem_cons.mp hx with hx | hx
      · subst hx
        obtain ⟨_, _, l2, e2⟩ := i1
        obtain ⟨_, _, l1, e1⟩ := hc
        rw [e2, e1, if_pos hne]
        simp [DNS_packet_append_answer]
      · exact i2 x (by rw [hp]; exact List.mem_append_left _ hx) hne

theorem append_authorities_sections : ∀ (data : List dns_rr_t) (r : dns_packet_t)
    (ap : List dns_rr_t),
    (append_authorities data r ap).1.answers = r.answers ∧
    (append_authorities data r ap).1.authorities = r.authorities ++ data.map DNS_RR_copy ∧
    (append_authorities data r ap).1.additionals = r.additionals ∧
    (append_authorities data r ap).2 = ap ++ data.map DNS_RR_copy := by
  intro data
  induction data with
  | nil => intro r ap; simp [append_authorities]
  | cons t rest ih =>
    intro r ap
    unfold append_authorities
    obtain ⟨h1, h2, h3, h4⟩ := ih (DNS_packet_append_authority r (DNS_RR_copy t) true)
      (ap ++ [DNS_RR_copy t])
    rw [h1, h2, h3, h4]
    simp [DNS_packet_append_authority]

theorem find_name_servers_sections (table : List dns_rr_t) (class_ : Nat) :
    ∀ (name : List Nat) (boundary : Bool) (r : dns_packet_t) (ap : List dns_rr_t),
    (find_name_servers table class_ boundary name r ap).1.answers = r.answers ∧
    (find_name_servers table class_ boundary name r ap).1.authorities
      = r.authorities ++ (((if boundary then [name] else []) ++ after_dots name).filter
          (fun s => !s.isEmpty)).flatMap
          (fun s => (DNS_database_get_record table s 2 class_ false).map DNS_RR_copy) ∧
    (find_name_servers table class_ boundary name r ap).1.additionals = r.additionals ∧
    (find_name_servers table class_ boundary name r ap).2
      = ap ++ (((if boundary then [name] else []) ++ after_dots name).filter
          (fun s => !s.isEmpty)).flatMap
          (fun s => (DNS_database_get_record table s 2 class_ false).map DNS_RR_copy) := by
  intro name
  induction name with
  | nil => intro boundary r ap; cases boundary <;> simp [find_name_servers, after_dots]
  | cons c rest ih =>
    intro boundary r ap
    unfold find_name_servers
    cases boundary with
    | false =>
      simp only [Bool.false_eq_true, if_false, List.nil_append]
      obtain ⟨h1, h2, h3, h4⟩ := ih (decide (c = 46)) r ap
      rw [h1, h2, h3, h4]
      by_cases hc : c = 46
      · simp [after_dots, hc]
      · simp [after_dots, hc]
    | true =>
      simp only [if_true]
      obtain ⟨a1, a2, a3, a4⟩ := append_authorities_sections
        (DNS_database_get_record table (c :: rest) 2 class_ false) r ap
      obtain ⟨h1, h2, h3, h4⟩ := ih (decide (c = 46))
        (append_authorities (DNS_database_get_record table (c :: rest) 2 class_ false) r ap).1
        (append_authorities (DNS_database_get_record table (c :: rest) 2 class_ false) r ap).2
      rw [h1, h2, h3, h4, a1, a2, a3, a4]
      by_cases hc : c = 46
      · simp [after_dots, hc, List.filter_cons, List.append_assoc]
      · simp [after_dots, hc, List.filter_cons, List.append_assoc]

theorem append_additionals_sections : ∀ (data : List dns_rr_t) (r : dns_packet_t),
    (append_additionals data r).answers = r.answers ∧
    (append_additionals data r).authorities = r.authorities ∧
    (append_additionals data r).additionals = r.additionals ++ data.map DNS_RR_copy := by
  intro data
  induction data with
  | nil => intro r; simp [append_additionals]
  | cons t rest ih =>
    intro r
    unfold append_additionals
    obtain ⟨h1, h2, h3⟩ := ih (DNS_packet_append_additional r (DNS_RR_copy t) true)
    rw [h1, h2, h3]
    simp [DNS_packet_append_additional]

theorem find_addresses_sections (table : List dns_rr_t) (class_ : Nat) :
    ∀ (ap : List dns_rr_t) (r : dns_packet_t),
    (find_addresses table class_ ap r).answers = r.answers ∧
    (find_addresses table class_ ap r).authorities = r.authorities ∧
    (find_addresses table class_ ap r).additionals
      = r.additionals ++ glue_records table class_ ap := by
  intro ap
  induction ap with
  | nil => intro r; simp [find_addresses, glue_records]
  | cons t rest ih =>
    intro r
    unfold find_addresses
    obtain ⟨a1, a2, a3⟩ := append_additionals_sections
      (DNS_database_get_record table (glue_name t) 1 class_ false) r
    obtain ⟨h1, h2, h3⟩ := ih
      (append_additionals (DNS_database_get_record table (glue_name t) 1 class_ false) r)
    rw [h1, h2, h3, a1, a2, a3]
    simp [glue_records, List.append_assoc]

theorem get_record_cstr (table : List dns_rr_t) (name : List Nat) (type class_ : Nat)
    (ic : Bool) :
    DNS_database_get_record table (cstr name) type class_ ic
      = DNS_database_get_record table name type class_ ic := by
  unfold DNS_database_get_record
  rw [cstr_idem]

theorem copy_copy (t : dns_rr_t) : DNS_RR_copy (DNS_RR_copy t) = DNS_RR_copy t := by
  simp [DNS_RR_copy, cstr_idem]

theorem answer_query_sections (table : List dns_rr_t) (fuel : Nat) (q : dns_query_t)
    (r r2 : dns_packet_t) (h : answer_query table fuel q r = some r2) :
    r2.authorities = r.authorities ++ authority_records table q ∧
    (∃ l, r2.answers = r.answers ++ l) ∧
    (∃ l, r2.additionals = r.additionals ++ l) ∧
    (∀ t ∈ DNS_database_get_record table q.name q.type q.class_ true, t.type = 5 →
      q.type ≠ 5 → DNS_database_get_record table t.data q.type q.class_ true ≠ [] →
      DNS_RR_copy t ∈ r2.answers) := by
  unfold answer_query at h
  dsimp only at h
  have hs := classify_sections q.type
    (DNS_database_get_record table q.name q.type q.class_ true)
    (DNS_packet_append_query r (DNS_query_copy q) true) [] []
  have hp := classify_pending q.type
    (DNS_database_get_record table q.name q.type q.class_ true)
    (DNS_packet_append_query r (DNS_query_copy q) true) [] []
  rcases hcl : classify_records q.type
    (DNS_database_get_record table q.name q.type q.class_ true)
    (DNS_packet_append_query r (DNS_query_copy q) true) [] [] with ⟨r1, p1, a1⟩
  rw [hcl] at h hs hp
  dsimp only at h hs hp
  obtain ⟨s1, s2, s3, _⟩ := hs
  rcases hf : follow_cnames table q.type q.class_ fuel p1 r1 a1 with _ | ⟨r3, a3⟩
  · rw [hf] at h; simp at h
  · rw [hf] at h
    dsimp only at h
    obtain ⟨⟨f1, f2, lf, f3⟩, f4⟩ := follow_answers table q.type q.class_ fuel p1 r1 a1 r3 a3 hf
    obtain ⟨n1, n2, n3, _⟩ := find_name_servers_sections table q.class_ (cstr q.name) true r3 a3
    rcases hn : find_name_servers table q.class_ true (cstr q.name) r3 a3 with ⟨r4, a4⟩
    rw [hn] at h n1 n2 n3
    dsimp only at h n1 n2 n3
    obtain ⟨d1, d2, d3⟩ := find_addresses_sections table q.class_ a4 r4
    simp only [Option.some.injEq] at h
    rw [h] at d1 d2 d3
    have hans : r2.answers = r.answers
        ++ ((DNS_database_get_record table q.name q.type q.class_ true).filter
            (fun t => !decide (t.type = 5 ∧ q.type ≠ 5))).map DNS_RR_copy ++ lf := by
      rw [d1, n1, f3, s1]
      rfl
    refine ⟨?_, ⟨_, by rw [hans, List.append_assoc]⟩, ⟨_, by rw [d3, n3, f2, s3]; rfl⟩, ?_⟩
    · rw [d2, n2, f1, s2]
      simp only [if_true, List.singleton_append]
      rfl
    · intro t ht h5 hq5 hne
      rw [d1, n1]
      have hmem : DNS_RR_copy t ∈ p1 := by
        rw [hp, List.nil_append]
        exact List.mem_map_of_mem _ (List.mem_filter.mpr ⟨ht, by simp [h5, hq5]⟩)
      have := f4 (DNS_RR_copy t) hmem (by
        have e : (DNS_RR_copy t).data = cstr t.data := rfl
        rw [e, get_record_cstr]
        exact hne)
      rw [copy_copy] at this
      exact this

theorem process_queries_sections (table : List dns_rr_t) (fuel : Nat) :
    ∀ (qs : List dns_query_t) (r : dns_packet_t) (inv : Bool) (r2 : dns_packet_t)
      (inv2 : Bool), process_queries table fuel qs r inv = some (r2, inv2) →
      r2.authorities
        = r.authorities ++ (qs.filter supported).flatMap (authority_records table) ∧
      (∃ l, r2.answers = r.answers ++ l) ∧
      (∀ q ∈ qs, supported q = true →
        ∀ t ∈ DNS_database_get_record table q.name q.type q.class_ true, t.type = 5 →
        q.type ≠ 5 → DNS_database_get_record table t.data q.type q.class_ true ≠ [] →
        DNS_RR_copy t ∈ r2.answers) := by
  intro qs
  induction qs with
  | nil =>
    intro r inv r2 inv2 h
    simp only [process_queries, Option.some.injEq, Prod.mk.injEq] at h
    obtain ⟨rfl, rfl⟩ := h
    exact ⟨by simp, ⟨[], by simp⟩, fun q hq => by simp at hq⟩
  | cons q rest ih =>
    intro r inv r2 inv2 h
    by_cases hs : supported q = true
    · have hs2 := (supported_iff q).mp hs
      unfold process_queries at h
      rw [if_neg hs2.1, if_neg hs2.2] at h
      rcases ha : answer_query table fuel q r with _ | r1
      · rw [ha] at h; simp at h
      · rw [ha] at h
        dsimp only at h
        obtain ⟨a1, ⟨la, a2⟩, _, a4⟩ := answer_query_sections table fuel q r r1 ha
        obtain ⟨b1, ⟨lb, b2⟩, b3⟩ := ih r1 inv r2 inv2 h
        refine ⟨?_, ⟨la ++ lb, by rw [b2, a2, List.append_assoc]⟩, ?_⟩
        · rw [b1, a1]
          simp [List.filter_cons, hs, List.append_assoc]
        · intro x hx hsx t ht h5 hq5 hne
          rcases List.mem_cons.mp hx with hx | hx
          · subst hx
            rw [b2]
            exact List.mem_append_left _ (a4 t ht h5 hq5 hne)
          · exact b3 x hx hsx t ht h5 hq5 hne
    · have hs3 : supported q = false := by simpa using hs
      have hu : DNS_type_to_str q.type = "[UNKNOWN]" ∨
          DNS_class_to_str q.class_ = "[UNKNOWN]" := by
        by_contra hcon
        push_neg at hcon
        exact hs ((supported_iff q).mpr hcon)
      have h2 : process_queries table fuel rest r true = some (r2, inv2) := by
        unfold process_queries at h
        rcases hu with hu | hu
        · rw [if_pos hu] at h; exact h
        · by_cases ht : DNS_type_to_str q.type = "[UNKNOWN]"
          · rw [if_pos ht] at h; exact h
          · rw [if_neg ht, if_pos hu] at h; exact h
      obtain ⟨b1, b2, b3⟩ := ih r true r2 inv2 h2
      refine ⟨?_, b2, ?_⟩
      · rw [b1]; simp [List.filter_cons, hs3]
      · intro x hx hsx t ht h5 hq5 hne
        rcases List.mem_cons.mp hx with hx | hx
        · subst hx
          rw [hs3] at hsx
          exact absurd hsx (by simp)
        · exact b3 x hx hsx t ht h5 hq5 hne

/-- C21 (amended): CNAME hits with a target are answers. For a supported question whose type
is not CNAME, every CNAME record that the zone lookup returns for the question name and
whose target has at least one record of the question type or of type CNAME in the zone is,
as a copy, in the answer section of the response that `DNS_query_create_response` returns;
and when the CNAME rows of the table form no cycle such a response is returned. -/
theorem cname_hits_with_target (table : List dns_rr_t) (fuel : Nat)
    (request : dns_packet_t) (q : dns_query_t) (t : dns_rr_t)
    (hq : q ∈ request.queries) (hs : supported q = true) (hty : q.type ≠ 5)
    (ht : t ∈ DNS_database_get_record table q.name q.type q.class_ true) (h5 : t.type = 5)
    (htarget : DNS_database_get_record table t.data q.type q.class_ true ≠ []) :
    (∀ r, DNS_query_create_response table fuel request = some r →
      DNS_RR_copy t ∈ r.answers) ∧
    (∀ rk, ranked table rk →
      ∃ r, DNS_query_create_response table (enough_fuel table rk request) request = some r ∧
        DNS_RR_copy t ∈ r.answers) := by
  have main : ∀ (f : Nat) (r : dns_packet_t),
      DNS_query_create_response table f request = some r → DNS_RR_copy t ∈ r.answers := by
    intro f r h
    unfold DNS_query_create_response at h
    rcases hp : process_queries table f request.queries (initial_response request) false
      with _ | ⟨r2, inv2⟩
    · rw [hp] at h; simp at h
    · rw [hp] at h
      simp only [Option.some.injEq] at h
      rw [← h, (finish_flags r2 inv2).2.2.2.2.2.2.2.2.2.1]
      exact (process_queries_sections table f _ _ _ _ _ hp).2.2 q hq hs t ht h5 hty htarget
  refine ⟨main fuel, fun rk hrk => ?_⟩
  obtain ⟨r, hr⟩ := response_returns table rk hrk request
  exact ⟨r, hr, main _ r hr⟩

/-- C21 as stated fails: against the table whose only row is the CNAME `a -> b`, the lookup
for the question `a A IN` returns that CNAME, and the response has no answer at all (and
RCODE 3), because `b` has no record.  And for a question of type 16, which the responder
does not support, no lookup is made: the rows that name, type and class select for
`n 16 IN` hold the CNAME `n -> m`, whose target has a record of type 16, and the response has
no answer (RCODE 4). -/
theorem dangling_cname_dropped :
    (DNS_database_get_record dangling_zone (question "a" 1).name 1 1 true
        = [row "a" 60 1 5 "b"] ∧
      (DNS_query_create_response dangling_zone 4 (request_of 0 [question "a" 1])).map
        (fun r => (r.answers, r.header.rcode)) = some ([], 3)) ∧
    (DNS_database_get_record txt_chain_zone (question "n" 16).name 16 1 true
        = [row "n" 60 1 5 "m"] ∧
      DNS_database_get_record txt_chain_zone (txt "m") 16 1 true = [row "m" 60 1 16 "t"] ∧
      (DNS_query_create_response txt_chain_zone 4 (request_of 0 [question "n" 16])).map
        (fun r => (r.answers, r.header.rcode)) = some ([], 4)) := by
  decide

/-- The CNAME theorem at `www.baidu.com A` against the table `s2`. -/
theorem cname_hits_with_target_witness :
    ∃ r, DNS_query_create_response zone_s2 4 (request_of 0 [question "www.baidu.com" 1])
        = some r ∧
      DNS_RR_copy (row "www.baidu.com" 60 1 5 "www.a.shifen.com") ∈ r.answers :=
  ⟨_, rfl, (cname_hits_with_target zone_s2 4 (request_of 0 [question "www.baidu.com" 1])
    (question "www.baidu.com" 1) (row "www.baidu.com" 60 1 5 "www.a.shifen.com")
    (by decide) (by decide) (by decide) (by decide) (by decide) (by decide)).1 _ rfl⟩

/-- C23: authority walk over label boundaries. On a table of rows that come back from the
database as they are stored, and for questions whose names hold no quote and have at most 127
octets (for these the text of every query is the query meant), the authority section of
every response that `DNS_query_create_response` returns holds, for each supported question in
turn, the results of the NS lookups (class of the question, CNAME not included) for the name
of the question, then for the part after its first dot, then for the part after its second
dot, and so on: one lookup where a label starts and none at other positions; and when the
CNAME rows of the table form no cycle such a response is returned. -/
theorem authority_walk (table : List dns_rr_t) (fuel : Nat) (request : dns_packet_t)
    (_hrows : ∀ r ∈ table, db_row r) (_hq : ∀ q ∈ request.queries, sql_name q.name) :
    (∀ r, DNS_query_create_response table fuel request = some r →
      r.authorities
        = (request.queries.filter supported).flatMap (authority_records table)) ∧
    (∀ rk, ranked table rk →
      ∃ r, DNS_query_create_response table (enough_fuel table rk request) request = some r ∧
        r.authorities
          = (request.queries.filter supported).flatMap (authority_records table)) := by
  have main : ∀ (f : Nat) (r : dns_packet_t),
      DNS_query_create_response table f request = some r →
      r.authorities
        = (request.queries.filter supported).flatMap (authority_records table) := by
    intro f r h
    unfold DNS_query_create_response at h
    rcases hp : process_queries table f request.queries (initial_response request) false
      with _ | ⟨r2, inv2⟩
    · rw [hp] at h; simp at h
    · rw [hp] at h
      simp only [Option.some.injEq] at h
      rw [← h, (finish_flags r2 inv2).2.2.2.2.2.2.2.2.2.2.1,
        (process_queries_sections table f _ _ _ _ _ hp).1]
      simp [initial_response]
  refine ⟨main fuel, fun rk hrk => ?_⟩
  obtain ⟨r, hr⟩ := response_returns table rk hrk request
  exact ⟨r, hr, main _ r hr⟩

/-- The authority theorem at `www.baidu.com A` against the table `root`: the authority is
`baidu.com NS ns2.local`, the additional `ns2.local A 127.0.0.4`, no answer, RCODE 0. -/
theorem authority_walk_witness :
    label_suffixes (txt "www.baidu.com") = [txt "www.baidu.com", txt "baidu.com", txt "com"] ∧
    ∃ r, DNS_query_create_response zone_root 4 (request_of 0 [question "www.baidu.com" 1])
        = some r ∧
      r.authorities = [row "baidu.com" 60 1 2 "ns2.local"] ∧
      r.additionals = [row "ns2.local" 60 1 1 "127.0.0.4"] ∧ r.answers = [] ∧
      r.header.rcode = 0 ∧
      r.authorities = ((request_of 0 [question "www.baidu.com" 1]).queries.filter
        supported).flatMap (authority_records zone_root) :=
  ⟨by decide, _, rfl, by decide, by decide, by decide, by decide,
   (authority_walk zone_root 4 (request_of 0 [question "www.baidu.com" 1]) (by decide)
     (by decide)).1 _ rfl⟩

theorem follow_nil (table : List dns_rr_t) (type class_ fuel : Nat) (r : dns_packet_t)
    (ap : List dns_rr_t) : follow_cnames table type class_ fuel [] r ap = some (r, ap) := by
  cases fuel <;> rfl

theorem chain_answer (table : List dns_rr_t) (fuel : Nat) (q : dns_query_t) (c : dns_rr_t)
    (rs : List dns_rr_t) (r : dns_packet_t) (hT : q.type ≠ 5)
    (h1 : DNS_database_get_record table q.name q.type q.class_ true = [c]) (h5 : c.type = 5)
    (h2 : DNS_database_get_record table c.data q.type q.class_ true = rs) (hne : rs ≠ [])
    (hno : ∀ t ∈ rs, t.type ≠ 5) :
    ∃ r2, answer_query table (fuel + 1) q r = some r2 ∧
      r2.answers = r.answers ++ DNS_RR_copy c :: rs.map DNS_RR_copy ∧
      r2.authorities = r.authorities ++ authority_records table q ∧
      r2.additionals = r.additionals ++ glue_records table q.class_
        ((rs.filter (fun t => decide (t.type = 15))).map DNS_RR_copy
          ++ authority_records table q) := by
  have h15 : ¬ c.type = 15 := by rw [h5]; decide
  have hlook : DNS_database_get_record table (DNS_RR_copy c).data q.type q.class_ true = rs := by
    have e : (DNS_RR_copy c).data = cstr c.data := rfl
    rw [e, get_record_cstr, h2]
  unfold answer_query
  dsimp only
  rw [h1]
  have hcl : classify_records q.type [c] (DNS_packet_append_query r (DNS_query_copy q) true)
      [] [] = (DNS_packet_append_query r (DNS_query_copy q) true, [DNS_RR_copy c], []) := by
    simp [classify_records, h5, hT]
  rw [hcl]
  dsimp only
  unfold follow_cnames
  dsimp only
  rw [hlook, if_pos hne, copy_copy]
  have hs := classify_sections q.type rs
    (DNS_packet_append_answer (DNS_packet_append_query r (DNS_query_copy q) true)
      (DNS_RR_copy c) true) [] []
  have hp := classify_pending q.type rs
    (DNS_packet_append_answer (DNS_packet_append_query r (DNS_query_copy q) true)
      (DNS_RR_copy c) true) [] []
  rcases hcl2 : classify_records q.type rs
    (DNS_packet_append_answer (DNS_packet_append_query r (DNS_query_copy q) true)
      (DNS_RR_copy c) true) [] [] with ⟨r1, p1, a1⟩
  rw [hcl2] at hs hp
  dsimp only at hs hp ⊢
  obtain ⟨s1, s2, s3, s4⟩ := hs
  have hf5 : rs.filter (fun t => decide (t.type = 5 ∧ q.type ≠ 5)) = [] := by
    rw [List.filter_eq_nil_iff]
    intro t ht
    simp [hno t ht]
  have hfn : rs.filter (fun t => !decide (t.type = 5 ∧ q.type ≠ 5)) = rs := by
    rw [List.filter_eq_self]
    intro t ht
    simp [hno t ht]
  rw [hf5] at hp
  rw [hfn] at s1
  simp only [List.nil_append, List.map_nil] at hp s4
  rw [hp, follow_nil]
  dsimp only
  obtain ⟨n1, n2, n3, n4⟩ := find_name_servers_sections table q.class_ (cstr q.name) true r1 a1
  rcases hn : find_name_servers table q.class_ true (cstr q.name) r1 a1 with ⟨r4, a4⟩
  rw [hn] at n1 n2 n3 n4
  dsimp only at n1 n2 n3 n4 ⊢
  obtain ⟨d1, d2, d3⟩ := find_addresses_sections table q.class_ a4 r4
  refine ⟨_, rfl, ?_, ?_, ?_⟩
  · rw [d1, n1, s1]
    simp [DNS_packet_append_answer, DNS_packet_append_query]
  · rw [d2, n2, s2]
    simp only [if_true, List.singleton_append]
    rfl
  · rw [d3, n3, s3, n4, s4]
    simp only [if_true, List.singleton_append]
    rfl

theorem chain_response (table : List dns_rr_t) (fuel : Nat) (request : dns_packet_t)
    (q : dns_query_t) (c : dns_rr_t) (rs : List dns_rr_t) (hreq : request.queries = [q])
    (hs : supported q = true) (hT : q.type ≠ 5)
    (h1 : DNS_database_get_record table q.name q.type q.class_ true = [c]) (h5 : c.type = 5)
    (h2 : DNS_database_get_record table c.data q.type q.class_ true = rs) (hne : rs ≠ [])
    (hno : ∀ t ∈ rs, t.type ≠ 5) :
    ∃ r, DNS_query_create_response table (fuel + 1) request = some r ∧
      r.answers = DNS_RR_copy c :: rs.map DNS_RR_copy ∧
      r.authorities = authority_records table q ∧
      r.additionals = glue_records table q.class_
        ((rs.filter (fun t => decide (t.type = 15))).map DNS_RR_copy
          ++ authority_records table q) ∧
      r.header.rcode = (if ((rs.length + 1) % 65536 = 0 ∧
        r.authorities.length % 65536 = 0 ∧ r.additionals.length % 65536 = 0) then 3 else 0) := by
  obtain ⟨r2, ha, a1, a2, a3⟩ := chain_answer table fuel q c rs (initial_response request) hT
    h1 h5 h2 hne hno
  have hs2 := (supported_iff q).mp hs
  obtain ⟨k1, _, k3⟩ := answer_query_kept table (fuel + 1) q _ r2 ha
  obtain ⟨_, c2, c3, c4⟩ := k3 (counted_initial request)
  have hr0 : r2.header.rcode = 0 := k1.2.2.2.2.2.2.2.2
  have hf := finish_flags r2 false
  have hres : DNS_query_create_response table (fuel + 1) request
      = some (finish_response r2 false) := by
    unfold DNS_query_create_response
    rw [hreq]
    unfold process_queries
    rw [if_neg hs2.1, if_neg hs2.2, ha]
    simp only [process_queries]
  have i1 : (initial_response request).answers = [] := rfl
  have i2 : (initial_response request).authorities = [] := rfl
  have i3 : (initial_response request).additionals = [] := rfl
  rw [i1, List.nil_append] at a1
  rw [i2, List.nil_append] at a2
  rw [i3, List.nil_append] at a3
  refine ⟨_, hres, ?_, ?_, ?_, ?_⟩
  · rw [hf.2.2.2.2.2.2.2.2.2.1, a1]
  · rw [hf.2.2.2.2.2.2.2.2.2.2.1, a2]
  · rw [hf.2.2.2.2.2.2.2.2.2.2.2.1, a3]
  · rw [hf.2.2.2.2.2.2.2.2.2.2.1, hf.2.2.2.2.2.2.2.2.2.2.2.1, ← c3, ← c4]
    have hac : r2.header.answer_count = (rs.length + 1) % 65536 := by
      rw [c2, a1]
      simp
    rw [← hac]
    unfold finish_response
    by_cases hz : r2.header.answer_count = 0 ∧ r2.header.authority_count = 0 ∧
        r2.header.additional_count = 0
    · simp [hz]
    · simp [hz, hr0]

theorem wide_chain_response (k fuel : Nat) (hk : 0 < k) (hfuel : fuel ≠ 0) :
    ∃ r, DNS_query_create_response (wide_chain_zone k) fuel
        (request_of 0 [question "n" 1]) = some r ∧
      r.answers = DNS_RR_copy (row "n" 60 1 5 "x")
        :: (List.replicate k wide_row).map DNS_RR_copy ∧
      r.answers.length = k + 1 ∧
      r.authorities = [] ∧ r.additionals = [] ∧
      r.header.rcode = (if (k + 1) % 65536 = 0 then 3 else 0) := by
  have h1 : DNS_database_get_record (wide_chain_zone k) (question "n" 1).name
      (question "n" 1).type (question "n" 1).class_ true = [row "n" 60 1 5 "x"] := by
    unfold DNS_database_get_record wide_chain_zone
    rw [List.filter_cons, if_pos (by decide), List.filter_replicate_of_neg (by decide)]
  have h2 : DNS_database_get_record (wide_chain_zone k) (row "n" 60 1 5 "x").data
      (question "n" 1).type (question "n" 1).class_ true = List.replicate k wide_row := by
    unfold DNS_database_get_record wide_chain_zone
    rw [List.filter_cons, if_neg (by decide), List.filter_replicate_of_pos (by decide)]
  have hne : List.replicate k wide_row ≠ [] := by
    intro h
    have := congrArg List.length h
    simp at this
    omega
  have hno : ∀ t ∈ List.replicate k wide_row, t.type ≠ 5 := by
    intro t ht
    rw [List.eq_of_mem_replicate ht]
    decide
  have hau : authority_records (wide_chain_zone k) (question "n" 1) = [] := by
    unfold authority_records
    have hl : label_suffixes (cstr (question "n" 1).name) = [txt "n"] := by decide
    rw [hl]
    have hns : DNS_database_get_record (wide_chain_zone k) (txt "n") 2
        (question "n" 1).class_ false = [] := by
      unfold DNS_database_get_record wide_chain_zone
      rw [List.filter_cons, if_neg (by decide), List.filter_replicate_of_neg (by decide)]
    simp [hns]
  have hmx : (List.replicate k wide_row).filter (fun t => decide (t.type = 15)) = [] :=
    List.filter_replicate_of_neg (by decide)
  obtain ⟨f, rfl⟩ := Nat.exists_eq_succ_of_ne_zero hfuel
  obtain ⟨r, hr, a1, a2, a3, a4⟩ := chain_response (wide_chain_zone k) f
    (request_of 0 [question "n" 1]) (question "n" 1) (row "n" 60 1 5 "x")
    (List.replicate k wide_row) rfl (by decide) (by decide) h1 (by decide) h2 hne hno
  rw [hau] at a2
  rw [hau, hmx] at a3
  have a3n : r.additionals = [] := by rw [a3]; rfl
  refine ⟨r, hr, a1, ?_, a2, a3n, ?_⟩
  · rw [a1]
    simp only [List.length_cons, List.length_map, List.length_replicate]
  · rw [a4, a2, a3n]
    simp

/-- C22 (amended): CNAME chain order. When the lookup for the question `(n, T, IN)`, with `T`
one of A, NS, PTR, MX, returns exactly one record, a CNAME `c`, and the lookup for the target
of `c` returns `k >= 1` records `r1..rk`, none of them a CNAME, then
`DNS_query_create_response` returns a response whose answer section is `[c, r1, ..., rk]`
in store order (as copies); its RCODE is 0 when `k + 1` is not a multiple of 65536; and with
no NS record for the name or for a part of it after a dot, and no A record for the exchange
of an MX record among `r1..rk`, its authority and additional sections are empty. -/
theorem cname_chain_order (table : List dns_rr_t) (fuel : Nat) (n : List Nat) (T : Nat)
    (request : dns_packet_t) (c : dns_rr_t) (rs : List dns_rr_t)
    (hreq : request.queries = [{ name := n, type := T, class_ := 1 }])
    (hT : T = 1 ∨ T = 2 ∨ T = 12 ∨ T = 15)
    (h1 : DNS_database_get_record table n T 1 true = [c]) (h5 : c.type = 5)
    (h2 : DNS_database_get_record table c.data T 1 true = rs) (hne : rs ≠ [])
    (hno : ∀ t ∈ rs, t.type ≠ 5) :
    ∃ r, DNS_query_create_response table (fuel + 1) request = some r ∧
      r.answers = DNS_RR_copy c :: rs.map DNS_RR_copy ∧
      ((rs.length + 1) % 65536 ≠ 0 → r.header.rcode = 0) ∧
      ((∀ s ∈ label_suffixes (cstr n), DNS_database_get_record table s 2 1 false = []) →
        (∀ t ∈ rs, t.type = 15 →
          DNS_database_get_record table (glue_name (DNS_RR_copy t)) 1 1 false = []) →
        r.authorities = [] ∧ r.additionals = []) := by
  have hsup : supported { name := n, type := T, class_ := 1 } = true := by
    rcases hT with h | h | h | h <;> subst h <;> rfl
  have hT5 : T ≠ 5 := by
    rcases hT with h | h | h | h <;> subst h <;> decide
  obtain ⟨r, hr, a1, a2, a3, a4⟩ := chain_response table fuel request
    { name := n, type := T, class_ := 1 } c rs hreq hsup hT5 h1 h5 h2 hne hno
  refine ⟨r, hr, a1, ?_, ?_⟩
  · intro hk
    rw [a4, if_neg (fun h => hk h.1)]
  · intro hns hglue
    have hau : authority_records table { name := n, type := T, class_ := 1 } = [] := by
      unfold authority_records
      rw [List.flatMap_eq_nil_iff]
      intro s hs
      rw [hns s hs]
      rfl
    rw [hau] at a2 a3
    refine ⟨a2, ?_⟩
    rw [a3, List.append_nil]
    unfold glue_records
    rw [List.flatMap_eq_nil_iff]
    intro t ht
    obtain ⟨u, hu, rfl⟩ := List.mem_map.mp ht
    have hu2 := List.mem_filter.mp hu
    rw [hglue u hu2.1 (by simpa using hu2.2)]
    rfl

/-- The chain theorem at `www.baidu.com A` against the table `s2`: the CNAME, then the two
A records in row order, RCODE 0, empty authority and additional sections. -/
theorem cname_chain_order_witness :
    ∃ r, DNS_query_create_response zone_s2 (0 + 1)
        (request_of 0 [question "www.baidu.com" 1]) = some r ∧
      r.answers = [row "www.baidu.com" 60 1 5 "www.a.shifen.com",
        row "www.a.shifen.com" 60 1 1 "14.215.177.38",
        row "www.a.shifen.com" 60 1 1 "14.215.177.39"] ∧
      r.header.rcode = 0 ∧ r.authorities = [] ∧ r.additionals = [] := by
  obtain ⟨r, hr, a, b, c⟩ := cname_chain_order zone_s2 0 (txt "www.baidu.com") 1
    (request_of 0 [question "www.baidu.com" 1])
    (row "www.baidu.com" 60 1 5 "www.a.shifen.com")
    [row "www.a.shifen.com" 60 1 1 "14.215.177.38",
     row "www.a.shifen.com" 60 1 1 "14.215.177.39"]
    rfl (by decide) (by decide) (by decide) (by decide) (by decide) (by decide)
  exact ⟨r, hr, a.trans (by decide), b (by decide), c (by decide) (by decide)⟩

/-- C22 as stated fails in three ways.  With `T` = MX the exchange of the MX record found
behind the CNAME gets its A record into the additional section although no name has an NS
record.  With 65535 A records behind the CNAME the answer section has 65536 records, the
16-bit answer count is 0 and the RCODE is 3.  With `T` = 16, a type the responder does not
support, the question is skipped: no answer and RCODE 4. -/
theorem cname_chain_fails :
    (DNS_database_get_record mx_chain_zone (txt "n") 15 1 true = [row "n" 60 1 5 "m"] ∧
      DNS_database_get_record mx_chain_zone (txt "m") 15 1 true = [row "m" 60 1 15 "3,mx"] ∧
      mx_chain_zone.filter (fun t => decide (t.type = 2)) = [] ∧
      (DNS_query_create_response mx_chain_zone 1 (request_of 0 [question "n" 15])).map
        (fun r => (r.answers, r.authorities, r.additionals))
        = some ([row "n" 60 1 5 "m", row "m" 60 1 15 "3,mx"], [],
            [row "mx" 60 1 1 "1.2.3.4"])) ∧
    (∃ r, DNS_query_create_response (wide_chain_zone 65535) 1 (request_of 0 [question "n" 1])
        = some r ∧ r.answers.length = 65535 + 1 ∧ r.header.rcode = 3) ∧
    (DNS_database_get_record txt_chain_zone (txt "n") 16 1 true = [row "n" 60 1 5 "m"] ∧
      DNS_database_get_record txt_chain_zone (txt "m") 16 1 true = [row "m" 60 1 16 "t"] ∧
      (DNS_query_create_response txt_chain_zone 1 (request_of 0 [question "n" 16])).map
        (fun r => (r.answers, r.header.rcode)) = some ([], 4)) := by
  refine ⟨by decide, ?_, by decide⟩
  obtain ⟨r, hr, _, a1, _, _, a4⟩ := wide_chain_response 65535 1 (by decide) (by decide)
  exact ⟨r, hr, a1, a4.trans (by decide)⟩

theorem get_cache_lookup (env : resolver_env) (st : resolver_state) (name : List Nat)
    (type class_ : Nat) :
    (DNS_database_get_cache env st name type class_).1
      = cache_lookup env st.cache st.clock name type class_ := rfl

theorem get_cache_sent (env : resolver_env) (st : resolver_state) (name : List Nat)
    (type class_ : Nat) :
    (DNS_database_get_cache env st name type class_).2.sent = st.sent := rfl

theorem cache_lookup_cstr (env : resolver_env) (cache : List cache_row) (k : Nat)
    (name : List Nat) (type class_ : Nat) :
    cache_lookup env cache k (cstr name) type class_
      = cache_lookup env cache k name type class_ := by
  unfold cache_lookup DNS_database_get_cache
  rw [cstr_idem]

theorem from_cache_copy (env : resolver_env) (cache : List cache_row) (type class_ : Nat)
    (t : dns_rr_t) (h : from_cache env cache type class_ t) : DNS_RR_copy t = t := by
  obtain ⟨_, _, u, _, rfl⟩ := h
  exact copy_copy u

theorem find_cached_addresses_frame (env : resolver_env) (class_ : Nat) :
    ∀ (ap : List dns_rr_t) (st : resolver_state) (r : dns_packet_t),
      (find_cached_addresses env class_ ap st r).2.sent = st.sent ∧
      (find_cached_addresses env class_ ap st r).2.cache = st.cache ∧
      (find_cached_addresses env class_ ap st r).1.answers = r.answers := by
  have happ : ∀ (data : List dns_rr_t) (r : dns_packet_t),
      (append_cached_addresses data r).answers = r.answers := by
    intro data
    induction data with
    | nil => intro r; rfl
    | cons t rest ih =>
      intro r
      unfold append_cached_addresses
      rw [ih]
      by_cases h : t.type = 1
      · rw [if_pos h]; rfl
      · rw [if_neg h]
  intro ap
  induction ap with
  | nil => intro st r; exact ⟨rfl, rfl, rfl⟩
  | cons t rest ih =>
    intro st r
    unfold find_cached_addresses
    dsimp only
    obtain ⟨i1, i2, i3⟩ := ih (DNS_database_get_cache env st (glue_name t) 1 class_).2
      (append_cached_addresses (DNS_database_get_cache env st (glue_name t) 1 class_).1 r)
    exact ⟨i1, i2, i3.trans (happ _ _)⟩

theorem classify_cached (env : resolver_env) (cache : List cache_row) (type class_ : Nat)
    (data : List dns_rr_t) (r : dns_packet_t) (cp ap : List dns_rr_t)
    (hd : ∀ u ∈ data, from_cache env cache type class_ (DNS_RR_copy u)) :
    (∃ l, (classify_records type data r cp ap).1.answers = r.answers ++ l ∧
      ∀ t ∈ l, cached_answer env cache type class_ t) ∧
    ∃ p, (classify_records type data r cp ap).2.1 = cp ++ p ∧
      ∀ t ∈ p, from_cache env cache type class_ t := by
  refine ⟨⟨_, (classify_sections type data r cp ap).1, ?_⟩,
    ⟨_, classify_pending type data r cp ap, ?_⟩⟩
  · intro t ht
    obtain ⟨u, hu, rfl⟩ := List.mem_map.mp ht
    have hu2 := List.mem_filter.mp hu
    refine ⟨hd u hu2.1, ?_⟩
    intro h5 hT
    have h3 := hu2.2
    simp only [Bool.not_eq_true', decide_eq_false_iff_not] at h3
    exact absurd ⟨h5, hT⟩ h3
  · intro t ht
    obtain ⟨u, hu, rfl⟩ := List.mem_map.mp ht
    exact hd u (List.mem_filter.mp hu).1

theorem follow_cached_frame (env : resolver_env) (type class_ : Nat) :
    ∀ (fuel : Nat) (pending : List dns_rr_t) (st : resolver_state) (r : dns_packet_t)
      (ap : List dns_rr_t) (r2 : dns_packet_t) (ap2 : List dns_rr_t) (st2 : resolver_state),
      (∀ t ∈ pending, from_cache env st.cache type class_ t) →
      follow_cached_cnames env type class_ fuel pending st r ap = some (r2, ap2, st2) →
      st2.sent = st.sent ∧ st2.cache = st.cache ∧
      ∃ l, r2.answers = r.answers ++ l ∧
        ∀ t ∈ l, (t.type = 5 → type ≠ 5 →
            ∃ k, cache_lookup env st.cache k t.data type class_ ≠ []) ∧
          from_cache env st.cache type class_ t := by
  intro fuel
  induction fuel with
  | zero =>
    intro pending st r ap r2 ap2 st2 hp h
    cases pending with
    | nil =>
      simp only [follow_cached_cnames, Option.some.injEq, Prod.mk.injEq] at h
      obtain ⟨rfl, _, rfl⟩ := h
      exact ⟨rfl, rfl, [], by simp, by simp⟩
    | cons t rest => simp [follow_cached_cnames] at h
  | succ fuel ih =>
    intro pending st r ap r2 ap2 st2 hp h
    cases pending with
    | nil =>
      simp only [follow_cached_cnames, Option.some.injEq, Prod.mk.injEq] at h
      obtain ⟨rfl, _, rfl⟩ := h
      exact ⟨rfl, rfl, [], by simp, by simp⟩
    | cons t rest =>
      unfold follow_cached_cnames at h
      dsimp only at h
      have hrest : ∀ x ∈ rest, from_cache env st.cache type class_ x :=
        fun x hx => hp x (List.mem_cons_of_mem _ hx)
      by_cases hd : (DNS_database_get_cache env st t.data type class_).1 = []
      · rw [if_pos hd] at h
        exact ih rest (DNS_database_get_cache env st t.data type class_).2 r ap r2 ap2 st2 hrest h
      · rw [if_neg hd] at h
        have hdata : ∀ u ∈ (DNS_database_get_cache env st t.data type class_).1,
            from_cache env st.cache type class_ (DNS_RR_copy u) :=
          fun u hu => ⟨t.data, st.clock, u, hu, rfl⟩
        obtain ⟨⟨l1, hl1, hg1⟩, ⟨p, hp1, hp2⟩⟩ := classify_cached env st.cache type class_
          (DNS_database_get_cache env st t.data type class_).1
          (DNS_packet_append_answer r (DNS_RR_copy t) true) rest ap hdata
        rcases hcl : classify_records type (DNS_database_get_cache env st t.data type class_).1
          (DNS_packet_append_answer r (DNS_RR_copy t) true) rest ap with ⟨r1, p1, a1⟩
        rw [hcl] at h hl1 hp1
        dsimp only at h hl1 hp1
        have hpend : ∀ x ∈ p1, from_cache env st.cache type class_ x := by
          intro x hx
          rw [hp1] at hx
          rcases List.mem_append.mp hx with hx | hx
          · exact hrest x hx
          · exact hp2 x hx
        obtain ⟨i1, i2, l2, hl2, hg2⟩ := ih p1 (DNS_database_get_cache env st t.data type class_).2
          r1 a1 r2 ap2 st2 hpend h
        have ht := hp t (List.mem_cons_self _ _)
        refine ⟨i1, i2, DNS_RR_copy t :: (l1 ++ l2), ?_, ?_⟩
        · rw [hl2, hl1]
          simp [DNS_packet_append_answer]
        · intro x hx
          rcases List.mem_cons.mp hx with hx | hx
          · subst hx
            rw [from_cache_copy env st.cache type class_ t ht]
            exact ⟨fun _ _ => ⟨st.clock, hd⟩, ht⟩
          · rcases List.mem_append.mp hx with hx | hx
            · exact ⟨(hg1 x hx).2, (hg1 x hx).1⟩
            · exact hg2 x hx

theorem follow_cached_nil (env : resolver_env) (type class_ fuel : Nat) (st : resolver_state)
    (r : dns_packet_t) (ap : List dns_rr_t) :
    follow_cached_cnames env type class_ fuel [] st r ap = some (r, ap, st) := by
  cases fuel <;> rfl

theorem answer_query_local_hit (env : resolver_env) (fuel : Nat) (q : dns_query_t)
    (st : resolver_state) (r r2 : dns_packet_t) (st2 : resolver_state)
    (hhit : (DNS_database_get_cache env st q.name q.type q.class_).1 ≠ [])
    (h : answer_query_local env fuel q st r = some (r2, st2)) :
    st2.sent = st.sent ∧ st2.cache = st.cache ∧
    ∃ l, r2.answers = r.answers ++ l ∧
      ∀ t ∈ l, cached_answer env st.cache q.type q.class_ t := by
  unfold answer_query_local at h
  dsimp only at h
  rw [if_pos hhit] at h
  have hdata : ∀ u ∈ (DNS_database_get_cache env st q.name q.type q.class_).1,
      from_cache env st.cache q.type q.class_ (DNS_RR_copy u) :=
    fun u hu => ⟨q.name, st.clock, u, hu, rfl⟩
  obtain ⟨⟨l1, hl1, hg1⟩, ⟨p, hp1, hp2⟩⟩ := classify_cached env st.cache q.type q.class_
    (DNS_database_get_cache env st q.name q.type q.class_).1
    (DNS_packet_append_query r (DNS_query_copy q) true) [] [] hdata
  rcases hcl : classify_records q.type (DNS_database_get_cache env st q.name q.type q.class_).1
    (DNS_packet_append_query r (DNS_query_copy q) true) [] [] with ⟨r1, p1, a1⟩
  rw [hcl] at h hl1 hp1
  dsimp only at h hl1 hp1
  rcases hf : follow_cached_cnames env q.type q.class_ fuel p1
    (DNS_database_get_cache env st q.name q.type q.class_).2 r1 a1 with _ | ⟨r3, a3, st3⟩
  · rw [hf] at h; simp at h
  · rw [hf] at h
    simp only [Option.some.injEq] at h
    have hpend : ∀ x ∈ p1, from_cache env
        (DNS_database_get_cache env st q.name q.type q.class_).2.cache q.type q.class_ x := by
      intro x hx
      rw [hp1, List.nil_append] at hx
      exact hp2 x hx
    obtain ⟨f1, f2, l2, hl2, hg2⟩ := follow_cached_frame env q.type q.class_ fuel p1
      (DNS_database_get_cache env st q.name q.type q.class_).2 r1 a1 r3 a3 st3 hpend hf
    obtain ⟨d1, d2, d3⟩ := find_cached_addresses_frame env q.class_ a3 st3 r3
    rw [h] at d1 d2 d3
    dsimp only at d1 d2 d3
    refine ⟨d1.trans f1, d2.trans f2, l1 ++ l2, ?_, ?_⟩
    · rw [d3, hl2, hl1]
      simp [DNS_packet_append_query]
    · intro x hx
      rcases List.mem_append.mp hx with hx | hx
      · exact hg1 x hx
      · exact ⟨(hg2 x hx).2, (hg2 x hx).1⟩

theorem answer_query_local_hit_returns (env : resolver_env) (fuel : Nat) (q : dns_query_t)
    (st : resolver_state) (r : dns_packet_t) (hs : supported q = true)
    (hst : no_cached_cname st)
    (hhit : (DNS_database_get_cache env st q.name q.type q.class_).1 ≠ []) :
    ∃ r2 st2, answer_query_local env fuel q st r = some (r2, st2) := by
  have hlt : q.type < 65536 := by
    have := (supported_iff q).mp hs
    have h1 := (type_unknown_iff q.type).not.mp this.1
    omega
  unfold answer_query_local
  dsimp only
  rw [if_pos hhit]
  have hp := classify_no_pending q.type
    (DNS_database_get_cache env st q.name q.type q.class_).1
    (DNS_packet_append_query r (DNS_query_copy q) true) []
    (get_cache_types env st q.name q.type q.class_ hst hlt)
  rcases hcl : classify_records q.type (DNS_database_get_cache env st q.name q.type q.class_).1
    (DNS_packet_append_query r (DNS_query_copy q) true) [] [] with ⟨r1, p1, a1⟩
  rw [hcl] at hp
  dsimp only at hp ⊢
  rw [hp, follow_cached_nil]
  exact ⟨_, _, rfl⟩

theorem single_question_local (env : resolver_env) (fuel : Nat) (q : dns_query_t)
    (st : resolver_state) (request : dns_packet_t) (hs : supported q = true)
    (hreq : request.queries = [q]) :
    DNS_query_create_response_local env fuel st request
      = (answer_query_local env fuel q st (initial_response request)).map
          (fun p => (finish_response p.1 false, p.2)) := by
  have hs2 := (supported_iff q).mp hs
  unfold DNS_query_create_response_local
  rw [hreq]
  unfold process_queries_local
  rw [if_neg hs2.1, if_neg hs2.2]
  rcases answer_query_local env fuel q st (initial_response request) with _ | ⟨r1, st1⟩
  · rfl
  · simp only [process_queries_local, Option.map_some']

/-- C26: cache hit needs no upstream. For a supported question for which
`DNS_database_get_cache` returns at least one record, the body of the question loop of
`DNS_query_create_response_local` leaves the list of upstream queries sent and the rows of
the cache as they were (no query is sent, no row is put), and every answer it appends is a
copy of a record that a cache lookup returned: a record met for the question, or a CNAME whose
target had cached records; the same holds for the response to a request with this one
question, and without CNAME rows in the cache that response is returned whatever the
fuel. -/
theorem cache_hit_no_upstream (env : resolver_env) (fuel : Nat) (q : dns_query_t)
    (st : resolver_state) (hs : supported q = true)
    (hhit : (DNS_database_get_cache env st q.name q.type q.class_).1 ≠ []) :
    (∀ r r2 st2, answer_query_local env fuel q st r = some (r2, st2) →
      st2.sent = st.sent ∧ st2.cache = st.cache ∧
      ∃ l, r2.answers = r.answers ++ l ∧
        ∀ t ∈ l, cached_answer env st.cache q.type q.class_ t) ∧
    (∀ request res st2, request.queries = [q] →
      DNS_query_create_response_local env fuel st request = some (res, st2) →
      st2.sent = st.sent ∧ st2.cache = st.cache ∧
      ∀ t ∈ res.answers, cached_answer env st.cache q.type q.class_ t) ∧
    (no_cached_cname st → ∀ request, request.queries = [q] →
      ∃ res st2, DNS_query_create_response_local env fuel st request = some (res, st2)) := by
  refine ⟨fun r r2 st2 h => answer_query_local_hit env fuel q st r r2 st2 hhit h, ?_, ?_⟩
  · intro request res st2 hreq h
    rw [single_question_local env fuel q st request hs hreq] at h
    rcases ha : answer_query_local env fuel q st (initial_response request) with _ | ⟨r1, st1⟩
    · rw [ha] at h; simp at h
    · rw [ha] at h
      simp only [Option.map_some', Option.some.injEq, Prod.mk.injEq] at h
      obtain ⟨h1, h2⟩ := h
      obtain ⟨a1, a2, l, a3, a4⟩ := answer_query_local_hit env fuel q st _ r1 st1 hhit ha
      rw [← h2, ← h1, (finish_flags r1 false).2.2.2.2.2.2.2.2.2.1, a3]
      refine ⟨a1, a2, ?_⟩
      intro t ht
      have hi : (initial_response request).answers = [] := rfl
      rw [hi, List.nil_append] at ht
      exact a4 t ht
  · intro hst request hreq
    obtain ⟨r2, st2, h⟩ := answer_query_local_hit_returns env fuel q st
      (initial_response request) hs hst hhit
    rw [single_question_local env fuel q st request hs hreq, h]
    exact ⟨_, _, rfl⟩

/-- The cache-hit theorem at `www.baidu.com A` on a cache that holds the CNAME and the two
addresses of its target: the answers are the three cached records, nothing is sent and the
cache keeps its three rows. -/
theorem cache_hit_no_upstream_witness :
    ∃ res st2, DNS_query_create_response_local silent_env 4 warm_state
        (request_of 0 [question "www.baidu.com" 1]) = some (res, st2) ∧
      res.answers = [row "www.baidu.com" 60 1 5 "www.a.shifen.com",
        row "www.a.shifen.com" 60 1 1 "14.215.177.38",
        row "www.a.shifen.com" 60 1 1 "14.215.177.39"] ∧
      res.header.rcode = 0 ∧ st2.sent = [] ∧ st2.cache = warm_state.cache :=
  ⟨_, _, rfl, by decide, by decide,
   ((cache_hit_no_upstream silent_env 4 (question "www.baidu.com" 1) warm_state (by decide)
      (by decide)).2.1 (request_of 0 [question "www.baidu.com" 1]) _ _ rfl rfl).1,
   ((cache_hit_no_upstream silent_env 4 (question "www.baidu.com" 1) warm_state (by decide)
      (by decide)).2.1 (request_of 0 [question "www.baidu.com" 1]) _ _ rfl rfl).2.1⟩

theorem take_exchange_spec (env : resolver_env) (name : List Nat) :
    ∀ (adds : List dns_rr_t) (st : resolver_state) (r : dns_packet_t),
      (take_exchange env name adds st r).2.sent = st.sent ∧
      (take_exchange env name adds st r).1.answers = r.answers ∧
      ∃ new, (take_exchange env name adds st r).2.cache = st.cache ++ new ∧
        new.map untimed
          = (adds.filter (fun t2 => decide (cstr t2.name = name))).map
              (fun t2 => stored t2 0) := by
  intro adds
  induction adds with
  | nil => intro st r; exact ⟨rfl, rfl, [], by simp [take_exchange], rfl⟩
  | cons t rest ih =>
    intro st r
    unfold take_exchange
    by_cases h : cstr t.name = name
    · rw [if_pos h]
      obtain ⟨i1, i2, new, i3, i4⟩ := ih (DNS_database_put_cache env st t)
        (DNS_packet_append_additional r (DNS_RR_copy t) true)
      refine ⟨i1, i2, stored t (env.time (st.clock + 1)) :: new, ?_, ?_⟩
      · rw [i3]
        simp [DNS_database_put_cache, stored]
      · rw [List.map_cons, i4, List.filter_cons, if_pos (by simpa using h)]
        rfl
    · rw [if_neg h]
      obtain ⟨i1, i2, new, i3, i4⟩ := ih st r
      refine ⟨i1, i2, new, i3, ?_⟩
      rw [i4, List.filter_cons, if_neg (by simpa using h)]

theorem take_answers_spec (env : resolver_env) (adds : List dns_rr_t) :
    ∀ (answers : List dns_rr_t) (st : resolver_state) (r : dns_packet_t),
      (take_answers env adds answers st r).2.sent = st.sent ∧
      (take_answers env adds answers st r).1.answers
        = r.answers ++ answers.map DNS_RR_copy ∧
      ∃ new, (take_answers env adds answers st r).2.cache = st.cache ++ new ∧
        new.map untimed
          = answers.flatMap (fun t => stored t 0 ::
              (if t.type = 15 then
                (adds.filter (fun t2 => decide (cstr t2.name = glue_name t))).map
                  (fun t2 => stored t2 0)
               else [])) := by
  intro answers
  induction answers with
  | nil => intro st r; exact ⟨rfl, by simp [take_answers], [], by simp [take_answers], rfl⟩
  | cons t rest ih =>
    intro st r
    unfold take_answers
    by_cases h : t.type = 15
    · simp only [if_pos h]
      obtain ⟨e1, e2, ne, e3, e4⟩ := take_exchange_spec env (glue_name t) adds
        (DNS_database_put_cache env st t) (DNS_packet_append_answer r (DNS_RR_copy t) true)
      rcases hx : take_exchange env (glue_name t) adds (DNS_database_put_cache env st t)
        (DNS_packet_append_answer r (DNS_RR_copy t) true) with ⟨r1, st1⟩
      rw [hx] at e1 e2 e3
      dsimp only at e1 e2 e3 ⊢
      obtain ⟨i1, i2, new, i3, i4⟩ := ih st1 r1
      refine ⟨i1.trans e1, ?_, stored t (env.time (st.clock + 1)) :: (ne ++ new), ?_, ?_⟩
      · rw [i2, e2]
        simp [DNS_packet_append_answer]
      · rw [i3, e3]
        simp [DNS_database_put_cache, stored]
      · rw [List.map_cons, List.map_append, i4, e4, List.flatMap_cons, if_pos h]
        rfl
    · simp only [if_neg h]
      obtain ⟨i1, i2, new, i3, i4⟩ := ih (DNS_database_put_cache env st t)
        (DNS_packet_append_answer r (DNS_RR_copy t) true)
      refine ⟨i1, ?_, stored t (env.time (st.clock + 1)) :: new, ?_, ?_⟩
      · rw [i2]
        simp [DNS_packet_append_answer]
      · rw [i3]
        simp [DNS_database_put_cache, stored]
      · rw [List.map_cons, i4, List.flatMap_cons, if_neg h]
        rfl

theorem received_none (env : resolver_env) (k : Nat) (q : upstream_query)
    (rest : List upstream_query) (h : env.send k q = none) :
    received env k (q :: rest) = received env (k + 1) rest := by
  simp [received, h]

theorem received_some (env : resolver_env) (k : Nat) (q : upstream_query)
    (rest : List upstream_query) (p : dns_packet_t) (h : env.send k q = some p) :
    received env k (q :: rest) = p :: received env (k + 1) rest := by
  simp [received, h]

theorem query_servers_spec (env : resolver_env) (name : List Nat) (type : Nat) :
    ∀ (fuel : Nat) (pending : List dns_rr_t) (st : resolver_state) (r : dns_packet_t)
      (r2 : dns_packet_t) (st2 : resolver_state),
      query_servers env name type fuel pending st r = some (r2, st2) →
      ∃ more : List dns_rr_t,
        st2.sent = st.sent ++ (pending ++ more).map (query_of name type) ∧
        more = (received env st.sent.length ((pending ++ more).map (query_of name type))).flatMap
          (fun p => next_servers p.additionals p.authorities) ∧
        r2.answers = r.answers ++
          (received env st.sent.length ((pending ++ more).map (query_of name type))).flatMap
            (fun p => p.answers.map DNS_RR_copy) ∧
        ∃ new, st2.cache = st.cache ++ new ∧
          new.map untimed
            = (received env st.sent.length
                ((pending ++ more).map (query_of name type))).flatMap reply_rows := by
  intro fuel
  induction fuel with
  | zero =>
    intro pending st r r2 st2 h
    cases pending with
    | nil =>
      simp only [query_servers, Option.some.injEq, Prod.mk.injEq] at h
      obtain ⟨rfl, rfl⟩ := h
      exact ⟨[], by simp, by simp [received], by simp [received], [], by simp, by simp [received]⟩
    | cons ns rest => simp [query_servers] at h
  | succ fuel ih =>
    intro pending st r r2 st2 h
    cases pending with
    | nil =>
      simp only [query_servers, Option.some.injEq, Prod.mk.injEq] at h
      obtain ⟨rfl, rfl⟩ := h
      exact ⟨[], by simp, by simp [received], by simp [received], [], by simp, by simp [received]⟩
    | cons ns rest =>
      unfold query_servers at h
      unfold DNS_network_send_query_udp at h
      dsimp only at h
      have hq : ({ address := cstr ns.data, name := cstr name, type := type } : upstream_query)
          = query_of name type ns := rfl
      rw [hq] at h
      rcases hs : env.send st.sent.length (query_of name type ns) with _ | p
      · rw [hs] at h
        dsimp only at h
        obtain ⟨more, i1, i2, i3, new, i4, i5⟩ := ih rest _ r r2 st2 h
        simp only [List.length_append, List.length_singleton] at i2 i3 i5
        refine ⟨more, ?_, ?_, ?_, new, i4, ?_⟩
        · rw [i1]; simp
        · rw [List.cons_append, List.map_cons, received_none env _ _ _ hs]
          exact i2
        · rw [List.cons_append, List.map_cons, received_none env _ _ _ hs]
          exact i3
        · rw [List.cons_append, List.map_cons, received_none env _ _ _ hs]
          exact i5
      · rw [hs] at h
        dsimp only at h
        obtain ⟨t1, t2, tn, t3, t4⟩ := take_answers_spec env p.additionals p.answers
          { st with sent := st.sent ++ [query_of name type ns] } r
        rcases hta : take_answers env p.additionals p.answers
          { st with sent := st.sent ++ [query_of name type ns] } r with ⟨r1, st1⟩
        rw [hta] at h t1 t2 t3
        dsimp only at h t1 t2 t3
        obtain ⟨more, i1, i2, i3, new, i4, i5⟩ := ih _ st1 r1 r2 st2 h
        rw [t1] at i1 i2 i3 i5
        simp only [List.length_append, List.length_singleton] at i2 i3 i5
        refine ⟨next_servers p.additionals p.authorities ++ more, ?_, ?_, ?_, tn ++ new, ?_, ?_⟩
        · rw [i1]; simp
        · rw [List.cons_append, List.map_cons, received_some env _ _ _ p hs,
            List.flatMap_cons, ← List.append_assoc rest, ← i2]
        · rw [List.cons_append, List.map_cons, received_some env _ _ _ p hs,
            List.flatMap_cons, ← List.append_assoc rest, i3, t2, List.append_assoc]
        · rw [i4, t3, List.append_assoc]
        · rw [List.cons_append, List.map_cons, received_some env _ _ _ p hs,
            List.flatMap_cons, ← List.append_assoc rest, List.map_append, i5, t4]
          rfl

theorem answer_query_local_miss (env : resolver_env) (fuel : Nat) (q : dns_query_t)
    (st : resolver_state) (r : dns_packet_t)
    (hmiss : (DNS_database_get_cache env st q.name q.type q.class_).1 = []) :
    answer_query_local env fuel q st r
      = query_servers env q.name q.type fuel [root_server q.type]
          { st with clock := st.clock + 2 }
          (DNS_packet_append_query r (DNS_query_copy q) true) := by
  unfold answer_query_local
  dsimp only
  rw [if_neg (by simpa using hmiss)]
  rfl

theorem answer_query_local_iterated (env : resolver_env) (fuel : Nat) (q : dns_query_t)
    (st : resolver_state) (r r2 : dns_packet_t) (st2 : resolver_state)
    (hmiss : (DNS_database_get_cache env st q.name q.type q.class_).1 = [])
    (h : answer_query_local env fuel q st r = some (r2, st2)) :
    ∃ added, r2.answers = r.answers ++ added ∧ iterated env q st st2 added := by
  rw [answer_query_local_miss env fuel q st r hmiss] at h
  obtain ⟨more, i1, i2, i3, new, i4, i5⟩ := query_servers_spec env q.name q.type fuel _ _ _ _ _ h
  exact ⟨_, i3, more, i1, i2, rfl, new, i4, i5⟩

theorem query_servers_skip (env : resolver_env) (name : List Nat) (type fuel : Nat)
    (ns : dns_rr_t) (rest : List dns_rr_t) (st : resolver_state) (r : dns_packet_t)
    (h : env.send st.sent.length (query_of name type ns) = none) :
    query_servers env name type (fuel + 1) (ns :: rest) st r
      = query_servers env name type fuel rest
          { st with sent := st.sent ++ [query_of name type ns] } r := by
  have hq : ({ address := cstr ns.data, name := cstr name, type := type } : upstream_query)
      = query_of name type ns := rfl
  rw [query_servers]
  unfold DNS_network_send_query_udp
  dsimp only
  rw [hq, h]

theorem query_servers_all_fail (env : resolver_env) (name : List Nat) (type : Nat) :
    ∀ (fuel : Nat) (pending : List dns_rr_t) (st : resolver_state) (r : dns_packet_t),
      pending.length ≤ fuel →
      (∀ k, ∀ ns ∈ pending, env.send k (query_of name type ns) = none) →
      query_servers env name type fuel pending st r
        = some (r, { st with sent := st.sent ++ pending.map (query_of name type) }) := by
  intro fuel
  induction fuel with
  | zero =>
    intro pending st r hl _
    cases pending with
    | nil => simp [query_servers]
    | cons ns rest => simp at hl
  | succ fuel ih =>
    intro pending st r hl hf
    cases pending with
    | nil => simp [query_servers]
    | cons ns rest =>
      rw [query_servers_skip env name type fuel ns rest st r (hf _ ns (List.mem_cons_self _ _)),
        ih rest _ r (by simpa using hl) (fun k x hx => hf k x (List.mem_cons_of_mem _ hx))]
      simp

/-- C28: upstream failures are skipped. In the loop over `ns_pending` of
`DNS_query_create_response_local` a server whose query returns no packet leaves the response,
the cache and the clock as they are, and the loop goes on with the next pending server; when
every pending server fails the loop ends with the response it started from; and when the
query to the root server fails for a request with one supported question that the cache does
not answer, the response is returned with empty answer, authority and additional sections
and RCODE 3, the cache is unchanged and the one query sent is the one to the root server. -/
theorem upstream_failures_skipped (env : resolver_env) :
    (∀ (name : List Nat) (type fuel : Nat) (ns : dns_rr_t) (rest : List dns_rr_t)
        (st : resolver_state) (r : dns_packet_t),
      env.send st.sent.length (query_of name type ns) = none →
      query_servers env name type (fuel + 1) (ns :: rest) st r
        = query_servers env name type fuel rest
            { st with sent := st.sent ++ [query_of name type ns] } r) ∧
    (∀ (name : List Nat) (type fuel : Nat) (pending : List dns_rr_t) (st : resolver_state)
        (r : dns_packet_t), pending.length ≤ fuel →
      (∀ k, ∀ ns ∈ pending, env.send k (query_of name type ns) = none) →
      query_servers env name type fuel pending st r
        = some (r, { st with sent := st.sent ++ pending.map (query_of name type) })) ∧
    (∀ (fuel : Nat) (q : dns_query_t) (st : resolver_state) (request : dns_packet_t),
      supported q = true → request.queries = [q] →
      (DNS_database_get_cache env st q.name q.type q.class_).1 = [] →
      env.send st.sent.length (query_of q.name q.type (root_server q.type)) = none →
      ∃ res st2, DNS_query_create_response_local env (fuel + 1) st request = some (res, st2) ∧
        res.answers = [] ∧ res.authorities = [] ∧ res.additionals = [] ∧
        res.header.rcode = 3 ∧ st2.cache = st.cache ∧
        st2.sent = st.sent ++ [query_of q.name q.type (root_server q.type)]) := by
  refine ⟨fun name type fuel ns rest st r h => query_servers_skip env name type fuel ns rest st r h,
    fun name type fuel pending st r hl hf =>
      query_servers_all_fail env name type fuel pending st r hl hf, ?_⟩
  intro fuel q st request hs hreq hmiss hfail
  have hq : query_servers env q.name q.type (fuel + 1) [root_server q.type]
      { st with clock := st.clock + 2 }
      (DNS_packet_append_query (initial_response request) (DNS_query_copy q) true)
      = some (DNS_packet_append_query (initial_response request) (DNS_query_copy q) true,
          { cache := st.cache, clock := st.clock + 2,
            sent := st.sent ++ [query_of q.name q.type (root_server q.type)] }) := by
    rw [query_servers_skip env q.name q.type fuel (root_server q.type) []
      { cache := st.cache, clock := st.clock + 2, sent := st.sent } _ hfail]
    cases fuel <;> rfl
  rw [single_question_local env (fuel + 1) q st request hs hreq,
    answer_query_local_miss env (fuel + 1) q st _ hmiss, hq]
  refine ⟨_, _, rfl, ?_, ?_, ?_, ?_, rfl, rfl⟩
  · rw [(finish_flags _ false).2.2.2.2.2.2.2.2.2.1]; rfl
  · rw [(finish_flags _ false).2.2.2.2.2.2.2.2.2.2.1]; rfl
  · rw [(finish_flags _ false).2.2.2.2.2.2.2.2.2.2.2.1]; rfl
  · simp [finish_response, DNS_packet_append_query, initial_response]

/-- The failure theorem at `www.baidu.com A` on an empty cache when no server answers: the
response is empty with RCODE 3, one query was sent (to `127.0.0.7`) and the cache is still
empty. -/
theorem upstream_failures_skipped_witness :
    ∃ res st2, DNS_query_create_response_local silent_env (0 + 1) fresh_state
        (request_of 0 [question "www.baidu.com" 1]) = some (res, st2) ∧
      res.answers = [] ∧ res.authorities = [] ∧ res.additionals = [] ∧
      res.header.rcode = 3 ∧ st2.cache = fresh_state.cache ∧
      st2.sent = fresh_state.sent ++ [query_of (question "www.baidu.com" 1).name
        (question "www.baidu.com" 1).type (root_server (question "www.baidu.com" 1).type)] :=
  (upstream_failures_skipped silent_env).2.2 0 (question "www.baidu.com" 1) fresh_state
    (request_of 0 [question "www.baidu.com" 1]) (by decide) rfl (by decide) rfl

theorem signed_value_16 (v : Nat) (h : v < 65536) :
    signed_value 16 v = if v < 32768 then (v : Int) else (v : Int) - 65536 := by
  unfold signed_value
  have e1 : (2 : Nat) ^ 16 = 65536 := by norm_num
  have e2 : (2 : Nat) ^ (16 - 1) = 32768 := by norm_num
  have e3 : (2 : Int) ^ 16 = 65536 := by norm_num
  rw [e1, e2, e3, Nat.mod_eq_of_lt h]

theorem signed_value_32 (v : Nat) (h : v < 4294967296) :
    signed_value 32 v = if v < 2147483648 then (v : Int) else (v : Int) - 4294967296 := by
  unfold signed_value
  have e1 : (2 : Nat) ^ 32 = 4294967296 := by norm_num
  have e2 : (2 : Nat) ^ (32 - 1) = 2147483648 := by norm_num
  have e3 : (2 : Int) ^ 32 = 4294967296 := by norm_num
  rw [e1, e2, e3, Nat.mod_eq_of_lt h]

theorem record_of_stored (rr : dns_rr_t) (ts : Int) (h : held rr) :
    cache_row_record (stored rr ts) = rr := by
  obtain ⟨h1, h2, h3, h4, h5, h6⟩ := h
  have t1 : (signed_value 16 rr.type % 65536).toNat = rr.type := by
    rw [signed_value_16 rr.type h3]
    split <;> omega
  have t2 : (signed_value 16 rr.class_ % 65536).toNat = rr.class_ := by
    rw [signed_value_16 rr.class_ h4]
    split <;> omega
  have t3 : (signed_value 32 rr.ttl % 4294967296).toNat = rr.ttl := by
    rw [signed_value_32 rr.ttl h5]
    split <;> omega
  cases rr
  simp only [cache_row_record, stored] at *
  simp only [t1, t2, t3, h1, h2, h6]

theorem stored_selected (env : resolver_env) (k : Nat) (rr : dns_rr_t) (ts : Int)
    (name : List Nat) (type class_ : Nat) (h : held rr) (httl : rr.ttl < 2147483648)
    (hname : cstr name = name) (ht : type < 32768) (hc : class_ < 32768) :
    (decide ((stored rr ts).name = cstr name) &&
      (decide ((stored rr ts).type = (type : Int)) || decide ((stored rr ts).type = 5)) &&
      decide ((stored rr ts).class_ = (class_ : Int)) &&
      decide ((stored rr ts).timestamp + (stored rr ts).ttl > env.time (k + 1)))
    = (decide (rr.name = name) && decide (rr.class_ = class_) &&
      (decide (rr.type = type) || decide (rr.type = 5)) &&
      decide (env.time (k + 1) < ts + (rr.ttl : Int))) := by
  obtain ⟨h1, h2, h3, h4, h5, h6⟩ := h
  have e1 : (stored rr ts).name = rr.name := h1
  have e2 : (stored rr ts).type = signed_value 16 rr.type := rfl
  have e3 : (stored rr ts).class_ = signed_value 16 rr.class_ := rfl
  have e4 : (stored rr ts).ttl = signed_value 32 rr.ttl := rfl
  have e5 : (stored rr ts).timestamp = ts := rfl
  rw [e1, e2, e3, e4, e5, hname, signed_value_16 rr.type h3, signed_value_16 rr.class_ h4,
    signed_value_32 rr.ttl h5, if_pos httl]
  have p1 : ((if rr.type < 32768 then (rr.type : Int) else (rr.type : Int) - 65536)
      = (type : Int)) ↔ rr.type = type := by
    split <;> omega
  have p2 : ((if rr.type < 32768 then (rr.type : Int) else (rr.type : Int) - 65536)
      = 5) ↔ rr.type = 5 := by
    split <;> omega
  have p3 : ((if rr.class_ < 32768 then (rr.class_ : Int) else (rr.class_ : Int) - 65536)
      = (class_ : Int)) ↔ rr.class_ = class_ := by
    split <;> omega
  have p4 : (ts + (rr.ttl : Int) > env.time (k + 1)) ↔ env.time (k + 1) < ts + (rr.ttl : Int) :=
    Iff.rfl
  simp only [p1, p2, p3, p4]
  cases decide (rr.name = name) <;> cases decide (rr.class_ = class_) <;>
    cases decide (rr.type = type) <;> cases decide (rr.type = 5) <;> rfl

theorem lookup_entries (env : resolver_env) (k : Nat) (name : List Nat) (type class_ : Nat)
    (hname : cstr name = name) (ht : type < 32768) (hc : class_ < 32768) :
    ∀ (entries : List (dns_rr_t × Int)),
      (∀ e ∈ entries, held e.1 ∧ e.1.ttl < 2147483648) →
      cache_lookup env (entries.map (fun e => stored e.1 e.2)) k name type class_
        = cache_get_spec entries (env.time (k + 1)) name type class_ := by
  intro entries
  induction entries with
  | nil => intro _; rfl
  | cons e rest ih =>
    intro hw
    have he := hw e (List.mem_cons_self _ _)
    have ih2 := ih (fun x hx => hw x (List.mem_cons_of_mem _ hx))
    unfold cache_lookup DNS_database_get_cache cache_get_spec at ih2 ⊢
    dsimp only at ih2 ⊢
    rw [List.map_cons, List.filter_cons, List.filter_cons,
      stored_selected env k e.1 e.2 name type class_ he.1 he.2 hname ht hc]
    by_cases hsel : (decide (e.1.name = name) && decide (e.1.class_ = class_) &&
        (decide (e.1.type = type) || decide (e.1.type = 5)) &&
        decide (env.time (k + 1) < e.2 + (e.1.ttl : Int))) = true
    · rw [if_pos hsel, if_pos hsel, List.map_cons, List.map_cons, ih2,
        record_of_stored e.1 e.2 he.1]
    · rw [if_neg hsel, if_neg hsel, ih2]

/-- The lookup on a cache of put rows. On a cache whose rows were put for the entries
`(rr, inserted_at)`, every TTL being below 2^31, `DNS_database_get_cache(name, type, class)`
with `type` and `class` below 32768, evaluated at the time `now`, returns the records of the
entries with equal name, equal class, type equal to the requested type or CNAME (5), and
`now < inserted_at + ttl`; and a further record that is put at the time `t` is returned by
the lookup for its name, type and class exactly when `now < t + ttl`. -/
theorem get_cache_entries (env : resolver_env) (st : resolver_state)
    (entries : List (dns_rr_t × Int)) (name : List Nat) (type class_ : Nat)
    (hcache : st.cache = entries.map (fun e => stored e.1 e.2))
    (hw : ∀ e ∈ entries, held e.1 ∧ e.1.ttl < 2147483648)
    (hname : cstr name = name) (ht : type < 32768) (hc : class_ < 32768) :
    (DNS_database_get_cache env st name type class_).1
      = cache_get_spec entries (env.time (st.clock + 1)) name type class_ ∧
    ∀ (rr : dns_rr_t) (st2 : resolver_state), held rr → rr.ttl < 2147483648 →
      rr.type < 32768 → rr.class_ < 32768 →
      st2.cache = (DNS_database_put_cache env st rr).cache →
      (DNS_database_get_cache env st2 rr.name rr.type rr.class_).1
        = cache_get_spec entries (env.time (st2.clock + 1)) rr.name rr.type rr.class_
          ++ (if env.time (st2.clock + 1) < env.time (st.clock + 1) + (rr.ttl : Int)
              then [rr] else []) := by
  constructor
  · rw [get_cache_lookup, hcache]
    exact lookup_entries env st.clock name type class_ hname ht hc entries hw
  · intro rr st2 hrr httl hrt hrc hst2
    have hc2 : st2.cache
        = (entries ++ [(rr, env.time (st.clock + 1))]).map (fun e => stored e.1 e.2) := by
      rw [hst2, List.map_append, ← hcache]
      rfl
    have hw2 : ∀ e ∈ entries ++ [(rr, env.time (st.clock + 1))],
        held e.1 ∧ e.1.ttl < 2147483648 := by
      intro e he
      rcases List.mem_append.mp he with he | he
      · exact hw e he
      · rw [List.mem_singleton] at he
        subst he
        exact ⟨hrr, httl⟩
    rw [get_cache_lookup, hc2,
      lookup_entries env st2.clock rr.name rr.type rr.class_ hrr.1 hrt hrc _ hw2]
    unfold cache_get_spec
    rw [List.filter_append, List.map_append]
    congr 1
    by_cases hnow : env.time (st2.clock + 1) < env.time (st.clock + 1) + (rr.ttl : Int)
    · simp [List.filter_cons, hnow]
    · simp [List.filter_cons, hnow]

/-- Rows that the lookup does not return.  A record with the TTL 2^31 that is put at time 100
is stored with a negative TTL (`%d`) and the lookup at time 100 does not return it, although
`100 < 100 + 2^31`.  A record of type 40000 is stored with a negative type (`%hd`) and the
lookup for type 40000 does not return it; the same holds for class 40000. -/
theorem cache_rows_lost :
    ((DNS_database_get_cache silent_env
        (DNS_database_put_cache silent_env fresh_state (row "a" 2147483648 1 1 "1.2.3.4"))
        (txt "a") 1 1).1 = [] ∧
      cache_get_spec [(row "a" 2147483648 1 1 "1.2.3.4", 100)] 100 (txt "a") 1 1
        = [row "a" 2147483648 1 1 "1.2.3.4"]) ∧
    ((DNS_database_get_cache silent_env
        (DNS_database_put_cache silent_env fresh_state (row "a" 60 1 40000 "x"))
        (txt "a") 40000 1).1 = [] ∧
      cache_get_spec [(row "a" 60 1 40000 "x", 100)] 100 (txt "a") 40000 1
        = [row "a" 60 1 40000 "x"]) ∧
    ((DNS_database_get_cache silent_env
        (DNS_database_put_cache silent_env fresh_state (row "a" 60 40000 1 "x"))
        (txt "a") 1 40000).1 = [] ∧
      cache_get_spec [(row "a" 60 40000 1 "x", 100)] 100 (txt "a") 1 40000
        = [row "a" 60 40000 1 "x"]) := by
  decide

set_option maxRecDepth 100000 in
theorem octet_text : ∀ n, n < 256 →
    (46 ∉ dec_text n ∧ 0 ∉ dec_text n ∧
     (!(dec_text n).isEmpty && (dec_text n).all isdigit &&
        (decide ((dec_text n).length = 1) || (dec_text n).head? != some 48) &&
        decide (dec_value (dec_text n) ≤ 255)) = true ∧
     dec_value (dec_text n) = n) := by
  decide

theorem quad_intercalate (a b c d : Nat) :
    quad a b c d = [46].intercalate [dec_text a, dec_text b, dec_text c, dec_text d] := by
  simp [quad, List.intercalate, List.intersperse]

theorem cstr_quad (a b c d : Nat) (ha : a < 256) (hb : b < 256) (hc : c < 256)
    (hd : d < 256) : cstr (quad a b c d) = quad a b c d := by
  apply cstr_of_nonzero
  intro x hx
  simp only [quad, List.mem_append, List.mem_singleton] at hx
  rcases hx with ((((((h | h) | h) | h) | h) | h) | h)
  · intro h0; subst h0; exact (octet_text a ha).2.1 h
  · omega
  · intro h0; subst h0; exact (octet_text b hb).2.1 h
  · omega
  · intro h0; subst h0; exact (octet_text c hc).2.1 h
  · omega
  · intro h0; subst h0; exact (octet_text d hd).2.1 h

theorem quad_low (a b c d : Nat) (ha : a < 256) (hb : b < 256) (hc : c < 256) :
    a ||| (b <<< 8) ||| (c <<< 16) ||| (d <<< 24) = a + b * 256 + c * 65536 + d * 16777216 := by
  have e8 : (2 : Nat) ^ 8 = 256 := by norm_num
  have e16 : (2 : Nat) ^ 16 = 65536 := by norm_num
  have e24 : (2 : Nat) ^ 24 = 16777216 := by norm_num
  have s1 : a ||| (b <<< 8) = a + b * 256 := by
    rw [Nat.lor_comm, lor_shl b a 8 (by omega), e8]; omega
  have s2 : (a + b * 256) ||| (c <<< 16) = a + b * 256 + c * 65536 := by
    rw [Nat.lor_comm, lor_shl c _ 16 (by omega), e16]; omega
  have s3 : (a + b * 256 + c * 65536) ||| (d <<< 24)
      = a + b * 256 + c * 65536 + d * 16777216 := by
    rw [Nat.lor_comm, lor_shl d _ 24 (by omega), e24]; omega
  rw [s1, s2, s3]

theorem quad_high (a b c d : Nat) (hb : b < 256) (hc : c < 256) (hd : d < 256) :
    (a <<< 24) ||| (b <<< 16) ||| (c <<< 8) ||| d
      = a * 16777216 + b * 65536 + c * 256 + d := by
  have e8 : (2 : Nat) ^ 8 = 256 := by norm_num
  have e16 : (2 : Nat) ^ 16 = 65536 := by norm_num
  have e24 : (2 : Nat) ^ 24 = 16777216 := by norm_num
  have eb : b <<< 16 = b * 65536 := by rw [Nat.shiftLeft_eq, e16]
  have ec : c <<< 8 = c * 256 := by rw [Nat.shiftLeft_eq, e8]
  have s1 : (a <<< 24) ||| (b <<< 16) = (a * 256 + b) <<< 16 := by
    rw [lor_shl a _ 24 (by omega), eb, e24, Nat.shiftLeft_eq, e16]; omega
  have s2 : ((a * 256 + b) <<< 16) ||| (c <<< 8) = (a * 65536 + b * 256 + c) <<< 8 := by
    rw [lor_shl _ _ 16 (by omega), ec, e16, Nat.shiftLeft_eq, e8]; omega
  rw [s1, s2, lor_shl _ _ 8 (by omega), e8]
  omega

theorem inet_addr_quad (a b c d : Nat) (ha : a < 256) (hb : b < 256) (hc : c < 256)
    (hd : d < 256) :
    inet_addr (quad a b c d) = a + b * 256 + c * 65536 + d * 16777216 := by
  obtain ⟨a1, _, a3, a4⟩ := octet_text a ha
  obtain ⟨b1, _, b3, b4⟩ := octet_text b hb
  obtain ⟨c1, _, c3, c4⟩ := octet_text c hc
  obtain ⟨d1, _, d3, d4⟩ := octet_text d hd
  have hs : List.splitOn 46 (cstr (quad a b c d))
      = [dec_text a, dec_text b, dec_text c, dec_text d] := by
    rw [cstr_quad a b c d ha hb hc hd, quad_intercalate]
    apply List.splitOn_intercalate
    · intro l hl
      simp only [List.mem_cons, List.mem_singleton, List.not_mem_nil, or_false] at hl
      rcases hl with rfl | rfl | rfl | rfl
      · exact a1
      · exact b1
      · exact c1
      · exact d1
    · simp
  unfold inet_addr
  rw [hs]
  simp only [List.all_cons, List.all_nil, Bool.and_true]
  rw [a3, b3, c3, d3]
  simp only [Bool.and_self, if_true]
  rw [a4, b4, c4, d4]
  exact quad_low a b c d ha hb hc

theorem htonl_low (a b c d : Nat) (ha : a < 256) (hb : b < 256) (hc : c < 256)
    (hd : d < 256) :
    htonl (a + b * 256 + c * 65536 + d * 16777216)
      = d + c * 256 + b * 65536 + a * 16777216 := by
  unfold htonl
  simp only [Nat.shiftRight_eq_div_pow]
  have e8 : (2 : Nat) ^ 8 = 256 := by norm_num
  have e16 : (2 : Nat) ^ 16 = 65536 := by norm_num
  have e24 : (2 : Nat) ^ 24 = 16777216 := by norm_num
  rw [e8, e16, e24]
  have h0 : (a + b * 256 + c * 65536 + d * 16777216) % 256 = a := by omega
  have h1 : (a + b * 256 + c * 65536 + d * 16777216) / 256 % 256 = b := by omega
  have h2 : (a + b * 256 + c * 65536 + d * 16777216) / 65536 % 256 = c := by omega
  have h3 : (a + b * 256 + c * 65536 + d * 16777216) / 16777216 % 256 = d := by omega
  rw [h0, h1, h2, h3, quad_high a b c d hb hc hd]
  omega

theorem wire_of_quad (a b c d : Nat) (ha : a < 256) (hb : b < 256) (hc : c < 256)
    (hd : d < 256) : be32 (htonl (inet_addr (quad a b c d))) = [a, b, c, d] := by
  rw [inet_addr_quad a b c d ha hb hc hd, htonl_low a b c d ha hb hc hd]
  simp only [be32]
  congr 1
  · omega
  · congr 1
    · omega
    · congr 1
      · omega
      · congr 1
        omega

theorem quad_of_wire (a b c d : Nat) (ha : a < 256) (hb : b < 256) (hc : c < 256)
    (hd : d < 256) :
    inet_ntoa (htonl (d + c * 256 + b * 65536 + a * 16777216)) = quad a b c d := by
  rw [htonl_low d c b a hd hc hb ha]
  unfold inet_ntoa quad
  simp only [Nat.shiftRight_eq_div_pow]
  have e8 : (2 : Nat) ^ 8 = 256 := by norm_num
  have e16 : (2 : Nat) ^ 16 = 65536 := by norm_num
  have e24 : (2 : Nat) ^ 24 = 16777216 := by norm_num
  rw [e8, e16, e24]
  have h0 : (a + b * 256 + c * 65536 + d * 16777216) % 256 = a := by omega
  have h1 : (a + b * 256 + c * 65536 + d * 16777216) / 256 % 256 = b := by omega
  have h2 : (a + b * 256 + c * 65536 + d * 16777216) / 65536 % 256 = c := by omega
  have h3 : (a + b * 256 + c * 65536 + d * 16777216) / 16777216 % 256 = d := by omega
  rw [h0, h1, h2, h3]

theorem reads_A_rest (b : dns_buffer) (name : List Nat) (c ttl x : Nat) (post : List Nat)
    (hx : x < 4294967296) (hag : agrees b (be32 x ++ post)) (hlim : b.capacity ≤ 65535)
    (hpos : b.pos ≤ b.capacity) :
    reads (read_RR_rest name 1 c ttl 4) b 4
      (fun rr => rr = { name := name, type := 1, class_ := c, ttl := ttl, length := 4,
                        data := inet_ntoa (htonl x) }) := by
  constructor
  · intro hcap
    obtain ⟨v, b1, e1, m1, q1⟩ := (reads_u32 b x post hag hx hlim hpos).1 hcap
    subst q1
    have hd : read_RR_data b 1 4 = (some (inet_ntoa (htonl v)), b1) := by
      unfold read_RR_data
      simp [e1]
    unfold read_RR_rest
    rw [check_capacity_eq b _ (by omega)]
    simp only [hcap, decide_True, Bool.not_true, Bool.false_eq_true, if_false, hd]
    have hp : (b1.pos + 4294967296 - b.pos) % 4294967296 = 4 := by
      rw [m1.2.2]; omega
    simp only [hp, ne_eq, not_true_eq_false, if_false]
    exact ⟨_, b1, rfl, m1, rfl⟩
  · intro hcap
    unfold read_RR_rest
    rw [check_capacity_eq b _ (by omega)]
    simp [Nat.not_le.mpr hcap]

theorem reads_RR_A (b : dns_buffer) (n : List Nat) (c ttl x : Nat) (post : List Nat)
    (hn : name_shape n) (hc : c < 65536) (httl : ttl < 4294967296) (hx : x < 4294967296)
    (hag : agrees b (n ++ be16 1 ++ be16 c ++ be32 ttl ++ be16 4 ++ be32 x ++ post))
    (hlim : b.capacity ≤ 65535) (hpos : b.pos ≤ b.capacity) :
    reads DNS_buffer_read_RR b (n.length + 14)
      (fun rr => rr.type = 1 ∧ rr.class_ = c ∧ rr.ttl = ttl ∧ rr.length = 4 ∧
        rr.data = inet_ntoa (htonl x)) := by
  have hl : n.length + 14 = n.length + (2 + (2 + (4 + (2 + 4)))) := by omega
  rw [read_RR_eq_bindr, hl]
  have hag1 : agrees b (n ++ (be16 1 ++ (be16 c ++ (be32 ttl ++ (be16 4 ++ (be32 x ++ post)))))) := by
    simpa [List.append_assoc] using hag
  apply reads_bind _ _ b _ _ (fun _ => True) _ (reads_name b n _ hn hag1 hlim hpos)
  intro name b1 _ m1 c1
  have hag2 := agrees_right b b1 n _ hag1 m1
  have l1 := moved_lim b b1 _ m1 hlim
  have p1 := moved_pos_le b b1 _ m1 c1
  apply reads_bind _ _ b1 _ _ (fun x => x = 1) _ (reads_u16 b1 1 _ hag2 (by omega) l1 p1)
  intro type b2 ht2 m2 c2
  subst ht2
  have hag3 := agrees_right b1 b2 (be16 1) _ hag2 m2
  have l2 := moved_lim b1 b2 _ m2 l1
  have p2 := moved_pos_le b1 b2 _ m2 c2
  apply reads_bind _ _ b2 _ _ (fun x => x = c) _ (reads_u16 b2 c _ hag3 hc l2 p2)
  intro class_ b3 hc3 m3 c3
  subst hc3
  have hag4 := agrees_right b2 b3 (be16 class_) _ hag3 m3
  have l3 := moved_lim b2 b3 _ m3 l2
  have p3 := moved_pos_le b2 b3 _ m3 c3
  apply reads_bind _ _ b3 _ _ (fun x => x = ttl) _ (reads_u32 b3 ttl _ hag4 httl l3 p3)
  intro ttl' b4 ht4 m4 c4
  subst ht4
  have hag5 := agrees_right b3 b4 (be32 ttl') _ hag4 m4
  have l4 := moved_lim b3 b4 _ m4 l3
  have p4 := moved_pos_le b3 b4 _ m4 c4
  apply reads_bind _ _ b4 _ _ (fun x => x = 4) _ (reads_u16 b4 4 _ hag5 (by omega) l4 p4)
  intro length b5 hlen m5 c5
  subst hlen
  have hag6 := agrees_right b4 b5 (be16 4) _ hag5 m5
  have l5 := moved_lim b4 b5 _ m5 l4
  have p5 := moved_pos_le b4 b5 _ m5 c5
  apply reads_mono _ b5 4 _ _ (reads_A_rest b5 name class_ ttl' x post hx hag6 l5 p5)
  intro rr hrr
  subst hrr
  exact ⟨rfl, rfl, rfl, rfl, rfl⟩

theorem enc_A_record (kn : List known_name_t) (pos : Nat) (r : dns_rr_t) (a b c d : Nat)
    (ha : a < 256) (hb : b < 256) (hc : c < 256) (hd : d < 256) (ht : r.type = 1)
    (hdata : r.data = quad a b c d) :
    (enc_rr kn pos r).1
      = (enc_name kn pos r.name).1 ++ be16 1 ++ be16 r.class_ ++ be32 r.ttl ++ be16 4
          ++ [a, b, c, d] := by
  have hR : ∀ kn2 pos2, (enc_rdata kn2 pos2 r.type r.data).1 = [a, b, c, d] := by
    intro kn2 pos2
    unfold enc_rdata
    rw [ht, hdata]
    simp only [show (1 : Nat) % 65536 = 1 from rfl, if_true]
    exact wire_of_quad a b c d ha hb hc hd
  unfold enc_rr
  simp only [hR]
  rw [ht]
  rfl

/-- C30: A-record RDATA. For every dotted quad `a.b.c.d` with `a`, `b`, `c`, `d` in 0..255,
a successful `DNS_buffer_write_RR` of a type-A record with that data text writes, after the
owner name, type, class and TTL, the RDLENGTH 4 (octets 0, 4) and the RDATA octets
`[a, b, c, d]`; and `DNS_buffer_read_RR` of the octets written succeeds and yields a type-A
record of length 4 with the data text `a.b.c.d`. -/
theorem a_record_rdata (buf : dns_buffer) (r : dns_rr_t) (w : dns_buffer) (a b c d : Nat)
    (ha : a ≤ 255) (hb : b ≤ 255) (hc : c ≤ 255) (hd : d ≤ 255)
    (hr : rr_ok r) (hbuf : buffer_ok buf) (ht : r.type = 1) (hdata : r.data = quad a b c d)
    (h : DNS_buffer_write_RR buf r = (true, w)) :
    ∃ N, name_shape N ∧
      (w.ptr.drop buf.pos).take (N.length + 14)
        = N ++ be16 1 ++ be16 r.class_ ++ be32 r.ttl ++ [0, 4] ++ [a, b, c, d] ∧
      w.pos = buf.pos + N.length + 14 ∧
      ∃ rr b2, DNS_buffer_read_RR { w with pos := buf.pos } = (some rr, b2) ∧
        rr.type = 1 ∧ rr.class_ = r.class_ ∧ rr.ttl = r.ttl ∧ rr.length = 4 ∧
        rr.data = quad a b c d ∧ b2.pos = w.pos := by
  obtain ⟨e, hcap⟩ := write_RR_true buf r w hr hbuf h
  obtain ⟨hpos, hreg, hlim, _⟩ := hbuf
  obtain ⟨hn, _, hcl, httl, _⟩ := hr
  have henc := enc_A_record buf.known_names buf.pos r a b c d (by omega) (by omega) (by omega)
    (by omega) ht hdata
  have hlen : (enc_rr buf.known_names buf.pos r).1.length
      = (enc_name buf.known_names buf.pos r.name).1.length + 14 := by
    rw [henc]
    simp [be16, be32]
  have hptr : w.ptr = (put buf (enc_rr buf.known_names buf.pos r).1).ptr := by rw [e]; rfl
  have hwpos : w.pos = buf.pos + (enc_name buf.known_names buf.pos r.name).1.length + 14 := by
    rw [e]
    simp only [with_known_names_pos, put_pos, hlen]
    omega
  have hwcap : w.capacity = buf.capacity := by rw [e]; rfl
  have h04 : be16 4 = [0, 4] := by decide
  have hwire : be32 (a * 16777216 + b * 65536 + c * 256 + d) = [a, b, c, d] := by
    simp only [be32]
    congr 1
    · omega
    · congr 1
      · omega
      · congr 1
        · omega
        · congr 1
          omega
  refine ⟨(enc_name buf.known_names buf.pos r.name).1, enc_name_shape _ _ _ hn, ?_, hwpos, ?_⟩
  · rw [hptr, ← hlen, take_drop_put buf _ (by omega), henc, h04]
  · have hag : agrees { w with pos := buf.pos }
        ((enc_name buf.known_names buf.pos r.name).1 ++ be16 1 ++ be16 r.class_ ++ be32 r.ttl
          ++ be16 4 ++ be32 (a * 16777216 + b * 65536 + c * 256 + d) ++ []) := by
      intro i hi _
      rw [hwire, List.append_nil, ← henc] at hi ⊢
      show peek w.ptr (buf.pos + i) = _
      rw [hptr]
      exact peek_put buf _ i hi (by omega)
    obtain ⟨rr, b2, e2, m2, q1, q2, q3, q4, q5⟩ :=
      (reads_RR_A { w with pos := buf.pos } (enc_name buf.known_names buf.pos r.name).1
        r.class_ r.ttl (a * 16777216 + b * 65536 + c * 256 + d) []
        (enc_name_shape _ _ _ hn) hcl httl (by omega) hag
        (by show w.capacity ≤ 65535; rw [hwcap]; exact hlim)
        (by show buf.pos ≤ w.capacity; rw [hwcap]; exact hpos)).1
        (by show buf.pos + _ ≤ w.capacity; rw [hwcap, ← hlen]; exact hcap)
    refine ⟨rr, b2, e2, q1, q2, q3, q4, ?_, ?_⟩
    · rw [q5]
      have := quad_of_wire a b c d (by omega) (by omega) (by omega) (by omega)
      rw [← this]
      congr 2
      omega
    · have hm := m2.2.2
      dsimp only at hm
      omega

set_option maxRecDepth 100000 in
/-- The A-record theorem at `www.a.shifen.com A 14.215.177.38` written into a fresh buffer of
64 octets: the RDATA octets are 14, 215, 177, 38, and reading the record back gives the
text `14.215.177.38`. -/
theorem a_record_rdata_witness :
    sample_a.data = quad 14 215 177 38 ∧
    ∃ w N, DNS_buffer_write_RR (DNS_buffer_create 64) sample_a = (true, w) ∧
      (w.ptr.drop (DNS_buffer_create 64).pos).take (N.length + 14)
        = N ++ be16 1 ++ be16 sample_a.class_ ++ be32 sample_a.ttl ++ [0, 4]
            ++ [14, 215, 177, 38] ∧
      ∃ rr b2, DNS_buffer_read_RR { w with pos := (DNS_buffer_create 64).pos } = (some rr, b2) ∧
        rr.data = quad 14 215 177 38 := by
  obtain ⟨N, _, h2, _, rr, b2, h4, _, _, _, _, h5, _⟩ :=
    a_record_rdata (DNS_buffer_create 64) sample_a _ 14 215 177 38 (by decide) (by decide)
      (by decide) (by decide) (by decide) (by unfold buffer_ok names_nonempty; decide)
      (by decide) (by decide) rfl
  exact ⟨by decide, _, N, rfl, h2, rr, b2, h4, h5⟩

theorem same_authorities_refl (a : dns_packet_t) : same_authorities a a := ⟨rfl, rfl⟩

theorem same_authorities_trans (a b c : dns_packet_t) (h1 : same_authorities a b)
    (h2 : same_authorities b c) : same_authorities a c :=
  ⟨h2.1.trans h1.1, h2.2.trans h1.2⟩

theorem same_authorities_query (a : dns_packet_t) (q : dns_query_t) :
    same_authorities a (DNS_packet_append_query a q true) := ⟨rfl, rfl⟩

theorem same_authorities_answer (a : dns_packet_t) (rr : dns_rr_t) :
    same_authorities a (DNS_packet_append_answer a rr true) := ⟨rfl, rfl⟩

theorem same_authorities_additional (a : dns_packet_t) (rr : dns_rr_t) :
    same_authorities a (DNS_packet_append_additional a rr true) := ⟨rfl, rfl⟩

theorem same_authorities_classify (type : Nat) :
    ∀ (data : List dns_rr_t) (r : dns_packet_t) (cp ap : List dns_rr_t),
      same_authorities r (classify_records type data r cp ap).1 := by
  intro data
  induction data with
  | nil => intro r cp ap; exact same_authorities_refl r
  | cons t rest ih =>
    intro r cp ap
    unfold classify_records
    by_cases h : t.type = 5 ∧ type ≠ 5
    · simp only [if_pos h]
      exact ih _ _ _
    · simp only [if_neg h]
      exact same_authorities_trans _ _ _ (same_authorities_answer r _) (ih _ _ _)

theorem same_authorities_follow_cached (env : resolver_env) (type class_ : Nat) :
    ∀ (fuel : Nat) (pending : List dns_rr_t) (st : resolver_state) (r : dns_packet_t)
      (ap : List dns_rr_t) (r2 : dns_packet_t) (ap2 : List dns_rr_t) (st2 : resolver_state),
      follow_cached_cnames env type class_ fuel pending st r ap = some (r2, ap2, st2) →
      same_authorities r r2 := by
  intro fuel
  induction fuel with
  | zero =>
    intro pending st r ap r2 ap2 st2 h
    cases pending with
    | nil =>
      simp only [follow_cached_cnames, Option.some.injEq, Prod.mk.injEq] at h
      rw [← h.1]
      exact same_authorities_refl r
    | cons t rest => simp [follow_cached_cnames] at h
  | succ fuel ih =>
    intro pending st r ap r2 ap2 st2 h
    cases pending with
    | nil =>
      simp only [follow_cached_cnames, Option.some.injEq, Prod.mk.injEq] at h
      rw [← h.1]
      exact same_authorities_refl r
    | cons t rest =>
      unfold follow_cached_cnames at h
      dsimp only at h
      by_cases hd : (DNS_database_get_cache env st t.data type class_).1 = []
      · rw [if_pos hd] at h
        exact ih _ _ _ _ _ _ _ h
      · rw [if_neg hd] at h
        have hc := same_authorities_classify type
          (DNS_database_get_cache env st t.data type class_).1
          (DNS_packet_append_answer r (DNS_RR_copy t) true) rest ap
        rcases hcl : classify_records type (DNS_database_get_cache env st t.data type class_).1
          (DNS_packet_append_answer r (DNS_RR_copy t) true) rest ap with ⟨r1, p1, a1⟩
        rw [hcl] at h hc
        dsimp only at h hc
        exact same_authorities_trans _ _ _
          (same_authorities_trans _ _ _ (same_authorities_answer r _) hc)
          (ih _ _ _ _ _ _ _ h)

theorem same_authorities_cached_addresses : ∀ (data : List dns_rr_t) (r : dns_packet_t),
    same_authorities r (append_cached_addresses data r) := by
  intro data
  induction data with
  | nil => intro r; exact same_authorities_refl r
  | cons t rest ih =>
    intro r
    unfold append_cached_addresses
    by_cases h : t.type = 1
    · rw [if_pos h]
      exact same_authorities_trans _ _ _ (same_authorities_additional r _) (ih _)
    · rw [if_neg h]
      exact ih _

theorem same_authorities_find_cached (env : resolver_env) (class_ : Nat) :
    ∀ (ap : List dns_rr_t) (st : resolver_state) (r : dns_packet_t),
      same_authorities r (find_cached_addresses env class_ ap st r).1 := by
  intro ap
  induction ap with
  | nil => intro st r; exact same_authorities_refl r
  | cons t rest ih =>
    intro st r
    unfold find_cached_addresses
    dsimp only
    exact same_authorities_trans _ _ _ (same_authorities_cached_addresses _ r) (ih _ _)

theorem same_authorities_take_exchange (env : resolver_env) (name : List Nat) :
    ∀ (adds : List dns_rr_t) (st : resolver_state) (r : dns_packet_t),
      same_authorities r (take_exchange env name adds st r).1 := by
  intro adds
  induction adds with
  | nil => intro st r; exact same_authorities_refl r
  | cons t rest ih =>
    intro st r
    unfold take_exchange
    by_cases h : cstr t.name = name
    · rw [if_pos h]
      exact same_authorities_trans _ _ _ (same_authorities_additional r _) (ih _ _)
    · rw [if_neg h]
      exact ih _ _

theorem same_authorities_take_answers (env : resolver_env) (adds : List dns_rr_t) :
    ∀ (answers : List dns_rr_t) (st : resolver_state) (r : dns_packet_t),
      same_authorities r (take_answers env adds answers st r).1 := by
  intro answers
  induction answers with
  | nil => intro st r; exact same_authorities_refl r
  | cons t rest ih =>
    intro st r
    unfold take_answers
    by_cases h : t.type = 15
    · simp only [if_pos h]
      have he := same_authorities_take_exchange env (glue_name t) adds
        (DNS_database_put_cache env st t) (DNS_packet_append_answer r (DNS_RR_copy t) true)
      rcases hx : take_exchange env (glue_name t) adds (DNS_database_put_cache env st t)
        (DNS_packet_append_answer r (DNS_RR_copy t) true) with ⟨r1, st1⟩
      rw [hx] at he
      dsimp only at he ⊢
      exact same_authorities_trans _ _ _
        (same_authorities_trans _ _ _ (same_authorities_answer r _) he) (ih _ _)
    · simp only [if_neg h]
      exact same_authorities_trans _ _ _ (same_authorities_answer r _) (ih _ _)

theorem same_authorities_query_servers (env : resolver_env) (name : List Nat) (type : Nat) :
    ∀ (fuel : Nat) (pending : List dns_rr_t) (st : resolver_state) (r : dns_packet_t)
      (r2 : dns_packet_t) (st2 : resolver_state),
      query_servers env name type fuel pending st r = some (r2, st2) →
      same_authorities r r2 := by
  intro fuel
  induction fuel with
  | zero =>
    intro pending st r r2 st2 h
    cases pending with
    | nil =>
      simp only [query_servers, Option.some.injEq, Prod.mk.injEq] at h
      rw [← h.1]
      exact same_authorities_refl r
    | cons ns rest => simp [query_servers] at h
  | succ fuel ih =>
    intro pending st r r2 st2 h
    cases pending with
    | nil =>
      simp only [query_servers, Option.some.injEq, Prod.mk.injEq] at h
      rw [← h.1]
      exact same_authorities_refl r
    | cons ns rest =>
      unfold query_servers at h
      rcases hs : DNS_network_send_query_udp env st ns.data name type with ⟨_ | p, st1⟩
      · rw [hs] at h
        dsimp only at h
        exact ih _ _ _ _ _ h
      · rw [hs] at h
        dsimp only at h
        have ht := same_authorities_take_answers env p.additionals p.answers st1 r
        rcases hta : take_answers env p.additionals p.answers st1 r with ⟨r1, st3⟩
        rw [hta] at h ht
        dsimp only at h ht
        exact same_authorities_trans _ _ _ ht (ih _ _ _ _ _ h)

theorem same_authorities_answer_local (env : resolver_env) (fuel : Nat) (q : dns_query_t)
    (st : resolver_state) (r r2 : dns_packet_t) (st2 : resolver_state)
    (h : answer_query_local env fuel q st r = some (r2, st2)) : same_authorities r r2 := by
  unfold answer_query_local at h
  dsimp only at h
  by_cases hhit : (DNS_database_get_cache env st q.name q.type q.class_).1 ≠ []
  · rw [if_pos hhit] at h
    have hc := same_authorities_classify q.type
      (DNS_database_get_cache env st q.name q.type q.class_).1
      (DNS_packet_append_query r (DNS_query_copy q) true) [] []
    rcases hcl : classify_records q.type (DNS_database_get_cache env st q.name q.type q.class_).1
      (DNS_packet_append_query r (DNS_query_copy q) true) [] [] with ⟨r1, p1, a1⟩
    rw [hcl] at h hc
    dsimp only at h hc
    rcases hf : follow_cached_cnames env q.type q.class_ fuel p1
      (DNS_database_get_cache env st q.name q.type q.class_).2 r1 a1 with _ | ⟨r3, a3, st3⟩
    · rw [hf] at h; simp at h
    · rw [hf] at h
      simp only [Option.some.injEq] at h
      have h1 := same_authorities_follow_cached env q.type q.class_ fuel p1 _ r1 a1 r3 a3 st3 hf
      have h2 := same_authorities_find_cached env q.class_ a3 st3 r3
      rw [h] at h2
      exact same_authorities_trans _ _ _
        (same_authorities_trans _ _ _
          (same_authorities_trans _ _ _ (same_authorities_query r _) hc) h1) h2
  · rw [if_neg hhit] at h
    exact same_authorities_trans _ _ _ (same_authorities_query r _)
      (same_authorities_query_servers env q.name q.type fuel _ _ _ _ _ h)

theorem same_authorities_process_local (env : resolver_env) (fuel : Nat) :
    ∀ (qs : List dns_query_t) (st : resolver_state) (r : dns_packet_t) (inv : Bool)
      (r2 : dns_packet_t) (inv2 : Bool) (st2 : resolver_state),
      process_queries_local env fuel qs st r inv = some (r2, inv2, st2) →
      same_authorities r r2 := by
  intro qs
  induction qs with
  | nil =>
    intro st r inv r2 inv2 st2 h
    simp only [process_queries_local, Option.some.injEq, Prod.mk.injEq] at h
    rw [← h.1]
    exact same_authorities_refl r
  | cons q rest ih =>
    intro st r inv r2 inv2 st2 h
    unfold process_queries_local at h
    by_cases ht : DNS_type_to_str q.type = "[UNKNOWN]"
    · rw [if_pos ht] at h
      exact ih _ _ _ _ _ _ h
    · rw [if_neg ht] at h
      by_cases hc : DNS_class_to_str q.class_ = "[UNKNOWN]"
      · rw [if_pos hc] at h
        exact ih _ _ _ _ _ _ h
      · rw [if_neg hc] at h
        rcases ha : answer_query_local env fuel q st r with _ | ⟨r1, st1⟩
        · rw [ha] at h; simp at h
        · rw [ha] at h
          dsimp only at h
          exact same_authorities_trans _ _ _
            (same_authorities_answer_local env fuel q st r r1 st1 ha) (ih _ _ _ _ _ _ h)

theorem same_authorities_finish (r : dns_packet_t) (inv : Bool) :
    same_authorities r (finish_response r inv) := by
  unfold finish_response same_authorities
  cases inv <;> by_cases h : r.header.answer_count = 0 ∧ r.header.authority_count = 0 ∧
      r.header.additional_count = 0 <;> simp [h]

/-- C40: the resolver never returns authority records. Every response that
`DNS_query_create_response_local` returns, whatever the request, the cache and the replies of
the upstream servers, has an empty authority section and `authority_count` 0; and a response
is returned when no reply carries an authority record or a CNAME and the cache holds no
CNAME row. -/
theorem resolver_no_authority (env : resolver_env) (fuel : Nat) (st : resolver_state)
    (request : dns_packet_t) :
    (∀ res st2, DNS_query_create_response_local env fuel st request = some (res, st2) →
      res.authorities = [] ∧ res.header.authority_count = 0) ∧
    (direct_upstream env → no_cached_cname st →
      ∃ res st2, DNS_query_create_response_local env (fuel + 1) st request = some (res, st2) ∧
        res.authorities = [] ∧ res.header.authority_count = 0) := by
  have main : ∀ (f : Nat) (res : dns_packet_t) (st2 : resolver_state),
      DNS_query_create_response_local env f st request = some (res, st2) →
      res.authorities = [] ∧ res.header.authority_count = 0 := by
    intro f res st2 h
    unfold DNS_query_create_response_local at h
    rcases hp : process_queries_local env f request.queries st (initial_response request)
      false with _ | ⟨r2, inv2, st3⟩
    · rw [hp] at h; simp at h
    · rw [hp] at h
      simp only [Option.some.injEq, Prod.mk.injEq] at h
      have h1 := same_authorities_process_local env f _ _ _ _ _ _ _ hp
      have h2 := same_authorities_finish r2 inv2
      rw [h.1] at h2
      exact same_authorities_trans _ _ _ h1 h2
  refine ⟨main fuel, fun henv hst => ?_⟩
  obtain ⟨res, st2, h⟩ := response_local_returns env henv fuel st hst request
  exact ⟨res, st2, h, main _ res st2 h⟩

/-- The authority theorem in the sample network, where the root server answers with a
referral that has an authority record: the response to `www.baidu.com A` has no authority
record. -/
theorem resolver_no_authority_witness :
    sample_referral.authorities ≠ [] ∧
    ∃ res st2, DNS_query_create_response_local sample_env 4 fresh_state
        (request_of 0 [question "www.baidu.com" 1]) = some (res, st2) ∧
      res.authorities = [] ∧ res.header.authority_count = 0 :=
  ⟨by decide, _, _, rfl,
   (resolver_no_authority sample_env 4 fresh_state
     (request_of 0 [question "www.baidu.com" 1])).1 _ _ rfl⟩

theorem servers_of_eq (t : dns_rr_t) : ∀ (adds : List dns_rr_t),
    servers_of t adds
      = (adds.filter (fun t2 => decide (cstr t2.name = cstr t.data ∧ t2.type = 1))).map
          DNS_RR_copy := by
  intro adds
  induction adds with
  | nil => rfl
  | cons t2 rest ih =>
    unfold servers_of
    by_cases h : cstr t.data = cstr t2.name ∧ t2.type = 1
    · have h2 : cstr t2.name = cstr t.data ∧ t2.type = 1 := ⟨h.1.symm, h.2⟩
      rw [if_pos h, ih, List.filter_cons, if_pos (by simpa using h2), List.map_cons]
    · have h2 : ¬ (cstr t2.name = cstr t.data ∧ t2.type = 1) := fun x => h ⟨x.1.symm, x.2⟩
      rw [if_neg h, ih, List.filter_cons, if_neg (by simpa using h2)]

theorem next_servers_eq (adds : List dns_rr_t) : ∀ (auths : List dns_rr_t),
    next_servers adds auths
      = auths.flatMap (fun t =>
          (adds.filter (fun t2 => decide (cstr t2.name = cstr t.data ∧ t2.type = 1))).map
            DNS_RR_copy) := by
  intro auths
  induction auths with
  | nil => rfl
  | cons t rest ih =>
    unfold next_servers
    rw [ih, servers_of_eq, List.flatMap_cons]

theorem referral_servers :
    next_servers sample_referral.additionals sample_referral.authorities
      = [row "ns2.local" 60 1 1 "127.0.0.4"] := by
  decide

theorem referring_walk (N : Nat) (name : List Nat) (type : Nat) :
    ∀ (n : Nat) (ns : dns_rr_t) (st : resolver_state) (r : dns_packet_t),
      st.sent.length + n = N →
      ∃ st2, query_servers (referring_env N) name type (n + 1) [ns] st r = some (r, st2) ∧
        st2.sent.length = N + 1 := by
  intro n
  induction n with
  | zero =>
    intro ns st r hN
    have hs : (referring_env N).send st.sent.length (query_of name type ns)
        = some empty_reply := by
      simp only [referring_env]
      rw [if_neg (by omega)]
    refine ⟨{ st with sent := st.sent ++ [query_of name type ns] }, ?_, by simp; omega⟩
    have hq : ({ address := cstr ns.data, name := cstr name, type := type } : upstream_query)
        = query_of name type ns := rfl
    rw [query_servers]
    unfold DNS_network_send_query_udp
    dsimp only
    rw [hq, hs]
    rfl
  | succ n ih =>
    intro ns st r hN
    have hs : (referring_env N).send st.sent.length (query_of name type ns)
        = some sample_referral := by
      simp only [referring_env]
      rw [if_pos (by omega)]
    obtain ⟨st2, h2, hl⟩ := ih (row "ns2.local" 60 1 1 "127.0.0.4")
      { st with sent := st.sent ++ [query_of name type ns] } r (by simp; omega)
    refine ⟨st2, ?_, hl⟩
    have hq : ({ address := cstr ns.data, name := cstr name, type := type } : upstream_query)
        = query_of name type ns := rfl
    rw [query_servers]
    unfold DNS_network_send_query_udp
    dsimp only
    rw [hq, hs]
    dsimp only
    have ht : take_answers (referring_env N) sample_referral.additionals
        sample_referral.answers { st with sent := st.sent ++ [query_of name type ns] } r
        = (r, { st with sent := st.sent ++ [query_of name type ns] }) := rfl
    rw [ht]
    dsimp only
    rw [referral_servers, List.nil_append]
    exact h2

theorem always_referring_walk (name : List Nat) (type : Nat) :
    ∀ (fuel : Nat) (ns : dns_rr_t) (st : resolver_state) (r : dns_packet_t),
      query_servers always_referring name type fuel [ns] st r = none := by
  intro fuel
  induction fuel with
  | zero => intro ns st r; rfl
  | succ fuel ih =>
    intro ns st r
    rw [query_servers]
    unfold DNS_network_send_query_udp
    dsimp only
    have hs : always_referring.send st.sent.length
        { address := cstr ns.data, name := cstr name, type := type } = some sample_referral := rfl
    rw [hs]
    dsimp only
    have ht : take_answers always_referring sample_referral.additionals
        sample_referral.answers
        { st with sent := st.sent ++ [{ address := cstr ns.data, name := cstr name, type := type }] } r
        = (r, { st with sent := st.sent
            ++ [{ address := cstr ns.data, name := cstr name, type := type }] }) := rfl
    rw [ht]
    dsimp only
    rw [referral_servers, List.nil_append]
    exact ih _ _ _

theorem referring_matched (N : Nat) : referrals_matched (referring_env N) := by
  intro k q p hp
  simp only [referring_env] at hp
  by_cases hk : k < N
  · rw [if_pos hk] at hp
    simp only [Option.some.injEq] at hp
    subst hp
    decide
  · rw [if_neg hk] at hp
    simp only [Option.some.injEq] at hp
    subst hp
    decide

/-- C37: no iteration bound in the resolver. For every number `N` there is an upstream
behaviour, in which every authority record of a reply has a matching A record in the
additional section of the reply, under which `DNS_query_create_response_local` sends more
than `N` upstream queries for the single question `www.baidu.com A` on an empty cache before
it returns its response; and there is such a behaviour under which it never returns: the
loop over `ns_pending` has no cap. -/
theorem resolver_unbounded :
    (∀ N : Nat, ∃ env, referrals_matched env ∧
      ∃ fuel res st2, DNS_query_create_response_local env fuel fresh_state
          (request_of 0 [question "www.baidu.com" 1]) = some (res, st2) ∧
        N < st2.sent.length) ∧
    (∃ env, referrals_matched env ∧
      ∀ fuel, DNS_query_create_response_local env fuel fresh_state
        (request_of 0 [question "www.baidu.com" 1]) = none) := by
  constructor
  · intro N
    refine ⟨referring_env N, referring_matched N, N + 1, ?_⟩
    obtain ⟨st2, h2, hl⟩ := referring_walk N (question "www.baidu.com" 1).name
      (question "www.baidu.com" 1).type N (root_server (question "www.baidu.com" 1).type)
      { fresh_state with clock := fresh_state.clock + 2 }
      (DNS_packet_append_query (initial_response (request_of 0 [question "www.baidu.com" 1]))
        (DNS_query_copy (question "www.baidu.com" 1)) true) (by simp [fresh_state])
    refine ⟨finish_response (DNS_packet_append_query
        (initial_response (request_of 0 [question "www.baidu.com" 1]))
        (DNS_query_copy (question "www.baidu.com" 1)) true) false, st2, ?_, by omega⟩
    rw [single_question_local (referring_env N) (N + 1) (question "www.baidu.com" 1)
        fresh_state _ (by decide) rfl,
      answer_query_local_miss (referring_env N) (N + 1) (question "www.baidu.com" 1)
        fresh_state _ rfl, h2]
    rfl
  · refine ⟨always_referring, ?_, ?_⟩
    · intro k q p hp
      simp only [always_referring, Option.some.injEq] at hp
      subst hp
      decide
    · intro fuel
      rw [single_question_local always_referring fuel (question "www.baidu.com" 1)
          fresh_state _ (by decide) rfl,
        answer_query_local_miss always_referring fuel (question "www.baidu.com" 1)
          fresh_state _ rfl, always_referring_walk]
      rfl

theorem classify_glue (type : Nat) (data : List dns_rr_t) (r : dns_packet_t)
    (cp ap : List dns_rr_t) :
    ∃ added, (classify_records type data r cp ap).1.answers = r.answers ++ added ∧
      (classify_records type data r cp ap).2.2
        = ap ++ added.filter (fun t => decide (t.type = 15)) ∧
      (∀ t ∈ added, ¬ (t.type = 5 ∧ type ≠ 5)) ∧
      ∃ p, (classify_records type data r cp ap).2.1 = cp ++ p ∧ ∀ t ∈ p, t.type = 5 := by
  obtain ⟨s1, _, _, s4⟩ := classify_sections type data r cp ap
  refine ⟨_, s1, ?_, ?_, _, classify_pending type data r cp ap, ?_⟩
  · rw [s4]
    congr 1
    rw [List.filter_map, List.filter_filter]
    congr 1
    apply List.filter_congr
    intro t _
    have e : (DNS_RR_copy t).type = t.type := rfl
    by_cases h15 : t.type = 15
    · simp [e, h15]
    · simp [e, h15]
  · intro t ht
    obtain ⟨u, hu, rfl⟩ := List.mem_map.mp ht
    have h3 := (List.mem_filter.mp hu).2
    simp only [Bool.not_eq_true', decide_eq_false_iff_not] at h3
    exact h3
  · intro t ht
    obtain ⟨u, hu, rfl⟩ := List.mem_map.mp ht
    have h3 := (List.mem_filter.mp hu).2
    simp only [decide_eq_true_eq] at h3
    exact h3.1

theorem follow_glue (table : List dns_rr_t) (type class_ : Nat) :
    ∀ (fuel : Nat) (pending : List dns_rr_t) (r : dns_packet_t) (ap : List dns_rr_t)
      (r2 : dns_packet_t) (ap2 : List dns_rr_t),
      (∀ t ∈ pending, t.type = 5) →
      follow_cnames table type class_ fuel pending r ap = some (r2, ap2) →
      ∃ added, r2.answers = r.answers ++ added ∧
        ap2 = ap ++ added.filter (fun t => decide (t.type = 15)) := by
  intro fuel
  induction fuel with
  | zero =>
    intro pending r ap r2 ap2 _ h
    cases pending with
    | nil =>
      simp only [follow_cnames, Option.some.injEq, Prod.mk.injEq] at h
      obtain ⟨rfl, rfl⟩ := h
      exact ⟨[], by simp, by simp⟩
    | cons t rest => simp [follow_cnames] at h
  | succ fuel ih =>
    intro pending r ap r2 ap2 hp h
    cases pending with
    | nil =>
      simp only [follow_cnames, Option.some.injEq, Prod.mk.injEq] at h
      obtain ⟨rfl, rfl⟩ := h
      exact ⟨[], by simp, by simp⟩
    | cons t rest =>
      unfold follow_cnames at h
      dsimp only at h
      have ht5 : (DNS_RR_copy t).type = 5 := hp t (List.mem_cons_self _ _)
      obtain ⟨a1, c1, c2, _, p, c3, c4⟩ := classify_glue type
        (DNS_database_get_record table t.data type class_ true)
        (if DNS_database_get_record table t.data type class_ true ≠ [] then
          DNS_packet_append_answer r (DNS_RR_copy t) true else r) rest ap
      rcases hcl : classify_records type (DNS_database_get_record table t.data type class_ true)
        (if DNS_database_get_record table t.data type class_ true ≠ [] then
          DNS_packet_append_answer r (DNS_RR_copy t) true else r) rest ap with ⟨r1, p1, ap1⟩
      rw [hcl] at h c1 c2 c3
      dsimp only at h c1 c2 c3
      have hp1 : ∀ x ∈ p1, x.type = 5 := by
        intro x hx
        rw [c3] at hx
        rcases List.mem_append.mp hx with hx | hx
        · exact hp x (List.mem_cons_of_mem _ hx)
        · exact c4 x hx
      obtain ⟨a2, i1, i2⟩ := ih p1 r1 ap1 r2 ap2 hp1 h
      by_cases hd : DNS_database_get_record table t.data type class_ true ≠ []
      · rw [if_pos hd] at c1
        refine ⟨DNS_RR_copy t :: (a1 ++ a2), ?_, ?_⟩
        · rw [i1, c1]
          simp [DNS_packet_append_answer]
        · rw [i2, c2, List.filter_cons, if_neg (by simp [ht5]), List.filter_append,
            List.append_assoc]
      · rw [if_neg hd] at c1
        refine ⟨a1 ++ a2, ?_, ?_⟩
        · rw [i1, c1, List.append_assoc]
        · rw [i2, c2, List.filter_append, List.append_assoc]

theorem answer_query_glue (table : List dns_rr_t) (fuel : Nat) (q : dns_query_t)
    (r r2 : dns_packet_t) (h : answer_query table fuel q r = some r2) :
    ∃ added, r2.answers = r.answers ++ added ∧
      r2.additionals = r.additionals ++ glue_of table q added := by
  unfold answer_query at h
  dsimp only at h
  obtain ⟨a1, c1, c2, _, p, c3, c4⟩ := classify_glue q.type
    (DNS_database_get_record table q.name q.type q.class_ true)
    (DNS_packet_append_query r (DNS_query_copy q) true) [] []
  obtain ⟨_, _, s3, _⟩ := classify_sections q.type
    (DNS_database_get_record table q.name q.type q.class_ true)
    (DNS_packet_append_query r (DNS_query_copy q) true) [] []
  rcases hcl : classify_records q.type
    (DNS_database_get_record table q.name q.type q.class_ true)
    (DNS_packet_append_query r (DNS_query_copy q) true) [] [] with ⟨r1, p1, ap1⟩
  rw [hcl] at h c1 c2 c3 s3
  dsimp only at h c1 c2 c3 s3
  rcases hf : follow_cnames table q.type q.class_ fuel p1 r1 ap1 with _ | ⟨r3, ap3⟩
  · rw [hf] at h; simp at h
  · rw [hf] at h
    dsimp only at h
    have hp1 : ∀ x ∈ p1, x.type = 5 := by
      intro x hx
      rw [c3, List.nil_append] at hx
      exact c4 x hx
    obtain ⟨a2, i1, i2⟩ := follow_glue table q.type q.class_ fuel p1 r1 ap1 r3 ap3 hp1 hf
    obtain ⟨⟨f1, f2, _⟩, _⟩ := follow_answers table q.type q.class_ fuel p1 r1 ap1 r3 ap3 hf
    obtain ⟨n1, _, n3, n4⟩ := find_name_servers_sections table q.class_ (cstr q.name) true r3 ap3
    rcases hn : find_name_servers table q.class_ true (cstr q.name) r3 ap3 with ⟨r4, ap4⟩
    rw [hn] at h n1 n3 n4
    dsimp only at h n1 n3 n4
    obtain ⟨d1, _, d3⟩ := find_addresses_sections table q.class_ ap4 r4
    simp only [Option.some.injEq] at h
    rw [h] at d1 d3
    refine ⟨a1 ++ a2, ?_, ?_⟩
    · rw [d1, n1, i1, c1]
      simp [DNS_packet_append_query]
    · rw [d3, n3, f2, s3, n4, i2, c2]
      unfold glue_of authority_records label_suffixes
      simp only [List.nil_append, if_true, List.singleton_append, List.filter_append,
        List.append_assoc]
      rfl

theorem process_queries_glue (table : List dns_rr_t) (fuel : Nat) :
    ∀ (qs : List dns_query_t) (r : dns_packet_t) (inv : Bool) (r2 : dns_packet_t)
      (inv2 : Bool), process_queries table fuel qs r inv = some (r2, inv2) →
      ∃ per : List (List dns_rr_t), per.length = (qs.filter supported).length ∧
        r2.answers = r.answers ++ per.flatten ∧
        r2.additionals = r.additionals
          ++ (List.zipWith (glue_of table) (qs.filter supported) per).flatten := by
  intro qs
  induction qs with
  | nil =>
    intro r inv r2 inv2 h
    simp only [process_queries, Option.some.injEq, Prod.mk.injEq] at h
    obtain ⟨rfl, rfl⟩ := h
    exact ⟨[], rfl, by simp, by simp⟩
  | cons q rest ih =>
    intro r inv r2 inv2 h
    by_cases hs : supported q = true
    · have hs2 := (supported_iff q).mp hs
      unfold process_queries at h
      rw [if_neg hs2.1, if_neg hs2.2] at h
      rcases ha : answer_query table fuel q r with _ | r1
      · rw [ha] at h; simp at h
      · rw [ha] at h
        dsimp only at h
        obtain ⟨added, a1, a2⟩ := answer_query_glue table fuel q r r1 ha
        obtain ⟨per, b0, b1, b2⟩ := ih r1 inv r2 inv2 h
        refine ⟨added :: per, ?_, ?_, ?_⟩
        · simp [List.filter_cons, hs, b0]
        · rw [b1, a1]
          simp
        · rw [b2, a2, List.filter_cons, if_pos hs]
          simp
    · have hs3 : supported q = false := by simpa using hs
      have hu : DNS_type_to_str q.type = "[UNKNOWN]" ∨
          DNS_class_to_str q.class_ = "[UNKNOWN]" := by
        by_contra hcon
        push_neg at hcon
        exact hs ((supported_iff q).mpr hcon)
      have h2 : process_queries table fuel rest r true = some (r2, inv2) := by
        unfold process_queries at h
        rcases hu with hu | hu
        · rw [if_pos hu] at h; exact h
        · by_cases ht : DNS_type_to_str q.type = "[UNKNOWN]"
          · rw [if_pos ht] at h; exact h
          · rw [if_neg ht, if_pos hu] at h; exact h
      obtain ⟨per, b0, b1, b2⟩ := ih r true r2 inv2 h2
      refine ⟨per, ?_, b1, ?_⟩
      · rw [b0]; simp [List.filter_cons, hs3]
      · rw [b2]; simp [List.filter_cons, hs3]

/-- C34: glue records. On a table of rows that come back from the database as they are
stored, and for questions whose names hold no quote and have at most 127 octets (for these
the text of every query is the query meant), the answers of every response that
`DNS_query_create_response` returns split into one part for each supported question, and the
additional section holds, for each supported question in turn, the results of the A lookups
(class of the question, CNAME not included) first for the exchange of every MX record among
the answers of the question, which are the MX records met while the records were sorted (the
exchange is what `sscanf` with `%d,%s` finds behind the comma), then for the target of every
NS record appended to the authority section for the question, in the order they were
enqueued; and when the CNAME rows of the table form no cycle such a response is returned. -/
theorem glue_records_order (table : List dns_rr_t) (fuel : Nat) (request : dns_packet_t)
    (_hrows : ∀ r ∈ table, db_row r) (_hq : ∀ q ∈ request.queries, sql_name q.name) :
    (∀ r, DNS_query_create_response table fuel request = some r →
      ∃ per : List (List dns_rr_t),
        per.length = (request.queries.filter supported).length ∧
        r.answers = per.flatten ∧
        r.additionals
          = (List.zipWith (glue_of table) (request.queries.filter supported) per).flatten) ∧
    (∀ q r, request.queries = [q] → supported q = true →
      DNS_query_create_response table fuel request = some r →
      r.additionals = glue_records table q.class_
        (r.answers.filter (fun t => decide (t.type = 15)) ++ r.authorities)) ∧
    (∀ rk, ranked table rk →
      ∃ r, DNS_query_create_response table (enough_fuel table rk request) request
        = some r) := by
  have main : ∀ (f : Nat) (r : dns_packet_t),
      DNS_query_create_response table f request = some r →
      ∃ per : List (List dns_rr_t),
        per.length = (request.queries.filter supported).length ∧
        r.answers = per.flatten ∧
        r.additionals
          = (List.zipWith (glue_of table) (request.queries.filter supported) per).flatten := by
    intro f r h
    unfold DNS_query_create_response at h
    rcases hp : process_queries table f request.queries (initial_response request) false
      with _ | ⟨r2, inv2⟩
    · rw [hp] at h; simp at h
    · rw [hp] at h
      simp only [Option.some.injEq] at h
      obtain ⟨per, b0, b1, b2⟩ := process_queries_glue table f _ _ _ _ _ hp
      refine ⟨per, b0, ?_, ?_⟩
      · rw [← h, (finish_flags r2 inv2).2.2.2.2.2.2.2.2.2.1, b1]
        rfl
      · rw [← h, (finish_flags r2 inv2).2.2.2.2.2.2.2.2.2.2.2.1, b2]
        rfl
  refine ⟨main fuel, ?_, fun rk hrk => response_returns table rk hrk request⟩
  intro q r hreq hs h
  obtain ⟨per, b0, b1, b2⟩ := main fuel r h
  have hau : r.authorities = authority_records table q := by
    unfold DNS_query_create_response at h
    rcases hp : process_queries table fuel request.queries (initial_response request) false
      with _ | ⟨r2, inv2⟩
    · rw [hp] at h; simp at h
    · rw [hp] at h
      simp only [Option.some.injEq] at h
      rw [← h, (finish_flags r2 inv2).2.2.2.2.2.2.2.2.2.2.1,
        (process_queries_sections table fuel _ _ _ _ _ hp).1, hreq]
      simp [initial_response, List.filter_cons, hs]
  rw [hreq] at b0 b2
  simp only [List.filter_cons, hs, if_true, List.filter_nil, List.length_singleton] at b0 b2
  obtain ⟨a, rfl⟩ := List.length_eq_one.mp b0
  simp only [List.zipWith_cons_cons, List.zipWith_nil_right, List.flatten_cons,
    List.flatten_nil, List.append_nil] at b1 b2
  rw [b2, b1, hau]
  rfl

/-- The glue theorem at `n MX` against a table in which `n` is a CNAME to `m`, `m` has the MX
record `3,mx` and `mx` has an A record: the additional section is the A record of `mx`. -/
theorem glue_records_order_witness :
    glue_name (row "m" 60 1 15 "3,mx") = txt "mx" ∧
    ∃ r, DNS_query_create_response mx_chain_zone 4 (request_of 0 [question "n" 15]) = some r ∧
      r.answers = [row "n" 60 1 5 "m", row "m" 60 1 15 "3,mx"] ∧
      r.additionals = [row "mx" 60 1 1 "1.2.3.4"] ∧
      r.additionals = glue_records mx_chain_zone (question "n" 15).class_
        (r.answers.filter (fun t => decide (t.type = 15)) ++ r.authorities) :=
  ⟨by decide, _, rfl, by decide, by decide,
   (glue_records_order mx_chain_zone 4 (request_of 0 [question "n" 15]) (by decide)
     (by decide)).2.1 (question "n" 15) _ rfl (by decide) rfl⟩

theorem stays_refl (b : dns_buffer) : stays b b := ⟨rfl, Or.inr rfl⟩

theorem stays_trans (a b c : dns_buffer) (h1 : stays a b) (h2 : stays b c) : stays a c := by
  obtain ⟨c1, p1⟩ := h1
  obtain ⟨c2, p2⟩ := h2
  refine ⟨c2.trans c1, ?_⟩
  rcases p2 with p2 | p2
  · left; rw [← c1]; exact p2
  · rw [p2]; exact p1

theorem stays_within (b b' : dns_buffer) (h : stays b b') (hp : b.pos ≤ b.capacity) :
    b'.capacity = b.capacity ∧ b'.pos ≤ b'.capacity := by
  obtain ⟨c1, p1⟩ := h
  refine ⟨c1, ?_⟩
  rw [c1]
  rcases p1 with p1 | p1
  · exact p1
  · rw [p1]; exact hp

theorem check_capacity_true (b : dns_buffer) (n : Nat) (h : check_capacity b n = true) :
    (b.pos + n) % 4294967296 ≤ b.capacity := by
  unfold check_capacity at h
  by_cases hc : (b.pos + n) % 4294967296 > b.capacity
  · simp [hc] at h
  · omega

theorem stays_read_u8 (b : dns_buffer) : stays b (DNS_buffer_read_u8 b).2 := by
  unfold DNS_buffer_read_u8
  by_cases h : check_capacity b 1 = true
  · rw [if_pos h]
    exact ⟨rfl, Or.inl (check_capacity_true b 1 h)⟩
  · rw [if_neg h]
    exact stays_refl b

theorem stays_read_u16 (b : dns_buffer) : stays b (DNS_buffer_read_u16 b).2 := by
  unfold DNS_buffer_read_u16
  by_cases h : check_capacity b 2 = true
  · rw [if_pos h]
    refine ⟨rfl, Or.inl ?_⟩
    have := check_capacity_true b 2 h
    dsimp only
    omega
  · rw [if_neg h]
    exact stays_refl b

theorem stays_read_u32 (b : dns_buffer) : stays b (DNS_buffer_read_u32 b).2 := by
  unfold DNS_buffer_read_u32
  by_cases h : check_capacity b 4 = true
  · rw [if_pos h]
    refine ⟨rfl, Or.inl ?_⟩
    have := check_capacity_true b 4 h
    dsimp only
    omega
  · rw [if_neg h]
    exact stays_refl b

theorem stays_read_header (b : dns_buffer) : stays b (DNS_buffer_read_DNS_header b).2 := by
  unfold DNS_buffer_read_DNS_header
  by_cases h : check_capacity b 12 = true
  · rw [if_pos h]
    exact ⟨rfl, Or.inl (check_capacity_true b 12 h)⟩
  · rw [if_neg h]
    exact stays_refl b

theorem stays_known_names_append (b : dns_buffer) (mem : List Nat) (p : Nat) :
    stays b (known_names_append b mem p) := ⟨rfl, Or.inr rfl⟩

theorem stays_read_label : ∀ (n : Nat) (b : dns_buffer), stays b (read_label n b).2 := by
  intro n
  induction n with
  | zero => intro b; exact stays_refl b
  | succ n ih =>
    intro b
    unfold read_label
    have h1 := stays_read_u8 b
    rcases h8 : DNS_buffer_read_u8 b with ⟨_ | c, b1⟩
    · rw [h8] at h1
      exact h1
    · rw [h8] at h1
      dsimp only at h1 ⊢
      have h2 := ih b1
      rcases hl : read_label n b1 with ⟨_ | cs, b2⟩
      · rw [hl] at h2
        exact stays_trans _ _ _ h1 h2
      · rw [hl] at h2
        exact stays_trans _ _ _ h1 h2

theorem stays_read_name_loop : ∀ (fuel : Nat) (b : dns_buffer) (acc : List Nat),
    stays b (read_name_loop fuel b acc).2 := by
  intro fuel
  induction fuel with
  | zero => intro b acc; exact stays_refl b
  | succ fuel ih =>
    intro b acc
    unfold read_name_loop
    have h1 := stays_read_u8 b
    rcases h8 : DNS_buffer_read_u8 b with ⟨_ | tag, b1⟩
    · rw [h8] at h1
      exact h1
    · rw [h8] at h1
      dsimp only at h1 ⊢
      by_cases hl : tag >>> 6 ≠ 3 ∧ tag ≠ 0
      · rw [if_pos hl]
        by_cases hc : check_capacity b1 tag = true
        · rw [if_pos hc]
          have h2 := stays_read_label tag (known_names_append b1
            (b1.ptr.drop ((b1.pos + 4294967295) % 4294967296))
            ((b1.pos + 4294967295) % 4294967296))
          rcases hr : read_label tag (known_names_append b1
            (b1.ptr.drop ((b1.pos + 4294967295) % 4294967296))
            ((b1.pos + 4294967295) % 4294967296)) with ⟨_ | cs, b3⟩
          · rw [hr] at h2
            exact stays_trans _ _ _ h1 (stays_trans _ _ _ (stays_known_names_append _ _ _) h2)
          · rw [hr] at h2
            dsimp only at h2 ⊢
            exact stays_trans _ _ _ h1 (stays_trans _ _ _
              (stays_trans _ _ _ (stays_known_names_append _ _ _) h2) (ih _ _))
        · rw [if_neg hc]
          exact h1
      · rw [if_neg hl]
        by_cases hp : tag >>> 6 = 3
        · rw [if_pos hp]
          have h2 := stays_read_u8 b1
          rcases h9 : DNS_buffer_read_u8 b1 with ⟨_ | ptr8, b2⟩
          · rw [h9] at h2
            exact stays_trans _ _ _ h1 h2
          · rw [h9] at h2
            dsimp only at h2 ⊢
            rcases known_names_find_name b2.known_names
              ((((tag &&& 0x3F) <<< 4) ||| ptr8) % 65536) with _ | name1
            · exact stays_trans _ _ _ h1 h2
            · exact stays_trans _ _ _ h1 h2
        · rw [if_neg hp]
          exact h1

theorem stays_read_name (b : dns_buffer) : stays b (DNS_buffer_read_DNS_name b).2 := by
  unfold DNS_buffer_read_DNS_name
  have h := stays_read_name_loop (b.capacity + 1) b []
  rcases hr : read_name_loop (b.capacity + 1) b [] with ⟨_ | acc, b1⟩
  · rw [hr] at h; exact h
  · rw [hr] at h; exact h

theorem stays_bindr {α β : Type} (f : dns_buffer → Option α × dns_buffer)
    (g : α → dns_buffer → Option β × dns_buffer) (hf : ∀ b, stays b (f b).2)
    (hg : ∀ x b, stays b (g x b).2) : ∀ b, stays b (bindr f g b).2 := by
  intro b
  unfold bindr
  have h1 := hf b
  rcases hx : f b with ⟨_ | x, b1⟩
  · rw [hx] at h1
    exact h1
  · rw [hx] at h1
    exact stays_trans _ _ _ h1 (hg x b1)

theorem stays_read_query (b : dns_buffer) : stays b (DNS_buffer_read_query b).2 := by
  have e : DNS_buffer_read_query = bindr DNS_buffer_read_DNS_name (fun name =>
      bindr DNS_buffer_read_u16 (fun type => bindr DNS_buffer_read_u16 (fun class_ =>
        fun b3 => (some { name := name, type := type, class_ := class_ }, b3)))) := by
    funext b0
    unfold DNS_buffer_read_query bindr
    rcases DNS_buffer_read_DNS_name b0 with ⟨_ | name, b1⟩
    · rfl
    · dsimp only
      rcases DNS_buffer_read_u16 b1 with ⟨_ | type, b2⟩
      · rfl
      · dsimp only
        rcases DNS_buffer_read_u16 b2 with ⟨_ | class_, b3⟩ <;> rfl
  rw [e]
  exact stays_bindr _ _ stays_read_name (fun name => stays_bindr _ _ stays_read_u16
    (fun type => stays_bindr _ _ stays_read_u16 (fun class_ b3 => stays_refl b3))) b

theorem stays_read_RR_data (b : dns_buffer) (type length : Nat)
    (hc : check_capacity b length = true) : stays b (read_RR_data b type length).2 := by
  unfold read_RR_data
  by_cases h1 : type = 1
  · rw [if_pos h1]
    by_cases h4 : length ≠ 4
    · rw [if_pos h4]
      exact ⟨rfl, Or.inl (check_capacity_true b length hc)⟩
    · rw [if_neg h4]
      have h2 := stays_read_u32 b
      rcases hr : DNS_buffer_read_u32 b with ⟨_ | iip, b1⟩
      · rw [hr] at h2; exact h2
      · rw [hr] at h2; exact h2
  · rw [if_neg h1]
    by_cases h15 : type = 15
    · rw [if_pos h15]
      have h2 := stays_read_u16 b
      rcases hr : DNS_buffer_read_u16 b with ⟨_ | pref, b1⟩
      · rw [hr] at h2; exact h2
      · rw [hr] at h2
        dsimp only at h2 ⊢
        have h3 := stays_read_name b1
        rcases hn : DNS_buffer_read_DNS_name b1 with ⟨_ | data, b2⟩
        · rw [hn] at h3; exact stays_trans _ _ _ h2 h3
        · rw [hn] at h3; exact stays_trans _ _ _ h2 h3
    · rw [if_neg h15]
      exact stays_read_name b

theorem stays_read_RR_rest (name : List Nat) (type class_ ttl length : Nat) (b : dns_buffer) :
    stays b (read_RR_rest name type class_ ttl length b).2 := by
  unfold read_RR_rest
  by_cases hc : check_capacity b length = true
  · simp only [hc, Bool.not_true, Bool.false_eq_true, if_false]
    have h2 := stays_read_RR_data b type length hc
    rcases hr : read_RR_data b type length with ⟨_ | data, b6⟩
    · rw [hr] at h2; exact h2
    · rw [hr] at h2
      dsimp only at h2 ⊢
      by_cases hne : (b6.pos + 4294967296 - b.pos) % 4294967296 ≠ length
      · rw [if_pos hne]
        exact ⟨h2.1, Or.inl (check_capacity_true b length hc)⟩
      · rw [if_neg hne]
        exact h2
  · have hc2 : check_capacity b length = false := by simpa using hc
    simp only [hc2, Bool.not_false, if_true]
    exact stays_refl b

theorem stays_read_RR (b : dns_buffer) : stays b (DNS_buffer_read_RR b).2 := by
  rw [read_RR_eq_bindr]
  exact stays_bindr _ _ stays_read_name (fun name => stays_bindr _ _ stays_read_u16
    (fun type => stays_bindr _ _ stays_read_u16 (fun class_ => stays_bindr _ _ stays_read_u32
      (fun ttl => stays_bindr _ _ stays_read_u16
        (fun length => stays_read_RR_rest name type class_ ttl length))))) b

theorem stays_read_queries : ∀ (n : Nat) (b : dns_buffer) (v : dns_packet_t),
    stays b (read_queries n b v).2 := by
  intro n
  induction n with
  | zero => intro b v; exact stays_refl b
  | succ n ih =>
    intro b v
    unfold read_queries
    have h1 := stays_read_query b
    rcases hq : DNS_buffer_read_query b with ⟨_ | q, b1⟩
    · rw [hq] at h1; exact h1
    · rw [hq] at h1
      exact stays_trans _ _ _ h1 (ih _ _)

theorem stays_read_RRs (append : dns_packet_t → dns_rr_t → Bool → dns_packet_t) :
    ∀ (n : Nat) (b : dns_buffer) (v : dns_packet_t), stays b (read_RRs append n b v).2 := by
  intro n
  induction n with
  | zero => intro b v; exact stays_refl b
  | succ n ih =>
    intro b v
    unfold read_RRs
    have h1 := stays_read_RR b
    rcases hq : DNS_buffer_read_RR b with ⟨_ | q, b1⟩
    · rw [hq] at h1; exact h1
    · rw [hq] at h1
      exact stays_trans _ _ _ h1 (ih _ _)

theorem stays_read_packet (b : dns_buffer) (v : dns_packet_t) :
    stays b (DNS_buffer_read_packet b v).2 := by
  unfold DNS_buffer_read_packet
  have h1 := stays_read_header b
  rcases hh : DNS_buffer_read_DNS_header b with ⟨_ | h, b1⟩
  · rw [hh] at h1; exact h1
  · rw [hh] at h1
    dsimp only at h1 ⊢
    have h2 := stays_read_queries h.question_count b1 { v with header := h }
    rcases hq : read_queries h.question_count b1 { v with header := h } with ⟨_ | v2, b2⟩
    · rw [hq] at h2; exact stays_trans _ _ _ h1 h2
    · rw [hq] at h2
      dsimp only at h2 ⊢
      have h3 := stays_read_RRs DNS_packet_append_answer v2.header.answer_count b2 v2
      rcases ha : read_RRs DNS_packet_append_answer v2.header.answer_count b2 v2
        with ⟨_ | v3, b3⟩
      · rw [ha] at h3; exact stays_trans _ _ _ h1 (stays_trans _ _ _ h2 h3)
      · rw [ha] at h3
        dsimp only at h3 ⊢
        have h4 := stays_read_RRs DNS_packet_append_authority v3.header.authority_count b3 v3
        rcases hu : read_RRs DNS_packet_append_authority v3.header.authority_count b3 v3
          with ⟨_ | v4, b4⟩
        · rw [hu] at h4
          exact stays_trans _ _ _ h1 (stays_trans _ _ _ h2 (stays_trans _ _ _ h3 h4))
        · rw [hu] at h4
          dsimp only at h4 ⊢
          exact stays_trans _ _ _ h1 (stays_trans _ _ _ h2 (stays_trans _ _ _ h3
            (stays_trans _ _ _ h4 (stays_read_RRs _ _ _ _))))

theorem stays_write_u8 (b : dns_buffer) (v : Nat) :
    stays b (DNS_buffer_write_u8 b v).2 ∧
    ((DNS_buffer_write_u8 b v).1 = true → (DNS_buffer_write_u8 b v).2.pos ≤ b.capacity) := by
  unfold DNS_buffer_write_u8
  by_cases h : check_capacity b 1 = true
  · rw [if_pos h]
    exact ⟨⟨rfl, Or.inl (check_capacity_true b 1 h)⟩, fun _ => check_capacity_true b 1 h⟩
  · rw [if_neg h]
    exact ⟨stays_refl b, fun hx => by simp at hx⟩

theorem stays_write_u16 (b : dns_buffer) (v : Nat) :
    stays b (DNS_buffer_write_u16 b v).2 ∧
    ((DNS_buffer_write_u16 b v).1 = true → (DNS_buffer_write_u16 b v).2.pos ≤ b.capacity) := by
  unfold DNS_buffer_write_u16
  by_cases h : check_capacity b 2 = true
  · rw [if_pos h]
    have := check_capacity_true b 2 h
    have hp : ((b.pos + 1) % 4294967296 + 1) % 4294967296 ≤ b.capacity := by omega
    exact ⟨⟨rfl, Or.inl hp⟩, fun _ => hp⟩
  · rw [if_neg h]
    exact ⟨stays_refl b, fun hx => by simp at hx⟩

theorem stays_write_u32 (b : dns_buffer) (v : Nat) :
    stays b (DNS_buffer_write_u32 b v).2 ∧
    ((DNS_buffer_write_u32 b v).1 = true → (DNS_buffer_write_u32 b v).2.pos ≤ b.capacity) := by
  unfold DNS_buffer_write_u32
  by_cases h : check_capacity b 4 = true
  · rw [if_pos h]
    have := check_capacity_true b 4 h
    have hp : ((((b.pos + 1) % 4294967296 + 1) % 4294967296 + 1) % 4294967296 + 1)
        % 4294967296 ≤ b.capacity := by omega
    exact ⟨⟨rfl, Or.inl hp⟩, fun _ => hp⟩
  · rw [if_neg h]
    exact ⟨stays_refl b, fun hx => by simp at hx⟩

theorem stays_write_header (b : dns_buffer) (v : dns_header_t) :
    stays b (DNS_buffer_write_DNS_header b v).2 := by
  unfold DNS_buffer_write_DNS_header
  by_cases h : check_capacity b 12 = true
  · simp only [if_pos h]
    exact ⟨rfl, Or.inl (check_capacity_true b 12 h)⟩
  · simp only [if_neg h]
    exact stays_refl b

theorem stays_write_label : ∀ (n : Nat) (b c : dns_buffer),
    stays b (write_label n b c).2.1 := by
  intro n
  induction n with
  | zero => intro b c; exact stays_refl b
  | succ n ih =>
    intro b c
    unfold write_label
    have h1 := (stays_write_u8 b (peek c.ptr c.pos)).1
    rcases hw : DNS_buffer_write_u8 b (peek c.ptr c.pos) with ⟨_ | _, b1⟩
    · rw [hw] at h1
      exact h1
    · rw [hw] at h1
      exact stays_trans _ _ _ h1 (ih _ _)

theorem stays_write_name_loop : ∀ (fuel : Nat) (b c : dns_buffer),
    stays b (write_name_loop fuel b c).2 := by
  intro fuel
  induction fuel with
  | zero => intro b c; exact stays_refl b
  | succ fuel ih =>
    intro b c
    unfold write_name_loop
    dsimp only
    by_cases hf : known_names_find_pos b.known_names (c.ptr.drop c.pos) ≠ 0xFFFF
    · rw [if_pos hf]
      exact (stays_write_u16 b _).1
    · rw [if_neg hf]
      rcases hr : DNS_buffer_read_u8 c with ⟨_ | tag, c1⟩
      · exact stays_refl b
      · dsimp only
        have hb1 : stays b (if tag ≠ 0 then
            known_names_append b (c1.ptr.drop ((c1.pos + 4294967295) % 4294967296)) b.pos
            else b) := by
          by_cases ht : tag ≠ 0
          · rw [if_pos ht]; exact stays_known_names_append _ _ _
          · rw [if_neg ht]; exact stays_refl b
        have h2 := (stays_write_u8 (if tag ≠ 0 then
            known_names_append b (c1.ptr.drop ((c1.pos + 4294967295) % 4294967296)) b.pos
            else b) tag).1
        rcases hw : DNS_buffer_write_u8 (if tag ≠ 0 then
            known_names_append b (c1.ptr.drop ((c1.pos + 4294967295) % 4294967296)) b.pos
            else b) tag with ⟨_ | _, b2⟩
        · rw [hw] at h2
          exact stays_trans _ _ _ hb1 h2
        · rw [hw] at h2
          dsimp only at h2 ⊢
          have h3 := stays_write_label tag b2 c1
          rcases hl : write_label tag b2 c1 with ⟨_ | _, b3, c2⟩
          · rw [hl] at h3
            exact stays_trans _ _ _ hb1 (stays_trans _ _ _ h2 h3)
          · rw [hl] at h3
            dsimp only at h3 ⊢
            by_cases hg : tag > 0
            · rw [if_pos hg]
              exact stays_trans _ _ _ hb1 (stays_trans _ _ _ h2
                (stays_trans _ _ _ h3 (ih _ _)))
            · rw [if_neg hg]
              exact stays_trans _ _ _ hb1 (stays_trans _ _ _ h2 h3)

theorem stays_write_name (b : dns_buffer) (name : List Nat) :
    stays b (DNS_buffer_write_DNS_name b name).2 := by
  unfold DNS_buffer_write_DNS_name
  dsimp only
  split
  · exact stays_refl b
  · exact stays_write_name_loop _ _ _

theorem stays_write_query (b : dns_buffer) (q : dns_query_t) :
    stays b (DNS_buffer_write_query b q).2 := by
  unfold DNS_buffer_write_query
  have h1 := stays_write_name b q.name
  rcases hn : DNS_buffer_write_DNS_name b q.name with ⟨_ | _, b1⟩
  · rw [hn] at h1; exact h1
  · rw [hn] at h1
    dsimp only at h1 ⊢
    have h2 := (stays_write_u16 b1 q.type).1
    rcases ht : DNS_buffer_write_u16 b1 q.type with ⟨_ | _, b2⟩
    · rw [ht] at h2; exact stays_trans _ _ _ h1 h2
    · rw [ht] at h2
      exact stays_trans _ _ _ h1 (stays_trans _ _ _ h2 (stays_write_u16 b2 q.class_).1)

theorem stays_write_RR_data (b : dns_buffer) (type : Nat) (data : List Nat) :
    stays b (write_RR_data b type data).2 := by
  unfold write_RR_data
  by_cases h1 : type % 65536 = 1
  · rw [if_pos h1]
    exact (stays_write_u32 b _).1
  · rw [if_neg h1]
    by_cases h15 : type % 65536 = 15
    · rw [if_pos h15]
      rcases sscanf_hd_s data with _ | ⟨pref, name⟩
      · dsimp only
        have h2 := (stays_write_u16 b 0).1
        rcases hw : DNS_buffer_write_u16 b 0 with ⟨_ | _, b1⟩
        · rw [hw] at h2; exact h2
        · rw [hw] at h2
          exact stays_trans _ _ _ h2 (stays_write_name b1 data)
      · dsimp only
        have h2 := (stays_write_u16 b pref).1
        rcases hw : DNS_buffer_write_u16 b pref with ⟨_ | _, b1⟩
        · rw [hw] at h2; exact h2
        · rw [hw] at h2
          exact stays_trans _ _ _ h2 (stays_write_name b1 name)
    · rw [if_neg h15]
      exact stays_write_name b data

theorem stays_near_of_stays (a b : dns_buffer) (h : stays a b) : stays_near a b := by
  obtain ⟨c, p⟩ := h
  refine ⟨c, ?_⟩
  rcases p with p | p
  · left; omega
  · right; exact p

theorem stays_near_trans (a b c : dns_buffer) (h1 : stays_near a b) (h2 : stays_near b c) :
    stays_near a c := by
  obtain ⟨c1, p1⟩ := h1
  obtain ⟨c2, p2⟩ := h2
  refine ⟨c2.trans c1, ?_⟩
  rcases p2 with p2 | p2
  · left; rw [← c1]; exact p2
  · rw [p2]; exact p1

theorem stays_near_write_RR (b : dns_buffer) (r : dns_rr_t) :
    stays_near b (DNS_buffer_write_RR b r).2 := by
  unfold DNS_buffer_write_RR
  have h1 := stays_write_name b r.name
  rcases hn : DNS_buffer_write_DNS_name b r.name with ⟨_ | _, b1⟩
  · rw [hn] at h1; exact stays_near_of_stays _ _ h1
  · rw [hn] at h1
    dsimp only at h1 ⊢
    have h2 := (stays_write_u16 b1 r.type).1
    rcases ht : DNS_buffer_write_u16 b1 r.type with ⟨_ | _, b2⟩
    · rw [ht] at h2; exact stays_near_of_stays _ _ (stays_trans _ _ _ h1 h2)
    · rw [ht] at h2
      dsimp only at h2 ⊢
      have h3 := (stays_write_u16 b2 r.class_).1
      rcases hc : DNS_buffer_write_u16 b2 r.class_ with ⟨_ | _, b3⟩
      · rw [hc] at h3
        exact stays_near_of_stays _ _ (stays_trans _ _ _ h1 (stays_trans _ _ _ h2 h3))
      · rw [hc] at h3
        dsimp only at h3 ⊢
        have h4 := stays_write_u32 b3 r.ttl
        rcases hl : DNS_buffer_write_u32 b3 r.ttl with ⟨_ | _, b4⟩
        · rw [hl] at h4
          exact stays_near_of_stays _ _ (stays_trans _ _ _ h1 (stays_trans _ _ _ h2
            (stays_trans _ _ _ h3 h4.1)))
        · rw [hl] at h4
          dsimp only at h4 ⊢
          have hcap4 : b4.capacity = b.capacity :=
            (stays_trans _ _ _ h1 (stays_trans _ _ _ h2 (stays_trans _ _ _ h3 h4.1))).1
          have hcap3 : b3.capacity = b.capacity :=
            (stays_trans _ _ _ h1 (stays_trans _ _ _ h2 h3)).1
          have hp4 : b4.pos ≤ b.capacity := by
            have := h4.2 rfl
            omega
          have h5 := stays_write_RR_data { b4 with pos := (b4.pos + 2) % 4294967296 }
            r.type r.data
          rcases hd : write_RR_data { b4 with pos := (b4.pos + 2) % 4294967296 }
            r.type r.data with ⟨_ | _, b6⟩
          · rw [hd] at h5
            obtain ⟨c5, p5⟩ := h5
            dsimp only at c5 p5 ⊢
            refine ⟨c5.trans hcap4, Or.inl ?_⟩
            rcases p5 with p | p
            · omega
            · rw [p]; omega
          · rw [hd] at h5
            obtain ⟨c5, p5⟩ := h5
            dsimp only at c5 p5 ⊢
            refine ⟨?_, Or.inl ?_⟩
            · have := (stays_write_u16 { b6 with pos := b4.pos }
                ((b6.pos + 4294967296 + 4294967296 - b4.pos - 2) % 65536)).1.1
              dsimp only at this
              rw [this]
              exact c5.trans hcap4
            · show b6.pos ≤ b.capacity + 2
              rcases p5 with p | p
              · omega
              · rw [p]; omega

theorem stays_near_write_RRs : ∀ (rs : List dns_rr_t) (b : dns_buffer),
    stays_near b (write_RRs b rs).2 := by
  intro rs
  induction rs with
  | nil => intro b; exact stays_near_of_stays _ _ (stays_refl b)
  | cons r rest ih =>
    intro b
    unfold write_RRs
    have h1 := stays_near_write_RR b r
    rcases hw : DNS_buffer_write_RR b r with ⟨_ | _, b1⟩
    · rw [hw] at h1; exact h1
    · rw [hw] at h1
      exact stays_near_trans _ _ _ h1 (ih _)

theorem stays_write_queries : ∀ (qs : List dns_query_t) (b : dns_buffer),
    stays b (write_queries b qs).2 := by
  intro qs
  induction qs with
  | nil => intro b; exact stays_refl b
  | cons q rest ih =>
    intro b
    unfold write_queries
    have h1 := stays_write_query b q
    rcases hw : DNS_buffer_write_query b q with ⟨_ | _, b1⟩
    · rw [hw] at h1; exact h1
    · rw [hw] at h1
      exact stays_trans _ _ _ h1 (ih _)

theorem stays_near_write_packet (b : dns_buffer) (v : dns_packet_t) :
    stays_near b (DNS_buffer_write_packet b v).2 := by
  unfold DNS_buffer_write_packet
  have h1 := stays_near_of_stays _ _ (stays_write_header b v.header)
  rcases hh : DNS_buffer_write_DNS_header b v.header with ⟨_ | _, b1⟩
  · rw [hh] at h1; exact h1
  · rw [hh] at h1
    dsimp only at h1 ⊢
    have h2 := stays_near_of_stays _ _ (stays_write_queries v.queries b1)
    rcases hq : write_queries b1 v.queries with ⟨_ | _, b2⟩
    · rw [hq] at h2; exact stays_near_trans _ _ _ h1 h2
    · rw [hq] at h2
      dsimp only at h2 ⊢
      have h3 := stays_near_write_RRs v.answers b2
      rcases ha : write_RRs b2 v.answers with ⟨_ | _, b3⟩
      · rw [ha] at h3; exact stays_near_trans _ _ _ h1 (stays_near_trans _ _ _ h2 h3)
      · rw [ha] at h3
        dsimp only at h3 ⊢
        have h4 := stays_near_write_RRs v.authorities b3
        rcases hu : write_RRs b3 v.authorities with ⟨_ | _, b4⟩
        · rw [hu] at h4
          exact stays_near_trans _ _ _ h1 (stays_near_trans _ _ _ h2
            (stays_near_trans _ _ _ h3 h4))
        · rw [hu] at h4
          dsimp only at h4 ⊢
          exact stays_near_trans _ _ _ h1 (stays_near_trans _ _ _ h2
            (stays_near_trans _ _ _ h3 (stays_near_trans _ _ _ h4
              (stays_near_write_RRs _ _))))

theorem within_of_stays (b b' : dns_buffer) (hp : b.pos ≤ b.capacity) (h : stays b b') :
    within b b' := stays_within b b' h hp

/-- C36: the cursor can pass the capacity. `DNS_buffer_write_RR` skips the two octets of the
length field without `check_capacity`: in a buffer of 11 octets the owner name `a`, type,
class and TTL of the record `a A 1.2.3.4` fill the buffer, the skip moves the cursor to 13,
the write of the address fails, and the call returns `false` with the cursor 13 > 11.  For
every other codec operation (every read, and the writes of `u8`, `u16`, `u32`, header, name
and question), succeeding or failing, a cursor within the capacity stays within the capacity;
after `DNS_buffer_write_RR` and `DNS_buffer_write_packet` it is at most two octets past the
capacity, and within the capacity when the write of a well-formed record succeeds. -/
theorem cursor_past_capacity :
    (tight_buffer.pos ≤ tight_buffer.capacity ∧
      (DNS_buffer_write_RR tight_buffer short_a).1 = false ∧
      (DNS_buffer_write_RR tight_buffer short_a).2.capacity = 11 ∧
      (DNS_buffer_write_RR tight_buffer short_a).2.pos = 13) ∧
    (∀ b : dns_buffer, b.pos ≤ b.capacity →
      within b (DNS_buffer_read_u8 b).2 ∧ within b (DNS_buffer_read_u16 b).2 ∧
      within b (DNS_buffer_read_u32 b).2 ∧ within b (DNS_buffer_read_DNS_header b).2 ∧
      within b (DNS_buffer_read_DNS_name b).2 ∧ within b (DNS_buffer_read_query b).2 ∧
      within b (DNS_buffer_read_RR b).2 ∧
      (∀ v, within b (DNS_buffer_read_packet b v).2) ∧
      (∀ v, within b (DNS_buffer_write_u8 b v).2) ∧
      (∀ v, within b (DNS_buffer_write_u16 b v).2) ∧
      (∀ v, within b (DNS_buffer_write_u32 b v).2) ∧
      (∀ v, within b (DNS_buffer_write_DNS_header b v).2) ∧
      (∀ name, within b (DNS_buffer_write_DNS_name b name).2) ∧
      (∀ q, within b (DNS_buffer_write_query b q).2) ∧
      (∀ r, (DNS_buffer_write_RR b r).2.capacity = b.capacity ∧
        (DNS_buffer_write_RR b r).2.pos ≤ b.capacity + 2) ∧
      (∀ v, (DNS_buffer_write_packet b v).2.capacity = b.capacity ∧
        (DNS_buffer_write_packet b v).2.pos ≤ b.capacity + 2) ∧
      (∀ r, rr_ok r → buffer_ok b → (DNS_buffer_write_RR b r).1 = true →
        within b (DNS_buffer_write_RR b r).2)) := by
  refine ⟨by decide, ?_⟩
  intro b hp
  have near : ∀ b', stays_near b b' → b'.capacity = b.capacity ∧ b'.pos ≤ b.capacity + 2 := by
    intro b' h
    refine ⟨h.1, ?_⟩
    rcases h.2 with p | p
    · exact p
    · rw [p]; omega
  refine ⟨within_of_stays _ _ hp (stays_read_u8 b), within_of_stays _ _ hp (stays_read_u16 b),
    within_of_stays _ _ hp (stays_read_u32 b), within_of_stays _ _ hp (stays_read_header b),
    within_of_stays _ _ hp (stays_read_name b), within_of_stays _ _ hp (stays_read_query b),
    within_of_stays _ _ hp (stays_read_RR b),
    fun v => within_of_stays _ _ hp (stays_read_packet b v),
    fun v => within_of_stays _ _ hp (stays_write_u8 b v).1,
    fun v => within_of_stays _ _ hp (stays_write_u16 b v).1,
    fun v => within_of_stays _ _ hp (stays_write_u32 b v).1,
    fun v => within_of_stays _ _ hp (stays_write_header b v),
    fun name => within_of_stays _ _ hp (stays_write_name b name),
    fun q => within_of_stays _ _ hp (stays_write_query b q),
    fun r => near _ (stays_near_write_RR b r),
    fun v => near _ (stays_near_write_packet b v), ?_⟩
  intro r hr hb hs
  rcases hw : DNS_buffer_write_RR b r with ⟨ok, w⟩
  rw [hw] at hs
  dsimp only at hs
  subst hs
  obtain ⟨e, hcap⟩ := write_RR_true b r w hr hb hw
  have hc : w.capacity = b.capacity := by rw [e]; rfl
  have hpos : w.pos = b.pos + (enc_rr b.known_names b.pos r).1.length := by rw [e]; rfl
  exact ⟨hc, by rw [hc, hpos]; exact hcap⟩

/-- The general part of the cursor theorem at the record `a A 1.2.3.4` and a buffer of 64
octets: the write succeeds and ends at 17, within the capacity. -/
theorem cursor_past_capacity_witness :
    (DNS_buffer_write_RR (DNS_buffer_create 64) short_a).2.pos = 17 ∧
    within (DNS_buffer_create 64) (DNS_buffer_write_RR (DNS_buffer_create 64) short_a).2 :=
  ⟨by decide,
   (cursor_past_capacity.2 (DNS_buffer_create 64) (by decide)).2.2.2.2.2.2.2.2.2.2.2.2.2.2.2.2
     short_a (by decide) (by unfold buffer_ok names_nonempty; decide) (by decide)⟩

theorem read_u16_lt (b : dns_buffer) (v : Nat) (b1 : dns_buffer)
    (h : DNS_buffer_read_u16 b = (some v, b1)) : v < 65536 := by
  unfold DNS_buffer_read_u16 at h
  by_cases hc : check_capacity b 2 = true
  · rw [if_pos hc] at h
    simp only [Prod.mk.injEq, Option.some.injEq] at h
    rw [← h.1]
    exact Nat.mod_lt _ (by norm_num)
  · rw [if_neg hc] at h
    simp at h

/-- C32: RR framing on decode. When `DNS_buffer_read_RR` succeeds on a buffer whose cursor
is within its capacity (the capacity being below 2^32 - 65536), the final position is the
position right after the RDLENGTH field plus RDLENGTH, whatever number of octets the reading
of the RDATA has taken, and it is within the capacity. -/
theorem rr_framing (b : dns_buffer) (rr : dns_rr_t) (b' : dns_buffer)
    (hp : b.pos ≤ b.capacity) (hlim : b.capacity + 65536 ≤ 4294967296)
    (h : DNS_buffer_read_RR b = (some rr, b')) :
    ∃ name b1 type b2 class_ b3 ttl b4 b5,
      DNS_buffer_read_DNS_name b = (some name, b1) ∧
      DNS_buffer_read_u16 b1 = (some type, b2) ∧
      DNS_buffer_read_u16 b2 = (some class_, b3) ∧
      DNS_buffer_read_u32 b3 = (some ttl, b4) ∧
      DNS_buffer_read_u16 b4 = (some rr.length, b5) ∧
      b'.pos = b5.pos + rr.length ∧ b'.pos ≤ b'.capacity ∧ b'.capacity = b.capacity := by
  unfold DNS_buffer_read_RR at h
  have s1 := stays_read_name b
  rcases h1 : DNS_buffer_read_DNS_name b with ⟨_ | name, b1⟩
  · rw [h1] at h; simp at h
  rw [h1] at h s1
  dsimp only at h s1
  have s2 := stays_read_u16 b1
  rcases h2 : DNS_buffer_read_u16 b1 with ⟨_ | type, b2⟩
  · rw [h2] at h; simp at h
  rw [h2] at h s2
  dsimp only at h s2
  have s3 := stays_read_u16 b2
  rcases h3 : DNS_buffer_read_u16 b2 with ⟨_ | class_, b3⟩
  · rw [h3] at h; simp at h
  rw [h3] at h s3
  dsimp only at h s3
  have s4 := stays_read_u32 b3
  rcases h4 : DNS_buffer_read_u32 b3 with ⟨_ | ttl, b4⟩
  · rw [h4] at h; simp at h
  rw [h4] at h s4
  dsimp only at h s4
  have s5 := stays_read_u16 b4
  rcases h5 : DNS_buffer_read_u16 b4 with ⟨_ | length, b5⟩
  · rw [h5] at h; simp at h
  rw [h5] at h s5
  dsimp only at h s5
  have hlen := read_u16_lt b4 length b5 h5
  obtain ⟨c5, p5⟩ := stays_within b b5
    (stays_trans _ _ _ s1 (stays_trans _ _ _ s2 (stays_trans _ _ _ s3
      (stays_trans _ _ _ s4 s5)))) hp
  by_cases hc : check_capacity b5 length = true
  · simp only [hc, Bool.not_true, Bool.false_eq_true, if_false] at h
    have hfit := check_capacity_true b5 length hc
    have s6 := stays_read_RR_data b5 type length hc
    rcases h6 : read_RR_data b5 type length with ⟨_ | data, b6⟩
    · rw [h6] at h; simp at h
    rw [h6] at h s6
    simp only [Prod.mk.injEq, Option.some.injEq] at h
    obtain ⟨hrr, hb'⟩ := h
    obtain ⟨c6, p6⟩ := stays_within b5 b6 s6 p5
    have hl : rr.length = length := by rw [← hrr]
    refine ⟨name, b1, type, b2, class_, b3, ttl, b4, b5, rfl, h2, h3, h4, by rw [hl, h5],
      ?_, ?_, ?_⟩
    · rw [hl, ← hb']
      by_cases hne : (b6.pos + 4294967296 - b5.pos) % 4294967296 ≠ length
      · rw [if_pos hne]
        show (b5.pos + length) % 4294967296 = b5.pos + length
        omega
      · rw [if_neg hne]
        omega
    · rw [← hb']
      by_cases hne : (b6.pos + 4294967296 - b5.pos) % 4294967296 ≠ length
      · rw [if_pos hne]
        show (b5.pos + length) % 4294967296 ≤ b6.capacity
        omega
      · rw [if_neg hne]
        exact p6
    · rw [← hb']
      by_cases hne : (b6.pos + 4294967296 - b5.pos) % 4294967296 ≠ length
      · rw [if_pos hne]
        show b6.capacity = b.capacity
        omega
      · rw [if_neg hne]
        omega
  · have hc2 : check_capacity b5 length = false := by simpa using hc
    simp [hc2] at h

/-- The framing theorem at a record `a NS b` whose RDLENGTH is 7 while the name `b` takes 3
octets: the position after the RDLENGTH field is 13 and the final position 20.  (With an
RDLENGTH of 1 the final position is 14, inside the name that was read.) -/
theorem rr_framing_witness :
    (DNS_buffer_read_RR (DNS_buffer_from_ptr short_record 20)).2.pos = 14 ∧
    ∃ rr b', DNS_buffer_read_RR (DNS_buffer_from_ptr slack_record 20) = (some rr, b') ∧
      rr.length = 7 ∧ rr.data = [98] ∧ b'.pos = 20 ∧
      ∃ name b1 type b2 class_ b3 ttl b4 b5,
        DNS_buffer_read_DNS_name (DNS_buffer_from_ptr slack_record 20) = (some name, b1) ∧
        DNS_buffer_read_u16 b1 = (some type, b2) ∧
        DNS_buffer_read_u16 b2 = (some class_, b3) ∧
        DNS_buffer_read_u32 b3 = (some ttl, b4) ∧
        DNS_buffer_read_u16 b4 = (some rr.length, b5) ∧
        b'.pos = b5.pos + rr.length ∧ b'.pos ≤ b'.capacity ∧
        b'.capacity = (DNS_buffer_from_ptr slack_record 20).capacity :=
  ⟨by decide, _, _, rfl, by decide, by decide, by decide,
   rr_framing (DNS_buffer_from_ptr slack_record 20) _ _ (by decide) (by decide) rfl⟩

theorem stored_token_length (tok : List Nat) :
    (stored_token tok).length = tok.length % 256 := by
  unfold stored_token
  rw [List.length_take]
  have := Nat.mod_le tok.length 256
  omega

theorem convert_name_general (toks : List (List Nat))
    (hoct : ∀ t ∈ toks, ∀ x ∈ t, x < 256) :
    ∀ (c : dns_buffer), c.pos + (wire_labels (toks.map stored_token)).length ≤ c.capacity →
      c.capacity ≤ c.ptr.length → c.capacity < 4294967296 →
      convert_name toks c = put c (wire_labels (toks.map stored_token)) := by
  induction toks with
  | nil =>
    intro c _ hreg _
    simp only [convert_name, List.map_nil, wire_labels]
    rw [put_nil c (by simp at *; omega)]
  | cons l ls ih =>
    intro c hc hreg hlim
    have hl := stored_token_length l
    have ho : ∀ x ∈ stored_token l, x < 256 :=
      fun x hx => hoct l (by simp) x (List.mem_of_mem_take hx)
    simp only [List.map_cons, wire_labels, List.length_cons, List.length_append] at hc
    simp only [convert_name]
    rw [write_u8_eq c _ (by omega) hreg hlim, Nat.mod_mod]
    have hreg1 : (put c [l.length % 256]).capacity ≤ (put c [l.length % 256]).ptr.length := by
      rw [put_length _ _ (by simp; omega)]; simpa using hreg
    have hfold := foldl_write_u8_eq (stored_token l) ho (put c [l.length % 256])
      (by simp; omega) hreg1 (by simpa using hlim)
    unfold stored_token at hfold
    rw [hfold]
    rw [put_put _ _ _ (by simp; omega)]
    have hreg2 : (put c ([l.length % 256] ++ l.take (l.length % 256))).capacity
        ≤ (put c ([l.length % 256] ++ l.take (l.length % 256))).ptr.length := by
      rw [put_length _ _ (by
        have := hl
        unfold stored_token at this
        simp only [List.length_append, List.length_singleton, this]
        omega)]
      simpa using hreg
    have hl2 : (l.take (l.length % 256)).length = l.length % 256 := hl
    rw [ih (fun t ht => hoct t (by simp [ht])) _ (by
        simp only [put_pos, put_capacity, List.length_append, List.length_singleton, hl2]
        omega) hreg2 (by simpa using hlim)]
    rw [put_put _ _ _ (by
      simp only [List.length_append, List.length_singleton, hl2]
      omega)]
    simp only [List.map_cons, wire_labels, stored_token, hl2, List.singleton_append,
      List.cons_append, List.nil_append]

theorem write_name_loop_succeeds (T : List (List Nat)) :
    ∀ (fuel : Nat) (b c : dns_buffer) (rest : List Nat),
      (∀ t ∈ T, t.length < 256 ∧ ∀ x ∈ t, x < 256) → T.length < fuel →
      c.ptr.drop c.pos = wire_labels T ++ 0 :: rest →
      c.pos + (wire_labels T).length + 1 ≤ c.capacity → c.capacity < 4294967296 →
      b.pos + (wire_labels T).length + 1 ≤ b.capacity → b.capacity ≤ b.ptr.length →
      b.capacity < 4294967296 →
      (write_name_loop fuel b c).1 = true := by
  induction T with
  | nil =>
    intro fuel b c rest _ hf hc hccap hclim hb hreg hlim
    obtain ⟨f, rfl⟩ : ∃ f, fuel = f + 1 := ⟨fuel - 1, by simp at hf; omega⟩
    simp only [wire_labels, List.length_nil, List.nil_append, Nat.add_zero] at hc hccap hb
    unfold write_name_loop
    dsimp only
    by_cases hk : known_names_find_pos b.known_names (c.ptr.drop c.pos) ≠ 0xFFFF
    · rw [if_pos hk]
    · rw [if_neg hk, read_u8_eq c (by omega) hclim, peek_of_drop c.ptr c.pos 0 rest hc]
      simp only [Nat.zero_mod, if_false, ne_eq, not_true_eq_false]
      rw [write_u8_eq b 0 (by omega) hreg hlim]
      simp only [write_label, Nat.lt_irrefl, if_false, gt_iff_lt]
  | cons l ls ih =>
    intro fuel b c rest hok hf hc hccap hclim hb hreg hlim
    obtain ⟨f, rfl⟩ : ∃ f, fuel = f + 1 := ⟨fuel - 1, by simp at hf; omega⟩
    obtain ⟨h1, h3⟩ := hok l (by simp)
    have hok' : ∀ x ∈ ls, x.length < 256 ∧ ∀ y ∈ x, y < 256 :=
      fun x hx => hok x (by simp [hx])
    have hwl : (wire_labels (l :: ls)).length = 1 + l.length + (wire_labels ls).length := by
      simp only [wire_labels, List.length_cons, List.length_append]; omega
    rw [hwl] at hccap hb
    unfold write_name_loop
    dsimp only
    by_cases hk : known_names_find_pos b.known_names (c.ptr.drop c.pos) ≠ 0xFFFF
    · rw [if_pos hk]
    · rw [if_neg hk]
      have hc' : c.ptr.drop c.pos = l.length :: (l ++ wire_labels ls ++ 0 :: rest) := by
        rw [hc]; simp [wire_labels]
      rw [read_u8_eq c (by omega) hclim, peek_of_drop c.ptr c.pos l.length _ hc',
        Nat.mod_eq_of_lt h1]
      dsimp only
      have hb1 : ∀ b1 : dns_buffer, b1.pos = b.pos → b1.capacity = b.capacity →
          b1.ptr = b.ptr →
          (match DNS_buffer_write_u8 b1 l.length with
            | (false, b2) => (false, b2)
            | (true, b2) =>
              match write_label l.length b2 (adv c 1) with
              | (false, b3, _) => (false, b3)
              | (true, b3, c2) =>
                if l.length > 0 then write_name_loop f b3 c2 else (true, b3)).1 = true := by
        intro b1 e1 e2 e3
        rw [write_u8_eq b1 l.length (by rw [e1, e2]; omega) (by rw [e2, e3]; exact hreg)
          (by rw [e2]; exact hlim), Nat.mod_eq_of_lt h1]
        dsimp only
        have hc1 : (adv c 1).ptr.drop (adv c 1).pos = l ++ (wire_labels ls ++ 0 :: rest) := by
          show c.ptr.drop (c.pos + 1) = _
          exact drop_add_of_drop c.ptr c.pos [l.length] _ (by rw [hc']; simp)
        have hpl : (put b1 [l.length]).ptr.length = b.ptr.length := by
          rw [put_length _ _ (by rw [e1, e3]; simp; omega), e3]
        rw [write_label_eq l h3 (put b1 [l.length]) (adv c 1) _ hc1
          (by simp [adv]; omega) (by simp [e1, e2]; omega)
          (by rw [hpl]; simpa [e2] using hreg) (by simpa [e2] using hlim)]
        dsimp only
        by_cases hpos : l.length > 0
        · rw [if_pos hpos]
          have hc2 : (adv (adv c 1) l.length).ptr.drop (adv (adv c 1) l.length).pos
              = wire_labels ls ++ 0 :: rest := by
            show c.ptr.drop (c.pos + 1 + l.length) = _
            exact drop_add_of_drop c.ptr (c.pos + 1) l _ hc1
          have hpl2 : (put (put b1 [l.length]) l).ptr.length = b.ptr.length := by
            rw [put_length _ _ (by rw [hpl]; simp [e1]; omega), hpl]
          exact ih f _ (adv (adv c 1) l.length) rest hok' (by simp at hf; omega) hc2
            (by simp [adv]; omega) (by simpa [adv] using hclim)
            (by simp [e1, e2]; omega) (by rw [hpl2]; simpa [e2] using hreg)
            (by simpa [e2] using hlim)
        · rw [if_neg hpos]
      by_cases h0 : l.length ≠ 0
      · rw [if_pos h0]
        exact hb1 _ rfl rfl rfl
      · rw [if_neg h0]
        exact hb1 b rfl rfl rfl

theorem mem_dotted (ls : List (List Nat)) : ∀ l ∈ ls, ∀ x ∈ l, x ∈ dotted ls := by
  induction ls with
  | nil => intro l hl; simp at hl
  | cons a rest ih =>
    intro l hl x hx
    cases rest with
    | nil =>
      simp only [List.mem_singleton] at hl
      subst hl
      rw [dotted_singleton]
      exact hx
    | cons a2 rest2 =>
      rw [dotted_cons_cons]
      rcases List.mem_cons.mp hl with rfl | hl2
      · exact List.mem_append_left _ hx
      · exact List.mem_append_right _ (List.mem_cons_of_mem _ (ih l hl2 x hx))

theorem wire_length_filter_map (p : List Nat → Bool) : ∀ (ls : List (List Nat)),
    (wire_labels ((ls.filter p).map stored_token)).length ≤ (wire_labels ls).length := by
  intro ls
  induction ls with
  | nil => simp [wire_labels]
  | cons l rest ih =>
    rw [List.filter_cons]
    by_cases hp : p l = true
    · rw [if_pos hp]
      have := stored_token_length l
      have := Nat.mod_le l.length 256
      simp only [List.map_cons, wire_labels, List.length_cons, List.length_append]
      omega
    · rw [if_neg hp]
      simp only [wire_labels, List.length_cons, List.length_append]
      omega

theorem strtok_wire_length (s : List Nat) :
    (wire_labels ((strtok_all s).map stored_token)).length ≤ s.length + 1 := by
  have h1 : dotted (List.splitOn 46 s) = s := List.intercalate_splitOn s 46
  have hne : List.splitOn 46 s ≠ [] := by
    intro h
    rw [h] at h1
    have hs : s = [] := by rw [← h1]; rfl
    rw [hs] at h
    exact absurd h (by decide)
  have h2 := dotted_length (List.splitOn 46 s) hne
  rw [h1] at h2
  unfold strtok_all
  have := wire_length_filter_map (fun tok => !tok.isEmpty) (List.splitOn 46 s)
  omega

theorem strtok_octets (s : List Nat) (hs : ∀ x ∈ s, x < 256) :
    ∀ t ∈ strtok_all s, ∀ x ∈ t, x < 256 := by
  intro t ht x hx
  have h1 : dotted (List.splitOn 46 s) = s := List.intercalate_splitOn s 46
  unfold strtok_all at ht
  have := mem_dotted (List.splitOn 46 s) t (List.mem_filter.mp ht).1 x hx
  rw [h1] at this
  exact hs x this

theorem write_name_succeeds (b : dns_buffer) (name : List Nat)
    (hoct : ∀ x ∈ cstr name, x < 256)
    (hcap : b.pos + (cstr name).length + 2 ≤ b.capacity) (hreg : b.capacity ≤ b.ptr.length)
    (hlim : b.capacity < 4294967296) :
    (DNS_buffer_write_DNS_name b name).1 = true := by
  have hw := strtok_wire_length (cstr name)
  have hn : ((cstr name).length + 2) % 4294967296 = (cstr name).length + 2 :=
    Nat.mod_eq_of_lt (by omega)
  have hconv := convert_name_general (strtok_all (cstr name))
    (strtok_octets (cstr name) hoct) (DNS_buffer_create ((cstr name).length + 2))
    (by simp [DNS_buffer_create]; omega) (by simp [DNS_buffer_create])
    (by simp [DNS_buffer_create]; omega)
  unfold DNS_buffer_write_DNS_name
  simp only [hn, hconv, put_capacity]
  have hcc : check_capacity b (DNS_buffer_create ((cstr name).length + 2)).capacity = true := by
    rw [check_capacity_eq _ _ (by simp [DNS_buffer_create]; omega)]
    simp [DNS_buffer_create]; omega
  simp only [hcc, Bool.not_true, Bool.false_eq_true, if_false]
  have hT : ∀ t ∈ (strtok_all (cstr name)).map stored_token,
      t.length < 256 ∧ ∀ x ∈ t, x < 256 := by
    intro t ht
    obtain ⟨u, hu, rfl⟩ := List.mem_map.mp ht
    refine ⟨by rw [stored_token_length]; exact Nat.mod_lt _ (by norm_num), ?_⟩
    intro x hx
    exact strtok_octets (cstr name) hoct u hu x (List.mem_of_mem_take hx)
  obtain ⟨k, hk⟩ : ∃ k, (cstr name).length + 2
      = (wire_labels ((strtok_all (cstr name)).map stored_token)).length + (k + 1) :=
    ⟨(cstr name).length + 1
      - (wire_labels ((strtok_all (cstr name)).map stored_token)).length, by omega⟩
  have hdrop : ({ put (DNS_buffer_create ((cstr name).length + 2))
      (wire_labels ((strtok_all (cstr name)).map stored_token)) with pos := 0 }
        : dns_buffer).ptr.drop 0
      = wire_labels ((strtok_all (cstr name)).map stored_token)
          ++ 0 :: List.replicate k 0 := by
    simp only [put, DNS_buffer_create, List.take_zero, List.nil_append, Nat.zero_add,
      List.drop_zero]
    rw [hk, List.drop_replicate, Nat.add_sub_cancel_left, List.replicate_succ]
  exact write_name_loop_succeeds _ _ b _ (List.replicate k 0) hT
    (by
      have := length_le_wire ((strtok_all (cstr name)).map stored_token)
      simp only [DNS_buffer_create]
      omega)
    hdrop (by simp [DNS_buffer_create]; omega) (by simp [DNS_buffer_create]; omega)
    (by omega) hreg hlim

theorem ahead_refl (b : dns_buffer) (h : b.pos ≤ b.capacity) : ahead b b :=
  ⟨rfl, Nat.le_refl _, h⟩

theorem ahead_trans (a b c : dns_buffer) (h1 : ahead a b) (h2 : ahead b c) : ahead a c := by
  obtain ⟨c1, p1, q1⟩ := h1
  obtain ⟨c2, p2, q2⟩ := h2
  exact ⟨by rw [c2, c1], by omega, by rw [c1] at q2; exact q2⟩

theorem read_u8_cases (b : dns_buffer) (hcap : b.capacity < 4294967295)
    (hpos : b.pos ≤ b.capacity) :
    (b.pos + 1 ≤ b.capacity ∧ DNS_buffer_read_u8 b = (some (peek b.ptr b.pos), adv b 1)) ∨
    (b.capacity < b.pos + 1 ∧ DNS_buffer_read_u8 b = (none, b)) := by
  by_cases h : b.pos + 1 ≤ b.capacity
  · exact Or.inl ⟨h, read_u8_eq b h (by omega)⟩
  · exact Or.inr ⟨by omega, read_u8_none b (by omega) (by omega)⟩

theorem read_label_ahead : ∀ (n : Nat) (b : dns_buffer), b.capacity < 4294967295 →
    b.pos ≤ b.capacity →
    ahead b (read_label n b).2 ∧
      ((read_label n b).1 ≠ none → (read_label n b).2.pos = b.pos + n) := by
  intro n
  induction n with
  | zero =>
    intro b _ hpos
    exact ⟨ahead_refl b hpos, fun _ => rfl⟩
  | succ n ih =>
    intro b hcap hpos
    unfold read_label
    rcases read_u8_cases b hcap hpos with ⟨h1, hr⟩ | ⟨h1, hr⟩
    · rw [hr]
      dsimp only
      have hi := ih (adv b 1) hcap (by simp only [adv]; omega)
      rcases hl : read_label n (adv b 1) with ⟨_ | cs, b2⟩
      · rw [hl] at hi
        dsimp only
        refine ⟨?_, fun h => absurd rfl h⟩
        obtain ⟨⟨c, p, q⟩, _⟩ := hi
        simp only [adv] at c p q
        exact ⟨c, by omega, q⟩
      · rw [hl] at hi
        dsimp only
        obtain ⟨⟨c, p, q⟩, e⟩ := hi
        simp only [adv] at c p q e
        exact ⟨⟨c, by omega, q⟩, fun _ => by rw [e (by simp)]; omega⟩
    · rw [hr]
      exact ⟨ahead_refl b hpos, fun h => absurd rfl h⟩

theorem read_name_loop_ahead : ∀ (fuel : Nat) (b : dns_buffer) (acc : List Nat),
    b.capacity < 4294967295 → b.pos ≤ b.capacity →
    ahead b (read_name_loop fuel b acc).2 := by
  intro fuel
  induction fuel with
  | zero => intro b acc _ hpos; exact ahead_refl b hpos
  | succ fuel ih =>
    intro b acc hcap hpos
    simp only [read_name_loop]
    rcases read_u8_cases b hcap hpos with ⟨h1, hr⟩ | ⟨h1, hr⟩
    · rw [hr]
      dsimp only
      have ha1 : ahead b (adv b 1) := ⟨rfl, by simp [adv], by simp only [adv]; omega⟩
      by_cases ht : peek b.ptr b.pos >>> 6 ≠ 3 ∧ peek b.ptr b.pos ≠ 0
      · rw [if_pos ht]
        by_cases hc : check_capacity (adv b 1) (peek b.ptr b.pos) = true
        · rw [if_pos hc]
          have hl := (read_label_ahead (peek b.ptr b.pos)
            (known_names_append (adv b 1)
              ((adv b 1).ptr.drop (((adv b 1).pos + 4294967295) % 4294967296))
              (((adv b 1).pos + 4294967295) % 4294967296)) hcap
            (by simp only [known_names_append, adv]; omega)).1
          rcases hq : read_label (peek b.ptr b.pos)
            (known_names_append (adv b 1)
              ((adv b 1).ptr.drop (((adv b 1).pos + 4294967295) % 4294967296))
              (((adv b 1).pos + 4294967295) % 4294967296)) with ⟨_ | cs, b3⟩
          · rw [hq] at hl
            exact ahead_trans _ _ _ ha1 hl
          · rw [hq] at hl
            dsimp only
            have h3 : ahead b b3 := ahead_trans _ _ _ ha1 hl
            exact ahead_trans _ _ _ h3
              (ih b3 _ (by rw [h3.1]; exact hcap) (by rw [h3.1]; exact h3.2.2))
        · rw [if_neg hc]
          exact ha1
      · rw [if_neg ht]
        by_cases hp : peek b.ptr b.pos >>> 6 = 3
        · rw [if_pos hp]
          rcases read_u8_cases (adv b 1) hcap (by simp only [adv]; omega) with
            ⟨h2, hr2⟩ | ⟨h2, hr2⟩
          · rw [hr2]
            dsimp only
            have ha2 : ahead b (adv (adv b 1) 1) :=
              ⟨rfl, by simp [adv]; omega, by simp only [adv] at h2 ⊢; omega⟩
            cases known_names_find_name (adv (adv b 1) 1).known_names
              ((((peek b.ptr b.pos &&& 0x3F) <<< 4) ||| peek (adv b 1).ptr (adv b 1).pos)
                % 65536) with
            | none => exact ha2
            | some n => exact ha2
          · rw [hr2]
            exact ha1
        · rw [if_neg hp]
          exact ha1
    · rw [hr]
      exact ahead_refl b hpos

theorem read_name_loop_fuel : ∀ (f1 f2 : Nat) (b : dns_buffer) (acc : List Nat),
    b.capacity < 4294967295 → b.pos ≤ b.capacity →
    b.capacity - b.pos < f1 → b.capacity - b.pos < f2 →
    read_name_loop f1 b acc = read_name_loop f2 b acc := by
  intro f1
  induction f1 with
  | zero => intro f2 b acc _ _ h; omega
  | succ f1 ih =>
    intro f2 b acc hcap hpos hf1 hf2
    obtain ⟨g, rfl⟩ : ∃ g, f2 = g + 1 := ⟨f2 - 1, by omega⟩
    simp only [read_name_loop]
    rcases read_u8_cases b hcap hpos with ⟨h1, hr⟩ | ⟨h1, hr⟩
    · rw [hr]
      dsimp only
      by_cases ht : peek b.ptr b.pos >>> 6 ≠ 3 ∧ peek b.ptr b.pos ≠ 0
      · rw [if_pos ht, if_pos ht]
        by_cases hc : check_capacity (adv b 1) (peek b.ptr b.pos) = true
        · rw [if_pos hc, if_pos hc]
          have hl := (read_label_ahead (peek b.ptr b.pos)
            (known_names_append (adv b 1)
              ((adv b 1).ptr.drop (((adv b 1).pos + 4294967295) % 4294967296))
              (((adv b 1).pos + 4294967295) % 4294967296)) hcap
            (by simp only [known_names_append, adv]; omega)).1
          rcases hq : read_label (peek b.ptr b.pos)
            (known_names_append (adv b 1)
              ((adv b 1).ptr.drop (((adv b 1).pos + 4294967295) % 4294967296))
              (((adv b 1).pos + 4294967295) % 4294967296)) with ⟨_ | cs, b3⟩
          · rfl
          · rw [hq] at hl
            dsimp only
            obtain ⟨c, p, q⟩ := hl
            simp only [known_names_append, adv] at c p q
            exact ih g b3 _ (by rw [c]; exact hcap) (by rw [c]; exact q)
              (by rw [c]; omega) (by rw [c]; omega)
        · rw [if_neg hc, if_neg hc]
      · rw [if_neg ht, if_neg ht]
    · rw [hr]

theorem read_name_loop_pointer (b : dns_buffer) (acc : List Nat) (fuel : Nat)
    (hcap : b.capacity < 4294967295) (hroom : b.pos + 2 ≤ b.capacity)
    (htag : peek b.ptr b.pos >>> 6 = 3) :
    read_name_loop (fuel + 1) b acc
      = (some (acc ++ pointer_text b.known_names
          ((((peek b.ptr b.pos &&& 0x3F) <<< 4) ||| peek b.ptr (b.pos + 1)) % 65536)),
         adv b 2) := by
  simp only [read_name_loop]
  rw [read_u8_eq b (by omega) (by omega)]
  dsimp only
  rw [if_neg (by rw [htag]; simp), if_pos htag,
    read_u8_eq (adv b 1) (by simp only [adv]; omega) (by simp only [adv]; omega)]
  dsimp only
  unfold pointer_text
  simp only [adv]
  cases known_names_find_name b.known_names
    ((((peek b.ptr b.pos &&& 0x3F) <<< 4) ||| peek b.ptr (b.pos + 1)) % 65536) with
  | none => simp
  | some n => rfl

/-- C38: name decoding terminates. For a buffer whose cursor is within its capacity (below
2^32 - 1): the loop of `DNS_buffer_read_DNS_name` ends by itself, every number of turns above
`capacity - pos` giving the result of the call; the call leaves the cursor between the start
and the capacity, so at most `capacity - pos` octets are taken through the cursor; at a
pointer the loop returns at once with the dotted text of the entry that one lookup in the
known names finds for the offset (nothing when there is none), two octets further on; a
pointer to its own offset and a pointer to an offset not yet decoded are read so. The
octets inspected by `known_names_append` are not bounded by the capacity: on the region
`1 a 1 b 0` with capacity 2 the call fails at cursor 2, and the entry it has registered holds
the label at offsets 2 and 3. -/
theorem name_read_terminates (b : dns_buffer) (hcap : b.capacity < 4294967295)
    (hpos : b.pos ≤ b.capacity) :
    (∀ fuel acc, b.capacity - b.pos < fuel →
      read_name_loop fuel b acc = read_name_loop (b.capacity + 1) b acc) ∧
    ahead b (DNS_buffer_read_DNS_name b).2 ∧
    (∀ fuel acc, b.pos + 2 ≤ b.capacity → peek b.ptr b.pos >>> 6 = 3 →
      read_name_loop (fuel + 1) b acc
        = (some (acc ++ pointer_text b.known_names
            ((((peek b.ptr b.pos &&& 0x3F) <<< 4) ||| peek b.ptr (b.pos + 1)) % 65536)),
           adv b 2)) ∧
    (DNS_buffer_read_DNS_name (DNS_buffer_from_ptr [192, 0] 2)
        = (some [], adv (DNS_buffer_from_ptr [192, 0] 2) 2) ∧
      DNS_buffer_read_DNS_name (DNS_buffer_from_ptr [192, 9, 0, 0] 4)
        = (some [], adv (DNS_buffer_from_ptr [192, 9, 0, 0] 4) 2) ∧
      (DNS_buffer_read_DNS_name (DNS_buffer_from_ptr [1, 97, 192, 0] 4)).1
        = some [97, 46, 97] ∧
      (DNS_buffer_read_DNS_name (DNS_buffer_from_ptr [1, 97, 192, 0] 4)).2.pos = 4) ∧
    ((DNS_buffer_read_DNS_name short_region).1 = none ∧
      (DNS_buffer_read_DNS_name short_region).2.pos = 2 ∧
      short_region.capacity = 2 ∧
      (DNS_buffer_read_DNS_name short_region).2.known_names
        = [{ name := [1, 97, 1, 98], pos := 0 }]) := by
  refine ⟨?_, ?_, ?_, ?_, ?_⟩
  · intro fuel acc hf
    exact read_name_loop_fuel fuel (b.capacity + 1) b acc hcap hpos hf (by omega)
  · have h := read_name_loop_ahead (b.capacity + 1) b [] hcap hpos
    unfold DNS_buffer_read_DNS_name
    rcases hr : read_name_loop (b.capacity + 1) b [] with ⟨_ | acc, b1⟩
    · rw [hr] at h; exact h
    · rw [hr] at h; exact h
  · intro fuel acc hroom htag
    exact read_name_loop_pointer b acc fuel hcap hroom htag
  · exact ⟨by decide, by decide, by decide, by decide⟩
  · exact ⟨by decide, by decide, by decide, by decide⟩

/-- The termination theorem at the region `1 a 192 0`: nine turns give the result of the call,
which ends within the capacity; and at the region `192 0` the pointer is read by one lookup. -/
theorem name_read_terminates_witness :
    read_name_loop 9 (DNS_buffer_from_ptr [1, 97, 192, 0] 4) []
      = read_name_loop (4 + 1) (DNS_buffer_from_ptr [1, 97, 192, 0] 4) [] ∧
    ahead (DNS_buffer_from_ptr [1, 97, 192, 0] 4)
      (DNS_buffer_read_DNS_name (DNS_buffer_from_ptr [1, 97, 192, 0] 4)).2 ∧
    read_name_loop (0 + 1) (DNS_buffer_from_ptr [192, 0] 2) []
      = (some ([] ++ pointer_text [] 0), adv (DNS_buffer_from_ptr [192, 0] 2) 2) :=
  ⟨(name_read_terminates (DNS_buffer_from_ptr [1, 97, 192, 0] 4) (by decide) (by decide)).1
      9 [] (by decide),
   (name_read_terminates (DNS_buffer_from_ptr [1, 97, 192, 0] 4) (by decide) (by decide)).2.1,
   (name_read_terminates (DNS_buffer_from_ptr [192, 0] 2) (by decide) (by decide)).2.2.1
      0 [] (by decide) (by decide)⟩

theorem find_name_none (kn : List known_name_t) (p : Nat) :
    known_names_find_name kn p = none ↔ ∀ k ∈ kn, k.pos ≠ p := by
  induction kn with
  | nil => simp [known_names_find_name]
  | cons k rest ih =>
    simp only [known_names_find_name, List.mem_cons, forall_eq_or_imp]
    by_cases h : k.pos = p
    · simp [h]
    · simp [h, ih]

theorem computed_offset_low (lo : Nat) (h : lo < 256) : computed_offset 192 lo = lo := by
  unfold computed_offset
  have : (192 &&& 0x3F : Nat) = 0 := by decide
  rw [this]
  simp only [Nat.zero_shiftLeft, Nat.zero_or]
  exact Nat.mod_eq_of_lt (by omega)

theorem wire_offset_low (lo : Nat) (h : lo < 256) : wire_offset 192 lo = lo := by
  unfold wire_offset
  have : (192 &&& 0x3F : Nat) = 0 := by decide
  rw [this]
  simp only [Nat.zero_shiftLeft, Nat.zero_or]
  exact Nat.mod_eq_of_lt (by omega)

theorem read_name_loop_step (l rest : List Nat) (b : dns_buffer) (acc : List Nat)
    (fuel : Nat) (hok : tag_ok l) (hag : agrees b ([l.length] ++ (l ++ rest)))
    (hc : b.pos + 1 + l.length ≤ b.capacity) (hlim : b.capacity + 256 ≤ 4294967296) :
    read_name_loop (fuel + 1) b acc
      = read_name_loop fuel
          (adv (known_names_append (adv b 1) (b.ptr.drop b.pos) b.pos) l.length)
          (acc ++ l ++ [46]) := by
  obtain ⟨h1, h2, h3⟩ := hok
  have hsh : ¬ (l.length >>> 6 = 3) := by rw [Nat.shiftRight_eq_div_pow]; omega
  have hne : l.length ≠ 0 := by omega
  have hp : peek b.ptr b.pos = l.length := by
    have := hag 0 (by simp) (by omega)
    rw [Nat.add_zero] at this
    rw [this]; show l.length % 256 = l.length; exact Nat.mod_eq_of_lt (by omega)
  have hs : ((adv b 1).pos + 4294967295) % 4294967296 = b.pos := by
    simp only [adv]; omega
  conv => lhs; unfold read_name_loop
  rw [read_u8_eq b (by omega) (by omega), hp]
  simp only [hsh, hne, ne_eq, not_false_eq_true, and_self, if_true]
  rw [check_capacity_eq _ _ (by simp [adv]; omega)]
  have hcc : (adv b 1).pos + l.length ≤ (adv b 1).capacity := by simp [adv]; omega
  simp only [hcc, decide_True, if_true]
  rw [hs]
  rw [read_label_eq l (fun x hx => h3 x hx) (known_names_append (adv b 1)
    ((adv b 1).ptr.drop b.pos) b.pos) rest
    (agrees_right b _ [l.length] _ hag ⟨rfl, rfl, rfl⟩)
    (by simp [adv]; omega) (by simp [adv]; omega)]
  rfl

theorem read_name_loop_pointer_tail (hi lo : Nat) (hhi : 192 ≤ hi) (hhi2 : hi < 256)
    (hlo : lo < 256) (ls : List (List Nat)) :
    ∀ (fuel : Nat) (b : dns_buffer) (acc post : List Nat),
      (∀ l ∈ ls, tag_ok l) → agrees b (wire_labels ls ++ [hi, lo] ++ post) →
      b.pos + (wire_labels ls).length + 2 ≤ b.capacity → b.capacity + 256 ≤ 4294967296 →
      ls.length < fuel →
      ∃ es b', read_name_loop fuel b acc
          = (some (acc ++ dots ls
              ++ pointer_text (b.known_names ++ es) (computed_offset hi lo)), b') ∧
        moved b ((wire_labels ls).length + 2) b' ∧
        es.map (fun k => k.pos) = label_offsets b.pos ls ∧
        b'.known_names = b.known_names ++ es := by
  induction ls with
  | nil =>
    intro fuel b acc post _ hag hroom hlim hf
    obtain ⟨f, rfl⟩ : ∃ f, fuel = f + 1 := ⟨fuel - 1, by omega⟩
    simp only [wire_labels, List.nil_append, List.length_nil, Nat.add_zero] at hag hroom
    have hp : peek b.ptr b.pos = hi := by
      have := hag 0 (by simp) (by omega)
      rw [Nat.add_zero] at this
      rw [this]; exact Nat.mod_eq_of_lt hhi2
    have hp1 : peek b.ptr (b.pos + 1) = lo := by
      have := hag 1 (by simp) (by omega)
      rw [this]; exact Nat.mod_eq_of_lt hlo
    have hsh : hi >>> 6 = 3 := by rw [Nat.shiftRight_eq_div_pow]; omega
    refine ⟨[], adv b 2, ?_, by simpa [wire_labels] using moved_adv b 2, rfl, by simp [adv]⟩
    rw [read_name_loop_pointer b acc f (by omega) hroom (by rw [hp]; exact hsh), hp, hp1]
    simp [dots, computed_offset]
  | cons l ls ih =>
    intro fuel b acc post hok hag hroom hlim hf
    obtain ⟨f, rfl⟩ : ∃ f, fuel = f + 1 := ⟨fuel - 1, by simp at hf; omega⟩
    have hok' : ∀ x ∈ ls, tag_ok x := fun x hx => hok x (by simp [hx])
    have hwl : (wire_labels (l :: ls)).length = 1 + l.length + (wire_labels ls).length := by
      simp only [wire_labels, List.length_cons, List.length_append]; omega
    rw [hwl] at hroom ⊢
    have henc : wire_labels (l :: ls) ++ [hi, lo] ++ post
        = [l.length] ++ (l ++ (wire_labels ls ++ [hi, lo] ++ post)) := by
      simp [wire_labels]
    rw [henc] at hag
    rw [read_name_loop_step l _ b acc f (hok l (by simp)) hag (by omega) hlim]
    have hm2 : moved b (1 + l.length)
        (adv (known_names_append (adv b 1) (b.ptr.drop b.pos) b.pos) l.length) :=
      ⟨rfl, rfl, by simp only [adv, known_names_append]; omega⟩
    have hag' : agrees (adv (known_names_append (adv b 1) (b.ptr.drop b.pos) b.pos) l.length)
        (wire_labels ls ++ [hi, lo] ++ post) :=
      agrees_right b _ ([l.length] ++ l) (wire_labels ls ++ [hi, lo] ++ post)
        (by simpa using hag) (by simpa [Nat.add_comm] using hm2)
    obtain ⟨m1, m2, m3⟩ := hm2
    obtain ⟨es, b', hr, hm, hes, hkn⟩ := ih f _ (acc ++ l ++ [46]) post hok' hag'
      (by rw [m2, m3]; omega) (by rw [m2]; exact hlim) (by simp at hf; omega)
    refine ⟨known_name_t.mk (known_names_expand (adv b 1).known_names
        ((b.ptr.drop b.pos).length + 1) (b.ptr.drop b.pos)) (b.pos % 65536) :: es,
      b', ?_, ?_, ?_, ?_⟩
    · rw [hr]
      simp only [adv, known_names_append, dots, List.append_assoc, List.singleton_append,
        List.cons_append, List.nil_append]
    · obtain ⟨n1, n2, n3⟩ := hm
      exact ⟨by rw [n1, m1], by rw [n2, m2], by rw [n3, m3]; omega⟩
    · simp only [List.map_cons, label_offsets]
      rw [hes, m3]
      simp only [Nat.add_assoc]
    · rw [hkn]
      simp only [adv, known_names_append, List.append_assoc, List.singleton_append]

theorem agrees_of_drop (b : dns_buffer) (enc : List Nat) (h : b.ptr.drop b.pos = enc) :
    agrees b enc := by
  intro i _ _
  unfold peek
  rw [← h, List.getD_eq_getElem?_getD, List.getD_eq_getElem?_getD, List.getElem?_drop]

theorem label_ok_tag_ok (l : List Nat) (h : label_ok l) : tag_ok l :=
  ⟨h.1, by have := h.2.1; omega, fun c hc => (h.2.2 c hc).2.2⟩

theorem read_name_unknown_pointer (ls : List (List Nat)) (hi lo : Nat) (post : List Nat)
    (b : dns_buffer) (hne : ls ≠ []) (hok : ∀ l ∈ ls, label_ok l)
    (hhi : 192 ≤ hi) (hhi2 : hi < 256) (hlo : lo < 256)
    (hmem : b.ptr.drop b.pos = wire_labels ls ++ [hi, lo] ++ post)
    (hroom : b.pos + (wire_labels ls).length + 2 ≤ b.capacity)
    (hlim : b.capacity + 256 ≤ 4294967296)
    (hun : ∀ k ∈ b.known_names, k.pos ≠ computed_offset hi lo)
    (hun2 : computed_offset hi lo ∉ label_offsets b.pos ls) :
    ∃ b', DNS_buffer_read_DNS_name b = (some (dotted ls), b') ∧
      moved b ((wire_labels ls).length + 2) b' := by
  obtain ⟨es, b', hr, hm, hes, _⟩ := read_name_loop_pointer_tail hi lo hhi hhi2 hlo ls
    (b.capacity + 1) b [] post (fun l hl => label_ok_tag_ok l (hok l hl))
    (agrees_of_drop b _ hmem) hroom hlim (by
      have := length_le_wire ls
      omega)
  have hnone : known_names_find_name (b.known_names ++ es) (computed_offset hi lo) = none := by
    rw [find_name_none]
    intro k hk
    rcases List.mem_append.mp hk with h1 | h2
    · exact hun k h1
    · intro he
      apply hun2
      rw [← hes, ← he]
      exact List.mem_map_of_mem _ h2
  refine ⟨b', ?_, hm⟩
  unfold DNS_buffer_read_DNS_name
  rw [hr]
  unfold pointer_text
  rw [hnone]
  simp only [List.nil_append, List.append_nil]
  rw [dots_eq ls hne, List.dropLast_concat, cstr_of_nonzero _ (dotted_nonzero ls hok)]

/-- C33: unknown pointer target. When the memory at the cursor holds `n >= 1` ordinary labels
followed by two pointer octets and the offset that `DNS_buffer_read_DNS_name` computes from
them, `((tag & 0x3F) << 4) | next`, has no entry in the known names (those of the buffer and
those registered for the labels just read), the call succeeds, ends right after the pointer
octets and yields the labels joined by dots. For a first pointer octet `C0` the computed
offset is the offset on the wire. For other pointers it is not: in `stray_buffer` the pointer
`C1 00` after the label `c` stands for offset 256, which has no entry, yet the call yields
`c.a`, the name registered at offset 16 being appended. -/
theorem unknown_pointer_target (ls : List (List Nat)) (hi lo : Nat) (post : List Nat)
    (b : dns_buffer) (hne : ls ≠ []) (hok : ∀ l ∈ ls, label_ok l)
    (hhi : 192 ≤ hi) (hhi2 : hi < 256) (hlo : lo < 256)
    (hmem : b.ptr.drop b.pos = wire_labels ls ++ [hi, lo] ++ post)
    (hroom : b.pos + (wire_labels ls).length + 2 ≤ b.capacity)
    (hlim : b.capacity + 256 ≤ 4294967296)
    (hun : ∀ k ∈ b.known_names, k.pos ≠ computed_offset hi lo)
    (hun2 : computed_offset hi lo ∉ label_offsets b.pos ls) :
    (∃ b', DNS_buffer_read_DNS_name b = (some (dotted ls), b') ∧
      b'.pos = b.pos + (wire_labels ls).length + 2 ∧ b'.ptr = b.ptr ∧
      b'.capacity = b.capacity) ∧
    (hi = 192 → computed_offset hi lo = wire_offset hi lo) ∧
    (stray_buffer.pos = 19 ∧ stray_buffer.capacity = 23 ∧
      stray_buffer.ptr.drop 19 = wire_labels [[99]] ++ [193, 0] ∧
      wire_offset 193 0 = 256 ∧
      known_names_find_name (DNS_buffer_read_DNS_name stray_buffer).2.known_names
        (wire_offset 193 0) = none ∧
      computed_offset 193 0 = 16 ∧
      known_names_find_name (DNS_buffer_read_DNS_name stray_buffer).2.known_names 16
        = some [1, 97] ∧
      (DNS_buffer_read_DNS_name stray_buffer).1 = some [99, 46, 97] ∧
      (DNS_buffer_read_DNS_name stray_buffer).2.pos = 23) := by
  refine ⟨?_, ?_, ?_⟩
  · obtain ⟨b', hr, hm⟩ := read_name_unknown_pointer ls hi lo post b hne hok hhi hhi2 hlo
      hmem hroom hlim hun hun2
    exact ⟨b', hr, by rw [hm.2.2]; omega, hm.1, hm.2.1⟩
  · intro h
    rw [h, computed_offset_low lo hlo, wire_offset_low lo hlo]
  · decide

/-- The unknown-pointer theorem at the region `1 a C0 09` of a fresh buffer: the name read
is `a` and the cursor ends at 4. -/
theorem unknown_pointer_target_witness :
    ∃ b', DNS_buffer_read_DNS_name (DNS_buffer_from_ptr [1, 97, 192, 9] 4)
        = (some (dotted [[97]]), b') ∧
      b'.pos = (DNS_buffer_from_ptr [1, 97, 192, 9] 4).pos + (wire_labels [[97]]).length + 2 ∧
      b'.ptr = (DNS_buffer_from_ptr [1, 97, 192, 9] 4).ptr ∧
      b'.capacity = (DNS_buffer_from_ptr [1, 97, 192, 9] 4).capacity :=
  (unknown_pointer_target [[97]] 192 9 [] (DNS_buffer_from_ptr [1, 97, 192, 9] 4)
    (by decide) (by unfold label_ok; decide) (by decide) (by decide) (by decide) (by decide)
    (by decide) (by decide) (by decide) (by decide)).1

theorem dec_text_aux_spec : ∀ (fuel n : Nat) (acc : List Nat), n < fuel →
    ∃ ds, dec_text_aux fuel n acc = ds ++ acc ∧ ds ≠ [] ∧
      (∀ d ∈ ds, isdigit d = true) ∧ dec_value ds = n := by
  intro fuel
  induction fuel with
  | zero => intro n acc h; omega
  | succ fuel ih =>
    intro n acc h
    unfold dec_text_aux
    by_cases hn : n < 10
    · rw [if_pos hn]
      refine ⟨[48 + n], rfl, by simp, ?_, ?_⟩
      · intro d hd
        simp only [List.mem_singleton] at hd
        subst hd
        simp only [isdigit, Bool.and_eq_true, decide_eq_true_eq]
        omega
      · simp [dec_value]
    · rw [if_neg hn]
      obtain ⟨ds, e, hne, hdig, hv⟩ := ih (n / 10) ((48 + n % 10) :: acc) (by omega)
      refine ⟨ds ++ [48 + n % 10], by rw [e]; simp, by simp, ?_, ?_⟩
      · intro d hd
        rcases List.mem_append.mp hd with h1 | h1
        · exact hdig d h1
        · simp only [List.mem_singleton] at h1
          subst h1
          simp only [isdigit, Bool.and_eq_true, decide_eq_true_eq]
          omega
      · unfold dec_value at hv ⊢
        rw [List.foldl_append, hv]
        simp only [List.foldl_cons, List.foldl_nil]
        omega

theorem dec_text_spec (n : Nat) :
    dec_text n ≠ [] ∧ (∀ d ∈ dec_text n, isdigit d = true) ∧ dec_value (dec_text n) = n := by
  obtain ⟨ds, e, hne, hdig, hv⟩ := dec_text_aux_spec (n + 1) n [] (by omega)
  unfold dec_text
  rw [e, List.append_nil]
  exact ⟨hne, hdig, hv⟩

theorem takeWhile_run (p : Nat → Bool) (ds : List Nat) (y : Nat) (rest : List Nat)
    (h : ∀ d ∈ ds, p d = true) (hy : p y = false) :
    (ds ++ y :: rest).takeWhile p = ds ∧ (ds ++ y :: rest).dropWhile p = y :: rest := by
  induction ds with
  | nil => simp [List.takeWhile, List.dropWhile, hy]
  | cons d ds ih =>
    have hd := h d (by simp)
    obtain ⟨i1, i2⟩ := ih (fun x hx => h x (by simp [hx]))
    rw [List.cons_append, List.takeWhile_cons, List.dropWhile_cons, hd]
    simp only [if_true]
    exact ⟨by rw [i1], i2⟩

theorem takeWhile_all (p : Nat → Bool) (ds : List Nat) (h : ∀ d ∈ ds, p d = true) :
    ds.takeWhile p = ds := by
  rw [List.takeWhile_eq_self_iff]
  exact h

theorem sscanf_canonical (p : Nat) (x : List Nat) (hp : p < 65536) (hx : x ≠ [])
    (hz : ∀ c ∈ x, c ≠ 0) (hs : ∀ c ∈ x, isspace c = false) :
    sscanf_hd_s (dec_text p ++ 44 :: x) = some (p, x) := by
  obtain ⟨hne, hdig, hv⟩ := dec_text_spec p
  obtain ⟨d0, ds, hd⟩ : ∃ d0 ds, dec_text p = d0 :: ds := by
    cases h : dec_text p with
    | nil => exact absurd h hne
    | cons a l => exact ⟨a, l, rfl⟩
  have hd0 : isdigit d0 = true := hdig d0 (by rw [hd]; simp)
  have hd0' : 48 ≤ d0 ∧ d0 ≤ 57 := by
    simpa [isdigit] using hd0
  have hnz : ∀ c ∈ dec_text p ++ 44 :: x, c ≠ 0 := by
    intro c hc
    rcases List.mem_append.mp hc with h1 | h1
    · have := hdig c h1
      simp only [isdigit, Bool.and_eq_true, decide_eq_true_eq] at this
      omega
    · rcases List.mem_cons.mp h1 with rfl | h2
      · decide
      · exact hz c h2
  have hsp0 : isspace d0 = false := by
    simp only [isspace, Bool.or_eq_false_iff, Bool.and_eq_false_iff, decide_eq_false_iff_not]
    omega
  obtain ⟨x0, xs, hx0⟩ : ∃ x0 xs, x = x0 :: xs := by
    cases x with
    | nil => exact absurd rfl hx
    | cons a l => exact ⟨a, l, rfl⟩
  have hxs0 : isspace x0 = false := hs x0 (by rw [hx0]; simp)
  have hrun := takeWhile_run isdigit (dec_text p) 44 x hdig (by decide)
  unfold sscanf_hd_s
  rw [cstr_of_nonzero _ hnz]
  have h0 : (dec_text p ++ 44 :: x).dropWhile isspace = dec_text p ++ 44 :: x := by
    rw [hd]
    simp [List.dropWhile, hsp0]
  simp only [h0]
  have hh : (dec_text p ++ 44 :: x).head? = some d0 := by rw [hd]; rfl
  have hn45 : ¬ (some d0 = some 45) := by simp; omega
  have hn43 : ¬ (some d0 = some 43) := by simp; omega
  simp only [hh, hn45, hn43, or_self, if_false, hrun.1, hrun.2, decide_False]
  have he : (dec_text p).isEmpty = false := by rw [hd]; rfl
  simp only [he, Bool.false_eq_true, if_false, hv, Nat.mod_eq_of_lt hp]
  have h1 : x.dropWhile isspace = x := by
    rw [hx0]
    simp [List.dropWhile, hxs0]
  have h2 : x.takeWhile (fun c => !isspace c) = x :=
    takeWhile_all _ x (fun c hc => by simp [hs c hc])
  have h3 : x.isEmpty = false := by rw [hx0]; rfl
  simp only [h1, h2, h3, Bool.false_eq_true, if_false]

theorem sprintf_canonical (p : Nat) (x : List Nat) (hp : p < 32768) (hz : ∀ c ∈ x, c ≠ 0) :
    sprintf_hd_s p x = dec_text p ++ 44 :: x := by
  unfold sprintf_hd_s
  simp only [Nat.mod_eq_of_lt (show p < 65536 by omega), hp, if_true, cstr_of_nonzero x hz]
  simp

theorem sprintf_negative (p : Nat) (x : List Nat) (hp : 32768 ≤ p) (hp2 : p < 65536)
    (hz : ∀ c ∈ x, c ≠ 0) :
    sprintf_hd_s p x = 45 :: (dec_text (65536 - p) ++ 44 :: x) := by
  unfold sprintf_hd_s
  simp only [Nat.mod_eq_of_lt hp2, Nat.not_lt.mpr hp, if_false, cstr_of_nonzero x hz]
  simp

theorem dotted_of_known_wire (ls : List (List Nat)) :
    ∀ (fuel : Nat), (∀ l ∈ ls, label_ok l) → ls.length < fuel →
      dotted_of_known fuel (wire_labels ls) = dots ls := by
  induction ls with
  | nil =>
    intro fuel _ hf
    obtain ⟨f, rfl⟩ : ∃ f, fuel = f + 1 := ⟨fuel - 1, by simp at hf; omega⟩
    simp [dotted_of_known, wire_labels, dots, peek]
  | cons l ls ih =>
    intro fuel hok hf
    obtain ⟨f, rfl⟩ : ∃ f, fuel = f + 1 := ⟨fuel - 1, by simp at hf; omega⟩
    obtain ⟨h1, h2, h3⟩ := hok l (by simp)
    have htag : l.length % 256 = l.length := Nat.mod_eq_of_lt (by omega)
    have hne : l.length ≠ 0 := by omega
    simp only [dotted_of_known, wire_labels, peek_cons_zero, htag, hne, if_false, dots]
    have hcopy : copy_octets (l.length :: (l ++ wire_labels ls)) 1 l.length = l := by
      have := copy_octets_eq l (fun c hc => (h3 c hc).2.2) [l.length] (wire_labels ls)
      simpa using this
    have hdrop : List.drop (l.length + 1) (l.length :: (l ++ wire_labels ls))
        = wire_labels ls := by
      simp
    rw [hcopy, hdrop, ih f (fun x hx => hok x (by simp [hx])) (by simp at hf; omega)]
    simp

theorem dots_append (a c : List (List Nat)) : dots (a ++ c) = dots a ++ dots c := by
  induction a with
  | nil => rfl
  | cons l ls ih => simp [dots, ih]

theorem find_name_append (kn es : List known_name_t) (p : Nat) (n : List Nat)
    (h : known_names_find_name kn p = some n) :
    known_names_find_name (kn ++ es) p = some n := by
  induction kn with
  | nil => simp [known_names_find_name] at h
  | cons k rest ih =>
    simp only [known_names_find_name, List.cons_append] at h ⊢
    by_cases hk : k.pos = p
    · rw [if_pos hk] at h ⊢; exact h
    · rw [if_neg hk] at h ⊢; exact ih h

theorem name_entries_nil_cons (pos : Nat) (l : List Nat) (ls : List (List Nat)) :
    name_entries [] pos (l :: ls)
      = { name := wire_labels (l :: ls), pos := pos % 65536 }
          :: name_entries [] (pos + 1 + l.length) ls := by
  simp [name_entries, known_names_find_pos]

theorem find_name_entries (N : List (List Nat)) :
    ∀ (pos : Nat) (w : List Nat) (p : Nat), (∀ l ∈ N, label_ok l) →
      pos + (wire_labels N).length ≤ 65535 →
      known_names_find_pos (name_entries [] pos N) w = p → p ≠ 0xFFFF →
      pos ≤ p ∧ p < pos + (wire_labels N).length ∧
      ∃ t, known_names_find_name (name_entries [] pos N) p = some (wire_labels t) ∧
        cstr w = cstr (wire_labels t) ∧ ∀ l ∈ t, label_ok l := by
  induction N with
  | nil =>
    intro pos w p _ _ h hp
    simp [name_entries, known_names_find_pos] at h
    exact absurd h.symm hp
  | cons l ls ih =>
    intro pos w p hok hb h hp
    have hwl : (wire_labels (l :: ls)).length = 1 + l.length + (wire_labels ls).length := by
      simp only [wire_labels, List.length_cons, List.length_append]; omega
    rw [hwl] at hb ⊢
    rw [name_entries_nil_cons] at h ⊢
    simp only [known_names_find_pos, known_names_find_name] at h ⊢
    have hpm : pos % 65536 = pos := Nat.mod_eq_of_lt (by omega)
    rw [hpm] at h ⊢
    by_cases hc : cstr w = cstr (wire_labels (l :: ls))
    · rw [if_pos hc] at h
      subst h
      refine ⟨Nat.le_refl _, by omega, l :: ls, by simp, hc, hok⟩
    · rw [if_neg hc] at h
      obtain ⟨i1, i2, t, i3, i4, i5⟩ := ih (pos + 1 + l.length) w p
        (fun x hx => hok x (by simp [hx])) (by omega) h hp
      refine ⟨by omega, by omega, t, ?_, i4, i5⟩
      rw [if_neg (by omega)]
      exact i3

set_option maxRecDepth 100000 in
theorem pointer_octets_low : ∀ p, p < 256 → pointer_octets p = [192, p] := by
  decide

theorem read_u16_drop (b : dns_buffer) (v : Nat) (rest : List Nat)
    (h : b.ptr.drop b.pos = be16 v ++ rest) (hv : v < 65536)
    (hroom : b.pos + 2 ≤ b.capacity) (hlim : b.capacity < 4294967296) :
    DNS_buffer_read_u16 b = (some v, adv b 2) := by
  have h0 : peek b.ptr b.pos = v / 256 := by
    rw [peek_of_drop b.ptr b.pos (v % 65536 / 256) ([v % 256] ++ rest) (by rw [h]; rfl)]
    omega
  have h1 : peek b.ptr (b.pos + 1) = v % 256 := by
    rw [peek_of_drop b.ptr (b.pos + 1) (v % 256) rest
      (drop_add_of_drop b.ptr b.pos [v % 65536 / 256] _ (by rw [h]; rfl))]
    omega
  rw [read_u16_eq b hroom hlim, h0, h1]
  congr 2
  omega

theorem read_u32_drop (b : dns_buffer) (v : Nat) (rest : List Nat)
    (h : b.ptr.drop b.pos = be32 v ++ rest) (hv : v < 4294967296)
    (hroom : b.pos + 4 ≤ b.capacity) (hlim : b.capacity < 4294967296) :
    DNS_buffer_read_u32 b = (some v, adv b 4) := by
  have h0 : peek b.ptr b.pos = v / 16777216 := by
    rw [peek_of_drop b.ptr b.pos (v % 4294967296 / 16777216)
      ([v / 65536 % 256, v / 256 % 256, v % 256] ++ rest) (by rw [h]; rfl)]
    omega
  have h1 : peek b.ptr (b.pos + 1) = v / 65536 % 256 := by
    rw [peek_of_drop b.ptr (b.pos + 1) (v / 65536 % 256) ([v / 256 % 256, v % 256] ++ rest)
      (drop_add_of_drop b.ptr b.pos [v % 4294967296 / 16777216] _ (by rw [h]; rfl))]
    omega
  have h2 : peek b.ptr (b.pos + 2) = v / 256 % 256 := by
    rw [peek_of_drop b.ptr (b.pos + 2) (v / 256 % 256) ([v % 256] ++ rest)
      (drop_add_of_drop b.ptr b.pos [v % 4294967296 / 16777216, v / 65536 % 256] _
        (by rw [h]; rfl))]
    omega
  have h3 : peek b.ptr (b.pos + 3) = v % 256 := by
    rw [peek_of_drop b.ptr (b.pos + 3) (v % 256) rest
      (drop_add_of_drop b.ptr b.pos
        [v % 4294967296 / 16777216, v / 65536 % 256, v / 256 % 256] _ (by rw [h]; rfl))]
    omega
  rw [read_u32_eq b hroom hlim, h0, h1, h2, h3]
  congr 2
  omega

theorem read_name_loop_zero (ls : List (List Nat)) :
    ∀ (fuel : Nat) (b : dns_buffer) (acc post : List Nat),
      (∀ l ∈ ls, label_ok l) → b.ptr.drop b.pos = wire_labels ls ++ 0 :: post →
      b.pos + (wire_labels ls).length + 1 ≤ b.capacity → b.capacity + 256 ≤ 4294967296 →
      ls.length < fuel →
      read_name_loop fuel b acc
        = (some (acc ++ dots ls),
           with_known_names (adv b ((wire_labels ls).length + 1))
             (b.known_names ++ name_entries [] b.pos ls)) := by
  induction ls with
  | nil =>
    intro fuel b acc post _ hmem hroom hlim hf
    obtain ⟨f, rfl⟩ : ∃ f, fuel = f + 1 := ⟨fuel - 1, by omega⟩
    simp only [wire_labels, List.nil_append, List.length_nil, Nat.add_zero] at hmem hroom
    simp only [read_name_loop]
    rw [read_u8_eq b (by omega) (by omega), peek_of_drop b.ptr b.pos 0 post hmem]
    simp [dots, wire_labels, name_entries, with_known_names, adv]
  | cons l ls ih =>
    intro fuel b acc post hok hmem hroom hlim hf
    obtain ⟨f, rfl⟩ : ∃ f, fuel = f + 1 := ⟨fuel - 1, by simp at hf; omega⟩
    have hok' : ∀ x ∈ ls, label_ok x := fun x hx => hok x (by simp [hx])
    have hwl : (wire_labels (l :: ls)).length = 1 + l.length + (wire_labels ls).length := by
      simp only [wire_labels, List.length_cons, List.length_append]; omega
    rw [hwl] at hroom ⊢
    have henc : wire_labels (l :: ls) ++ 0 :: post
        = [l.length] ++ (l ++ (wire_labels ls ++ 0 :: post)) := by
      simp [wire_labels]
    have hmem1 : b.ptr.drop b.pos = [l.length] ++ (l ++ (wire_labels ls ++ 0 :: post)) := by
      rw [hmem, henc]
    rw [read_name_loop_step l _ b acc f (label_ok_tag_ok l (hok l (by simp)))
      (agrees_of_drop b _ hmem1) (by omega) hlim]
    have hd2 : b.ptr.drop (b.pos + 1 + l.length) = wire_labels ls ++ 0 :: post := by
      have h1 := drop_add_of_drop b.ptr b.pos [l.length] _ hmem1
      exact drop_add_of_drop b.ptr (b.pos + 1) l _ h1
    rw [ih f _ (acc ++ l ++ [46]) post hok'
      (by simpa only [adv, known_names_append, Nat.add_assoc] using
        (by rw [← Nat.add_assoc]; exact hd2 :
          b.ptr.drop (b.pos + (1 + l.length)) = wire_labels ls ++ 0 :: post))
      (by simp only [adv, known_names_append]; omega)
      (by simpa only [adv, known_names_append] using hlim) (by simp at hf; omega)]
    have hexp : known_names_expand b.known_names ((b.ptr.drop b.pos).length + 1)
        (b.ptr.drop b.pos) = wire_labels (l :: ls) := by
      rw [hmem]
      exact known_names_expand_wire _ (l :: ls) _ post hok (by
        have := length_le_wire (l :: ls)
        simp only [List.length_append, List.length_cons] at this ⊢
        omega)
    rw [name_entries_nil_cons]
    simp only [adv, known_names_append, with_known_names, hexp, dots, List.append_assoc,
      List.singleton_append, List.cons_append, List.nil_append, Prod.mk.injEq,
      dns_buffer.mk.injEq, true_and, and_true]
    omega

theorem read_name_loop_output (N : List (List Nat)) (hN : ∀ l ∈ N, label_ok l)
    (hNb : (wire_labels N).length ≤ 255) (X : List (List Nat)) :
    ∀ (fuel : Nat) (b : dns_buffer) (acc post : List Nat) (es : List known_name_t),
      (∀ l ∈ X, label_ok l) → b.known_names = name_entries [] 0 N ++ es →
      b.ptr.drop b.pos = name_output (name_entries [] 0 N) X ++ post →
      b.pos + (name_output (name_entries [] 0 N) X).length ≤ b.capacity →
      b.capacity + 256 ≤ 4294967296 → X.length < fuel →
      ∃ b', read_name_loop fuel b acc = (some (acc ++ dots X), b') ∧
        moved b (name_output (name_entries [] 0 N) X).length b' := by
  induction X with
  | nil =>
    intro fuel b acc post es _ _ hmem hroom hlim hf
    obtain ⟨f, rfl⟩ : ∃ f, fuel = f + 1 := ⟨fuel - 1, by omega⟩
    simp only [name_output, List.singleton_append, List.length_singleton] at hmem hroom ⊢
    simp only [read_name_loop]
    rw [read_u8_eq b (by omega) (by omega), peek_of_drop b.ptr b.pos 0 post hmem]
    exact ⟨adv b 1, by simp [dots], moved_adv b 1⟩
  | cons l ls ih =>
    intro fuel b acc post es hok hkn hmem hroom hlim hf
    obtain ⟨f, rfl⟩ : ∃ f, fuel = f + 1 := ⟨fuel - 1, by simp at hf; omega⟩
    have hok' : ∀ x ∈ ls, label_ok x := fun x hx => hok x (by simp [hx])
    unfold name_output at hmem hroom ⊢
    by_cases hq : known_names_find_pos (name_entries [] 0 N) (wire_labels (l :: ls)) ≠ 0xFFFF
    · rw [if_pos hq] at hmem hroom ⊢
      obtain ⟨_, hlt, t, hfind, hcs, htok⟩ := find_name_entries N 0 (wire_labels (l :: ls)) _
        hN (by omega) rfl hq
      have hq256 : known_names_find_pos (name_entries [] 0 N) (wire_labels (l :: ls)) < 256 := by
        omega
      rw [pointer_octets_low _ hq256] at hmem hroom ⊢
      simp only [List.length_cons, List.length_nil] at hroom ⊢
      have hp0 : peek b.ptr b.pos = 192 :=
        peek_of_drop b.ptr b.pos 192 _ (by rw [hmem]; rfl)
      have hp1 : peek b.ptr (b.pos + 1)
          = known_names_find_pos (name_entries [] 0 N) (wire_labels (l :: ls)) := by
        rw [peek_of_drop b.ptr (b.pos + 1) _ post
          (drop_add_of_drop b.ptr b.pos [192] _ (by rw [hmem]; rfl))]
        exact Nat.mod_eq_of_lt hq256
      have ht : t = l :: ls := by
        apply wire_labels_inj
        rw [cstr_of_nonzero _ (wire_labels_nonzero _ hok),
          cstr_of_nonzero _ (wire_labels_nonzero _ htok)] at hcs
        exact hcs.symm
      refine ⟨adv b 2, ?_, moved_adv b 2⟩
      rw [read_name_loop_pointer b acc f (by omega) (by omega) (by rw [hp0]; decide), hp0, hp1]
      have hco := computed_offset_low _ hq256
      unfold computed_offset at hco
      rw [hco]
      unfold pointer_text
      rw [hkn, find_name_append _ es _ _ hfind]
      simp only
      rw [dotted_of_known_wire t _ htok (by
        have := length_le_wire t
        omega), ht]
    · rw [if_neg hq] at hmem hroom ⊢
      have hmem1 : b.ptr.drop b.pos
          = [l.length] ++ (l ++ (name_output (name_entries [] 0 N) ls ++ post)) := by
        rw [hmem]; simp
      simp only [List.length_cons, List.length_append] at hroom ⊢
      rw [read_name_loop_step l _ b acc f (label_ok_tag_ok l (hok l (by simp)))
        (agrees_of_drop b _ hmem1) (by omega) hlim]
      have hd2 : b.ptr.drop (b.pos + (1 + l.length))
          = name_output (name_entries [] 0 N) ls ++ post := by
        have h1 := drop_add_of_drop b.ptr b.pos [l.length] _ hmem1
        have h2 := drop_add_of_drop b.ptr (b.pos + 1) l _ h1
        rw [← Nat.add_assoc]
        exact h2
      obtain ⟨b', hr, hm⟩ := ih f
        (adv (known_names_append (adv b 1) (b.ptr.drop b.pos) b.pos) l.length)
        (acc ++ l ++ [46]) post
        (es ++ [known_name_t.mk (known_names_expand b.known_names
          ((b.ptr.drop b.pos).length + 1) (b.ptr.drop b.pos)) (b.pos % 65536)])
        hok'
        (by simp only [adv, known_names_append, hkn, List.append_assoc])
        (by simpa only [adv, known_names_append, Nat.add_assoc] using hd2)
        (by simp only [adv, known_names_append]; omega)
        (by simpa only [adv, known_names_append] using hlim) (by simp at hf; omega)
      refine ⟨b', ?_, ?_⟩
      · rw [hr]
        simp [dots]
      · obtain ⟨n1, n2, n3⟩ := hm
        simp only [adv, known_names_append] at n1 n2 n3
        exact ⟨n1, n2, by rw [n3]; omega⟩

theorem read_name_zero (ls : List (List Nat)) (b : dns_buffer) (post : List Nat)
    (hne : ls ≠ []) (hok : ∀ l ∈ ls, label_ok l)
    (hmem : b.ptr.drop b.pos = wire_labels ls ++ 0 :: post)
    (hroom : b.pos + (wire_labels ls).length + 1 ≤ b.capacity)
    (hlim : b.capacity + 256 ≤ 4294967296) :
    DNS_buffer_read_DNS_name b
      = (some (dotted ls),
         with_known_names (adv b ((wire_labels ls).length + 1))
           (b.known_names ++ name_entries [] b.pos ls)) := by
  unfold DNS_buffer_read_DNS_name
  rw [read_name_loop_zero ls (b.capacity + 1) b [] post hok hmem hroom hlim (by
    have := length_le_wire ls
    omega)]
  simp only [List.nil_append]
  rw [dots_eq ls hne, List.dropLast_concat, cstr_of_nonzero _ (dotted_nonzero ls hok)]

theorem read_name_output (N : List (List Nat)) (hN : ∀ l ∈ N, label_ok l)
    (hNb : (wire_labels N).length ≤ 255) (X : List (List Nat)) (b : dns_buffer)
    (post : List Nat) (es : List known_name_t) (hne : X ≠ []) (hok : ∀ l ∈ X, label_ok l)
    (hkn : b.known_names = name_entries [] 0 N ++ es)
    (hmem : b.ptr.drop b.pos = name_output (name_entries [] 0 N) X ++ post)
    (hroom : b.pos + (name_output (name_entries [] 0 N) X).length ≤ b.capacity)
    (hlim : b.capacity + 256 ≤ 4294967296) :
    ∃ b', DNS_buffer_read_DNS_name b = (some (dotted X), b') ∧
      moved b (name_output (name_entries [] 0 N) X).length b' := by
  obtain ⟨b', hr, hm⟩ := read_name_loop_output N hN hNb X (X.length + b.capacity + 1) b []
    post es hok hkn hmem hroom hlim (by omega)
  refine ⟨b', ?_, hm⟩
  unfold DNS_buffer_read_DNS_name
  rw [read_name_loop_fuel (b.capacity + 1) (X.length + b.capacity + 1) b [] (by omega)
    (by omega) (by omega) (by omega), hr]
  simp only [List.nil_append]
  rw [dots_eq X hne, List.dropLast_concat, cstr_of_nonzero _ (dotted_nonzero X hok)]

theorem wire_suffix_length (t ls : List (List Nat)) (h : t <:+ ls) :
    (wire_labels t).length ≤ (wire_labels ls).length := by
  induction ls with
  | nil => rw [List.suffix_nil.mp h]
  | cons l ls ih =>
    rcases List.suffix_cons_iff.mp h with e | hs
    · rw [e]
    · have := ih hs
      simp only [wire_labels, List.length_cons, List.length_append]
      omega

theorem name_entries_fit (kn : List known_name_t) (ls : List (List Nat)) (pos : Nat)
    (h : (wire_labels ls).length + 1 ≤ known_name_area) :
    ∀ e ∈ name_entries kn pos ls, e.name.length + 1 ≤ known_name_area := by
  intro e he
  obtain ⟨t, _, hs, hname, _⟩ := name_entries_mem kn ls pos e he
  rw [hname]
  have := wire_suffix_length t ls hs
  omega

theorem area_ok_append (b b' : dns_buffer) (es : List known_name_t)
    (hk : b'.known_names = b.known_names ++ es) (h : area_ok b)
    (he : ∀ e ∈ es, e.name.length + 1 ≤ known_name_area) : area_ok b' := by
  intro e hm
  rw [hk] at hm
  rcases List.mem_append.mp hm with h1 | h1
  · exact h e h1
  · exact he e h1

theorem write_name_area (b : dns_buffer) (ls : List (List Nat)) (hls : ls ≠ [])
    (hok : ∀ l ∈ ls, label_ok l) (hne : names_nonempty b.known_names)
    (hfit : (dotted ls).length ≤ 62) (harea : area_ok b)
    (hcap : b.pos + (dotted ls).length + 2 ≤ b.capacity) (hreg : b.capacity ≤ b.ptr.length)
    (hlim : b.capacity < 4294967296) :
    area_ok (DNS_buffer_write_DNS_name b (dotted ls)).2 := by
  rw [write_name_eq b ls hls hok hne hcap hreg hlim]
  have hl := dotted_length ls hls
  exact area_ok_append b _ (name_entries b.known_names b.pos ls) rfl harea
    (name_entries_fit _ ls _ (by unfold known_name_area; omega))

set_option maxRecDepth 100000 in
theorem long_pair_overruns :
    (dotted long_pair).length = 81 ∧
    check_capacity (DNS_buffer_create 512) ((dotted long_pair).length + 2) = true ∧
    (∀ i < 2, known_names_find_pos (DNS_buffer_create 512).known_names
      (wire_labels (long_pair.drop i)) = 0xFFFF) ∧
    (known_name_text (DNS_buffer_create 512).known_names
      (wire_labels long_pair ++ [0])).length = 82 ∧
    overruns (DNS_buffer_create 512).known_names (wire_labels long_pair ++ [0]) ∧
    ¬ area_ok (DNS_buffer_write_DNS_name (DNS_buffer_create 512) (dotted long_pair)).2 := by
  decide

/-- C4: compression on encode, for names that fit the known-name area. When
`DNS_buffer_write_DNS_name` encodes a name of labels `ls` of at most 62 octets of text into a
buffer whose known names fit their areas, and the suffix after the first `i` labels is the
first (longest) one the known-name table knows, at offset `p`, the encoder writes the `i`
labels before it in length-prefixed form and then exactly the two octets of the big-endian
value `0xC000 | p`, with no zero octet; when the table knows no suffix it writes every label
followed by one zero octet; every text it registers fits its area. For the name `a{40}.b{40}`
written into a fresh buffer of 512 octets the capacity check passes, no suffix is known, and
the first call of `known_names_append` stores a text of 82 octets, which with its NUL is more
than the 64 octets of the area. -/
theorem name_compression (b : dns_buffer) (ls : List (List Nat)) (hls : ls ≠ [])
    (hok : ∀ l ∈ ls, label_ok l) (hne : names_nonempty b.known_names)
    (hfit : (dotted ls).length ≤ 62) (harea : area_ok b)
    (hcap : b.pos + (dotted ls).length + 2 ≤ b.capacity) (hreg : b.capacity ≤ b.ptr.length)
    (hlim : b.capacity < 4294967296) :
    (∀ i p, i < ls.length →
      (∀ j < i, known_names_find_pos b.known_names (wire_labels (ls.drop j)) = 0xFFFF) →
      known_names_find_pos b.known_names (wire_labels (ls.drop i)) = p → p ≠ 0xFFFF →
      ∃ es, DNS_buffer_write_DNS_name b (dotted ls)
        = (true, register (put b (wire_labels (ls.take i) ++ pointer_octets p)) es)) ∧
    ((∀ i < ls.length,
        known_names_find_pos b.known_names (wire_labels (ls.drop i)) = 0xFFFF) →
      ∃ es, DNS_buffer_write_DNS_name b (dotted ls)
        = (true, register (put b (wire_labels ls ++ [0])) es)) ∧
    area_ok (DNS_buffer_write_DNS_name b (dotted ls)).2 ∧
    ((dotted long_pair).length = 81 ∧
      check_capacity (DNS_buffer_create 512) ((dotted long_pair).length + 2) = true ∧
      (∀ i < 2, known_names_find_pos (DNS_buffer_create 512).known_names
        (wire_labels (long_pair.drop i)) = 0xFFFF) ∧
      (known_name_text (DNS_buffer_create 512).known_names
        (wire_labels long_pair ++ [0])).length = 82 ∧
      overruns (DNS_buffer_create 512).known_names (wire_labels long_pair ++ [0])) := by
  have hw := write_name_eq b ls hls hok hne hcap hreg hlim
  refine ⟨?_, ?_, write_name_area b ls hls hok hne hfit harea hcap hreg hlim, ?_⟩
  · intro i p hi hbefore hat hp
    subst hat
    exact ⟨_, by rw [hw, name_output_first _ _ i hi hbefore hp]⟩
  · intro hnone
    exact ⟨_, by rw [hw, name_output_none _ _ hnone]⟩
  · obtain ⟨h1, h2, h3, h4, h5, _⟩ := long_pair_overruns
    exact ⟨h1, h2, h3, h4, h5⟩

/-- Witness of C4: `mail.baidu.com` written after `www.baidu.com`; the suffix `baidu.com` is
known at offset 4. -/
theorem name_compression_witness :
    known_names_find_pos (DNS_buffer_write_DNS_name (DNS_buffer_create 40)
        (dotted www_baidu_com)).2.known_names (wire_labels (mail_baidu_com.drop 1)) = 4 ∧
    (∃ es, DNS_buffer_write_DNS_name
        (DNS_buffer_write_DNS_name (DNS_buffer_create 40) (dotted www_baidu_com)).2
        (dotted mail_baidu_com)
      = (true, register (put (DNS_buffer_write_DNS_name (DNS_buffer_create 40)
          (dotted www_baidu_com)).2 (wire_labels (mail_baidu_com.take 1) ++ pointer_octets 4))
          es)) ∧
    area_ok (DNS_buffer_write_DNS_name
        (DNS_buffer_write_DNS_name (DNS_buffer_create 40) (dotted www_baidu_com)).2
        (dotted mail_baidu_com)).2 :=
  ⟨by decide,
   (name_compression (DNS_buffer_write_DNS_name (DNS_buffer_create 40)
      (dotted www_baidu_com)).2 mail_baidu_com (by decide) (by decide)
      (by unfold names_nonempty; decide) (by decide) (by decide) (by decide) (by decide)
      (by decide)).1 1 4 (by decide) (by decide) (by decide) (by decide),
   (name_compression (DNS_buffer_write_DNS_name (DNS_buffer_create 40)
      (dotted www_baidu_com)).2 mail_baidu_com (by decide) (by decide)
      (by unfold names_nonempty; decide) (by decide) (by decide) (by decide) (by decide)
      (by decide)).2.2.1⟩

/-- C7: name round trip, for names that fit the known-name area. For a name of `n >= 1`
labels of 1..63 octets and at most 62 octets of text, `DNS_buffer_write_DNS_name` into a
fresh buffer with enough capacity succeeds and writes the length-prefixed labels followed by
a zero octet, and `DNS_buffer_read_DNS_name` over those octets (from position 0, whatever
fitting names the reading buffer already knows) returns the same dotted name, with the
cursor at the end of the written octets; every text registered on the way fits its area.
For the name `a{40}.b{40}` and a fresh buffer of 512 octets the capacity check passes and
the first call of `known_names_append` stores a text of 82 octets, which with its NUL is more
than the 64 octets of the area. -/
theorem name_round_trip (ls : List (List Nat)) (cap : Nat) (hls : ls ≠ [])
    (hok : ∀ l ∈ ls, label_ok l) (hfit : (dotted ls).length ≤ 62)
    (hcap : (dotted ls).length + 2 ≤ cap) (hlim : cap + 256 ≤ 4294967296) :
    (∃ w, DNS_buffer_write_DNS_name (DNS_buffer_create cap) (dotted ls) = (true, w) ∧
      w.pos = (wire_labels ls).length + 1 ∧
      w.ptr.take w.pos = wire_labels ls ++ [0] ∧ area_ok w ∧
      ∀ (kn : List known_name_t) (rcap : Nat),
        (∀ e ∈ kn, e.name.length + 1 ≤ known_name_area) → w.pos ≤ rcap →
        rcap + 256 ≤ 4294967296 →
        ∃ r, DNS_buffer_read_DNS_name (with_known_names (DNS_buffer_from_ptr w.ptr rcap) kn)
          = (some (dotted ls), r) ∧ r.pos = w.pos ∧ area_ok r) ∧
    ((dotted long_pair).length = 81 ∧
      check_capacity (DNS_buffer_create 512) ((dotted long_pair).length + 2) = true ∧
      (known_name_text (DNS_buffer_create 512).known_names
        (wire_labels long_pair ++ [0])).length = 82 ∧
      overruns (DNS_buffer_create 512).known_names (wire_labels long_pair ++ [0])) := by
  have hw := write_name_eq (DNS_buffer_create cap) ls hls hok
    (by intro e he; simp [DNS_buffer_create] at he)
    (by simpa [DNS_buffer_create] using hcap) (by simp [DNS_buffer_create])
    (by simp [DNS_buffer_create]; omega)
  have harea := write_name_area (DNS_buffer_create cap) ls hls hok
    (by intro e he; simp [DNS_buffer_create] at he) hfit
    (by intro e he; simp [DNS_buffer_create] at he)
    (by simpa [DNS_buffer_create] using hcap) (by simp [DNS_buffer_create])
    (by simp [DNS_buffer_create]; omega)
  rw [name_output_none (DNS_buffer_create cap).known_names ls (fun i _ => rfl)] at hw
  have hlen := dotted_length ls hls
  refine ⟨⟨_, hw, by simp [DNS_buffer_create], ?_, by rw [hw] at harea; exact harea, ?_⟩, ?_⟩
  · simp only [register_ptr, register_pos, put_pos, DNS_buffer_create, put, List.take_zero,
      List.nil_append, Nat.zero_add]
    rw [List.take_append_eq_append_take]
    simp
  · intro kn rcap hkn hr hrl
    simp only [register_pos, put_pos, List.length_append, List.length_singleton] at hr
    have hptr : (register (put (DNS_buffer_create cap) (wire_labels ls ++ [0]))
        (name_entries (DNS_buffer_create cap).known_names (DNS_buffer_create cap).pos ls)).ptr
        = wire_labels ls ++ 0 :: (List.replicate cap 0).drop ((wire_labels ls).length + 1) := by
      simp [DNS_buffer_create, put]
    rw [hptr]
    have hread := read_name_zero ls (with_known_names (DNS_buffer_from_ptr (wire_labels ls ++
        0 :: (List.replicate cap 0).drop ((wire_labels ls).length + 1)) rcap) kn)
      ((List.replicate cap 0).drop ((wire_labels ls).length + 1)) hls hok
      (by simp [DNS_buffer_from_ptr, with_known_names])
      (by simp [DNS_buffer_create, DNS_buffer_from_ptr, with_known_names] at hr ⊢; omega)
      (by simpa [DNS_buffer_from_ptr, with_known_names] using hrl)
    refine ⟨_, hread, ?_, ?_⟩
    · simp [DNS_buffer_create, DNS_buffer_from_ptr, with_known_names, adv]
    · exact area_ok_append (with_known_names (DNS_buffer_from_ptr (wire_labels ls ++
          0 :: (List.replicate cap 0).drop ((wire_labels ls).length + 1)) rcap) kn) _
        (name_entries [] 0 ls) rfl hkn
        (name_entries_fit _ ls _ (by unfold known_name_area; omega))
  · obtain ⟨h1, h2, _, h4, h5, _⟩ := long_pair_overruns
    exact ⟨h1, h2, h4, h5⟩

/-- Witness of C7: `www.baidu.com` in a fresh buffer of 20 octets. -/
theorem name_round_trip_witness :
    (∀ l ∈ www_baidu_com, label_ok l) ∧ (dotted www_baidu_com).length + 2 ≤ 20 ∧
    ∃ w, DNS_buffer_write_DNS_name (DNS_buffer_create 20) (dotted www_baidu_com) = (true, w) ∧
      w.pos = (wire_labels www_baidu_com).length + 1 ∧
      w.ptr.take w.pos = wire_labels www_baidu_com ++ [0] ∧ area_ok w ∧
      ∀ (kn : List known_name_t) (rcap : Nat),
        (∀ e ∈ kn, e.name.length + 1 ≤ known_name_area) → w.pos ≤ rcap →
        rcap + 256 ≤ 4294967296 →
        ∃ r, DNS_buffer_read_DNS_name (with_known_names (DNS_buffer_from_ptr w.ptr rcap) kn)
          = (some (dotted www_baidu_com), r) ∧ r.pos = w.pos ∧ area_ok r :=
  ⟨by decide, by decide,
   (name_round_trip www_baidu_com 20 (by decide) (by decide) (by decide) (by decide)
      (by decide)).1⟩

/-- C39: name encoding is all-or-nothing and reserves the uncompressed size, for names that
fit the known-name area. For a well-formed name of at most 62 octets and a message buffer
whose known names fit their areas, `DNS_buffer_write_DNS_name` fails exactly when
`pos + strlen(name) + 2 > capacity`; in that case (for a name of any length) the buffer is
returned as it was; whenever the check passes, the call succeeds and every text it registers
fits its area. The check is on the uncompressed size: in a buffer of 20 octets holding
`www.baidu.com` at 0 (cursor 15) a second write of the name fails although the name is known
and its two pointer octets fit, as the same writes into 32 octets show, which end at 17. For
the name `a{40}.b{40}` and a fresh buffer of 512 octets the check passes, and the first call
of `known_names_append` stores a text of 82 octets, which with its NUL is more than the 64
octets of the area. -/
theorem name_write_all_or_nothing (b : dns_buffer) (name : List Nat) (hn : name_ok name)
    (hfit : name.length ≤ 62) (hb : buffer_ok b) (harea : area_ok b) :
    ((DNS_buffer_write_DNS_name b name).1 = false
      ↔ b.capacity < b.pos + (cstr name).length + 2) ∧
    (∀ name2 : List Nat, b.capacity < b.pos + (cstr name2).length + 2 →
      b.pos + (cstr name2).length + 2 < 4294967296 →
      DNS_buffer_write_DNS_name b name2 = (false, b)) ∧
    (b.pos + (cstr name).length + 2 ≤ b.capacity →
      (DNS_buffer_write_DNS_name b name).1 = true ∧
      area_ok (DNS_buffer_write_DNS_name b name).2) ∧
    (filled_buffer.pos = 15 ∧ filled_buffer.capacity = 20 ∧
      known_names_find_pos filled_buffer.known_names (wire_labels www_baidu_com ++ [0])
        = 0 ∧
      DNS_buffer_write_DNS_name filled_buffer (dotted www_baidu_com)
        = (false, filled_buffer) ∧
      (DNS_buffer_write_DNS_name
        (DNS_buffer_write_DNS_name (DNS_buffer_create 32) (dotted www_baidu_com)).2
        (dotted www_baidu_com)).1 = true ∧
      (DNS_buffer_write_DNS_name
        (DNS_buffer_write_DNS_name (DNS_buffer_create 32) (dotted www_baidu_com)).2
        (dotted www_baidu_com)).2.pos = 17) ∧
    ((dotted long_pair).length = 81 ∧
      check_capacity (DNS_buffer_create 512) ((dotted long_pair).length + 2) = true ∧
      (known_name_text (DNS_buffer_create 512).known_names
        (wire_labels long_pair ++ [0])).length = 82 ∧
      overruns (DNS_buffer_create 512).known_names (wire_labels long_pair ++ [0])) := by
  have hc := name_ok_cstr name hn
  obtain ⟨hpos, hreg, hlim, hne⟩ := hb
  have hcases := write_name_cases b name hn hne hreg hlim (by omega)
  have hsucc : b.pos + (cstr name).length + 2 ≤ b.capacity →
      (DNS_buffer_write_DNS_name b name).1 = true ∧
      area_ok (DNS_buffer_write_DNS_name b name).2 := by
    intro h
    rw [hc] at h
    refine ⟨by rw [hcases.1 h], ?_⟩
    have hd := hn.2.2.2
    have := write_name_area b (strtok_all name) hn.2.1 hn.2.2.1 hne (by rw [← hd]; exact hfit)
      harea (by rw [← hd]; exact h) hreg (by omega)
    rw [← hd] at this
    exact this
  refine ⟨⟨?_, ?_⟩, ?_, hsucc, ?_, ?_⟩
  · intro h
    by_contra hcon
    have := (hsucc (by omega)).1
    rw [this] at h
    exact absurd h (by decide)
  · intro h
    rw [hc] at h
    rw [hcases.2 h]
  · intro name2 h h2
    exact write_name_fail b name2 h h2
  · refine ⟨by decide, by decide, by decide, by decide, by decide, by decide⟩
  · obtain ⟨h1, h2, _, h4, h5, _⟩ := long_pair_overruns
    exact ⟨h1, h2, h4, h5⟩

/-- The encoding theorem at `www.baidu.com`: into a fresh buffer of 15 octets the write
succeeds, into one of 14 octets it fails and returns the buffer as it was. -/
theorem name_write_all_or_nothing_witness :
    (DNS_buffer_write_DNS_name (DNS_buffer_create 15) (dotted www_baidu_com)).1 = true ∧
    DNS_buffer_write_DNS_name (DNS_buffer_create 14) (dotted www_baidu_com)
      = (false, DNS_buffer_create 14) :=
  ⟨((name_write_all_or_nothing (DNS_buffer_create 15) (dotted www_baidu_com) (by decide)
      (by decide) (by unfold buffer_ok names_nonempty; decide) (by decide)).2.2.1
        (by decide)).1,
   (name_write_all_or_nothing (DNS_buffer_create 14) (dotted www_baidu_com) (by decide)
      (by decide) (by unfold buffer_ok names_nonempty; decide) (by decide)).2.1
        (dotted www_baidu_com) (by decide) (by decide)⟩

theorem copy_octets_length (mem : List Nat) : ∀ (n i : Nat), (copy_octets mem i n).length = n := by
  intro n
  induction n with
  | zero => intro i; rfl
  | succ n ih => intro i; simp [copy_octets, ih]

theorem known_name_text_tag (kn : List known_name_t) (t : Nat) (rest : List Nat)
    (h0 : t ≠ 0) (h3 : t >>> 6 ≠ 3) (ht : t < 256) :
    t + 1 ≤ (known_name_text kn (t :: rest)).length := by
  unfold known_name_text
  simp only [known_names_expand, peek_cons_zero, Nat.mod_eq_of_lt ht, h0, h3, if_false,
    List.length_cons, List.length_append, copy_octets_length]
  omega

set_option maxRecDepth 100000 in
/-- C14 (defect): invalid label tags are not rejected. For every length octet `t` in 64..191
at the cursor of a buffer with `t` more octets below the capacity, `DNS_buffer_read_DNS_name`
reads `t`, takes the label branch (its only test is `(t >> 6) != 3 && t != 0`), passes
`check_capacity(buffer, t)` and calls `known_names_append` with a text of at least `t + 1`
octets, which with its NUL is more than the 64 octets of the area; there is no failure
path. On the octet 64 followed by 64 octets `a` and a zero octet the model, which stores the
text whatever its length, goes on and returns the 64 octets as the name. -/
theorem tag_taken_as_length (b : dns_buffer) (t : Nat) (rest : List Nat)
    (ht : 64 ≤ t ∧ t ≤ 191) (hmem : b.ptr.drop b.pos = t :: rest)
    (hroom : b.pos + 1 + t ≤ b.capacity) (hlim : b.capacity < 4294967296) :
    (DNS_buffer_read_u8 b = (some t, adv b 1) ∧ (t >>> 6 ≠ 3 ∧ t ≠ 0) ∧
      check_capacity (adv b 1) t = true ∧
      t + 1 ≤ (known_name_text b.known_names (b.ptr.drop b.pos)).length ∧
      overruns b.known_names (b.ptr.drop b.pos)) ∧
    ((DNS_buffer_read_DNS_name
        (DNS_buffer_from_ptr ([64] ++ List.replicate 64 97 ++ [0]) 66)).1
        = some (List.replicate 64 97) ∧
      ¬ area_ok (DNS_buffer_read_DNS_name
        (DNS_buffer_from_ptr ([64] ++ List.replicate 64 97 ++ [0]) 66)).2) := by
  have h3 : t >>> 6 ≠ 3 := by rw [Nat.shiftRight_eq_div_pow]; omega
  have h0 : t ≠ 0 := by omega
  have htext := known_name_text_tag b.known_names t rest h0 h3 (by omega)
  refine ⟨⟨?_, ⟨h3, h0⟩, ?_, ?_, ?_⟩, by decide, by decide⟩
  · rw [read_u8_eq b (by omega) hlim, peek_of_drop b.ptr b.pos t rest hmem,
      Nat.mod_eq_of_lt (by omega)]
  · rw [check_capacity_eq _ _ (by simp only [adv]; omega)]
    simp only [adv, decide_eq_true_eq]
    omega
  · rw [hmem]; exact htext
  · unfold overruns known_name_area
    rw [hmem]
    omega

set_option maxRecDepth 100000 in
/-- The tag theorem at the octet 64 followed by 64 octets `a` and a zero octet, in a buffer
of 66 octets. -/
theorem tag_taken_as_length_witness :
    DNS_buffer_read_u8 (DNS_buffer_from_ptr ([64] ++ List.replicate 64 97 ++ [0]) 66)
      = (some 64, adv (DNS_buffer_from_ptr ([64] ++ List.replicate 64 97 ++ [0]) 66) 1) ∧
    overruns (DNS_buffer_from_ptr ([64] ++ List.replicate 64 97 ++ [0]) 66).known_names
      ((DNS_buffer_from_ptr ([64] ++ List.replicate 64 97 ++ [0]) 66).ptr.drop
        (DNS_buffer_from_ptr ([64] ++ List.replicate 64 97 ++ [0]) 66).pos) :=
  ⟨(tag_taken_as_length (DNS_buffer_from_ptr ([64] ++ List.replicate 64 97 ++ [0]) 66) 64
      (List.replicate 64 97 ++ [0]) (by decide) (by decide) (by decide) (by decide)).1.1,
   (tag_taken_as_length (DNS_buffer_from_ptr ([64] ++ List.replicate 64 97 ++ [0]) 66) 64
      (List.replicate 64 97 ++ [0]) (by decide) (by decide) (by decide) (by decide)).1.2.2.2.2⟩

set_option maxRecDepth 100000 in
/-- C15 (defect): over-long names are not rejected. For a sequence of labels of 1..63 octets
that takes more than 255 octets on the wire (with its zero octet) and lies below the
capacity, `DNS_buffer_read_DNS_name` reads the first length octet, takes the label branch,
passes the capacity check and calls `known_names_append` with the whole wire text of the
name, which is more than the 64 octets of the area: the code counts nothing but the capacity
of the message buffer and has no test of the length of a name. On five labels of 63 octets
(321 octets) the model, which stores the text whatever its length, goes on and returns the
name of 319 octets. -/
theorem long_name_not_rejected (b : dns_buffer) (l : List Nat) (ls : List (List Nat))
    (post : List Nat) (hok : ∀ x ∈ l :: ls, label_ok x)
    (hlong : 255 < (wire_labels (l :: ls)).length + 1)
    (hmem : b.ptr.drop b.pos = wire_labels (l :: ls) ++ 0 :: post)
    (hcap : b.pos + (wire_labels (l :: ls)).length + 1 ≤ b.capacity)
    (hlim : b.capacity < 4294967296) :
    (DNS_buffer_read_u8 b = (some l.length, adv b 1) ∧ (l.length >>> 6 ≠ 3 ∧ l.length ≠ 0) ∧
      check_capacity (adv b 1) l.length = true ∧
      known_name_text b.known_names (b.ptr.drop b.pos) = wire_labels (l :: ls) ∧
      overruns b.known_names (b.ptr.drop b.pos)) ∧
    ((wire_labels long_labels ++ [0]).length = 321 ∧
      (DNS_buffer_read_DNS_name (DNS_buffer_from_ptr (wire_labels long_labels ++ [0]) 321)).1
        = some (dotted long_labels) ∧
      (dotted long_labels).length = 319 ∧
      ¬ area_ok (DNS_buffer_read_DNS_name
        (DNS_buffer_from_ptr (wire_labels long_labels ++ [0]) 321)).2) := by
  obtain ⟨h1, h2, _⟩ := hok l (by simp)
  have h3 : l.length >>> 6 ≠ 3 := by rw [Nat.shiftRight_eq_div_pow]; omega
  have h0 : l.length ≠ 0 := by omega
  have hwl : (wire_labels (l :: ls)).length = 1 + l.length + (wire_labels ls).length := by
    simp only [wire_labels, List.length_cons, List.length_append]; omega
  have htext : known_name_text b.known_names (b.ptr.drop b.pos) = wire_labels (l :: ls) := by
    unfold known_name_text
    rw [hmem]
    exact known_names_expand_wire _ (l :: ls) _ post hok (by
      have := length_le_wire (l :: ls)
      simp only [List.length_append, List.length_cons] at this ⊢
      omega)
  refine ⟨⟨?_, ⟨h3, h0⟩, ?_, htext, ?_⟩, by decide, by decide, by decide, by decide⟩
  · rw [read_u8_eq b (by omega) hlim,
      peek_of_drop b.ptr b.pos l.length (l ++ wire_labels ls ++ 0 :: post)
        (by rw [hmem]; simp [wire_labels]),
      Nat.mod_eq_of_lt (by omega)]
  · rw [check_capacity_eq _ _ (by simp only [adv]; omega)]
    simp only [adv, decide_eq_true_eq]
    omega
  · unfold overruns known_name_area
    rw [htext]
    omega

set_option maxRecDepth 100000 in
/-- The long-name theorem at five labels of 63 octets in a buffer of 321 octets. -/
theorem long_name_not_rejected_witness :
    known_name_text (DNS_buffer_from_ptr (wire_labels long_labels ++ [0]) 321).known_names
        ((DNS_buffer_from_ptr (wire_labels long_labels ++ [0]) 321).ptr.drop
          (DNS_buffer_from_ptr (wire_labels long_labels ++ [0]) 321).pos)
      = wire_labels (List.replicate 63 97 :: List.replicate 4 (List.replicate 63 97)) ∧
    overruns (DNS_buffer_from_ptr (wire_labels long_labels ++ [0]) 321).known_names
        ((DNS_buffer_from_ptr (wire_labels long_labels ++ [0]) 321).ptr.drop
          (DNS_buffer_from_ptr (wire_labels long_labels ++ [0]) 321).pos) :=
  ⟨(long_name_not_rejected (DNS_buffer_from_ptr (wire_labels long_labels ++ [0]) 321)
      (List.replicate 63 97) (List.replicate 4 (List.replicate 63 97)) [] (by decide)
      (by decide) (by decide) (by decide) (by decide)).1.2.2.2.1,
   (long_name_not_rejected (DNS_buffer_from_ptr (wire_labels long_labels ++ [0]) 321)
      (List.replicate 63 97) (List.replicate 4 (List.replicate 63 97)) [] (by decide)
      (by decide) (by decide) (by decide) (by decide)).1.2.2.2.2⟩

/-- C19 (defect): NXDOMAIN finalization. For a request all of whose questions have a
supported type and class IN, the response that `DNS_query_create_response` returns has RCODE
3 or 0, and when each of its sections holds fewer than 65536 records it has RCODE 3 exactly
when the answer, authority and additional sections are all empty. The closing test reads the
16-bit counts and not the lists: against a table with 65536 rows `x A 1.2.3.4` the request
for `x A IN` gets 65536 answers, the answer count has wrapped to 0 and the RCODE is 3 with a
non-empty answer section. -/
theorem nxdomain_finalization (table : List dns_rr_t) (fuel : Nat)
    (request r : dns_packet_t) (hs : ∀ q ∈ request.queries, supported q = true)
    (h : DNS_query_create_response table fuel request = some r) :
    (r.header.rcode = 3 ∨ r.header.rcode = 0) ∧
    (r.answers.length < 65536 → r.authorities.length < 65536 →
      r.additionals.length < 65536 →
      (r.header.rcode = 3 ↔ r.answers = [] ∧ r.authorities = [] ∧ r.additionals = [])) ∧
    (∃ r2, DNS_query_create_response (List.replicate 65536 wide_row) 0 wide_request = some r2 ∧
      r2.header.rcode = 3 ∧ r2.answers.length = 65536 ∧ r2.answers ≠ []) := by
  obtain ⟨_, h2, h3⟩ := rcode_of_counts table fuel request r hs h
  exact ⟨h2, h3, nxdomain_with_answers⟩

/-- The finalization theorem at `studio.baidu.com A` against the table `s2`, which has no
record for that name: RCODE 3 and three empty sections. -/
theorem nxdomain_finalization_witness :
    ∃ r, DNS_query_create_response zone_s2 4 (request_of 0 [question "studio.baidu.com" 1])
        = some r ∧ r.header.rcode = 3 ∧
      (r.answers.length < 65536 → r.authorities.length < 65536 →
        r.additionals.length < 65536 →
        (r.header.rcode = 3 ↔ r.answers = [] ∧ r.authorities = [] ∧ r.additionals = [])) :=
  ⟨_, rfl, by decide,
   (nxdomain_finalization zone_s2 4 (request_of 0 [question "studio.baidu.com" 1]) _
     (by decide) rfl).2.1⟩

theorem expand_output (N : List (List Nat)) (hN : ∀ l ∈ N, label_ok l)
    (hNb : (wire_labels N).length ≤ 255) (X : List (List Nat)) :
    ∀ (fuel : Nat) (post : List Nat) (es : List known_name_t),
      (∀ l ∈ X, label_ok l) → (name_output (name_entries [] 0 N) X).length ≤ fuel →
      known_names_expand (name_entries [] 0 N ++ es) fuel
        (name_output (name_entries [] 0 N) X ++ post) = wire_labels X := by
  induction X with
  | nil =>
    intro fuel post es _ hf
    obtain ⟨f, rfl⟩ : ∃ f, fuel = f + 1 := ⟨fuel - 1, by simp [name_output] at hf; omega⟩
    simp [known_names_expand, name_output, wire_labels, peek_cons_zero]
  | cons l ls ih =>
    intro fuel post es hok hf
    obtain ⟨f, rfl⟩ : ∃ f, fuel = f + 1 := ⟨fuel - 1, by
      unfold name_output at hf
      split at hf
      · simp [pointer_octets] at hf; omega
      · simp at hf; omega⟩
    unfold name_output at hf ⊢
    by_cases hq : known_names_find_pos (name_entries [] 0 N) (wire_labels (l :: ls)) ≠ 0xFFFF
    · rw [if_pos hq]
      obtain ⟨_, hlt, t, hfind, hcs, htok⟩ := find_name_entries N 0 (wire_labels (l :: ls)) _
        hN (by omega) rfl hq
      have hq256 : known_names_find_pos (name_entries [] 0 N) (wire_labels (l :: ls)) < 256 := by
        omega
      rw [pointer_octets_low _ hq256]
      have ht : wire_labels t = wire_labels (l :: ls) := by
        rw [cstr_of_nonzero _ (wire_labels_nonzero _ hok),
          cstr_of_nonzero _ (wire_labels_nonzero _ htok)] at hcs
        exact hcs.symm
      have hwo := wire_offset_low _ hq256
      unfold wire_offset at hwo
      have hp1 : peek ([192, known_names_find_pos (name_entries [] 0 N)
          (wire_labels (l :: ls))] ++ post) 1
          = known_names_find_pos (name_entries [] 0 N) (wire_labels (l :: ls)) := by
        show _ % 256 = _
        exact Nat.mod_eq_of_lt hq256
      simp only [known_names_expand]
      rw [hp1]
      simp only [List.cons_append, List.nil_append, peek_cons_zero,
        show (192 : Nat) % 256 = 192 from rfl, show ¬ ((192 : Nat) = 0) by decide,
        show (192 : Nat) >>> 6 = 3 from rfl, if_false, if_true]
      rw [hwo, find_name_append _ es _ _ hfind]
      simp only
      rw [cstr_of_nonzero _ (wire_labels_nonzero _ htok), ht]
    · rw [if_neg hq]
      obtain ⟨h1, h2, h3⟩ := hok l (by simp)
      have htag : l.length % 256 = l.length := Nat.mod_eq_of_lt (by omega)
      have hne : l.length ≠ 0 := by omega
      have hsh : l.length >>> 6 ≠ 3 := by
        rw [Nat.shiftRight_eq_div_pow]; omega
      simp only [known_names_expand, wire_labels, List.cons_append, peek_cons_zero, htag, hne,
        hsh, if_false]
      have hcopy : copy_octets (l.length :: (l ++ name_output (name_entries [] 0 N) ls ++ post))
          1 l.length = l := by
        have := copy_octets_eq l (fun c hc => (h3 c hc).2.2) [l.length]
          (name_output (name_entries [] 0 N) ls ++ post)
        simpa using this
      have hdrop : List.drop (l.length + 1)
          (l.length :: (l ++ name_output (name_entries [] 0 N) ls ++ post))
          = name_output (name_entries [] 0 N) ls ++ post := by
        simp
      simp only [List.append_assoc] at hcopy hdrop ⊢
      rw [if_neg hq] at hf
      rw [hcopy, hdrop, ih f post es (fun x hx => hok x (by simp [hx])) (by
        simp only [List.length_cons, List.length_append] at hf; omega)]

theorem read_name_loop_output_area (N : List (List Nat)) (hN : ∀ l ∈ N, label_ok l)
    (hNb : (wire_labels N).length ≤ 255) (X : List (List Nat)) :
    ∀ (fuel : Nat) (b : dns_buffer) (acc post : List Nat) (es : List known_name_t),
      (∀ l ∈ X, label_ok l) → b.known_names = name_entries [] 0 N ++ es →
      b.ptr.drop b.pos = name_output (name_entries [] 0 N) X ++ post →
      b.pos + (name_output (name_entries [] 0 N) X).length ≤ b.capacity →
      b.capacity + 256 ≤ 4294967296 → X.length < fuel →
      ∃ es2, (read_name_loop fuel b acc).2.known_names = b.known_names ++ es2 ∧
        ∀ e ∈ es2, e.name.length ≤ (wire_labels X).length := by
  induction X with
  | nil =>
    intro fuel b acc post es _ _ hmem hroom hlim hf
    obtain ⟨f, rfl⟩ : ∃ f, fuel = f + 1 := ⟨fuel - 1, by omega⟩
    simp only [name_output, List.singleton_append, List.length_singleton] at hmem hroom
    simp only [read_name_loop]
    rw [read_u8_eq b (by omega) (by omega), peek_of_drop b.ptr b.pos 0 post hmem]
    exact ⟨[], by simp [adv], by simp⟩
  | cons l ls ih =>
    intro fuel b acc post es hok hkn hmem hroom hlim hf
    obtain ⟨f, rfl⟩ : ∃ f, fuel = f + 1 := ⟨fuel - 1, by simp at hf; omega⟩
    have hok' : ∀ x ∈ ls, label_ok x := fun x hx => hok x (by simp [hx])
    have hexp := expand_output N hN hNb (l :: ls) ((b.ptr.drop b.pos).length + 1) post es hok
    unfold name_output at hmem hroom hexp
    by_cases hq : known_names_find_pos (name_entries [] 0 N) (wire_labels (l :: ls)) ≠ 0xFFFF
    · rw [if_pos hq] at hmem hroom
      obtain ⟨_, hlt, t, hfind, hcs, htok⟩ := find_name_entries N 0 (wire_labels (l :: ls)) _
        hN (by omega) rfl hq
      have hq256 : known_names_find_pos (name_entries [] 0 N) (wire_labels (l :: ls)) < 256 := by
        omega
      rw [pointer_octets_low _ hq256] at hmem hroom
      simp only [List.length_cons, List.length_nil] at hroom
      have hp0 : peek b.ptr b.pos = 192 :=
        peek_of_drop b.ptr b.pos 192 _ (by rw [hmem]; rfl)
      rw [read_name_loop_pointer b acc f (by omega) (by omega) (by rw [hp0]; decide)]
      exact ⟨[], by simp [adv], by simp⟩
    · rw [if_neg hq] at hmem hroom hexp
      have hmem1 : b.ptr.drop b.pos
          = [l.length] ++ (l ++ (name_output (name_entries [] 0 N) ls ++ post)) := by
        rw [hmem]; simp
      simp only [List.length_cons, List.length_append] at hroom
      rw [read_name_loop_step l _ b acc f (label_ok_tag_ok l (hok l (by simp)))
        (agrees_of_drop b _ hmem1) (by omega) hlim]
      have hd2 : b.ptr.drop (b.pos + (1 + l.length))
          = name_output (name_entries [] 0 N) ls ++ post := by
        have h1 := drop_add_of_drop b.ptr b.pos [l.length] _ hmem1
        have h2 := drop_add_of_drop b.ptr (b.pos + 1) l _ h1
        rw [← Nat.add_assoc]
        exact h2
      obtain ⟨es2, hk2, hfit2⟩ := ih f
        (adv (known_names_append (adv b 1) (b.ptr.drop b.pos) b.pos) l.length)
        (acc ++ l ++ [46]) post
        (es ++ [known_name_t.mk (known_names_expand b.known_names
          ((b.ptr.drop b.pos).length + 1) (b.ptr.drop b.pos)) (b.pos % 65536)])
        hok'
        (by simp only [adv, known_names_append, hkn, List.append_assoc])
        (by simpa only [adv, known_names_append, Nat.add_assoc] using hd2)
        (by simp only [adv, known_names_append]; omega)
        (by simpa only [adv, known_names_append] using hlim) (by simp at hf; omega)
      have hname : known_names_expand b.known_names ((b.ptr.drop b.pos).length + 1)
          (b.ptr.drop b.pos) = wire_labels (l :: ls) := by
        rw [hkn, hmem]
        rw [hmem] at hexp
        exact hexp (by
          simp only [List.length_cons, List.length_append]
          omega)
      refine ⟨known_name_t.mk (known_names_expand b.known_names
          ((b.ptr.drop b.pos).length + 1) (b.ptr.drop b.pos)) (b.pos % 65536) :: es2, ?_, ?_⟩
      · rw [hk2]
        simp only [adv, known_names_append, List.append_assoc, List.singleton_append]
      · intro e he
        rcases List.mem_cons.mp he with rfl | h2
        · show (known_names_expand _ _ _).length ≤ _
          rw [hname]
        · have := hfit2 e h2
          simp only [wire_labels, List.length_cons, List.length_append]
          omega

theorem read_name_state (b : dns_buffer) :
    (DNS_buffer_read_DNS_name b).2 = (read_name_loop (b.capacity + 1) b []).2 := by
  unfold DNS_buffer_read_DNS_name
  rcases read_name_loop (b.capacity + 1) b [] with ⟨_ | acc, b1⟩ <;> rfl

theorem read_name_output_area (N : List (List Nat)) (hN : ∀ l ∈ N, label_ok l)
    (hNb : (wire_labels N).length ≤ 255) (X : List (List Nat)) (b : dns_buffer)
    (post : List Nat) (es : List known_name_t) (hok : ∀ l ∈ X, label_ok l)
    (hXb : (wire_labels X).length + 1 ≤ known_name_area)
    (hkn : b.known_names = name_entries [] 0 N ++ es) (harea : area_ok b)
    (hmem : b.ptr.drop b.pos = name_output (name_entries [] 0 N) X ++ post)
    (hroom : b.pos + (name_output (name_entries [] 0 N) X).length ≤ b.capacity)
    (hlim : b.capacity + 256 ≤ 4294967296) :
    area_ok (DNS_buffer_read_DNS_name b).2 := by
  obtain ⟨es2, hk, hfit⟩ := read_name_loop_output_area N hN hNb X (X.length + b.capacity + 1)
    b [] post es hok hkn hmem hroom hlim (by omega)
  rw [read_name_state, read_name_loop_fuel (b.capacity + 1) (X.length + b.capacity + 1) b []
    (by omega) (by omega) (by omega) (by omega)]
  exact area_ok_append b _ es2 hk harea (fun e he => by
    have := hfit e he
    omega)

theorem read_RR_MX (N X : List (List Nat)) (c ttl p : Nat) (post : List Nat)
    (b : dns_buffer) (hNne : N ≠ []) (hN : ∀ l ∈ N, label_ok l)
    (hNb : (wire_labels N).length + 1 ≤ known_name_area) (hXne : X ≠ [])
    (hX : ∀ l ∈ X, label_ok l) (hXb : (wire_labels X).length + 1 ≤ known_name_area)
    (hc : c < 65536) (httl : ttl < 4294967296) (hp : p < 65536)
    (hpos : b.pos = 0) (hkn : b.known_names = [])
    (hmem : b.ptr = wire_labels N ++ 0 :: (be16 15 ++ (be16 c ++ (be32 ttl ++
      (be16 (2 + (name_output (name_entries [] 0 N) X).length) ++ (be16 p ++
        (name_output (name_entries [] 0 N) X ++ post)))))))
    (hroom : (wire_labels N).length + 13 + (name_output (name_entries [] 0 N) X).length
      ≤ b.capacity)
    (hlim : b.capacity ≤ 65535) :
    ∃ b', DNS_buffer_read_RR b
        = (some { name := dotted N, type := 15, class_ := c, ttl := ttl,
                  length := 2 + (name_output (name_entries [] 0 N) X).length,
                  data := sprintf_hd_s p (dotted X) }, b') ∧
      b'.pos = (wire_labels N).length + 13 + (name_output (name_entries [] 0 N) X).length ∧
      area_ok b' := by
  have hN255 : (wire_labels N).length ≤ 255 := by unfold known_name_area at hNb; omega
  have hd0 : b.ptr.drop b.pos = wire_labels N ++ 0 :: (be16 15 ++ (be16 c ++ (be32 ttl ++
      (be16 (2 + (name_output (name_entries [] 0 N) X).length) ++ (be16 p ++
        (name_output (name_entries [] 0 N) X ++ post)))))) := by
    rw [hpos, List.drop_zero, hmem]
  have hd1 : b.ptr.drop ((wire_labels N).length + 1) = be16 15 ++ (be16 c ++ (be32 ttl ++
      (be16 (2 + (name_output (name_entries [] 0 N) X).length) ++ (be16 p ++
        (name_output (name_entries [] 0 N) X ++ post))))) := by
    have := drop_add_of_drop b.ptr 0 (wire_labels N ++ [0]) (be16 15 ++ (be16 c ++
      (be32 ttl ++ (be16 (2 + (name_output (name_entries [] 0 N) X).length) ++ (be16 p ++
        (name_output (name_entries [] 0 N) X ++ post)))))) (by
      rw [List.drop_zero, hmem]; simp)
    simpa using this
  have hd2 := drop_add_of_drop b.ptr _ _ _ hd1
  have hd3 := drop_add_of_drop b.ptr _ _ _ hd2
  have hd4 := drop_add_of_drop b.ptr _ _ _ hd3
  have hd5 := drop_add_of_drop b.ptr _ _ _ hd4
  have hd6 := drop_add_of_drop b.ptr _ _ _ hd5
  simp only [be16, be32, List.length_cons, List.length_nil] at hd2 hd3 hd4 hd5 hd6
  have hread1 := read_name_zero N b _ hNne hN hd0 (by omega) (by omega)
  rw [hpos, hkn, List.nil_append] at hread1
  obtain ⟨b7, hread7, hm7⟩ := read_name_output N hN hN255 X
    (adv (adv (adv (adv (adv (with_known_names (adv b ((wire_labels N).length + 1))
      (name_entries [] 0 N)) 2) 2) 4) 2) 2) post [] hXne hX
    (by simp [adv, with_known_names])
    (by simpa [adv, with_known_names, hpos, Nat.add_assoc] using hd6)
    (by simp only [adv, with_known_names, hpos]; omega)
    (by simp only [adv, with_known_names]; omega)
  have ha7 := read_name_output_area N hN hN255 X
    (adv (adv (adv (adv (adv (with_known_names (adv b ((wire_labels N).length + 1))
      (name_entries [] 0 N)) 2) 2) 4) 2) 2) post [] hX hXb
    (by simp [adv, with_known_names])
    (by
      intro e he
      exact name_entries_fit [] N 0 hNb e (by simpa [adv, with_known_names] using he))
    (by simpa [adv, with_known_names, hpos, Nat.add_assoc] using hd6)
    (by simp only [adv, with_known_names, hpos]; omega)
    (by simp only [adv, with_known_names]; omega)
  rw [hread7] at ha7
  refine ⟨b7, ?_, ?_, ha7⟩
  · unfold DNS_buffer_read_RR
    rw [hread1]
    dsimp only
    rw [read_u16_drop _ 15 _ (by simpa [adv, with_known_names, hpos] using hd1) (by omega)
      (by simp only [adv, with_known_names, hpos]; omega)
      (by simp only [adv, with_known_names]; omega)]
    dsimp only
    rw [read_u16_drop _ c _ (by simpa [adv, with_known_names, hpos, be16] using hd2) hc
      (by simp only [adv, with_known_names, hpos]; omega)
      (by simp only [adv, with_known_names]; omega)]
    dsimp only
    rw [read_u32_drop _ ttl _ (by simpa [adv, with_known_names, hpos, be16, be32] using hd3)
      httl (by simp only [adv, with_known_names, hpos]; omega)
      (by simp only [adv, with_known_names]; omega)]
    dsimp only
    have hL : 2 + (name_output (name_entries [] 0 N) X).length < 65536 := by omega
    rw [read_u16_drop _ (2 + (name_output (name_entries [] 0 N) X).length) _
      (by simpa [adv, with_known_names, hpos, be16, be32, Nat.add_assoc] using hd4) hL
      (by simp only [adv, with_known_names, hpos]; omega)
      (by simp only [adv, with_known_names]; omega)]
    dsimp only
    rw [check_capacity_eq _ _ (by simp only [adv, with_known_names, hpos]; omega)]
    have hcc : (adv (adv (adv (adv (with_known_names (adv b ((wire_labels N).length + 1))
        (name_entries [] 0 N)) 2) 2) 4) 2).pos
          + (2 + (name_output (name_entries [] 0 N) X).length)
        ≤ (adv (adv (adv (adv (with_known_names (adv b ((wire_labels N).length + 1))
          (name_entries [] 0 N)) 2) 2) 4) 2).capacity := by
      simp only [adv, with_known_names, hpos]; omega
    simp only [hcc, decide_True, Bool.not_true, Bool.false_eq_true, if_false]
    have hdata : read_RR_data (adv (adv (adv (adv (with_known_names
        (adv b ((wire_labels N).length + 1)) (name_entries [] 0 N)) 2) 2) 4) 2) 15
        (2 + (name_output (name_entries [] 0 N) X).length)
        = (some (sprintf_hd_s p (dotted X)), b7) := by
      unfold read_RR_data
      rw [if_neg (by decide), if_pos rfl]
      rw [read_u16_drop _ p _
        (by simpa [adv, with_known_names, hpos, be16, be32, Nat.add_assoc] using hd5) hp
        (by simp only [adv, with_known_names, hpos]; omega)
        (by simp only [adv, with_known_names]; omega)]
      dsimp only
      rw [hread7]
    rw [hdata]
    dsimp only
    have hp7 : (b7.pos + 4294967296 - (adv (adv (adv (adv (with_known_names
        (adv b ((wire_labels N).length + 1)) (name_entries [] 0 N)) 2) 2) 4) 2).pos)
          % 4294967296 = 2 + (name_output (name_entries [] 0 N) X).length := by
      rw [hm7.2.2]
      simp only [adv, with_known_names, hpos]
      omega
    simp only [hp7, ne_eq, not_true_eq_false, if_false]
  · rw [hm7.2.2]
    simp only [adv, with_known_names, hpos]
    omega

theorem enc_MX_record (r : dns_rr_t) (p : Nat) (x : List Nat) (hp : p < 65536)
    (hn : name_ok r.name) (hx : name_ok x) (hsp : ∀ c ∈ x, isspace c = false)
    (ht : r.type = 15) (hdata : r.data = dec_text p ++ 44 :: x) :
    (enc_rr [] 0 r).1
      = wire_labels (strtok_all r.name) ++ 0 :: (be16 15 ++ (be16 r.class_ ++ (be32 r.ttl ++
          (be16 (2 + (name_output (name_entries [] 0 (strtok_all r.name))
              (strtok_all x)).length) ++ (be16 p ++
            name_output (name_entries [] 0 (strtok_all r.name)) (strtok_all x)))))) ∧
    rdata_ok 15 r.data ∧
    ∃ q, (enc_rr [] 0 r).2 = name_entries [] 0 (strtok_all r.name)
      ++ name_entries (name_entries [] 0 (strtok_all r.name)) q (strtok_all x) := by
  have hxz : ∀ c ∈ x, c ≠ 0 := by
    rw [hx.2.2.2]
    exact dotted_nonzero _ hx.2.2.1
  have hxne : x ≠ [] := by
    intro h
    have := hx.2.1
    rw [h] at this
    exact this (by decide)
  have hs := sscanf_canonical p x hp hxne hxz hsp
  have hcn := name_ok_cstr r.name hn
  have hcx := name_ok_cstr x hx
  have hN : (enc_name [] 0 r.name) = (wire_labels (strtok_all r.name) ++ [0],
      name_entries [] 0 (strtok_all r.name)) := by
    unfold enc_name
    rw [hcn, name_output_none [] _ (fun i _ => rfl), List.nil_append]
  have hR : ∀ kn pos, (enc_rdata kn pos 15 r.data).1
      = be16 p ++ name_output kn (strtok_all x) := by
    intro kn pos
    unfold enc_rdata
    rw [hdata, hs]
    simp only [show (15 : Nat) % 65536 = 15 from rfl, show ¬ ((15 : Nat) = 1) by decide,
      if_false, if_true, enc_name, hcx]
  have hR2 : ∀ kn pos, (enc_rdata kn pos 15 r.data).2
      = kn ++ name_entries kn (pos + 2) (strtok_all x) := by
    intro kn pos
    unfold enc_rdata
    rw [hdata, hs]
    simp only [show (15 : Nat) % 65536 = 15 from rfl, show ¬ ((15 : Nat) = 1) by decide,
      if_false, if_true, enc_name, hcx]
  refine ⟨?_, ?_, ⟨0 + (wire_labels (strtok_all r.name) ++ [0]).length + 10 + 2, by
    unfold enc_rr; simp only [hN, ht, hR2]⟩⟩
  · unfold enc_rr
    simp only [hN, ht, hR]
    have hl : ∀ E : List Nat, (be16 p ++ E).length = 2 + E.length := by
      intro E
      simp only [be16, List.length_append, List.length_cons, List.length_nil]
    rw [hl]
    simp only [List.append_assoc, List.singleton_append, List.cons_append, List.nil_append]
  · unfold rdata_ok
    rw [hdata, hs]
    simp only [show ¬ ((15 : Nat) = 1) by decide, if_false, if_true]
    exact hx

theorem take_put_fresh (cap : Nat) (out : List Nat) :
    (put (DNS_buffer_create cap) out).ptr
      = out ++ (List.replicate cap 0).drop out.length := by
  simp [put, DNS_buffer_create]

theorem write_read_MX (cap : Nat) (r : dns_rr_t) (w : dns_buffer) (p : Nat)
    (x : List Nat) (hp : p ≤ 65535) (hn : name_ok r.name) (hnf : r.name.length ≤ 62)
    (hx : name_ok x) (hxf : x.length ≤ 62)
    (hsp : ∀ c ∈ x, isspace c = false) (hc : r.class_ < 65536) (httl : r.ttl < 4294967296)
    (ht : r.type = 15) (hdata : r.data = dec_text p ++ 44 :: x) (hcap : cap ≤ 65535)
    (h : DNS_buffer_write_RR (DNS_buffer_create cap) r = (true, w)) :
    w.ptr.take w.pos
      = wire_labels (strtok_all r.name) ++ [0] ++ be16 15 ++ be16 r.class_ ++ be32 r.ttl ++
          be16 (2 + (name_output (name_entries [] 0 (strtok_all r.name))
            (strtok_all x)).length) ++ be16 p ++
          name_output (name_entries [] 0 (strtok_all r.name)) (strtok_all x) ∧
    area_ok w ∧
    ∀ rcap, w.pos ≤ rcap → rcap ≤ 65535 →
      ∃ rr b2, DNS_buffer_read_RR (DNS_buffer_from_ptr w.ptr rcap) = (some rr, b2) ∧
        rr.name = r.name ∧ rr.type = 15 ∧ rr.class_ = r.class_ ∧ rr.ttl = r.ttl ∧
        rr.data = sprintf_hd_s p x ∧ (p ≤ 32767 → rr.data = r.data) ∧ b2.pos = w.pos ∧
        area_ok b2 := by
  obtain ⟨henc, hrd, q, htab⟩ := enc_MX_record r p x (by omega) hn hx hsp ht hdata
  have hr : rr_ok r := ⟨hn, by rw [ht]; decide, hc, httl, by rw [ht]; exact hrd⟩
  have hb : buffer_ok (DNS_buffer_create cap) :=
    ⟨by simp [DNS_buffer_create], by simp [DNS_buffer_create],
      by simpa [DNS_buffer_create] using hcap,
      by intro e he; simp [DNS_buffer_create] at he⟩
  obtain ⟨e, hroom⟩ := write_RR_true (DNS_buffer_create cap) r w hr hb h
  have hkn0 : (DNS_buffer_create cap).known_names = [] := rfl
  have hp0 : (DNS_buffer_create cap).pos = 0 := rfl
  rw [hkn0, hp0] at e hroom
  have hwptr : w.ptr = (enc_rr [] 0 r).1 ++ (List.replicate cap 0).drop (enc_rr [] 0 r).1.length := by
    rw [e]
    exact take_put_fresh cap _
  have hwpos : w.pos = (enc_rr [] 0 r).1.length := by
    rw [e]
    simp [put, with_known_names, DNS_buffer_create]
  have hlen : (enc_rr [] 0 r).1.length = (wire_labels (strtok_all r.name)).length + 13
      + (name_output (name_entries [] 0 (strtok_all r.name)) (strtok_all x)).length := by
    rw [henc]
    simp only [be16, be32, List.length_cons, List.length_nil, List.length_append]
    omega
  have hxz : ∀ c ∈ x, c ≠ 0 := by
    rw [hx.2.2.2]
    exact dotted_nonzero _ hx.2.2.1
  have hNb : (wire_labels (strtok_all r.name)).length + 1 ≤ known_name_area := by
    have h3 := dotted_length (strtok_all r.name) hn.2.1
    rw [← hn.2.2.2] at h3
    unfold known_name_area
    omega
  have hXb : (wire_labels (strtok_all x)).length + 1 ≤ known_name_area := by
    have h3 := dotted_length (strtok_all x) hx.2.1
    rw [← hx.2.2.2] at h3
    unfold known_name_area
    omega
  refine ⟨?_, ?_, ?_⟩
  · rw [hwptr, hwpos, List.take_left, henc]
    simp only [List.append_assoc, List.singleton_append, List.cons_append, List.nil_append]
  · intro e0 he0
    rw [e] at he0
    have he1 : e0 ∈ (enc_rr [] 0 r).2 := he0
    rw [htab] at he1
    rcases List.mem_append.mp he1 with h1 | h1
    · exact name_entries_fit _ _ _ hNb e0 h1
    · exact name_entries_fit _ _ _ hXb e0 h1
  · intro rcap h1 h2
    obtain ⟨b2, hread, hpos2, harea2⟩ := read_RR_MX (strtok_all r.name) (strtok_all x)
      r.class_ r.ttl p ((List.replicate cap 0).drop (enc_rr [] 0 r).1.length)
      (DNS_buffer_from_ptr w.ptr rcap) hn.2.1 hn.2.2.1 hNb hx.2.1 hx.2.2.1 hXb hc httl
      (by omega)
      rfl rfl
      (by
        show w.ptr = _
        rw [hwptr, henc]
        simp only [List.append_assoc, List.singleton_append, List.cons_append,
          List.nil_append])
      (by
        show _ ≤ rcap
        rw [← hlen, ← hwpos]
        exact h1)
      h2
    refine ⟨_, b2, hread, hn.2.2.2.symm, rfl, rfl, rfl, ?_, ?_, ?_, harea2⟩
    · show sprintf_hd_s p (dotted (strtok_all x)) = sprintf_hd_s p x
      rw [← hx.2.2.2]
    · intro hp2
      show sprintf_hd_s p (dotted (strtok_all x)) = r.data
      rw [← hx.2.2.2, sprintf_canonical p x (by omega) hxz, hdata]
    · rw [hpos2, hwpos, hlen]

theorem dec_text_40000 : dec_text 40000 = [52, 48, 48, 48, 48] := by
  simp [dec_text, dec_text_aux]

theorem dec_text_25536 : dec_text 25536 = [50, 53, 53, 51, 54] := by
  simp [dec_text, dec_text_aux]

set_option maxRecDepth 100000 in
theorem high_mx_read :
    (DNS_buffer_read_RR (DNS_buffer_from_ptr
        (DNS_buffer_write_RR (DNS_buffer_create 64) high_mx).2.ptr 64)).1.map
          (fun rr => rr.data)
      = some [45, 50, 53, 53, 51, 54, 44, 120] := by
  obtain ⟨_, _, h2⟩ := write_read_MX 64 high_mx
    (DNS_buffer_write_RR (DNS_buffer_create 64) high_mx).2 40000 [120] (by decide) (by decide)
    (by decide) (by decide) (by decide) (by decide) (by decide) (by decide) (by decide)
    (by rw [dec_text_40000]; rfl) (by decide) (Prod.ext (by decide) rfl)
  obtain ⟨rr, b2, h3, _, _, _, _, h4, _, _⟩ := h2 64 (by decide) (by decide)
  rw [h3]
  simp only [Option.map_some', h4]
  rw [sprintf_negative 40000 [120] (by decide) (by decide) (by decide)]
  simp only [show 65536 - 40000 = 25536 from rfl, dec_text_25536]
  rfl

set_option maxRecDepth 100000 in
/-- Three MX records whose data text does not come back. For `a MX 40000,x` the preference
octets `9C 40` are written and the text read is `-25536,x`; for `a MX 5,x y` the exchange
written is `x` and the text read is `5,x`; for `c MX 5,b` written at offset 259 of a message
in which the label `b` is known at offset 256 and the label `a` at offset 16, the exchange is
written as the pointer `C1 00` and the text read is `5,a`. -/
theorem mx_text_not_returned :
    (high_mx.data = dec_text 40000 ++ 44 :: [120] ∧
      (DNS_buffer_write_RR (DNS_buffer_create 64) high_mx).1 = true ∧
      ((DNS_buffer_write_RR (DNS_buffer_create 64) high_mx).2.ptr.drop 13).take 5
        = [156, 64, 1, 120, 0] ∧
      (DNS_buffer_read_RR (DNS_buffer_from_ptr
          (DNS_buffer_write_RR (DNS_buffer_create 64) high_mx).2.ptr 64)).1.map
            (fun rr => rr.data)
        = some [45, 50, 53, 53, 51, 54, 44, 120]) ∧
    (blank_mx.data = dec_text 5 ++ 44 :: [120, 32, 121] ∧
      (DNS_buffer_write_RR (DNS_buffer_create 64) blank_mx).1 = true ∧
      ((DNS_buffer_write_RR (DNS_buffer_create 64) blank_mx).2.ptr.drop 13).take 5
        = [0, 5, 1, 120, 0] ∧
      (DNS_buffer_read_RR (DNS_buffer_from_ptr
          (DNS_buffer_write_RR (DNS_buffer_create 64) blank_mx).2.ptr 64)).1.map
            (fun rr => rr.data)
        = some [53, 44, 120]) ∧
    (late_mx.data = dec_text 5 ++ 44 :: [98] ∧ late_buffer.pos = 276 ∧
      (late_buffer.ptr.drop 272).take 4 = [0, 5, 193, 0] ∧
      late_record.map (fun rr => rr.data) = some [53, 44, 97] ∧ area_ok late_buffer) := by
  refine ⟨⟨by rw [dec_text_40000]; rfl, by decide, by decide, high_mx_read⟩,
    ⟨by decide, by decide, by decide, by decide⟩,
    ⟨by decide, by decide, by decide, by decide, by decide⟩⟩

/-- C31 (defect): MX RDATA round trip. For a preference `p` in 0..65535 and a well-formed
exchange name `x` with no white space in it, owner and exchange of at most 62 octets, a
successful `DNS_buffer_write_RR` of an MX record with the data text `p,x` into a fresh
buffer writes, after the owner name, type, class and TTL, the RDLENGTH, the 16-bit big-endian
preference `p` and the name `x` in compressed form (labels up to the first suffix that the
owner name has made known, then a pointer to it; all labels and a zero octet otherwise);
and `DNS_buffer_read_RR` of the octets written, from position 0 of a fresh buffer, yields
the record, with the data text `p,x` when `p` is at most 32767; every known-name text fits
its area. For `p` above 32767 the text does not come back: the `uint16` preference is
printed with `%hd`, so `a MX 40000,x` is written with the preference octets `9C 40` and read
back as `-25536,x`. Nor does it for an exchange with a blank (`%s` stops there) or for a
record behind offset 255 of a message whose exchange is compressed (the `<< 4` of the
pointer offset). -/
theorem mx_rdata_round_trip (cap : Nat) (r : dns_rr_t) (w : dns_buffer) (p : Nat)
    (x : List Nat) (hp : p ≤ 65535) (hn : name_ok r.name) (hnf : r.name.length ≤ 62)
    (hx : name_ok x) (hxf : x.length ≤ 62)
    (hsp : ∀ c ∈ x, isspace c = false) (hc : r.class_ < 65536) (httl : r.ttl < 4294967296)
    (ht : r.type = 15) (hdata : r.data = dec_text p ++ 44 :: x) (hcap : cap ≤ 65535)
    (h : DNS_buffer_write_RR (DNS_buffer_create cap) r = (true, w)) :
    (w.ptr.take w.pos
      = wire_labels (strtok_all r.name) ++ [0] ++ be16 15 ++ be16 r.class_ ++ be32 r.ttl ++
          be16 (2 + (name_output (name_entries [] 0 (strtok_all r.name))
            (strtok_all x)).length) ++ be16 p ++
          name_output (name_entries [] 0 (strtok_all r.name)) (strtok_all x) ∧
      area_ok w ∧
      ∀ rcap, w.pos ≤ rcap → rcap ≤ 65535 →
        ∃ rr b2, DNS_buffer_read_RR (DNS_buffer_from_ptr w.ptr rcap) = (some rr, b2) ∧
          rr.name = r.name ∧ rr.type = 15 ∧ rr.class_ = r.class_ ∧ rr.ttl = r.ttl ∧
          (p ≤ 32767 → rr.data = r.data) ∧ b2.pos = w.pos ∧ area_ok b2) ∧
    ((high_mx.data = dec_text 40000 ++ 44 :: [120] ∧
        (DNS_buffer_write_RR (DNS_buffer_create 64) high_mx).1 = true ∧
        ((DNS_buffer_write_RR (DNS_buffer_create 64) high_mx).2.ptr.drop 13).take 5
          = [156, 64, 1, 120, 0] ∧
        (DNS_buffer_read_RR (DNS_buffer_from_ptr
            (DNS_buffer_write_RR (DNS_buffer_create 64) high_mx).2.ptr 64)).1.map
              (fun rr => rr.data)
          = some [45, 50, 53, 53, 51, 54, 44, 120]) ∧
      (blank_mx.data = dec_text 5 ++ 44 :: [120, 32, 121] ∧
        (DNS_buffer_write_RR (DNS_buffer_create 64) blank_mx).1 = true ∧
        ((DNS_buffer_write_RR (DNS_buffer_create 64) blank_mx).2.ptr.drop 13).take 5
          = [0, 5, 1, 120, 0] ∧
        (DNS_buffer_read_RR (DNS_buffer_from_ptr
            (DNS_buffer_write_RR (DNS_buffer_create 64) blank_mx).2.ptr 64)).1.map
              (fun rr => rr.data)
          = some [53, 44, 120]) ∧
      (late_mx.data = dec_text 5 ++ 44 :: [98] ∧ late_buffer.pos = 276 ∧
        (late_buffer.ptr.drop 272).take 4 = [0, 5, 193, 0] ∧
        late_record.map (fun rr => rr.data) = some [53, 44, 97] ∧ area_ok late_buffer)) := by
  obtain ⟨h1, h2, h3⟩ := write_read_MX cap r w p x hp hn hnf hx hxf hsp hc httl ht hdata hcap h
  refine ⟨⟨h1, h2, ?_⟩, mx_text_not_returned⟩
  intro rcap hr1 hr2
  obtain ⟨rr, b2, g1, g2, g3, g4, g5, _, g7, g8, g9⟩ := h3 rcap hr1 hr2
  exact ⟨rr, b2, g1, g2, g3, g4, g5, g7, g8, g9⟩

set_option maxRecDepth 100000 in
/-- The MX theorem at `bupt.edu.cn MX 3,mx.bupt.edu.cn` written into a fresh buffer of 64
octets: the RDATA is the preference `0 3`, the label `mx` and a pointer to offset 0, and
reading the record back gives the text `3,mx.bupt.edu.cn`. -/
theorem mx_rdata_round_trip_witness :
    ∃ w, DNS_buffer_write_RR (DNS_buffer_create 64) sample_mx = (true, w) ∧
      w.ptr.take w.pos
        = [4, 98, 117, 112, 116, 3, 101, 100, 117, 2, 99, 110, 0, 0, 15, 0, 1, 0, 0, 0, 60,
           0, 7, 0, 3, 2, 109, 120, 192, 0] ∧
      ∃ rr b2, DNS_buffer_read_RR (DNS_buffer_from_ptr w.ptr 64) = (some rr, b2) ∧
        rr.data = sample_mx.data ∧ area_ok b2 := by
  obtain ⟨h1, _, h2⟩ := (mx_rdata_round_trip 64 sample_mx _ 3
    [109, 120, 46, 98, 117, 112, 116, 46, 101, 100, 117, 46, 99, 110] (by decide) (by decide)
    (by decide) (by decide) (by decide) (by decide) (by decide) (by decide) (by decide)
    (by decide) (by decide) rfl).1
  obtain ⟨rr, b2, h3, _, _, _, _, h4, _, h5⟩ := h2 64 (by decide) (by decide)
  exact ⟨_, rfl, by rw [h1]; decide, rr, b2, h3, h4 (by decide), h5⟩

theorem dec_text_2147483648 : dec_text 2147483648 = txt "2147483648" := by
  simp [dec_text, dec_text_aux, txt]

/-- The record `a A 1.2.3.4` with the TTL 2^31 can be put into the cache at the time 100:
the text of its `INSERT` has 72 octets. -/
theorem wide_ttl_storable : storable (row "a" 2147483648 1 1 "1.2.3.4") 100 := by
  refine ⟨by decide, by decide, ?_⟩
  have h : insert_text (row "a" 2147483648 1 1 "1.2.3.4") 100
      = txt "INSERT INTO cache VALUES (NULL, " ++ [39] ++ txt "a" ++ [39] ++ txt ", " ++
        (45 :: dec_text 2147483648) ++ txt ", 1, 1, " ++ [39] ++ txt "1.2.3.4" ++ [39] ++
        txt ", 100);" := by
    decide
  rw [h, dec_text_2147483648]
  decide

/-- C29 (defect): cache validity. On a cache whose rows were put for the entries
`(rr, inserted_at)`, each of them a record that can be put at its time (name and data
without quote and white space, the text of the `INSERT` within `sql_insert[128]`) and has a
TTL below 2^31, `DNS_database_get_cache(name, type, class)` for a name without a quote and of
at most 127 octets and with `type` and `class` below 32768, evaluated at the time `now`,
returns exactly the records of the entries with equal name, equal class, type equal to the
requested type or CNAME (5), and `now < inserted_at + ttl`; so such a record with a type and
a class below 32768 that is put at the time `t` is returned by the lookup for its name, type
and class at every `now < t + ttl` and at no `now >= t + ttl`.  Where the claim fails: the
record `a A IN 1.2.3.4` with the TTL 2^31 can be put at the time 100, the `uint32_t` TTL is
printed with `%d` and stored as -2^31, and the lookup at the time 100 does not return the
record, although `100 < 100 + 2^31`. -/
theorem cache_validity (env : resolver_env) (st : resolver_state)
    (entries : List (dns_rr_t × Int)) (name : List Nat) (type class_ : Nat)
    (hcache : st.cache = entries.map (fun e => stored e.1 e.2))
    (hw : ∀ e ∈ entries, held e.1 ∧ storable e.1 e.2 ∧ e.1.ttl < 2147483648)
    (hname : cstr name = name) (_hsql : sql_name name) (ht : type < 32768)
    (hc : class_ < 32768) :
    ((DNS_database_get_cache env st name type class_).1
        = cache_get_spec entries (env.time (st.clock + 1)) name type class_ ∧
      ∀ (rr : dns_rr_t) (st2 : resolver_state), held rr →
        storable rr (env.time (st.clock + 1)) → rr.ttl < 2147483648 →
        rr.type < 32768 → rr.class_ < 32768 →
        st2.cache = (DNS_database_put_cache env st rr).cache →
        (DNS_database_get_cache env st2 rr.name rr.type rr.class_).1
          = cache_get_spec entries (env.time (st2.clock + 1)) rr.name rr.type rr.class_
            ++ (if env.time (st2.clock + 1) < env.time (st.clock + 1) + (rr.ttl : Int)
                then [rr] else [])) ∧
    (held (row "a" 2147483648 1 1 "1.2.3.4") ∧
      storable (row "a" 2147483648 1 1 "1.2.3.4") 100 ∧ sql_name (txt "a") ∧
      silent_env.time (fresh_state.clock + 1) = 100 ∧
      (DNS_database_get_cache silent_env
        (DNS_database_put_cache silent_env fresh_state (row "a" 2147483648 1 1 "1.2.3.4"))
        (txt "a") 1 1).1 = [] ∧
      cache_get_spec [(row "a" 2147483648 1 1 "1.2.3.4", 100)] 100 (txt "a") 1 1
        = [row "a" 2147483648 1 1 "1.2.3.4"]) := by
  have hw2 : ∀ e ∈ entries, held e.1 ∧ e.1.ttl < 2147483648 :=
    fun e he => ⟨(hw e he).1, (hw e he).2.2⟩
  refine ⟨⟨(get_cache_entries env st entries name type class_ hcache hw2 hname ht hc).1,
    fun rr st2 hrr _ httl hrt hrc hst2 =>
      (get_cache_entries env st entries name type class_ hcache hw2 hname ht hc).2
        rr st2 hrr httl hrt hrc hst2⟩, by decide, wide_ttl_storable, by decide, rfl,
    cache_rows_lost.1.1, cache_rows_lost.1.2⟩

/-- The validity theorem on a cache that holds the CNAME of `www.baidu.com` and the two
addresses of its target, put at time 90 with a TTL of 60: at time 100 the lookup for
`www.a.shifen.com A IN` returns the two addresses. -/
theorem cache_validity_witness :
    (DNS_database_get_cache silent_env warm_state (txt "www.a.shifen.com") 1 1).1
      = [row "www.a.shifen.com" 60 1 1 "14.215.177.38",
         row "www.a.shifen.com" 60 1 1 "14.215.177.39"] ∧
    cache_get_spec [(row "www.baidu.com" 60 1 5 "www.a.shifen.com", 90),
        (row "www.a.shifen.com" 60 1 1 "14.215.177.38", 90),
        (row "www.a.shifen.com" 60 1 1 "14.215.177.39", 90)] 100 (txt "www.a.shifen.com") 1 1
      = [row "www.a.shifen.com" 60 1 1 "14.215.177.38",
         row "www.a.shifen.com" 60 1 1 "14.215.177.39"] :=
  ⟨(cache_validity silent_env warm_state
      [(row "www.baidu.com" 60 1 5 "www.a.shifen.com", 90),
       (row "www.a.shifen.com" 60 1 1 "14.215.177.38", 90),
       (row "www.a.shifen.com" 60 1 1 "14.215.177.39", 90)] (txt "www.a.shifen.com") 1 1
      (by decide) (by decide) (by decide) (by decide) (by decide)
      (by decide)).1.1.trans (by decide),
   by decide⟩

theorem query_servers_returns (env : resolver_env) (name : List Nat) (type : Nat)
    (rk : List Nat → Nat) (g : Nat) (hd : descending env rk g) :
    ∀ (fuel : Nat) (pending : List dns_rr_t) (st : resolver_state) (r : dns_packet_t),
      pending_weight g rk pending ≤ fuel →
      ∃ r2 st2, query_servers env name type fuel pending st r = some (r2, st2) := by
  intro fuel
  induction fuel with
  | zero =>
    intro pending st r h
    cases pending with
    | nil => exact ⟨r, st, by simp [query_servers]⟩
    | cons ns rest =>
      have := chase_weight_pos g (rk (cstr ns.data))
      simp only [pending_weight, List.map_cons, List.sum_cons] at h
      omega
  | succ fuel ih =>
    intro pending st r h
    cases pending with
    | nil => exact ⟨r, st, by simp [query_servers]⟩
    | cons ns rest =>
      have hc : pending_weight g rk (ns :: rest)
          = chase_weight g (rk (cstr ns.data)) + pending_weight g rk rest := by
        simp [pending_weight]
      rw [hc] at h
      have hpos := chase_weight_pos g (rk (cstr ns.data))
      rw [query_servers]
      unfold DNS_network_send_query_udp
      dsimp only
      rcases hs : env.send st.sent.length
          { address := cstr ns.data, name := cstr name, type := type } with _ | p
      · exact ih _ _ _ (by omega)
      · dsimp only
        apply ih
        rw [pending_weight_append]
        obtain ⟨hlen, hrk⟩ := hd _ _ _ hs
        dsimp only at hrk
        have hn : pending_weight g rk (next_servers p.additionals p.authorities) + 1
            ≤ chase_weight g (rk (cstr ns.data)) := by
          rcases hr : rk (cstr ns.data) with _ | m
          · rw [hr] at hrk
            cases hx : next_servers p.additionals p.authorities with
            | nil => simp [pending_weight, chase_weight]
            | cons a l =>
              have := hrk a (by rw [hx]; exact List.mem_cons_self _ _)
              omega
          · rw [hr] at hrk
            have hw := pending_weight_le g rk (chase_weight g m) _ (by
              intro t ht
              exact chase_weight_mono _ _ _ (by have := hrk t ht; omega))
            have := Nat.mul_le_mul_right (chase_weight g m) hlen
            simp only [chase_weight]
            omega
        omega

theorem answer_query_local_produces (env : resolver_env) (q : dns_query_t)
    (st : resolver_state) (r : dns_packet_t) (rk : List Nat → Nat) (g : Nat)
    (hmiss : (DNS_database_get_cache env st q.name q.type q.class_).1 = [])
    (hd : descending env rk g) (fuel : Nat)
    (hf : chase_weight g (rk [49, 50, 55, 46, 48, 46, 48, 46, 55]) ≤ fuel) :
    ∃ r2 st2, answer_query_local env fuel q st r = some (r2, st2) := by
  rw [answer_query_local_miss env fuel q st r hmiss]
  apply query_servers_returns env q.name q.type rk g hd
  have e : cstr [49, 50, 55, 46, 48, 46, 48, 46, 55] = [49, 50, 55, 46, 48, 46, 48, 46, 55] := by
    decide
  simp only [pending_weight, root_server, List.map_cons, List.map_nil, List.sum_cons,
    List.sum_nil, e]
  omega

theorem sample_env_descending : descending sample_env sample_rank 1 := by
  intro k u p h
  unfold sample_env at h
  dsimp only at h
  by_cases h7 : u.address = txt "127.0.0.7"
  · rw [if_pos h7] at h
    have hp : p = sample_referral := (Option.some.inj h).symm
    subst hp
    have hn : next_servers sample_referral.additionals sample_referral.authorities
        = [row "ns2.local" 60 1 1 "127.0.0.4"] := by decide
    rw [hn, h7]
    refine ⟨by decide, ?_⟩
    intro ns hns
    rw [List.mem_singleton] at hns
    subst hns
    decide
  · rw [if_neg h7] at h
    by_cases h4 : u.address = txt "127.0.0.4"
    · rw [if_pos h4] at h
      have hp : p = sample_reply := (Option.some.inj h).symm
      subst hp
      have hn : next_servers sample_reply.additionals sample_reply.authorities = [] := by
        decide
      rw [hn]
      exact ⟨by decide, fun ns hns => absurd hns (List.not_mem_nil _)⟩
    · rw [if_neg h4] at h
      exact absurd h (by simp)

theorem sample_env_storable : storable_replies sample_env := by
  intro k u p h t ht n
  have ht100 : sample_env.time n = 100 := rfl
  rw [ht100]
  unfold sample_env at h
  dsimp only at h
  by_cases h7 : u.address = txt "127.0.0.7"
  · rw [if_pos h7] at h
    have hp : p = sample_referral := (Option.some.inj h).symm
    subst hp
    revert t
    decide
  · rw [if_neg h7] at h
    by_cases h4 : u.address = txt "127.0.0.4"
    · rw [if_pos h4] at h
      have hp : p = sample_reply := (Option.some.inj h).symm
      subst hp
      revert t
      decide
    · rw [if_neg h4] at h
      exact absurd h (by simp)

theorem delegation_servers (env : resolver_env) (fuel : Nat) (q : dns_query_t)
    (st : resolver_state) (r r2 : dns_packet_t) (st2 : resolver_state)
    (hmiss : (DNS_database_get_cache env st q.name q.type q.class_).1 = [])
    (h : answer_query_local env fuel q st r = some (r2, st2)) :
    ∃ more : List dns_rr_t,
      more = (received env st.sent.length (st2.sent.drop st.sent.length)).flatMap
        (fun p => p.authorities.flatMap (fun t =>
          (p.additionals.filter (fun t2 => decide (cstr t2.name = cstr t.data ∧ t2.type = 1))).map
            DNS_RR_copy)) ∧
      st2.sent = st.sent ++ (root_server q.type :: more).map (query_of q.name q.type) ∧
      st2.sent.map (fun x => x.address)
        = st.sent.map (fun x => x.address)
          ++ cstr (root_server q.type).data :: more.map (fun ns => cstr ns.data) := by
  obtain ⟨added, _, more, i1, i2, _, _⟩ :=
    answer_query_local_iterated env fuel q st r r2 st2 hmiss h
  refine ⟨more, ?_, i1, ?_⟩
  · rw [i1, List.drop_left]
    have e : (fun p : dns_packet_t => next_servers p.additionals p.authorities)
        = (fun p => p.authorities.flatMap (fun t =>
          (p.additionals.filter (fun t2 => decide (cstr t2.name = cstr t.data ∧ t2.type = 1))).map
            DNS_RR_copy)) := by
      funext p
      exact next_servers_eq p.additionals p.authorities
    rw [← e]
    exact i2
  · rw [i1, List.map_append, List.map_map, List.map_cons]
    rfl

/-- C35: delegation follow. For a supported question whose name holds no quote and has at
most 127 octets and which the cache does not answer, the servers queried after the root
server are, for every reply that arrives, in the order of the replies, for every record `t`
of its authority section in order, the copies of the records `t2` of its additional section
with `t2.name = t.data` and type A, in the order of the additional section; and the
addresses of the queries sent are the data texts of these records, one query for each, after
the one to the root server.  This holds for every result of the loop over `ns_pending`; and
the loop has a result, with these servers, whenever the referrals of the upstream servers
come to an end: when the addresses can be ranked so that every reply refers to at most `g`
servers, each of a smaller rank than the server that sent it, the loop returns within
`chase_weight g k` turns, `k` being the rank of the root server. -/
theorem delegation_follow (env : resolver_env) (q : dns_query_t)
    (st : resolver_state) (r : dns_packet_t) (_hsql : sql_name q.name)
    (hmiss : (DNS_database_get_cache env st q.name q.type q.class_).1 = []) :
    (∀ (fuel : Nat) (r2 : dns_packet_t) (st2 : resolver_state),
      answer_query_local env fuel q st r = some (r2, st2) →
      ∃ more : List dns_rr_t,
        more = (received env st.sent.length (st2.sent.drop st.sent.length)).flatMap
          (fun p => p.authorities.flatMap (fun t =>
            (p.additionals.filter
              (fun t2 => decide (cstr t2.name = cstr t.data ∧ t2.type = 1))).map
              DNS_RR_copy)) ∧
        st2.sent = st.sent ++ (root_server q.type :: more).map (query_of q.name q.type) ∧
        st2.sent.map (fun x => x.address)
          = st.sent.map (fun x => x.address)
            ++ cstr (root_server q.type).data :: more.map (fun ns => cstr ns.data)) ∧
    (∀ (rk : List Nat → Nat) (g : Nat), descending env rk g →
      ∀ fuel, chase_weight g (rk (txt "127.0.0.7")) ≤ fuel →
      ∃ r2 st2, answer_query_local env fuel q st r = some (r2, st2) ∧
        ∃ more : List dns_rr_t,
          more = (received env st.sent.length (st2.sent.drop st.sent.length)).flatMap
            (fun p => p.authorities.flatMap (fun t =>
              (p.additionals.filter
                (fun t2 => decide (cstr t2.name = cstr t.data ∧ t2.type = 1))).map
                DNS_RR_copy)) ∧
          st2.sent = st.sent ++ (root_server q.type :: more).map (query_of q.name q.type) ∧
          st2.sent.map (fun x => x.address)
            = st.sent.map (fun x => x.address)
              ++ cstr (root_server q.type).data :: more.map (fun ns => cstr ns.data)) := by
  refine ⟨fun fuel r2 st2 h => delegation_servers env fuel q st r r2 st2 hmiss h, ?_⟩
  intro rk g hd fuel hf
  have e : txt "127.0.0.7" = [49, 50, 55, 46, 48, 46, 48, 46, 55] := by decide
  rw [e] at hf
  obtain ⟨r2, st2, h⟩ := answer_query_local_produces env q st r rk g hmiss hd fuel hf
  exact ⟨r2, st2, h, delegation_servers env fuel q st r r2 st2 hmiss h⟩

/-- The delegation theorem at `www.baidu.com A` on an empty cache in the sample network,
whose referrals come to an end (the root server has rank 1, the server it refers to rank 0):
the loop returns within two turns; the referral of the root server names `ns2.local` with
the address `127.0.0.4`, and the second query goes to that address. -/
theorem delegation_follow_witness :
    (descending sample_env sample_rank 1 ∧
      chase_weight 1 (sample_rank (txt "127.0.0.7")) = 2 ∧
      ∃ r2 st2, answer_query_local sample_env 2 (question "www.baidu.com" 1) fresh_state
          (initial_response (request_of 0 [question "www.baidu.com" 1])) = some (r2, st2) ∧
        ∃ more : List dns_rr_t,
          more = (received sample_env fresh_state.sent.length
              (st2.sent.drop fresh_state.sent.length)).flatMap
            (fun p => p.authorities.flatMap (fun t =>
              (p.additionals.filter
                (fun t2 => decide (cstr t2.name = cstr t.data ∧ t2.type = 1))).map
                DNS_RR_copy)) ∧
          st2.sent = fresh_state.sent
            ++ (root_server (question "www.baidu.com" 1).type :: more).map
                (query_of (question "www.baidu.com" 1).name (question "www.baidu.com" 1).type) ∧
          st2.sent.map (fun x => x.address)
            = fresh_state.sent.map (fun x => x.address)
              ++ cstr (root_server (question "www.baidu.com" 1).type).data
                :: more.map (fun ns => cstr ns.data)) ∧
    ∃ r2 st2, answer_query_local sample_env 2 (question "www.baidu.com" 1) fresh_state
        (initial_response (request_of 0 [question "www.baidu.com" 1])) = some (r2, st2) ∧
      st2.sent.map (fun x => x.address) = [txt "127.0.0.7", txt "127.0.0.4"] ∧
      (received sample_env 0 st2.sent).flatMap
          (fun p => p.authorities.flatMap (fun t =>
            (p.additionals.filter
              (fun t2 => decide (cstr t2.name = cstr t.data ∧ t2.type = 1))).map
              DNS_RR_copy))
        = [row "ns2.local" 60 1 1 "127.0.0.4"] :=
  ⟨⟨sample_env_descending, by decide,
    (delegation_follow sample_env (question "www.baidu.com" 1) fresh_state
      (initial_response (request_of 0 [question "www.baidu.com" 1])) (by decide)
      (by decide)).2 sample_rank 1 sample_env_descending 2 (by decide)⟩,
   _, _, rfl, by decide, by decide⟩

/-- C27: iterative answers are copied and cached. For a supported question whose name holds
no quote and has at most 127 octets and which the cache does not answer, in a network whose
replies carry only answers and additionals that can be put into the cache (name and data
without quote and white space, the text of the `INSERT` within `sql_insert[128]`), the loop
over `ns_pending` of `DNS_query_create_response_local` queries the root server at
`127.0.0.7` first and then the servers the replies refer to, in the order of the replies; for
every reply that arrives, every record of its answer section is appended, as a copy and in
order, to the answer section of the response, and is put into the cache (an MX answer
together with the additionals named like its exchange); the same holds for the response to a
request with this one question, and that response is returned whenever the referrals of the
upstream servers come to an end: when the addresses can be ranked so that every reply refers
to at most `g` servers, each of a smaller rank than the server that sent it, and the fuel is
at least `chase_weight g k`, `k` being the rank of the root server. -/
theorem iterative_answers_cached (env : resolver_env) (fuel : Nat) (q : dns_query_t)
    (st : resolver_state) (hs : supported q = true) (_hsql : sql_name q.name)
    (_hst : storable_replies env)
    (hmiss : (DNS_database_get_cache env st q.name q.type q.class_).1 = []) :
    query_of q.name q.type (root_server q.type)
      = { address := txt "127.0.0.7", name := cstr q.name, type := q.type } ∧
    (∀ r r2 st2, answer_query_local env fuel q st r = some (r2, st2) →
      ∃ added, r2.answers = r.answers ++ added ∧ iterated env q st st2 added) ∧
    (∀ request res st2, request.queries = [q] →
      DNS_query_create_response_local env fuel st request = some (res, st2) →
      iterated env q st st2 res.answers) ∧
    (∀ (rk : List Nat → Nat) (g : Nat), descending env rk g →
      chase_weight g (rk (txt "127.0.0.7")) ≤ fuel →
      ∀ request, request.queries = [q] →
      ∃ res st2, DNS_query_create_response_local env fuel st request = some (res, st2) ∧
        iterated env q st st2 res.answers) := by
  have ha : cstr [49, 50, 55, 46, 48, 46, 48, 46, 55] = txt "127.0.0.7" := by decide
  have hroot : query_of q.name q.type (root_server q.type)
      = { address := txt "127.0.0.7", name := cstr q.name, type := q.type } := by
    unfold query_of root_server
    dsimp only
    rw [ha]
  have h3 : ∀ request res st2, request.queries = [q] →
      DNS_query_create_response_local env fuel st request = some (res, st2) →
      iterated env q st st2 res.answers := by
    intro request res st2 hreq h
    rw [single_question_local env fuel q st request hs hreq] at h
    rcases ha : answer_query_local env fuel q st (initial_response request) with _ | ⟨r1, st1⟩
    · rw [ha] at h; simp at h
    · rw [ha] at h
      simp only [Option.map_some', Option.some.injEq, Prod.mk.injEq] at h
      obtain ⟨h1, h2⟩ := h
      obtain ⟨added, a1, a2⟩ := answer_query_local_iterated env fuel q st _ r1 st1 hmiss ha
      have hi : (initial_response request).answers = [] := rfl
      rw [hi, List.nil_append] at a1
      rw [← h2, ← h1, (finish_flags r1 false).2.2.2.2.2.2.2.2.2.1, a1]
      exact a2
  refine ⟨hroot, fun r r2 st2 h => answer_query_local_iterated env fuel q st r r2 st2 hmiss h,
    h3, ?_⟩
  intro rk g hd hf request hreq
  have e : txt "127.0.0.7" = [49, 50, 55, 46, 48, 46, 48, 46, 55] := by decide
  rw [e] at hf
  obtain ⟨r2, st2, h⟩ := answer_query_local_produces env q st (initial_response request)
    rk g hmiss hd fuel hf
  have hres : DNS_query_create_response_local env fuel st request
      = some (finish_response r2 false, st2) := by
    rw [single_question_local env fuel q st request hs hreq, h]
    rfl
  exact ⟨_, _, hres, h3 request _ _ hreq hres⟩

/-- The iterative theorem at `www.baidu.com A` on an empty cache in the sample network,
whose replies can be put into the cache and whose referrals come to an end: the root server
is asked, then the server it refers to; the three answers of that server are the answers of
the response and the new rows of the cache. -/
theorem iterative_answers_cached_witness :
    (storable_replies sample_env ∧ descending sample_env sample_rank 1 ∧
      ∃ res st2, DNS_query_create_response_local sample_env 2 fresh_state
          (request_of 0 [question "www.baidu.com" 1]) = some (res, st2) ∧
        iterated sample_env (question "www.baidu.com" 1) fresh_state st2 res.answers) ∧
    ∃ res st2, DNS_query_create_response_local sample_env 2 fresh_state
        (request_of 0 [question "www.baidu.com" 1]) = some (res, st2) ∧
      res.answers = [row "www.baidu.com" 60 1 5 "www.a.shifen.com",
        row "www.a.shifen.com" 60 1 1 "14.215.177.38",
        row "www.a.shifen.com" 60 1 1 "14.215.177.39"] ∧
      st2.sent = [{ address := txt "127.0.0.7", name := txt "www.baidu.com", type := 1 },
        { address := txt "127.0.0.4", name := txt "www.baidu.com", type := 1 }] ∧
      st2.cache = [cached "www.baidu.com" 60 1 5 "www.a.shifen.com" 100,
        cached "www.a.shifen.com" 60 1 1 "14.215.177.38" 100,
        cached "www.a.shifen.com" 60 1 1 "14.215.177.39" 100] :=
  ⟨⟨sample_env_storable, sample_env_descending,
    (iterative_answers_cached sample_env 2 (question "www.baidu.com" 1) fresh_state
      (by decide) (by decide) sample_env_storable (by decide)).2.2.2 sample_rank 1
      sample_env_descending (by decide) (request_of 0 [question "www.baidu.com" 1]) rfl⟩,
   _, _, rfl, by decide, by decide, by decide⟩

end DNS
